import Mathlib

/-! # Key-value store engines: AVL tree, B+ tree, chained hash table

Shallow embedding of the three storage engines of the repository
(`src/avl_tree`, `src/b_plus_tree`, `src/hash_table`) and proofs about them.

Keys are `std::string` in the source, used only through `<`, `>` and `==`;
here a key type `K` with a linear order.  Records (`Value`) are opaque: a
type `V`.
-/

set_option autoImplicit false

namespace AVL

/-! ## AVL tree (`src/avl_tree/self_balancing_binary_search_tree.cc`)

`std::unique_ptr<AVLNode>` is a nullable owning pointer: `nil` is the null
pointer, `node` a heap node with its five fields.  The `int height` field is
an `Int`.
-/

/-- The struct `AVLNode` behind a `unique_ptr`; `nil` is `nullptr`. -/
inductive AVLNode (K V : Type) where
  | nil : AVLNode K V
  | node (key : K) (value : V) (left right : AVLNode K V) (height : Int) : AVLNode K V
  deriving Repr, DecidableEq

variable {K V : Type}

/-- `GetHeight`: `-1` for the null pointer, else the stored `height` field. -/
def GetHeight : AVLNode K V → Int
  | .nil => -1
  | .node _ _ _ _ h => h

/-- `UpdateHeight`: `height = max(GetHeight(left), GetHeight(right)) + 1`.
The source only calls it on a non-null node. -/
def UpdateHeight : AVLNode K V → AVLNode K V
  | .nil => .nil
  | .node k v l r _ => .node k v l r (max (GetHeight l) (GetHeight r) + 1)

/-- `GetBalance(node)`: `0` for null, else `GetHeight(right) - GetHeight(left)`. -/
def GetBalance : AVLNode K V → Int
  | .nil => 0
  | .node _ _ l r _ => GetHeight r - GetHeight l

/-- `RotateLeft`: the right child becomes the root of the subtree; the height
of the moved-down node is recomputed before the height of the new root.
The source dereferences `node->right`; on a node without right child (where
the source would dereference null) the model leaves the node as it is. -/
def RotateLeft : AVLNode K V → AVLNode K V
  | .node k v l (.node rk rv rl rr rh) h =>
      UpdateHeight (.node rk rv (UpdateHeight (.node k v l rl h)) rr rh)
  | t => t

/-- `RotateRight`: mirror image of `RotateLeft`. -/
def RotateRight : AVLNode K V → AVLNode K V
  | .node k v (.node lk lv ll lr lh) r h =>
      UpdateHeight (.node lk lv ll (UpdateHeight (.node k v lr r h)) lh)
  | t => t

/-- `BalanceNode`: at balance `-2` rotate right (after rotating the left
child left when that child is right-heavy); at balance `2` the mirror image. -/
def BalanceNode : AVLNode K V → AVLNode K V
  | .nil => .nil
  | .node k v l r h =>
      if GetBalance (.node k v l r h) = -2 then
        if GetBalance l > 0 then RotateRight (.node k v (RotateLeft l) r h)
        else RotateRight (.node k v l r h)
      else if GetBalance (.node k v l r h) = 2 then
        if GetBalance r < 0 then RotateLeft (.node k v l (RotateRight r) h)
        else RotateLeft (.node k v l r h)
      else .node k v l r h

/-- `FindNode`: recursive descent; returns the node found (the pointer of the
source) or `none` (`std::nullopt`). -/
def FindNode [LinearOrder K] : AVLNode K V → K → Option (AVLNode K V)
  | .nil, _ => none
  | .node k v l r h, key =>
      if k = key then some (.node k v l r h)
      else if k > key then FindNode l key
      else FindNode r key

/-- The `value` field of a node (`result.value()->value`). -/
def nodeValue : AVLNode K V → Option V
  | .nil => none
  | .node _ v _ _ _ => some v

/-- `Get`: the record of the node `FindNode` returns. -/
def Get [LinearOrder K] (root : AVLNode K V) (key : K) : Option V :=
  (FindNode root key).bind nodeValue

/-- `Exists`: `FindNode(root_, key).has_value()`. -/
def Exists [LinearOrder K] (root : AVLNode K V) (key : K) : Bool :=
  (FindNode root key).isSome

/-- `InsertHelper`: binary-search-tree insert, keys not smaller than the
node's go right; height update and rebalancing on the way back up. -/
def InsertHelper [LinearOrder K] : AVLNode K V → K → V → AVLNode K V
  | .nil, key, value => .node key value .nil .nil 0
  | .node k v l r h, key, value =>
      if key < k then
        BalanceNode (UpdateHeight (.node k v (InsertHelper l key value) r h))
      else
        BalanceNode (UpdateHeight (.node k v l (InsertHelper r key value) h))

/-- `FindMin` on the node with key `k`, record `v` and left child `l`: key and
record of the leftmost node below it (the source returns a pointer to that
node and reads these two fields). -/
def FindMin (k : K) (v : V) : AVLNode K V → K × V
  | .nil => (k, v)
  | .node lk lv ll _ _ => FindMin lk lv ll

/-- `DeletHelper`: a node with at most one child is replaced by that child; a
node with two children takes key and record of the minimum of its right
subtree, which is then deleted from the right subtree.  Every non-null node
on the way back is height-updated and rebalanced. -/
def DeletHelper [LinearOrder K] : AVLNode K V → K → AVLNode K V
  | .nil, _ => .nil
  | .node k v l r h, key =>
      if key < k then
        BalanceNode (UpdateHeight (.node k v (DeletHelper l key) r h))
      else if key > k then
        BalanceNode (UpdateHeight (.node k v l (DeletHelper r key) h))
      else
        match l, r with
        | .nil, r => BalanceNode (UpdateHeight r)
        | .node lk lv ll lr lh, .nil =>
            BalanceNode (UpdateHeight (.node lk lv ll lr lh))
        | .node lk lv ll lr lh, .node rk rv rl rr rh =>
            let m := FindMin rk rv rl
            BalanceNode (UpdateHeight
              (.node m.1 m.2 (.node lk lv ll lr lh)
                (DeletHelper (.node rk rv rl rr rh) m.1) h))

/-- `Set`: refuses a key that is present, else inserts.  Returns the result
flag and the new root. -/
def Set [LinearOrder K] (root : AVLNode K V) (key : K) (value : V) : Bool × AVLNode K V :=
  if (FindNode root key).isSome then (false, root)
  else (true, InsertHelper root key value)

/-- `Del`: refuses a key that is absent, else deletes. -/
def Del [LinearOrder K] (root : AVLNode K V) (key : K) : Bool × AVLNode K V :=
  if ¬ (FindNode root key).isSome then (false, root)
  else (true, DeletHelper root key)

/-- `InOrderTraversal`: the (key, record) pairs left to right. -/
def InOrderTraversal : AVLNode K V → List (K × V)
  | .nil => []
  | .node k v l r _ => InOrderTraversal l ++ (k, v) :: InOrderTraversal r

/-- `Keys`: the keys of the in-order traversal. -/
def Keys (root : AVLNode K V) : List K := (InOrderTraversal root).map Prod.fst

/-- `ShowAll`: the records of the in-order traversal. -/
def ShowAll (root : AVLNode K V) : List V := (InOrderTraversal root).map Prod.snd

/-- `Rename`: `false` when `FindNode` does not find the old key; else the
record of the node found is kept, `Del(old_key)` is called and the result of
`Set(new_key, record)` returned.  (`FindNode` only ever returns a node; for
the null pointer, which it cannot return, the store is left as it is.) -/
def Rename [LinearOrder K] (root : AVLNode K V) (oldKey newKey : K) : Bool × AVLNode K V :=
  match FindNode root oldKey with
  | none => (false, root)
  | some .nil => (false, root)
  | some (.node _ tmp _ _ _) => Set (Del root oldKey).2 newKey tmp

/-- The stores reached from the empty store by `Set` and `Del`. -/
inductive Reachable [LinearOrder K] : AVLNode K V → Prop where
  | empty : Reachable .nil
  | set (t : AVLNode K V) (key : K) (value : V) :
      Reachable t → Reachable (Set t key value).2
  | del (t : AVLNode K V) (key : K) :
      Reachable t → Reachable (Del t key).2

/-- Height of a subtree counted on its shape: `-1` for the absent child. -/
def realHeight : AVLNode K V → Int
  | .nil => -1
  | .node _ _ l r _ => max (realHeight l) (realHeight r) + 1

/-- Every node of the tree has subtrees whose heights differ by at most one. -/
def Balanced : AVLNode K V → Prop
  | .nil => True
  | .node _ _ l r _ =>
      -1 ≤ realHeight r - realHeight l ∧ realHeight r - realHeight l ≤ 1 ∧
      Balanced l ∧ Balanced r

/-- Every node stores in `height` the height of its subtree. -/
def HeightsExact : AVLNode K V → Prop
  | .nil => True
  | .node _ _ l r h =>
      h = max (realHeight l) (realHeight r) + 1 ∧ HeightsExact l ∧ HeightsExact r

/-- Every node stores in `height` one more than the larger of the `height`
fields of its children, an absent child counting `-1` (`GetHeight`). -/
def HeightFields : AVLNode K V → Prop
  | .nil => True
  | .node _ _ l r h =>
      h = 1 + max (GetHeight l) (GetHeight r) ∧ HeightFields l ∧ HeightFields r

end AVL

namespace AVL
variable {K V : Type}

/-! ### Specification-level notions for the AVL tree -/

/-- First record stored under `k` in a list of (key, record) pairs. -/
def assoc [DecidableEq K] (k : K) : List (K × V) → Option V
  | [] => none
  | p :: l => if p.1 = k then some p.2 else assoc k l

/-- Insertion of `(k, v)` into a key-sorted list, behind the keys not above `k`. -/
def insertL [LinearOrder K] (k : K) (v : V) : List (K × V) → List (K × V)
  | [] => [(k, v)]
  | p :: l => if k < p.1 then (k, v) :: p :: l else p :: insertL k v l

/-- The keys of the list increase strictly. -/
def SortedL [LinearOrder K] (l : List (K × V)) : Prop :=
  l.Pairwise (fun p q => p.1 < q.1)

/-- The in-order traversal of the tree has strictly increasing keys. -/
def Sorted [LinearOrder K] (t : AVLNode K V) : Prop := SortedL (InOrderTraversal t)

/-- Store used to instantiate the theorems: `Set` of 7, 4, 9, 2, 10, 11 (the last
insert rotates the root), then `Del 4`, over natural-number keys. -/
def sampleStore : AVLNode Nat String :=
  (Del (Set (Set (Set (Set (Set (Set .nil 7 "g").2 4 "d").2 9 "x").2 2 "b").2 10 "y").2
    11 "z").2 4).2

end AVL

namespace HT

/-! ## Chained hash table (`src/hash_table/hash_table.cc`)

`table_` is a vector of chains; a chain (`Node` with its `next` link) is the
list of its (key, record) nodes from the head on.  `std::hash<Key>` is not
fixed by the source: it is a parameter `hash : K → Nat`.  `std::size_t`
counters are natural numbers: a table of `capacity_` buckets has been
allocated as a `std::vector`, which bounds `capacity_` and `size_` far below
`2^63`, so that `capacity_ * 2` and `size_ + 1` do not wrap.
-/

variable {K V : Type}

/-- The members `capacity_`, `size_`, `table_` of `HashTable`. -/
structure HashTable (K V : Type) where
  capacity : Nat
  size : Nat
  table : List (List (K × V))
  deriving Repr, DecidableEq

/-- `kTableCapacity`. -/
def kTableCapacity : Nat := 256

/-- Value of `static_cast<float>(n)` for an unsigned integer `n < 2^64`:
IEEE-754 binary32 keeps 24 significant bits and rounds to nearest, ties to
even.  The result is again an integer. -/
def toFloat (n : Nat) : Nat :=
  if n < 2 ^ 24 then n
  else
    let ulp := 2 ^ (Nat.log2 n - 23)
    let q := n / ulp
    let r := n % ulp
    if 2 * r > ulp ∨ (2 * r = ulp ∧ q % 2 = 1) then (q + 1) * ulp else q * ulp

/-- The test `static_cast<float>(size_ + 1) / capacity_ > kMaxLoadFactor` of
`InsertNode`.  Both operands are converted to `float`, the quotient is rounded
to `float` (nearest, ties to even) and compared with `0.75f`.  In `[0.5, 1)`
neighbouring floats are `2^-24` apart, `0.75 = 12582912 * 2^-24` has an even
significand, so the rounded quotient exceeds `0.75` exactly when the real
quotient exceeds the midpoint `0.75 + 2^-25`, that is when
`2^25 * a > (3 * 2^23 + 1) * b` for the converted operands `a`, `b`. -/
def loadExceeded (size capacity : Nat) : Bool :=
  decide (2 ^ 25 * toFloat (size + 1) > (3 * 2 ^ 23 + 1) * toFloat capacity)

/-- The constructor: at least `kTableCapacity` empty buckets. -/
def HashTable.new (capacity : Nat) : HashTable K V :=
  if capacity < kTableCapacity then
    { capacity := kTableCapacity, size := 0, table := List.replicate kTableCapacity [] }
  else
    { capacity := capacity, size := 0, table := List.replicate capacity [] }

/-- `HashFunction`: `hash(key) % capacity_`. -/
def HashFunction (hash : K → Nat) (t : HashTable K V) (key : K) : Nat :=
  hash key % t.capacity

/-- The bucket `table_[index]`. -/
def bucket (t : HashTable K V) (index : Nat) : List (K × V) :=
  t.table.getD index []

/-- The chain walk of `FindNode`: first node of the chain with this key. -/
def findInChain [DecidableEq K] (key : K) : List (K × V) → Option (K × V)
  | [] => none
  | n :: rest => if n.1 = key then some n else findInChain key rest

/-- `FindNode`: walk of the chain of the key's bucket. -/
def FindNode [DecidableEq K] (hash : K → Nat) (t : HashTable K V) (key : K) : Option (K × V) :=
  findInChain key (bucket t (HashFunction hash t key))

/-- One step of the rehash loop of `Resize`: the node becomes the head of its
new bucket. -/
def relink (hash : K → Nat) (newSize : Nat) (newTable : List (List (K × V)))
    (node : K × V) : List (List (K × V)) :=
  newTable.set (hash node.1 % newSize) (node :: newTable.getD (hash node.1 % newSize) [])

/-- `Resize`: never below `kTableCapacity`, nothing to do for an unchanged
size; else every node of every chain, in bucket order and chain order, is
linked in front of its bucket of the new table. -/
def Resize (hash : K → Nat) (t : HashTable K V) (newSize : Nat) : HashTable K V :=
  let newSize := if newSize < kTableCapacity then kTableCapacity else newSize
  if newSize = t.capacity then t
  else
    { capacity := newSize
      size := t.size
      table := t.table.foldl (fun newTable chain => chain.foldl (relink hash newSize) newTable)
        (List.replicate newSize []) }


/-- The second half of `InsertNode`, behind the load test: the new node is
appended to the chain of its bucket and `size_` incremented. -/
def linkNode (hash : K → Nat) (t : HashTable K V) (key : K) (value : V) : HashTable K V :=
  let index := HashFunction hash t key
  { t with
    table := t.table.set index (bucket t index ++ [(key, value)])
    size := t.size + 1 }

/-- `InsertNode`: doubles the capacity first when the load test fires, then
appends the new node to the chain of its bucket. -/
def InsertNode (hash : K → Nat) (t : HashTable K V) (key : K) (value : V) : HashTable K V :=
  let t1 := if loadExceeded t.size t.capacity then Resize hash t (t.capacity * 2) else t
  let index := HashFunction hash t1 key
  { t1 with
    table := t1.table.set index (bucket t1 index ++ [(key, value)])
    size := t1.size + 1 }

/-- The chain walk of `DeleteNode`: the first node with this key is unlinked. -/
def unlink [DecidableEq K] (key : K) : List (K × V) → List (K × V)
  | [] => []
  | n :: rest => if n.1 = key then rest else n :: unlink key rest

/-- `DeleteNode`: unlinks the node and decrements `size_` (the callers have
found the key before, so `size_` is positive). -/
def DeleteNode [DecidableEq K] (hash : K → Nat) (t : HashTable K V) (key : K) : HashTable K V :=
  let index := HashFunction hash t key
  { t with
    table := t.table.set index (unlink key (bucket t index))
    size := t.size - 1 }

/-- `Set`. -/
def Set [DecidableEq K] (hash : K → Nat) (t : HashTable K V) (key : K) (value : V) :
    Bool × HashTable K V :=
  if (FindNode hash t key).isSome then (false, t)
  else (true, InsertNode hash t key value)

/-- `Get`. -/
def Get [DecidableEq K] (hash : K → Nat) (t : HashTable K V) (key : K) : Option V :=
  (FindNode hash t key).map Prod.snd

/-- `Exists`. -/
def Exists [DecidableEq K] (hash : K → Nat) (t : HashTable K V) (key : K) : Bool :=
  (FindNode hash t key).isSome

/-- `Del`. -/
def Del [DecidableEq K] (hash : K → Nat) (t : HashTable K V) (key : K) : Bool × HashTable K V :=
  if (FindNode hash t key).isSome then (true, DeleteNode hash t key)
  else (false, t)

/-- `Rename`: the record of the old key is re-inserted under the new key. -/
def Rename [DecidableEq K] (hash : K → Nat) (t : HashTable K V) (oldKey newKey : K) :
    Bool × HashTable K V :=
  if ¬ Exists hash t oldKey ∨ Exists hash t newKey then (false, t)
  else
    match FindNode hash t oldKey with
    | none => (false, t)
    | some node => (true, InsertNode hash (DeleteNode hash t oldKey) newKey node.2)

/-- `Keys`: bucket by bucket, each chain from its head. -/
def Keys (t : HashTable K V) : List K := t.table.flatten.map Prod.fst

/-- Number of nodes linked in the chains. -/
def nodeCount (t : HashTable K V) : Nat := (t.table.map List.length).sum

/-- The tables reached from a constructed table by `Set`, `Del` and `Rename`. -/
inductive Reachable [DecidableEq K] (hash : K → Nat) : HashTable K V → Prop where
  | new (capacity : Nat) : Reachable hash (HashTable.new capacity)
  | set (t : HashTable K V) (key : K) (value : V) :
      Reachable hash t → Reachable hash (Set hash t key value).2
  | del (t : HashTable K V) (key : K) :
      Reachable hash t → Reachable hash (Del hash t key).2
  | rename (t : HashTable K V) (oldKey newKey : K) :
      Reachable hash t → Reachable hash (Rename hash t oldKey newKey).2

/-- Shape of a table the operations maintain: one bucket per slot, every node
in the bucket of its hash, no key twice in a chain, `size_` counts the nodes. -/
structure WF [DecidableEq K] (hash : K → Nat) (t : HashTable K V) : Prop where
  cap : kTableCapacity ≤ t.capacity
  len : t.table.length = t.capacity
  home : ∀ i, ∀ n ∈ bucket t i, hash n.1 % t.capacity = i
  nodup : ∀ i, ((bucket t i).map Prod.fst).Nodup
  count : t.size = nodeCount t

/-- Table over natural-number keys, hashed by themselves, built by the
constructor with the given capacity and `Set` of the keys `0, 1, ..., n - 1`,
each with record `0`. -/
def fill (capacity : Nat) : Nat → HashTable Nat Nat
  | 0 => HashTable.new capacity
  | n + 1 => (Set id (fill capacity n) n 0).2

/-- Table of the default capacity 256 over natural-number keys hashed by
themselves, after `Set` of the keys 1 and 257, which share bucket 1, and of
the key 2. -/
def chainPair : HashTable Nat Nat :=
  (Set id (Set id (Set id (HashTable.new 0) 1 10).2 257 20).2 2 30).2

end HT

namespace BPT

/-! ## B+ tree (`src/b_plus_tree/b_plus_node.cc`, `src/b_plus_tree/b_plus_tree.cc`)

The nodes live on the heap and point at each other (`children_`, `parent_`,
`next_`), so the tree is a store of nodes: `heap` lists the nodes in the
order of their allocation, and a `NodePtr` is the position of a node in it
(`none` for the null pointer, also for an expired `weak_ptr`).  Every step
that has no defined result in the source (a null or dangling pointer
dereferenced, an index past the end of a vector, `front()` of an empty
vector, a vector appended to itself through its own iterators) is a
`Fault`; so is running out of the recursion budget `fuel`.
-/

variable {K V : Type}

/-- Steps without a defined result. -/
inductive Fault where
  | nullPointer
  | outOfRange
  | frontOfEmpty
  | selfAppend
  | outOfFuel
  deriving Repr, DecidableEq

/-- The members of `BPlusNode`; `isLeaf` is `type_ == NodeType::kLeaf`. -/
structure BPlusNode (K V : Type) where
  isLeaf : Bool
  keys : List K
  values : List V
  children : List Nat
  parent : Option Nat
  next : Option Nat
  deriving Repr, DecidableEq

/-- The members `root_`, `leaf_`, `degree_` of `BPlusTree`, and the nodes. -/
structure BPlusTree (K V : Type) where
  heap : List (BPlusNode K V)
  root : Nat
  leaf : Nat
  degree : Nat
  deriving Repr, DecidableEq

/-- The node constructor: no keys, null `parent_` and `next_`. -/
def BPlusNode.new (isLeaf : Bool) : BPlusNode K V :=
  { isLeaf := isLeaf, keys := [], values := [], children := [], parent := none, next := none }

/-- The tree constructor: one empty leaf, which is root and first leaf. -/
def BPlusTree.new (degree : Nat) : BPlusTree K V :=
  { heap := [BPlusNode.new true], root := 0, leaf := 0, degree := degree }

/-- Dereference of a node pointer. -/
def deref (heap : List (BPlusNode K V)) (p : Nat) : Except Fault (BPlusNode K V) :=
  match heap[p]? with
  | some n => .ok n
  | none => .error .nullPointer

/-- Element `i` of a vector (`operator[]`), defined inside the vector only. -/
def index {α : Type} (l : List α) (i : Nat) : Except Fault α :=
  match l[i]? with
  | some a => .ok a
  | none => .error .outOfRange

/-- `std::lower_bound(keys.begin(), keys.end(), key)` as a position: the first
position whose key is not less than `key` (the result for sorted keys). -/
def lowerBound [LinearOrder K] (keys : List K) (key : K) : Nat :=
  (keys.takeWhile (fun k => decide (k < key))).length

/-- `std::upper_bound(keys.begin(), keys.end(), key)` as a position: the first
position whose key is greater than `key` (the result for sorted keys). -/
def upperBound [LinearOrder K] (keys : List K) (key : K) : Nat :=
  (keys.takeWhile (fun k => decide (¬ key < k))).length

/-- `BPlusNode::Exists`: `std::binary_search` of the key among the keys: the
lower bound is inside the vector and its key is not greater than `key`. -/
def BPlusNode.Exists [LinearOrder K] (n : BPlusNode K V) (key : K) : Bool :=
  match n.keys[lowerBound n.keys key]? with
  | some k => decide (¬ key < k)
  | none => false

/-- `BPlusNode::GetValue`: the record at the lower bound of the key. -/
def BPlusNode.GetValue [LinearOrder K] (n : BPlusNode K V) (key : K) : Except Fault V :=
  index n.values (lowerBound n.keys key)

/-- `BPlusNode::Insert(key, value)` on a leaf: refuses a key that is present,
else inserts key and record at the lower bound. -/
def BPlusNode.InsertValue [LinearOrder K] (n : BPlusNode K V) (key : K) (value : V) :
    Bool × BPlusNode K V :=
  let idx := lowerBound n.keys key
  if n.keys[idx]? = some key then (false, n)
  else (true, { n with values := n.values.insertIdx idx value, keys := n.keys.insertIdx idx key })

/-- `BPlusNode::Remove(key)` on a leaf. -/
def BPlusNode.Remove [LinearOrder K] (n : BPlusNode K V) (key : K) : Bool × BPlusNode K V :=
  let idx := lowerBound n.keys key
  if n.keys[idx]? = some key then
    (true, { n with keys := n.keys.eraseIdx idx, values := n.values.eraseIdx idx })
  else (false, n)

/-- Assignment through a node pointer. -/
def store (heap : List (BPlusNode K V)) (p : Nat) (n : BPlusNode K V) : List (BPlusNode K V) :=
  heap.set p n

/-- `child->parent_ = p` for one node. -/
def setParent (heap : List (BPlusNode K V)) (p : Option Nat) (child : Nat) :
    Except Fault (List (BPlusNode K V)) := do
  let c ← deref heap child
  pure (store heap child { c with parent := p })

/-- `for (child : children) child->parent_ = p`. -/
def setParents (heap : List (BPlusNode K V)) (p : Option Nat) :
    List Nat → Except Fault (List (BPlusNode K V))
  | [] => pure heap
  | child :: rest => do
      let heap1 ← setParent heap p child
      setParents heap1 p rest

/-- `BPlusNode::Insert(key, node, odd)` on the internal node `self`: the
child's `parent_` becomes `self`; the child goes to position
`lower_bound + odd`, the key to the lower bound. -/
def InsertChild [LinearOrder K] (heap : List (BPlusNode K V)) (self : Nat) (key : K)
    (node : Nat) (odd : Bool) : Except Fault (List (BPlusNode K V)) := do
  let s ← deref heap self
  let idx := lowerBound s.keys key
  let heap1 ← setParent heap (some self) node
  let s1 ← deref heap1 self
  if idx + odd.toNat > s1.children.length then throw .outOfRange
  pure (store heap1 self
    { s1 with children := s1.children.insertIdx (idx + odd.toNat) node,
              keys := s1.keys.insertIdx idx key })

/-- `BPlusNode::Split` on the node `self`: the keys from the midpoint on move
to a new node, which is returned.  A leaf hands over the records from the
midpoint on and its `next_`, and points its `next_` at the new node; an
internal node hands over the children behind position `mid`, whose
`parent_` becomes the new node.  (`resize` is taken as a cut: it would pad
only in a leaf with fewer records than keys or an internal node with fewer
than `mid + 1` children, which the trees built by `Set` never have.) -/
def Split (heap : List (BPlusNode K V)) (self : Nat) :
    Except Fault (List (BPlusNode K V) × Nat) := do
  let s ← deref heap self
  let mid := s.keys.length / 2
  let newNode := heap.length
  if s.isLeaf then
    let n : BPlusNode K V :=
      { isLeaf := true, keys := s.keys.drop mid, values := s.values.drop mid,
        children := [], parent := none, next := s.next }
    let s1 := { s with keys := s.keys.take mid, values := s.values.take mid,
                       next := some newNode }
    pure (store (heap ++ [n]) self s1, newNode)
  else
    let n : BPlusNode K V :=
      { isLeaf := false, keys := s.keys.drop mid, values := [],
        children := s.children.drop (mid + 1), parent := none, next := none }
    let s1 := { s with keys := s.keys.take mid, children := s.children.take (mid + 1) }
    let heap1 ← setParents (store (heap ++ [n]) self s1) (some newNode) n.children
    pure (heap1, newNode)

/-- `front()` of a vector. -/
def front {α : Type} (l : List α) : Except Fault α :=
  match l with
  | a :: _ => .ok a
  | [] => .error .frontOfEmpty

/-- `back()` of a vector. -/
def back {α : Type} (l : List α) : Except Fault α :=
  match l.getLast? with
  | some a => .ok a
  | none => .error .frontOfEmpty

/-- `BPlusTree::FindLeaf`: descent to the child at the upper bound of the key. -/
def FindLeaf [LinearOrder K] (heap : List (BPlusNode K V)) :
    Nat → Nat → K → Except Fault Nat
  | 0, _, _ => .error .outOfFuel
  | fuel + 1, node, key => do
      let n ← deref heap node
      if n.isLeaf then pure node
      else
        let child ← index n.children (upperBound n.keys key)
        FindLeaf heap fuel child key

/-- `BPlusTree::Expand(left, right, key)`: a split root gets a new root above
it; else the parent takes key and right node, and when it is full it is
split and `Expand` repeated one level up, after which the key that went up
is dropped from the new node. -/
def Expand [LinearOrder K] : Nat → BPlusTree K V → Nat → Nat → K → Except Fault (BPlusTree K V)
  | 0, _, _, _, _ => .error .outOfFuel
  | fuel + 1, t, left, right, key =>
      if left = t.root then do
        let newRoot := t.heap.length
        let r : BPlusNode K V := BPlusNode.new false
        let heap1 ← setParent (t.heap ++ [r]) (some newRoot) left
        let heap2 ← setParent heap1 (some newRoot) right
        let r2 ← deref heap2 newRoot
        pure { t with
          heap := store heap2 newRoot { r2 with children := [left, right], keys := [key] }
          root := newRoot }
      else do
        let l ← deref t.heap left
        let parent ← match l.parent with
          | some p => pure p
          | none => throw Fault.nullPointer
        let heap1 ← InsertChild t.heap parent key right true
        let p ← deref heap1 parent
        if p.keys.length < t.degree then pure { t with heap := heap1 }
        else do
          let (heap2, newNode) ← Split heap1 parent
          let n ← deref heap2 newNode
          let up ← front n.keys
          let t3 ← Expand fuel { t with heap := heap2 } parent newNode up
          let n3 ← deref t3.heap newNode
          pure { t3 with heap := store t3.heap newNode { n3 with keys := n3.keys.eraseIdx 0 } }

/-- `BPlusTree::Set`. -/
def Set [LinearOrder K] (t : BPlusTree K V) (key : K) (value : V) :
    Except Fault (Bool × BPlusTree K V) := do
  let leaf ← FindLeaf t.heap t.heap.length t.root key
  let l ← deref t.heap leaf
  if l.Exists key then pure (false, t)
  else
    let l1 := (l.InsertValue key value).2
    let heap1 := store t.heap leaf l1
    if l1.keys.length = t.degree then do
      let (heap2, newLeaf) ← Split heap1 leaf
      let n ← deref heap2 newLeaf
      let up ← front n.keys
      let t3 ← Expand heap2.length { t with heap := heap2 } leaf newLeaf up
      pure (true, t3)
    else pure (true, { t with heap := heap1 })

/-- `BPlusTree::Get`. -/
def Get [LinearOrder K] (t : BPlusTree K V) (key : K) : Except Fault (Option V) := do
  let leaf ← FindLeaf t.heap t.heap.length t.root key
  let l ← deref t.heap leaf
  if l.Exists key then do
    let v ← l.GetValue key
    pure (some v)
  else pure none

/-- `BPlusTree::Exists`. -/
def Exists [LinearOrder K] (t : BPlusTree K V) (key : K) : Except Fault Bool := do
  let leaf ← FindLeaf t.heap t.heap.length t.root key
  let l ← deref t.heap leaf
  pure (l.Exists key)

/-- The loop of `BPlusTree::Keys`: the keys of the leaf and of the leaves
behind it along `next_`. -/
def chainKeys (heap : List (BPlusNode K V)) : Nat → Option Nat → Except Fault (List K)
  | _, none => pure []
  | 0, some _ => .error .outOfFuel
  | fuel + 1, some leaf => do
      let l ← deref heap leaf
      let rest ← chainKeys heap fuel l.next
      pure (l.keys ++ rest)

/-- `BPlusTree::Keys`: walk of the leaf chain from `leaf_`. -/
def Keys (t : BPlusTree K V) : Except Fault (List K) :=
  chainKeys t.heap t.heap.length (some t.leaf)

/-- The loop of `std::lower_bound` over node pointers: `len` positions from
`first` on are left; the one in the middle is compared by address, and the
search goes on behind it (address below that of `node`) or before it. -/
def ptrBisect (addr : Nat → Nat) (children : List Nat) (node : Nat) : Nat → Nat → Nat → Nat
  | 0, first, _ => first
  | fuel + 1, first, len =>
      if len = 0 then first
      else
        match children[first + len / 2]? with
        | some c =>
            if addr c < addr node then
              ptrBisect addr children node fuel (first + len / 2 + 1) (len - len / 2 - 1)
            else ptrBisect addr children node fuel first (len / 2)
        | none => first

/-- `std::lower_bound(children.begin(), children.end(), node)` over node
pointers, which `shared_ptr` compares by address; `addr` is the address of
each node.  The search bisects the range: when the children are partitioned
with respect to "address below the address of `node`" the result is the
first position whose address is not below; over any other range it is the
position the bisection ends at. -/
def ptrLowerBound (addr : Nat → Nat) (children : List Nat) (node : Nat) : Except Fault Nat :=
  pure (ptrBisect addr children node children.length 0 children.length)

/-- `BPlusNode::Delete(key, odd)` on an internal node: when the key is found,
the child at `position + odd` and the key are erased. -/
def BPlusNode.Delete [LinearOrder K] (n : BPlusNode K V) (key : K) (odd : Bool) :
    Except Fault (BPlusNode K V) :=
  let idx := lowerBound n.keys key
  if n.keys[idx]? = some key then
    if idx + odd.toNat < n.children.length then
      pure { n with children := n.children.eraseIdx (idx + odd.toNat),
                    keys := n.keys.eraseIdx idx }
    else throw .outOfRange
  else pure n

/-- `BPlusTree::Adjacents`: the siblings left and right of the node, found in
the parent by the upper bound of the node's first key. -/
def Adjacents [LinearOrder K] (t : BPlusTree K V) (node : Nat) :
    Except Fault (Option Nat × Option Nat) := do
  let n ← deref t.heap node
  match n.parent with
  | none => pure (none, none)
  | some parent => do
      let p ← deref t.heap parent
      let first ← front n.keys
      let it := upperBound p.keys first
      let left ← if it ≠ 0 then (do let c ← index p.children (it - 1); pure (some c))
        else pure none
      let right ← if it ≠ p.keys.length then
          (do let c ← index p.children (it + 1); pure (some c))
        else pure none
      pure (left, right)

/-- `self->Redistribute(src, node)`: one entry moves from the sibling `src`
into `self` (the last one when `src == node`, that is from the left; else the
first one), and the key of the parent between the two is replaced. -/
def Redistribute [LinearOrder K] (addr : Nat → Nat) (heap : List (BPlusNode K V))
    (self src node : Nat) : Except Fault (List (BPlusNode K V)) := do
  let me ← deref heap self
  match me.parent with
  | none => pure heap
  | some parent => do
      let p ← deref heap parent
      let s ← deref heap src
      let key ← if src = node then back s.keys else front s.keys
      let leftNode := if src = node then src else self
      let idx ← ptrLowerBound addr p.children leftNode
      if me.isLeaf then do
        let rightNode := if src = node then self else src
        let v ← s.GetValue key
        let heap1 := store heap self (me.InsertValue key v).2
        let s1 ← deref heap1 src
        let heap2 := store heap1 src (s1.Remove key).2
        let r ← deref heap2 rightNode
        let first ← front r.keys
        let p2 ← deref heap2 parent
        if idx < p2.keys.length then
          pure (store heap2 parent { p2 with keys := p2.keys.set idx first })
        else throw .outOfRange
      else do
        let child ← if src = node then back s.children else front s.children
        let sep ← index p.keys idx
        let heap1 ← InsertChild heap self sep child (decide (src ≠ node))
        let p1 ← deref heap1 parent
        let heap2 := store heap1 parent { p1 with keys := p1.keys.set idx key }
        let s2 ← deref heap2 src
        let s3 ← s2.Delete key (decide (src = node))
        pure (store heap2 src s3)

/-- `self->Merge(node)`: the content of `node` is added to `self`, and the
key at `idx - 1` and the child at `idx` are taken out of the parent, where
`idx` is the position `std::lower_bound` finds for `node` among the children
(an internal `self` takes that key over).  A leaf takes the keys and records
with `std::move`: `node` keeps as many entries as it had, each one
moved-from, which for strings is the empty string, here `default`.  An
internal `self` copies keys and children.  `self->Merge(self)` would read a
vector through its own iterators while appending to it. -/
def Merge [Inhabited K] [Inhabited V] (addr : Nat → Nat) (heap : List (BPlusNode K V))
    (self node : Nat) : Except Fault (List (BPlusNode K V)) := do
  let me ← deref heap self
  match me.parent with
  | none => pure heap
  | some parent => do
      let p ← deref heap parent
      let idx ← ptrLowerBound addr p.children node
      let n ← deref heap node
      if me.isLeaf then do
        if idx = 0 ∨ idx - 1 ≥ p.keys.length then throw .outOfRange
        if idx ≥ p.children.length then throw .outOfRange
        if self = node then throw .selfAppend
        let heap1 := store heap parent
          { p with keys := p.keys.eraseIdx (idx - 1), children := p.children.eraseIdx idx }
        let me1 ← deref heap1 self
        let n1 ← deref heap1 node
        let heap2 := store heap1 self
          { me1 with keys := me1.keys ++ n1.keys, values := me1.values ++ n1.values,
                     next := n1.next }
        let n2 ← deref heap2 node
        pure (store heap2 node
          { n2 with keys := n2.keys.map (fun _ => default),
                    values := n2.values.map (fun _ => default) })
      else do
        if idx = 0 then throw .outOfRange
        if self = node then throw .selfAppend
        let sep ← index p.keys (idx - 1)
        let heap1 := store heap self
          { me with keys := me.keys ++ [sep] ++ n.keys, children := me.children ++ n.children }
        let heap2 ← setParents heap1 (some self) n.children
        let p2 ← deref heap2 parent
        if idx ≥ p2.children.length then throw .outOfRange
        pure (store heap2 parent
          { p2 with children := p2.children.eraseIdx idx, keys := p2.keys.eraseIdx (idx - 1) })

/-- The test `sibling and sibling->Size() > bound` of `Reduce`. -/
def hasMoreThan (heap : List (BPlusNode K V)) (sibling : Option Nat) (bound : Nat) :
    Except Fault Bool :=
  match sibling with
  | none => pure false
  | some s => do
      let sn ← deref heap s
      pure (decide (sn.keys.length > bound))

/-- `BPlusTree::Reduce`: an internal root without keys hands the root over to
its first child (the old root is released when `Reduce` returns, so the weak
`parent_` of the new root is expired from then on); the root and a node at or
above `(degree_ + !IsLeaf()) / 2` keys are left alone; else an entry is taken
from a sibling with more than `(degree_ + 1) / 2` keys, or the node is merged
with a sibling and `Reduce` goes on at the parent. -/
def Reduce [LinearOrder K] [Inhabited K] [Inhabited V] (addr : Nat → Nat) :
    Nat → BPlusTree K V → Option Nat → Except Fault (BPlusTree K V)
  | _, t, none => pure t
  | 0, _, some _ => .error .outOfFuel
  | fuel + 1, t, some node => do
      let n ← deref t.heap node
      if node = t.root ∧ ¬ n.isLeaf ∧ n.keys.length = 0 then do
        let newRoot ← front n.children
        let heap1 ← setParent t.heap none newRoot
        pure { t with heap := heap1, root := newRoot }
      else if node = t.root ∨ n.keys.length ≥ (t.degree + (!n.isLeaf).toNat) / 2 then pure t
      else do
        let (left, right) ← Adjacents t node
        if ← hasMoreThan t.heap left ((t.degree + 1) / 2) then
          match left with
          | some l => do
              let heap1 ← Redistribute addr t.heap node l l
              pure { t with heap := heap1 }
          | none => pure t
        else if ← hasMoreThan t.heap right ((t.degree + 1) / 2) then
          match right with
          | some r => do
              let heap1 ← Redistribute addr t.heap node r node
              pure { t with heap := heap1 }
          | none => pure t
        else
          match left, right with
          | some l, _ =>
              if ¬ n.isLeaf ∧ n.keys.length ≠ 0 then pure t
              else do
                let heap1 ← Merge addr t.heap l node
                let ln ← deref heap1 l
                Reduce addr fuel { t with heap := heap1 } ln.parent
          | none, some r =>
              if ¬ n.isLeaf ∧ n.keys.length ≠ 0 then pure t
              else do
                let heap1 ← Merge addr t.heap node r
                let nn ← deref heap1 node
                Reduce addr fuel { t with heap := heap1 } nn.parent
          | none, none => pure t

/-- `BPlusTree::Del`. -/
def Del [LinearOrder K] [Inhabited K] [Inhabited V] (addr : Nat → Nat) (t : BPlusTree K V) (key : K) :
    Except Fault (Bool × BPlusTree K V) := do
  let leaf ← FindLeaf t.heap t.heap.length t.root key
  let l ← deref t.heap leaf
  if ¬ l.Exists key then pure (false, t)
  else do
    let t1 := { t with heap := store t.heap leaf (l.Remove key).2 }
    let t2 ← Reduce addr t1.heap.length t1 (some leaf)
    pure (true, t2)

/-- `BPlusTree::Rename`: refused when the leaf `FindLeaf` arrives at for the
old key does not hold the old key or does hold the new key; else the record
is copied, `Del(old_key)` is called and the result of `Set(new_key, record)`
returned. -/
def Rename [LinearOrder K] [Inhabited K] [Inhabited V] (addr : Nat → Nat) (t : BPlusTree K V)
    (oldKey newKey : K) :
    Except Fault (Bool × BPlusTree K V) := do
  let leaf ← FindLeaf t.heap t.heap.length t.root oldKey
  let l ← deref t.heap leaf
  if ¬ l.Exists oldKey ∨ l.Exists newKey then pure (false, t)
  else do
    let value ← l.GetValue oldKey
    let r ← Del addr t oldKey
    Set r.2 newKey value

end BPT

namespace BPT
variable {K V : Type}

/-! ### Shape of the trees `Set` builds

The shape is stated node by node, over bookkeeping that is not part of the
program state: for every node its height above the leaves and the key
interval `[lo, hi)` it is responsible for (`none` for an open end).
-/

/-- Bookkeeping per node: height above the leaves and key interval. -/
structure Ghost (K : Type) where
  ht : Nat → Nat
  lo : Nat → Option K
  hi : Nat → Option K

/-- The key is at or above the lower end. -/
def LoLe [LinearOrder K] (lo : Option K) (k : K) : Prop := ∀ a, lo = some a → a ≤ k

/-- The key is below the upper end. -/
def LtHi [LinearOrder K] (k : K) (hi : Option K) : Prop := ∀ b, hi = some b → k < b

/-- The separator keys of a node.  A node in `X` has just been split off an
internal node and still carries, in front, the key that moves up (`Expand`
drops it after the levels above are done). -/
def ekeys (X : List Nat) (x : Nat) (n : BPlusNode K V) : List K :=
  if x ∈ X then n.keys.tail else n.keys

/-- Upper end of a node as its parent sees it: while the split of `left` is
not yet known to its parent, the parent still sees the old upper end. -/
def hiSeen (g : Ghost K) (pend : Option (Nat × Option K)) (c : Nat) : Option K :=
  match pend with
  | some (l, HI) => if c = l then HI else g.hi c
  | none => g.hi c

/-- The child `c` of `x` between the separators `l` and `h`. -/
def ChildOK (heap : List (BPlusNode K V)) (g : Ghost K) (pend : Option (Nat × Option K))
    (x : Nat) (l : Option K) (c : Nat) (h : Option K) : Prop :=
  ∃ cn, heap[c]? = some cn ∧ cn.parent = some x ∧ g.ht c + 1 = g.ht x ∧
    g.lo c = l ∧ hiSeen g pend c = h

/-- Keys and children of an internal node interleave: child, key, child, ...,
child; `P l c h` is asked of every child `c` with its neighbours `l`, `h`. -/
def Chain (P : Option K → Nat → Option K → Prop) :
    Option K → List K → List Nat → Option K → Prop
  | lo, [], [c], hi => P lo c hi
  | lo, k :: ks, c :: cs, hi => P lo c (some k) ∧ Chain P (some k) ks cs hi
  | _, _, _, _ => False

/-- Minimum occupancy of a node that is not the root. -/
def Occ (degree : Nat) (g : Ghost K) (x : Nat) (n : BPlusNode K V) : Prop :=
  (g.ht x = 0 → degree / 2 ≤ n.keys.length) ∧
  (g.ht x ≠ 0 → (degree + 1) / 2 ≤ n.children.length)

/-- What holds of the node `n` at position `x` by itself and towards its
children. -/
structure NodeOK [LinearOrder K] (t : BPlusTree K V) (g : Ghost K) (X : List Nat)
    (pend : Option (Nat × Option K)) (x : Nat) (n : BPlusNode K V) : Prop where
  sorted : (ekeys X x n).Pairwise (fun a b => a < b)
  bounds : ∀ k ∈ ekeys X x n, LoLe (g.lo x) k ∧ LtHi k (g.hi x)
  leaf : g.ht x = 0 → n.isLeaf = true ∧ n.values.length = n.keys.length ∧ n.children = []
  inner : g.ht x ≠ 0 → n.isLeaf = false ∧
    Chain (ChildOK t.heap g pend x) (g.lo x) (ekeys X x n) n.children (g.hi x)
  small : (ekeys X x n).length < t.degree
  height : g.ht x ≤ g.ht t.root

/-- What holds of the node towards the root and its parent. -/
def Linked (t : BPlusTree K V) (g : Ghost K) (pend : Option (Nat × Option K))
    (x : Nat) (n : BPlusNode K V) : Prop :=
  (x = t.root → n.parent = none ∧ g.lo x = none ∧ hiSeen g pend x = none) ∧
  (x ≠ t.root →
    (∃ (p : Nat) (pn : BPlusNode K V), n.parent = some p ∧ t.heap[p]? = some pn ∧ x ∈ pn.children) ∧
    Occ t.degree g x n)

/-- The shape of a tree between operations (with `X = []`), and of a tree on
which `Expand` has returned (`X` lists the nodes that still carry the key
that went up). -/
structure Good [LinearOrder K] (t : BPlusTree K V) (g : Ghost K) (X : List Nat) : Prop where
  deg : 3 ≤ t.degree
  rootIn : t.root < t.heap.length
  tall : g.ht t.root < t.heap.length
  node : ∀ (x : Nat) (n : BPlusNode K V), t.heap[x]? = some n → NodeOK t g X none x n ∧ Linked t g none x n
  inX : ∀ x ∈ X, x < t.heap.length ∧ g.ht x ≠ 0

/-- The shape of a tree on entry to `Expand left right key`: `left` has been
split, `right` holds its upper half and is not yet known to any parent;
`HI` is the upper end `left` had before. -/
structure Pend [LinearOrder K] (t : BPlusTree K V) (g : Ghost K) (X : List Nat)
    (left right : Nat) (key : K) (HI : Option K) : Prop where
  deg : 3 ≤ t.degree
  rootIn : t.root < t.heap.length
  tall : g.ht t.root < t.heap.length
  ne : left ≠ right
  node : ∀ (x : Nat) (n : BPlusNode K V), t.heap[x]? = some n → x ≠ right →
    NodeOK t g X (some (left, HI)) x n ∧ Linked t g (some (left, HI)) x n
  rightOK : ∃ rn, t.heap[right]? = some rn ∧ NodeOK t g X (some (left, HI)) right rn ∧
    Occ t.degree g right rn
  fresh : ∀ (x : Nat) (n : BPlusNode K V), t.heap[x]? = some n → right ∉ n.children
  leftOK : ∃ ln, t.heap[left]? = some ln ∧ Occ t.degree g left ln
  hts : g.ht right = g.ht left
  loR : g.lo right = some key
  hiR : g.hi right = HI
  hiL : g.hi left = some key
  loL : ∀ a, g.lo left = some a → a < key
  keyHI : LtHi key HI
  notRoot : right ≠ t.root
  below : ∀ x ∈ X, g.ht x ≤ g.ht left
  inX : ∀ x ∈ X, x < t.heap.length ∧ g.ht x ≠ 0

/-- Bookkeeping after the split of `left` into `left` and `right` at the key
`up`: `right` is level with `left` and takes over the upper part of its
interval. -/
def Ghost.split (g : Ghost K) (left right : Nat) (up : K) : Ghost K :=
  { ht := fun x => if x = right then g.ht left else g.ht x
    lo := fun x => if x = right then some up else g.lo x
    hi := fun x => if x = right then g.hi left else if x = left then some up else g.hi x }

/-- Bookkeeping after a new root has been put above the old one. -/
def Ghost.grow (g : Ghost K) (oldRoot newRoot : Nat) : Ghost K :=
  { ht := fun x => if x = newRoot then g.ht oldRoot + 1 else g.ht x
    lo := fun x => if x = newRoot then none else g.lo x
    hi := fun x => if x = newRoot then none else g.hi x }

/-- A node that held the `degree` keys `k` with the children `cs` has been
split at `m = degree / 2`: afterwards it is `n2` with the keys of `k` in
front of position `m` and the children of `cs` up to position `m`; the node
`N`, allocated by the operation (`base` nodes existed before it), holds the
keys and the children behind position `m`, and each of those children names
`N` as its parent; the key `up = k[m]` is in neither of the two. -/
def Halves (degree base : Nat) (heap2 : List (BPlusNode K V)) (k : List K) (cs : List Nat)
    (n2 : BPlusNode K V) (N : Nat) (up : K) : Prop :=
  k.length = degree ∧ k[degree / 2]? = some up ∧
  n2.keys = k.take (degree / 2) ∧ n2.children = cs.take (degree / 2 + 1) ∧ up ∉ n2.keys ∧
  base ≤ N ∧ ∃ high, heap2[N]? = some high ∧ high.isLeaf = false ∧
    high.keys = k.drop (degree / 2 + 1) ∧ high.children = cs.drop (degree / 2 + 1) ∧
    up ∉ high.keys ∧ ∀ ch ∈ high.children, ∃ cn, heap2[ch]? = some cn ∧ cn.parent = some N

/-- The internal node `n` took the key `sep` at position `i` and the child
`c` behind it (`Insert(key, node)`): afterwards it is `n2`, which holds just
that and has fewer than `degree` keys, or which is the lower half of the
split of the `degree` keys and their children. -/
def Took (degree base : Nat) (heap2 : List (BPlusNode K V)) (n n2 : BPlusNode K V)
    (i : Nat) (sep : K) (c : Nat) : Prop :=
  (n2.keys = n.keys.insertIdx i sep ∧ n2.children = n.children.insertIdx (i + 1) c ∧
    n2.keys.length < degree) ∨
  ∃ (N : Nat) (up : K), Halves degree base heap2 (n.keys.insertIdx i sep)
    (n.children.insertIdx (i + 1) c) n2 N up

/-- Where the key `up` went when the node `x` was split into `x` and `N`.
When `x` was the root (`root`, in the heap `heap` before the operation), the
root afterwards (`root2`, in `heap2`) is a node allocated by the operation
with the one key `up` and the two children `x`, `N`.  Else the parent of `x`,
which had `x` as child `j`, took the key `up` at position `j` and `N` as
child behind it (and may thereby have been split in turn). -/
def MovedUp (degree base root : Nat) (heap : List (BPlusNode K V)) (root2 : Nat)
    (heap2 : List (BPlusNode K V)) (x N : Nat) (up : K) : Prop :=
  (x = root ∧ base ≤ root2 ∧ ∃ r, heap2[root2]? = some r ∧ r.isLeaf = false ∧
    r.keys = [up] ∧ r.children = [x, N]) ∨
  (x ≠ root ∧ ∃ (xn : BPlusNode K V) (p : Nat) (pn pn2 : BPlusNode K V) (j : Nat),
    heap[x]? = some xn ∧ xn.parent = some p ∧ heap[p]? = some pn ∧ pn.isLeaf = false ∧
    pn.children[j]? = some x ∧ heap2[p]? = some pn2 ∧ pn2.isLeaf = false ∧
    Took degree base heap2 pn pn2 j up N)

/-- What `Expand` does to an internal node `x` that reaches `degree` keys:
the node had the keys and children of `n`, took the key `sep` at position `i`
and the child `c` behind it, and was split (`Halves`); the key at position
`degree / 2` moved up into the parent or a new root (`MovedUp`). -/
def SplitStep (degree base root : Nat) (heap : List (BPlusNode K V)) (root2 : Nat)
    (heap2 : List (BPlusNode K V)) (x : Nat) (n n2 : BPlusNode K V) : Prop :=
  ∃ (i : Nat) (sep : K) (c N : Nat) (up : K),
    Halves degree base heap2 (n.keys.insertIdx i sep) (n.children.insertIdx (i + 1) c) n2 N up ∧
    MovedUp degree base root heap root2 heap2 x N up

/-- What one `Set` does to an internal node `x`, which was `n` and is `n2`
afterwards: keys and children are as they were; or one key and the child
behind it have been inserted and there are still fewer than `degree` keys; or
the node reached `degree` keys and has been split. -/
def NodeStep (degree base root : Nat) (heap : List (BPlusNode K V)) (root2 : Nat)
    (heap2 : List (BPlusNode K V)) (x : Nat) (n n2 : BPlusNode K V) : Prop :=
  (n2.keys = n.keys ∧ n2.children = n.children) ∨
  (∃ (i : Nat) (sep : K) (c : Nat), n2.keys = n.keys.insertIdx i sep ∧
    n2.children = n.children.insertIdx (i + 1) c ∧ n2.keys.length < degree) ∨
  SplitStep degree base root heap root2 heap2 x n n2

/-- The record `v` is stored under the key `k` in some leaf. -/
def Stored (heap : List (BPlusNode K V)) (k : K) (v : V) : Prop :=
  ∃ (x : Nat) (n : BPlusNode K V), heap[x]? = some n ∧ n.isLeaf = true ∧ (k, v) ∈ n.keys.zip n.values

end BPT

namespace BPT
variable {K V : Type}

/-! ### Sequences of operations on the B+ tree -/

/-- The trees built from the empty tree of the given degree by `Set`
operations (each with a defined result). -/
inductive BuiltBySet [LinearOrder K] (degree : Nat) : BPlusTree K V → Prop where
  | new : BuiltBySet degree (BPlusTree.new degree)
  | set (t t' : BPlusTree K V) (key : K) (value : V) (b : Bool) :
      BuiltBySet degree t → Set t key value = .ok (b, t') → BuiltBySet degree t'

/-- `Set` of the listed keys, in order, each with ten times the key as
record, on the empty tree of the given degree. -/
def setAll (degree : Nat) (keys : List Nat) : Except Fault (BPlusTree Nat Nat) :=
  keys.foldlM (fun t k => do let r ← Set t k (k * 10); pure r.2) (BPlusTree.new degree)

/-- The degree-3 tree after `Set` of 1, 2, 3: the root (node 2) with key 2
above the leaves `[1]` (node 0) and `[2, 3]` (node 1). -/
def tree123 : BPlusTree Nat Nat :=
  { heap :=
      [ { isLeaf := true, keys := [1], values := [10], children := [], parent := some 2,
          next := some 1 },
        { isLeaf := true, keys := [2, 3], values := [20, 30], children := [], parent := some 2,
          next := none },
        { isLeaf := false, keys := [2], values := [], children := [0, 1], parent := none,
          next := none } ]
    root := 2, leaf := 0, degree := 3 }

/-- The first leaf of `tree123` (node 0). -/
def tree123Leaf : BPlusNode Nat Nat :=
  { isLeaf := true, keys := [1], values := [10], children := [], parent := some 2,
    next := some 1 }

/-- The degree-4 tree after `Set` of 10, 20, 30, 40, 5, 15: the root (node 2)
with keys 15, 30 above the leaves `[5, 10]` (node 0), `[15, 20]` (node 3,
allocated last) and `[30, 40]` (node 1). -/
def treeSix : BPlusTree Nat Nat :=
  { heap :=
      [ { isLeaf := true, keys := [5, 10], values := [50, 100], children := [],
          parent := some 2, next := some 3 },
        { isLeaf := true, keys := [30, 40], values := [300, 400], children := [],
          parent := some 2, next := none },
        { isLeaf := false, keys := [15, 30], values := [], children := [0, 3, 1],
          parent := none, next := none },
        { isLeaf := true, keys := [15, 20], values := [150, 200], children := [],
          parent := some 2, next := some 1 } ]
    root := 2, leaf := 0, degree := 4 }

/-- The degree-4 tree after `Set` of 10, 20, 30, 40, 50: the root (node 2)
with key 30 above the leaves `[10, 20]` (node 0) and `[30, 40, 50]`
(node 1). -/
def treeFive : BPlusTree Nat Nat :=
  { heap :=
      [ { isLeaf := true, keys := [10, 20], values := [100, 200], children := [],
          parent := some 2, next := some 1 },
        { isLeaf := true, keys := [30, 40, 50], values := [300, 400, 500], children := [],
          parent := some 2, next := none },
        { isLeaf := false, keys := [30], values := [], children := [0, 1], parent := none,
          next := none } ]
    root := 2, leaf := 0, degree := 4 }

/-- The degree-4 tree after `Set` of 10, 20, 30, 40, 5, 15, 35: the root
(node 2) with keys 15, 30 above the leaves `[5, 10]` (node 0), `[15, 20]`
(node 3) and `[30, 35, 40]` (node 1). -/
def treeSeven : BPlusTree Nat Nat :=
  { heap :=
      [ { isLeaf := true, keys := [5, 10], values := [50, 100], children := [],
          parent := some 2, next := some 3 },
        { isLeaf := true, keys := [30, 35, 40], values := [300, 350, 400], children := [],
          parent := some 2, next := none },
        { isLeaf := false, keys := [15, 30], values := [], children := [0, 3, 1],
          parent := none, next := none },
        { isLeaf := true, keys := [15, 20], values := [150, 200], children := [],
          parent := some 2, next := some 1 } ]
    root := 2, leaf := 0, degree := 4 }

/-- The degree-4 tree after `Set` of 10, 20, 30, 40: the root (node 2) with
key 30 above the leaves `[10, 20]` (node 0) and `[30, 40]` (node 1). -/
def treePair : BPlusTree Nat Nat :=
  { heap :=
      [ { isLeaf := true, keys := [10, 20], values := [100, 200], children := [],
          parent := some 2, next := some 1 },
        { isLeaf := true, keys := [30, 40], values := [300, 400], children := [],
          parent := some 2, next := none },
        { isLeaf := false, keys := [30], values := [], children := [0, 1], parent := none,
          next := none } ]
    root := 2, leaf := 0, degree := 4 }

/-- The degree-3 tree after `Set` of 1, 2, 3, 4 and `Del` of 4: the root
(node 2) with keys 2, 3 above the leaves `[1]` (node 0), `[2]` (node 1) and
`[3]` (node 3). -/
def treeFour : BPlusTree Nat Nat :=
  { heap :=
      [ { isLeaf := true, keys := [1], values := [10], children := [], parent := some 2,
          next := some 1 },
        { isLeaf := true, keys := [2], values := [20], children := [], parent := some 2,
          next := some 3 },
        { isLeaf := false, keys := [2, 3], values := [], children := [0, 1, 3], parent := none,
          next := none },
        { isLeaf := true, keys := [3], values := [30], children := [], parent := some 2,
          next := none } ]
    root := 2, leaf := 0, degree := 3 }

/-- The degree-3 tree after `Set` of 1, 2, 3, 4: the root (node 2) with keys
2, 3 above the leaves `[1]` (node 0), `[2]` (node 1) and `[3, 4]` (node 3). -/
def treeQuad : BPlusTree Nat Nat :=
  { heap :=
      [ { isLeaf := true, keys := [1], values := [10], children := [], parent := some 2,
          next := some 1 },
        { isLeaf := true, keys := [2], values := [20], children := [], parent := some 2,
          next := some 3 },
        { isLeaf := false, keys := [2, 3], values := [], children := [0, 1, 3], parent := none,
          next := none },
        { isLeaf := true, keys := [3, 4], values := [30, 40], children := [], parent := some 2,
          next := none } ]
    root := 2, leaf := 0, degree := 3 }

/-- The degree-5 tree after `Set` of 0, 1, ..., 12: the root (node 8) with
key 6 above the internal nodes 2 (keys 2, 4; leaves `[0, 1]`, `[2, 3]`,
`[4, 5]`) and 7 (keys 8, 10; leaves `[6, 7]`, `[8, 9]`, `[10, 11, 12]`). -/
def treeThirteen : BPlusTree Nat Nat :=
  { heap :=
      [ { isLeaf := true, keys := [0, 1], values := [0, 10], children := [], parent := some 2,
          next := some 1 },
        { isLeaf := true, keys := [2, 3], values := [20, 30], children := [], parent := some 2,
          next := some 3 },
        { isLeaf := false, keys := [2, 4], values := [], children := [0, 1, 3],
          parent := some 8, next := none },
        { isLeaf := true, keys := [4, 5], values := [40, 50], children := [], parent := some 2,
          next := some 4 },
        { isLeaf := true, keys := [6, 7], values := [60, 70], children := [], parent := some 7,
          next := some 5 },
        { isLeaf := true, keys := [8, 9], values := [80, 90], children := [], parent := some 7,
          next := some 6 },
        { isLeaf := true, keys := [10, 11, 12], values := [100, 110, 120], children := [],
          parent := some 7, next := none },
        { isLeaf := false, keys := [8, 10], values := [], children := [4, 5, 6],
          parent := some 8, next := none },
        { isLeaf := false, keys := [6], values := [], children := [2, 7], parent := none,
          next := none } ]
    root := 8, leaf := 0, degree := 5 }

/-- The AVL tree after `Set` of 10, 20, 30, 40, 5, 15, each with ten times the
key as record. -/
def avlSix : AVL.AVLNode Nat Nat :=
  [10, 20, 30, 40, 5, 15].foldl (fun t k => (AVL.Set t k (k * 10)).2) AVL.AVLNode.nil

/-- The hash table (default capacity, identity as hash) after `Set` of 10, 20,
30, 40, 5, 15, each with ten times the key as record. -/
def htSix : HT.HashTable Nat Nat :=
  [10, 20, 30, 40, 5, 15].foldl (fun t k => (HT.Set id t k (k * 10)).2) (HT.HashTable.new 0)

/-- Node addresses that descend in the order of allocation. -/
def descending (node : Nat) : Nat := 100 - node

/-- `Path heap x y d`: the node `y` is reached from the node `x` along `d`
child links. -/
inductive Path (heap : List (BPlusNode K V)) : Nat → Nat → Nat → Prop where
  | here (x : Nat) : Path heap x x 0
  | step (x c y d : Nat) (n : BPlusNode K V) :
      heap[x]? = some n → c ∈ n.children → Path heap c y d → Path heap x y (d + 1)

end BPT

namespace Val

/-! ## Records (`src/common/value.cc`)

A `std::string` is the list of its characters.  The functions of the
standard library the source relies on (`std::stoi`, `std::stoull`,
`std::to_string`, `operator>>` into a string) are modelled from their
specification, for the classic locale, a 32-bit `int` and a 64-bit
`std::size_t`.  Exceptions are results in `Except Err`; a member function
that can throw after it has assigned to members returns the state of the
object together with its outcome.
-/

/-- The exception classes: `std::invalid_argument`, `std::out_of_range`. -/
inductive Err where
  | invalidArgument
  | outOfRange
  deriving Repr, DecidableEq

/-- `std::isspace` in the classic locale: space, `\t`, `\n`, `\v`, `\f`, `\r`. -/
def isSpace (c : Char) : Bool :=
  decide (c.toNat = 32 ∨ (9 ≤ c.toNat ∧ c.toNat ≤ 13))

/-- `std::isdigit`. -/
def isDigit (c : Char) : Bool := decide (48 ≤ c.toNat ∧ c.toNat ≤ 57)

/-- Value of a sequence of decimal digits read behind the value `acc`. -/
def parseDigits (acc : Nat) : List Char → Nat
  | [] => acc
  | c :: rest => parseDigits (acc * 10 + (c.toNat - 48)) rest

/-- The character of a decimal digit. -/
def digitChar (d : Nat) : Char := Char.ofNat (48 + d)

/-- The decimal digits of `n` in front of `acc`, most significant first;
`fuel` bounds the number of digits. -/
def natDigits : Nat → Nat → List Char → List Char
  | 0, _, acc => acc
  | fuel + 1, n, acc =>
      if n / 10 = 0 then digitChar (n % 10) :: acc
      else natDigits fuel (n / 10) (digitChar (n % 10) :: acc)

/-- `std::to_string` of an `int`: decimal digits without leading zeros, with a
minus sign in front of a negative number. -/
def to_string (v : Int) : List Char :=
  if v < 0 then '-' :: natDigits (v.natAbs + 1) v.natAbs []
  else natDigits (v.natAbs + 1) v.natAbs []

/-- The text `strtol`/`strtoull` convert in base 10: behind leading white
space an optional sign, then the longest run of digits.  Returns whether the
sign is a minus, and the digits. -/
def numeral (s : List Char) : Bool × List Char :=
  match s.dropWhile isSpace with
  | '-' :: r => (true, r.takeWhile isDigit)
  | '+' :: r => (false, r.takeWhile isDigit)
  | r => (false, r.takeWhile isDigit)

/-- `std::stoi(input)`: `std::invalid_argument` when there is no digit to
convert, `std::out_of_range` when the number does not fit an `int`; text
behind the digits is not looked at. -/
def stoi (s : List Char) : Except Err Int :=
  match numeral s with
  | (_, []) => .error .invalidArgument
  | (neg, ds) =>
      let v : Int := if neg then -(parseDigits 0 ds : Int) else (parseDigits 0 ds : Int)
      if v < -2147483648 ∨ 2147483647 < v then .error .outOfRange else .ok v

/-- `std::stoull(input)`: as `std::stoi` for `unsigned long long`; a number
with a minus sign is negated in the unsigned type. -/
def stoull (s : List Char) : Except Err Nat :=
  match numeral s with
  | (_, []) => .error .invalidArgument
  | (neg, ds) =>
      if 18446744073709551615 < parseDigits 0 ds then .error .outOfRange
      else if neg then .ok ((18446744073709551616 - parseDigits 0 ds) % 18446744073709551616)
      else .ok (parseDigits 0 ds)

/-- `Value::TypeValidation`. -/
inductive TypeValidation where
  | kDate
  | kCoin
  | kTTL
  deriving Repr, DecidableEq

/-- `Value::ValidateNumber`: every exception of `std::stoi` and every
rejected number ends as `std::invalid_argument`; the result is the number
printed again. -/
def ValidateNumber (input : List Char) (type : TypeValidation) : Except Err (List Char) :=
  match stoi input with
  | .error _ => .error .invalidArgument
  | .ok value =>
      if type = .kDate ∧ ((to_string value).length ≠ 4 ∨ value < 0) then
        .error .invalidArgument
      else if type = .kCoin ∧ value < 0 then .error .invalidArgument
      else if type = .kTTL ∧ value < 0 then .error .invalidArgument
      else .ok (to_string value)

/-- `ss >> field` on the rest `s` of the stream: leading white space is
skipped, the field runs up to the next white space or the end.  `none` when
no character is left to extract (the stream fails); else the field and the
rest of the stream.  The stream is at end-of-file after the extraction
exactly when the rest is empty. -/
def readToken (s : List Char) : Option (List Char × List Char) :=
  match s.dropWhile isSpace with
  | [] => none
  | c :: r =>
      some ((c :: r).takeWhile (fun x => !isSpace x), (c :: r).dropWhile (fun x => !isSpace x))

/-- The tuple `ParseValueFields` returns. -/
structure Fields where
  last_name : List Char
  first_name : List Char
  birth_year : List Char
  city : List Char
  coins : List Char
  ttl : Option (List Char)
  deriving Repr, DecidableEq

/-- `Value::ParseValueFields`: five fields are required; when the stream is
not at end-of-file behind the fifth, a sixth extraction is made, and the
stream has to be at end-of-file after it (a failed extraction, with only
white space left, also ends there and leaves the empty string as sixth
field). -/
def ParseValueFields (s : List Char) : Except Err Fields :=
  match readToken s with
  | none => .error .invalidArgument
  | some (last_name, r1) =>
  match readToken r1 with
  | none => .error .invalidArgument
  | some (first_name, r2) =>
  match readToken r2 with
  | none => .error .invalidArgument
  | some (birth_year, r3) =>
  match readToken r3 with
  | none => .error .invalidArgument
  | some (city, r4) =>
  match readToken r4 with
  | none => .error .invalidArgument
  | some (coins, r5) =>
      match r5 with
      | [] => .ok ⟨last_name, first_name, birth_year, city, coins, none⟩
      | _ :: _ =>
          match readToken r5 with
          | none => .ok ⟨last_name, first_name, birth_year, city, coins, some []⟩
          | some (ttl, []) => .ok ⟨last_name, first_name, birth_year, city, coins, some ttl⟩
          | some (_, _ :: _) => .error .invalidArgument

/-- The members of `Value`; `creation_time` is the `time_point` as a count
of clock ticks. -/
structure Value where
  last_name : List Char
  first_name : List Char
  birth_year : List Char
  city : List Char
  coins : List Char
  ttl : Option (List Char)
  creation_time : Int
  deriving Repr, DecidableEq

/-- The constructor of `Value`, at the clock reading `now`. -/
def Value.new (last_name first_name birth_year city coins : List Char)
    (ttl : Option (List Char)) (now : Int) : Except Err Value := do
  let year ← ValidateNumber birth_year .kDate
  let coin ← ValidateNumber coins .kCoin
  let t ← match ttl with
    | some x => (ValidateNumber x .kTTL).map some
    | none => pure none
  pure { last_name := last_name, first_name := first_name, birth_year := year, city := city,
         coins := coin, ttl := t, creation_time := now }

/-- The sentinel `"-"`. -/
def dash : List Char := ['-']

/-- `Value::Update`: the object after the call, and whether the call returned
or threw.  The members are assigned one after the other, each behind its own
test; `ValidateNumber` throws between the assignments. -/
def Value.Update (v : Value) (s : List Char) : Value × Except Err Unit :=
  match ParseValueFields s with
  | .error e => (v, .error e)
  | .ok f =>
      let v1 := if f.last_name ≠ dash then { v with last_name := f.last_name } else v
      let v2 := if f.first_name ≠ dash then { v1 with first_name := f.first_name } else v1
      match (if f.birth_year ≠ dash then
          (ValidateNumber f.birth_year .kDate).map (fun y => { v2 with birth_year := y })
        else .ok v2) with
      | .error e => (v2, .error e)
      | .ok v3 =>
          let v4 := if f.city ≠ dash then { v3 with city := f.city } else v3
          match (if f.coins ≠ dash then
              (ValidateNumber f.coins .kCoin).map (fun c => { v4 with coins := c })
            else .ok v4) with
          | .error e => (v4, .error e)
          | .ok v5 =>
              match f.ttl with
              | none => (v5, .ok ())
              | some t =>
                  if t ≠ dash then
                    match ValidateNumber t .kTTL with
                    | .error e => (v5, .error e)
                    | .ok t1 => ({ v5 with ttl := some t1 }, .ok ())
                  else (v5, .ok ())

/-- `Value::CalculateElapsedTime` at the clock reading `now`, for a clock of
`tps` ticks per second: the difference of the two readings in whole seconds
(`duration_cast` truncates towards zero), converted to `std::size_t`. -/
def Value.CalculateElapsedTime (tps : Nat) (v : Value) (now : Int) : Nat :=
  (Int.tdiv (now - v.creation_time) tps % 18446744073709551616).toNat

/-- `Value::TTL`. -/
def Value.TTL (tps : Nat) (v : Value) (now : Int) : Except Err (Option Nat) :=
  match v.ttl with
  | none => .ok none
  | some t => do
      let elapsed_seconds := v.CalculateElapsedTime tps now
      let ttl_seconds ← stoull t
      if elapsed_seconds ≥ ttl_seconds then pure (some 0)
      else pure (some (ttl_seconds - elapsed_seconds))

/-- `Value::IsExpired`. -/
def Value.IsExpired (tps : Nat) (v : Value) (now : Int) : Except Err Bool :=
  match v.ttl with
  | none => .ok false
  | some t => do
      let elapsed_seconds := v.CalculateElapsedTime tps now
      let ttl_seconds ← stoull t
      pure (decide (elapsed_seconds ≥ ttl_seconds))

/-- `Value::Match`: the five tests are evaluated left to right and the
evaluation stops at the first one that fails, so that `ValidateNumber` is
only called (and only throws) when the tests before it hold. -/
def Value.Match (v : Value) (q : List Char) : Except Err Bool :=
  match ParseValueFields q with
  | .error e => .error e
  | .ok f =>
      if ¬ (f.last_name = dash ∨ f.last_name = v.last_name) then .ok false
      else if ¬ (f.first_name = dash ∨ f.first_name = v.first_name) then .ok false
      else
        match (if f.birth_year = dash then .ok true
          else (ValidateNumber f.birth_year .kDate).map (fun y => decide (y = v.birth_year))) with
        | .error e => .error e
        | .ok false => .ok false
        | .ok true =>
            if ¬ (f.city = dash ∨ f.city = v.city) then .ok false
            else if f.coins = dash then .ok true
            else (ValidateNumber f.coins .kCoin).map (fun c => decide (c = v.coins))

/-- A field: at least one character, none of them white space. -/
@[reducible] def IsField (a : List Char) : Prop := a ≠ [] ∧ ∀ c ∈ a, isSpace c = false

/-- A (possibly empty) run of white space. -/
@[reducible] def IsBlank (w : List Char) : Prop := ∀ c ∈ w, isSpace c = true

/-- `FieldsOf s fs`: the text `s` consists of the fields `fs` in this order,
each behind a run of white space that is not empty between two fields, and
ends with the last field. -/
inductive FieldsOf : List Char → List (List Char) → Prop where
  | last (w a : List Char) : IsBlank w → IsField a → FieldsOf (w ++ a) [a]
  | more (w a rest : List Char) (fs : List (List Char)) :
      IsBlank w → IsField a → (∃ c r, rest = c :: r ∧ isSpace c = true) →
      FieldsOf rest fs → FieldsOf (w ++ a ++ rest) (a :: fs)

/-- A record without TTL, created at clock reading 0. -/
def sampleRecord : Value :=
  ⟨"Ivanov".toList, "Ivan".toList, "2000".toList, "Moscow".toList, "55".toList, none, 0⟩

/-- The same record with a TTL of ten seconds. -/
def timedRecord : Value :=
  ⟨"Ivanov".toList, "Ivan".toList, "2000".toList, "Moscow".toList, "55".toList,
    some "10".toList, 0⟩

/-- The stored TTL text, if any, is one `std::stoull` converts, as every
text that `ValidateNumber` returned is: `TTL()` does not throw. -/
def Value.ttlReadable (v : Value) : Bool :=
  match v.ttl with
  | none => true
  | some t =>
      match stoull t with
      | .ok _ => true
      | .error _ => false

/-- The call returned true. -/
def holds (r : Except Err Bool) : Bool :=
  match r with
  | .ok true => true
  | _ => false

/-- The call `TTL()` returned zero (`TTL() == 0u`). -/
def ttlZero (r : Except Err (Option Nat)) : Bool :=
  match r with
  | .ok (some 0) => true
  | _ => false

/-- A query or update text whose fields `ParseValueFields` accepts and
whose year and coins fields are the sentinel or pass `ValidateNumber`. -/
def wellFormed (q : List Char) : Bool :=
  match ParseValueFields q with
  | .error _ => false
  | .ok f =>
      (match ValidateNumber f.birth_year .kDate with
        | .ok _ => true
        | .error _ => decide (f.birth_year = dash)) &&
      (match ValidateNumber f.coins .kCoin with
        | .ok _ => true
        | .error _ => decide (f.coins = dash))

end Val

namespace HT
variable {K V : Type}

/-! ### Operations of the hash table on its records -/

/-- The record of the first node of the chain with this key is replaced. -/
def setValue {V : Type} [DecidableEq K] (key : K) (value : V) : List (K × V) → List (K × V)
  | [] => []
  | n :: rest => if n.1 = key then (key, value) :: rest else n :: setValue key value rest

/-- `HashTable::Update`: `false` for a key that is not stored; else
`node->value.Update(new_value)` works on the record inside the node, so the
table holds the record as `Value::Update` left it, whether it returned or
threw. -/
def Update [DecidableEq K] (hash : K → Nat) (t : HashTable K Val.Value) (key : K)
    (new_value : List Char) : HashTable K Val.Value × Except Val.Err Bool :=
  match FindNode hash t key with
  | none => (t, .ok false)
  | some node =>
      let r := node.2.Update new_value
      let index := HashFunction hash t key
      ({ t with table := t.table.set index (setValue key r.1 (bucket t index)) },
        r.2.map (fun _ => true))

/-- `Set` of the listed keys with their records, one after the other: the
results, and the table after the last one. -/
def SetAll [DecidableEq K] (hash : K → Nat) (t : HashTable K V) :
    List (K × V) → List Bool × HashTable K V
  | [] => ([], t)
  | n :: rest =>
      let r := Set hash t n.1 n.2
      let r2 := SetAll hash r.2 rest
      (r.1 :: r2.1, r2.2)

/-- Capacity of a table of default capacity after `n` inserts of new keys. -/
def capacityAfter (n : Nat) : Nat :=
  if n ≤ 192 then 256 else if n ≤ 384 then 512 else if n ≤ 768 then 1024 else 2048

/-- Table over natural-number keys hashed by themselves that holds one
record, created at clock reading 0, under the key 1. -/
def oneRecord : HashTable Nat Val.Value :=
  (Set id (HashTable.new 0) 1 Val.sampleRecord).2

end HT

namespace AVL
variable {K : Type}

/-! ### Operations of the AVL tree on its records -/

/-- The loop of `Find`: the keys at the positions whose record matches, in
the order of the positions; an exception of `Match` ends the loop. -/
def findLoop (q : List Char) : List (K × Val.Value) → Except Val.Err (List K)
  | [] => .ok []
  | n :: rest =>
      match n.2.Match q with
      | .error e => .error e
      | .ok b =>
          match findLoop q rest with
          | .error e => .error e
          | .ok ks => .ok (if b then n.1 :: ks else ks)

/-- `Find`: `Keys()` and `ShowAll()` are taken, then the loop runs over
their positions. -/
def Find (root : AVLNode K Val.Value) (q : List Char) : Except Val.Err (List K) :=
  findLoop q (List.zip (Keys root) (ShowAll root))

/-- The loop of `DeleteExpiredElements` over the keys and records taken
before it: a key whose record has `TTL() == 0` is deleted from the current
tree by `DeletHelper`.  All `TTL()` calls read the clock at `now`. -/
def expireLoop [LinearOrder K] (tps : Nat) (now : Int) :
    List (K × Val.Value) → AVLNode K Val.Value → Except Val.Err (AVLNode K Val.Value)
  | [], root => .ok root
  | n :: rest, root =>
      match n.2.TTL tps now with
      | .error e => .error e
      | .ok r => expireLoop tps now rest (if r = some 0 then DeletHelper root n.1 else root)

/-- `DeleteExpiredElements`: the store after the call (after an exception of
`TTL()` the store is not described). -/
def DeleteExpiredElements [LinearOrder K] (tps : Nat) (now : Int) (root : AVLNode K Val.Value) :
    Except Val.Err (AVLNode K Val.Value) :=
  expireLoop tps now (List.zip (Keys root) (ShowAll root)) root

/-- Store of three records over natural-number keys: the keys 1 and 3 hold
a record without TTL, the key 2 a record with a TTL of ten seconds, all
created at clock reading 0. -/
def recordStore : AVLNode Nat Val.Value :=
  (Set (Set (Set .nil 2 Val.timedRecord).2 1 Val.sampleRecord).2 3
    ⟨"Petrov".toList, "Petr".toList, "1999".toList, "Kazan".toList, "7".toList, none, 0⟩).2

end AVL

namespace Val

/-! ### The text format of `Export` and `Upload` -/

end Val

namespace AVL

end AVL

namespace HT

end HT

namespace BPT

/-! ### `Export` and `Upload` of the B+ tree -/

end BPT

namespace Val

/-! ### Numbers as text -/

theorem digitChar_toNat (d : Nat) (h : d < 10) : (digitChar d).toNat = 48 + d := by
  interval_cases d <;> rfl

theorem digitChar_isDigit (d : Nat) (h : d < 10) : isDigit (digitChar d) = true := by
  interval_cases d <;> rfl

theorem digitChar_isSpace (d : Nat) (h : d < 10) : isSpace (digitChar d) = false := by
  interval_cases d <;> rfl

theorem digitChar_ne_sign (d : Nat) (h : d < 10) : digitChar d ≠ '-' ∧ digitChar d ≠ '+' := by
  interval_cases d <;> exact ⟨by decide, by decide⟩

theorem parseDigits_append (a : Nat) (l m : List Char) :
    parseDigits a (l ++ m) = parseDigits (parseDigits a l) m := by
  induction l generalizing a with
  | nil => rfl
  | cons c l ih => exact ih _

theorem parseDigits_single (a d : Nat) (h : d < 10) :
    parseDigits a [digitChar d] = a * 10 + d := by
  show parseDigits (a * 10 + ((digitChar d).toNat - 48)) [] = a * 10 + d
  rw [digitChar_toNat d h]
  show a * 10 + (48 + d - 48) = a * 10 + d
  omega

/-- The digits `natDigits` puts in front of `acc` are decimal digits that
read back as the number. -/
theorem natDigits_spec (fuel : Nat) : ∀ (n : Nat) (acc : List Char), n < fuel →
    ∃ ds, natDigits fuel n acc = ds ++ acc ∧ ds ≠ [] ∧
      (∀ c ∈ ds, ∃ d, d < 10 ∧ c = digitChar d) ∧
      ∀ a, parseDigits a ds = a * 10 ^ ds.length + n := by
  induction fuel with
  | zero =>
    intro n acc h
    omega
  | succ fuel ih =>
    intro n acc h
    unfold natDigits
    by_cases c : n / 10 = 0
    · rw [if_pos c]
      refine ⟨[digitChar (n % 10)], rfl, by simp, ?_, ?_⟩
      · intro x hx
        rw [List.mem_singleton] at hx
        exact ⟨n % 10, Nat.mod_lt _ (by decide), hx⟩
      · intro a
        rw [parseDigits_single a _ (Nat.mod_lt n (by decide)), List.length_singleton, pow_one]
        omega
    · rw [if_neg c]
      obtain ⟨ds, h1, h2, h3, h4⟩ := ih (n / 10) (digitChar (n % 10) :: acc) (by omega)
      refine ⟨ds ++ [digitChar (n % 10)], by rw [h1]; simp, by simp, ?_, ?_⟩
      · intro x hx
        rcases List.mem_append.1 hx with hx | hx
        · exact h3 x hx
        · rw [List.mem_singleton] at hx
          exact ⟨n % 10, Nat.mod_lt _ (by decide), hx⟩
      · intro a
        rw [parseDigits_append, h4 a, parseDigits_single _ _ (Nat.mod_lt n (by decide)),
          List.length_append, List.length_singleton, pow_succ]
        have := Nat.div_add_mod n 10
        generalize 10 ^ ds.length = P at *
        nlinarith [Nat.div_add_mod n 10]

theorem dropWhile_all {α : Type} (p : α → Bool) (l : List α) (h : ∀ c ∈ l, p c = false)
    : l.dropWhile p = l := by
  cases l with
  | nil => rfl
  | cons c l =>
    rw [List.dropWhile_cons, h c (List.mem_cons_self _ _)]
    rfl

theorem takeWhile_all {α : Type} (p : α → Bool) (l : List α) (h : ∀ c ∈ l, p c = true) :
    l.takeWhile p = l := by
  induction l with
  | nil => rfl
  | cons c l ih =>
    rw [List.takeWhile_cons, h c (List.mem_cons_self _ _)]
    simp only [if_true]
    rw [ih (fun x hx => h x (List.mem_cons_of_mem _ hx))]

/-- `std::stoull` reads back what `std::to_string` printed for a number that
is not negative. -/
theorem stoull_to_string (n : Nat) (h : n ≤ 2147483647) : stoull (to_string (n : Int)) = .ok n := by
  obtain ⟨ds, h1, h2, h3, h4⟩ := natDigits_spec (n + 1) n [] (Nat.lt_succ_self n)
  have hts : to_string (n : Int) = ds := by
    unfold to_string
    rw [if_neg (by omega), Int.natAbs_ofNat, h1, List.append_nil]
  rw [hts]
  have hnum : numeral ds = (false, ds) := by
    unfold numeral
    rw [dropWhile_all isSpace ds (fun c hc => by
      obtain ⟨d, hd, rfl⟩ := h3 c hc
      exact digitChar_isSpace d hd)]
    have htw := takeWhile_all isDigit ds (fun c hc => by
      obtain ⟨d, hd, rfl⟩ := h3 c hc
      exact digitChar_isDigit d hd)
    match ds, h2, h3, htw with
    | c :: r, _, h3, htw =>
      obtain ⟨d, hd, hc⟩ := h3 c (List.mem_cons_self _ _)
      have hs := digitChar_ne_sign d hd
      rw [← hc] at hs
      split
      · rename_i heq
        cases heq
        exact absurd rfl hs.1
      · rename_i heq
        cases heq
        exact absurd rfl hs.2
      · rename_i heq _ _
        rw [htw]
  have hval := h4 0
  simp only [Nat.zero_mul, Nat.zero_add] at hval
  unfold stoull
  rw [hnum]
  match ds, h2 with
  | c :: r, _ =>
    simp only
    rw [hval, if_neg (by omega)]
    simp

/-! ### Fields of a text -/

theorem dropWhile_append_all {α : Type} (p : α → Bool) (w l : List α)
    (h : ∀ c ∈ w, p c = true) : (w ++ l).dropWhile p = l.dropWhile p := by
  induction w with
  | nil => rfl
  | cons c w ih =>
    rw [List.cons_append, List.dropWhile_cons, h c (List.mem_cons_self _ _)]
    exact ih (fun x hx => h x (List.mem_cons_of_mem _ hx))

theorem takeWhile_append_stop {α : Type} (p : α → Bool) (a rest : List α)
    (h : ∀ c ∈ a, p c = true) (hr : rest = [] ∨ ∃ c r, rest = c :: r ∧ p c = false) :
    (a ++ rest).takeWhile p = a ∧ (a ++ rest).dropWhile p = rest := by
  induction a with
  | nil =>
    rcases hr with rfl | ⟨c, r, rfl, hc⟩
    · exact ⟨rfl, rfl⟩
    · constructor
      · rw [List.nil_append, List.takeWhile_cons, hc]
        rfl
      · rw [List.nil_append, List.dropWhile_cons, hc]
        rfl
  | cons c a ih =>
    have hc := h c (List.mem_cons_self _ _)
    obtain ⟨i1, i2⟩ := ih (fun x hx => h x (List.mem_cons_of_mem _ hx))
    constructor
    · rw [List.cons_append, List.takeWhile_cons, hc]
      simp only [if_true]
      rw [i1]
    · rw [List.cons_append, List.dropWhile_cons, hc]
      exact i2

/-- Reading one field: the white space in front is skipped, the field is
returned, the stream stands behind it. -/
theorem readToken_field (w a rest : List Char) (hw : IsBlank w) (ha : IsField a)
    (hr : rest = [] ∨ ∃ c r, rest = c :: r ∧ isSpace c = true) :
    readToken (w ++ a ++ rest) = some (a, rest) := by
  obtain ⟨hne, hall⟩ := ha
  unfold readToken
  rw [List.append_assoc, dropWhile_append_all isSpace w _ hw]
  match a, hne, hall with
  | c :: a, _, hall =>
    have hc := hall c (List.mem_cons_self _ _)
    rw [List.cons_append, List.dropWhile_cons, hc]
    simp only [Bool.false_eq_true, if_false]
    obtain ⟨h1, h2⟩ := takeWhile_append_stop (fun x => !isSpace x) (c :: a) rest
      (fun x hx => by simp [hall x hx])
      (by
        rcases hr with h | ⟨x, r, h, hx⟩
        · exact Or.inl h
        · exact Or.inr ⟨x, r, h, by simp [hx]⟩)
    rw [List.cons_append] at h1 h2
    rw [h1, h2]

/-- The first field of a text made of fields, and what is left behind it. -/
theorem readToken_fieldsOf (s a : List Char) (fs : List (List Char)) (h : FieldsOf s (a :: fs)) :
    ∃ rest, readToken s = some (a, rest) ∧ (fs = [] → rest = []) ∧
      (fs ≠ [] → FieldsOf rest fs ∧ rest ≠ []) := by
  cases h with
  | last w a hw ha =>
    refine ⟨[], ?_, fun _ => rfl, fun h => absurd rfl h⟩
    have := readToken_field w a [] hw ha (Or.inl rfl)
    rw [List.append_nil] at this
    exact this
  | more w a rest fs hw ha hr hf =>
    refine ⟨rest, readToken_field w a rest hw ha (Or.inr hr), ?_, ?_⟩
    · intro h
      subst h
      cases hf
    · intro _
      obtain ⟨c, r, rfl, _⟩ := hr
      exact ⟨hf, by simp⟩

/-- A text of white space only has no field to read. -/
theorem fieldsOf_ne_nil (s : List Char) (fs : List (List Char)) (h : FieldsOf s fs) : fs ≠ [] := by
  cases h <;> simp

/-- Five fields are parsed as the five fields, without a TTL. -/
theorem parse_five (s a b c d e : List Char) (h : FieldsOf s [a, b, c, d, e]) :
    ParseValueFields s = .ok ⟨a, b, c, d, e, none⟩ := by
  obtain ⟨r1, h1, _, k1⟩ := readToken_fieldsOf s a _ h
  obtain ⟨r2, h2, _, k2⟩ := readToken_fieldsOf r1 b _ (k1 (by simp)).1
  obtain ⟨r3, h3, _, k3⟩ := readToken_fieldsOf r2 c _ (k2 (by simp)).1
  obtain ⟨r4, h4, _, k4⟩ := readToken_fieldsOf r3 d _ (k3 (by simp)).1
  obtain ⟨r5, h5, k5, _⟩ := readToken_fieldsOf r4 e _ (k4 (by simp)).1
  have := k5 rfl
  subst this
  unfold ParseValueFields
  simp only [h1, h2, h3, h4, h5]

/-- Six fields are parsed as the five fields and the TTL. -/
theorem parse_six (s a b c d e t : List Char) (h : FieldsOf s [a, b, c, d, e, t]) :
    ParseValueFields s = .ok ⟨a, b, c, d, e, some t⟩ := by
  obtain ⟨r1, h1, _, k1⟩ := readToken_fieldsOf s a _ h
  obtain ⟨r2, h2, _, k2⟩ := readToken_fieldsOf r1 b _ (k1 (by simp)).1
  obtain ⟨r3, h3, _, k3⟩ := readToken_fieldsOf r2 c _ (k2 (by simp)).1
  obtain ⟨r4, h4, _, k4⟩ := readToken_fieldsOf r3 d _ (k3 (by simp)).1
  obtain ⟨r5, h5, _, k5⟩ := readToken_fieldsOf r4 e _ (k4 (by simp)).1
  obtain ⟨r6, h6, k6, _⟩ := readToken_fieldsOf r5 t _ (k5 (by simp)).1
  have := k6 rfl
  subst this
  have hne := (k5 (by simp)).2
  unfold ParseValueFields
  simp only [h1, h2, h3, h4, h5]
  match r5, hne, h6 with
  | x :: r, _, h6 =>
    simp only [h6]

/-! ### `Match` -/

/-- What `Match` computes from the parsed fields. -/
theorem match_parsed (v : Value) (q : List Char) (f : Fields)
    (hp : ParseValueFields q = .ok f) :
    v.Match q = .ok true ↔
      (f.last_name = dash ∨ f.last_name = v.last_name) ∧
      (f.first_name = dash ∨ f.first_name = v.first_name) ∧
      (f.birth_year = dash ∨ ValidateNumber f.birth_year .kDate = .ok v.birth_year) ∧
      (f.city = dash ∨ f.city = v.city) ∧
      (f.coins = dash ∨ ValidateNumber f.coins .kCoin = .ok v.coins) := by
  unfold Value.Match
  rw [hp]
  simp only
  by_cases h1 : f.last_name = dash ∨ f.last_name = v.last_name
  swap
  · rw [if_pos h1]
    constructor
    · intro h
      cases h
    · intro h
      exact absurd h.1 h1
  rw [if_neg (not_not.2 h1)]
  by_cases h2 : f.first_name = dash ∨ f.first_name = v.first_name
  swap
  · rw [if_pos h2]
    constructor
    · intro h
      cases h
    · intro h
      exact absurd h.2.1 h2
  rw [if_neg (not_not.2 h2)]
  have rest : ((if ¬ (f.city = dash ∨ f.city = v.city) then (Except.ok false : Except Err Bool)
        else if f.coins = dash then .ok true
        else (ValidateNumber f.coins .kCoin).map (fun c => decide (c = v.coins))) = .ok true ↔
      (f.city = dash ∨ f.city = v.city) ∧
        (f.coins = dash ∨ ValidateNumber f.coins .kCoin = .ok v.coins)) := by
    by_cases h4 : f.city = dash ∨ f.city = v.city
    swap
    · rw [if_pos h4]
      constructor
      · intro h
        cases h
      · intro h
        exact absurd h.1 h4
    rw [if_neg (not_not.2 h4)]
    by_cases h5 : f.coins = dash
    · rw [if_pos h5]
      exact ⟨fun _ => ⟨h4, Or.inl h5⟩, fun _ => rfl⟩
    rw [if_neg h5]
    cases hv : ValidateNumber f.coins .kCoin with
    | error e =>
      constructor
      · intro h
        cases h
      · intro h
        rcases h.2 with h | h
        · exact absurd h h5
        · cases h
    | ok c =>
      show Except.ok (decide (c = v.coins)) = Except.ok true ↔ _
      constructor
      · intro h
        have h6 : decide (c = v.coins) = true := by
          injection h
        rw [of_decide_eq_true h6]
        exact ⟨h4, Or.inr rfl⟩
      · intro h
        rcases h.2 with h | h
        · exact absurd h h5
        · injection h with h
          rw [h]
          simp
  by_cases h3 : f.birth_year = dash
  · rw [if_pos h3]
    simp only
    rw [rest]
    constructor
    · intro h
      exact ⟨h1, h2, Or.inl h3, h⟩
    · intro h
      exact h.2.2.2
  rw [if_neg h3]
  cases hv : ValidateNumber f.birth_year .kDate with
  | error e =>
    show (Except.error e : Except Err Bool) = .ok true ↔ _
    constructor
    · intro h
      cases h
    · intro h
      rcases h.2.2.1 with h | h
      · exact absurd h h3
      · cases h
  | ok y =>
    by_cases h6 : y = v.birth_year
    · have hd : (Except.map (fun y => decide (y = v.birth_year)) (Except.ok y) : Except Err Bool)
          = .ok true := by
        show Except.ok (decide (y = v.birth_year)) = _
        rw [decide_eq_true h6]
      rw [hd]
      simp only
      rw [rest]
      constructor
      · intro h
        exact ⟨h1, h2, Or.inr (by rw [h6]), h⟩
      · intro h
        exact h.2.2.2
    · have hd : (Except.map (fun y => decide (y = v.birth_year)) (Except.ok y) : Except Err Bool)
          = .ok false := by
        show Except.ok (decide (y = v.birth_year)) = _
        rw [decide_eq_false h6]
      rw [hd]
      simp only
      constructor
      · intro h
        cases h
      · intro h
        rcases h.2.2.1 with h | h
        · exact absurd h h3
        · injection h with h
          exact absurd h h6

/-- A well-formed query never makes `Match` throw. -/
theorem match_total (v : Value) (q : List Char) (hq : wellFormed q = true) :
    ∃ b, v.Match q = .ok b := by
  unfold wellFormed at hq
  unfold Value.Match
  cases hp : ParseValueFields q with
  | error e =>
    rw [hp] at hq
    cases hq
  | ok f =>
    rw [hp] at hq
    simp only [Bool.and_eq_true] at hq ⊢
    obtain ⟨hy, hc⟩ := hq
    have tailOk : ∃ b, (if ¬ (f.city = dash ∨ f.city = v.city) then (Except.ok false : Except Err Bool)
        else if f.coins = dash then .ok true
        else (ValidateNumber f.coins .kCoin).map (fun c => decide (c = v.coins))) = .ok b := by
      split
      · exact ⟨_, rfl⟩
      · split
        · exact ⟨_, rfl⟩
        · rename_i h5
          cases hv : ValidateNumber f.coins .kCoin with
          | error e =>
            rw [hv] at hc
            simp only [decide_eq_true_eq] at hc
            exact absurd hc h5
          | ok c => exact ⟨_, rfl⟩
    split
    · exact ⟨_, rfl⟩
    · split
      · exact ⟨_, rfl⟩
      · by_cases h3 : f.birth_year = dash
        · rw [if_pos h3]
          exact tailOk
        · rw [if_neg h3]
          cases hv : ValidateNumber f.birth_year .kDate with
          | error e =>
            rw [hv] at hy
            simp only [decide_eq_true_eq] at hy
            exact absurd hy h3
          | ok y =>
            by_cases h6 : y = v.birth_year
            · have hd : (Except.map (fun y => decide (y = v.birth_year)) (Except.ok y) :
                  Except Err Bool) = .ok true := by
                show Except.ok (decide (y = v.birth_year)) = _
                rw [decide_eq_true h6]
              rw [hd]
              exact tailOk
            · have hd : (Except.map (fun y => decide (y = v.birth_year)) (Except.ok y) :
                  Except Err Bool) = .ok false := by
                show Except.ok (decide (y = v.birth_year)) = _
                rw [decide_eq_false h6]
              rw [hd]
              exact ⟨_, rfl⟩

end Val

namespace Val

/-! ### The record type: claims -/

/-- A number `std::stoi` returns fits an `int`. -/
theorem stoi_range (s : List Char) (v : Int) (h : stoi s = .ok v) :
    -2147483648 ≤ v ∧ v ≤ 2147483647 := by
  unfold stoi at h
  split at h
  · cases h
  · rename_i neg ds _ _
    simp only at h
    generalize (if neg = true then -(parseDigits 0 ds : Int) else (parseDigits 0 ds : Int)) = w at h
    by_cases hb : w < -2147483648 ∨ 2147483647 < w
    · rw [if_pos hb] at h
      cases h
    · rw [if_neg hb] at h
      injection h with h
      omega

/-- The constructor keeps the creation time and stores the TTL text
normalised: the text of a number that is not negative, or nothing. -/
theorem new_ttl (ln fn yr city coins : List Char) (ttl : Option (List Char)) (created : Int)
    (v : Value) (h : Value.new ln fn yr city coins ttl created = .ok v) :
    v.creation_time = created ∧
    (ttl = none → v.ttl = none) ∧
    (∀ x, ttl = some x → ∃ t : Nat, t ≤ 2147483647 ∧ stoi x = .ok (t : Int) ∧
      v.ttl = some (to_string (t : Int))) := by
  unfold Value.new at h
  cases hy : ValidateNumber yr .kDate with
  | error e =>
    rw [hy] at h
    cases h
  | ok y =>
  cases hc : ValidateNumber coins .kCoin with
  | error e =>
    rw [hy, hc] at h
    cases h
  | ok c =>
    rw [hy, hc] at h
    cases ttl with
    | none =>
      have h2 : (Except.ok ⟨ln, fn, y, city, c, none, created⟩ : Except Err Value) = .ok v := h
      injection h2 with h2
      subst h2
      exact ⟨rfl, fun _ => rfl, fun x hx => (by cases hx)⟩
    | some x =>
      cases ht : ValidateNumber x .kTTL with
      | error e =>
        simp only [ht] at h
        cases h
      | ok t1 =>
        simp only [ht] at h
        have h2 : (Except.ok ⟨ln, fn, y, city, c, some t1, created⟩ : Except Err Value) = .ok v := h
        injection h2 with h2
        subst h2
        refine ⟨rfl, fun hx => (by cases hx), ?_⟩
        intro x2 hx
        cases hx
        unfold ValidateNumber at ht
        cases hs : stoi x with
        | error e =>
          rw [hs] at ht
          cases ht
        | ok value =>
          rw [hs] at ht
          simp only [reduceCtorEq, false_and, if_false, true_and] at ht
          by_cases hneg : value < 0
          · rw [if_pos hneg] at ht
            cases ht
          · rw [if_neg hneg] at ht
            injection ht with ht
            have hr : value ≤ 2147483647 := (stoi_range x value hs).2
            refine ⟨value.toNat, by omega, ?_, ?_⟩
            · rw [Int.toNat_of_nonneg (by omega)]
            · rw [Int.toNat_of_nonneg (by omega), ht]

/-- The constructor leaves a TTL text that `TTL()` can read. -/
theorem new_readable (ln fn yr city coins : List Char) (ttl : Option (List Char)) (created : Int)
    (v : Value) (h : Value.new ln fn yr city coins ttl created = .ok v) :
    v.ttlReadable = true := by
  obtain ⟨_, hn, hs⟩ := new_ttl ln fn yr city coins ttl created v h
  unfold Value.ttlReadable
  cases ttl with
  | none => rw [hn rfl]
  | some x =>
    obtain ⟨t, ht, _, hv⟩ := hs x rfl
    rw [hv]
    simp only [stoull_to_string t ht]

/-- What `ValidateNumber` returns for a TTL text is the text of a number
that is not negative and fits an `int`. -/
theorem validate_ttl (x t1 : List Char) (ht : ValidateNumber x .kTTL = .ok t1) :
    ∃ t : Nat, t ≤ 2147483647 ∧ t1 = to_string (t : Int) := by
  unfold ValidateNumber at ht
  cases hs : stoi x with
  | error e =>
    rw [hs] at ht
    cases ht
  | ok value =>
    rw [hs] at ht
    simp only [reduceCtorEq, false_and, if_false, true_and] at ht
    by_cases hneg : value < 0
    · rw [if_pos hneg] at ht
      cases ht
    · rw [if_neg hneg] at ht
      injection ht with ht
      have hr : value ≤ 2147483647 := (stoi_range x value hs).2
      exact ⟨value.toNat, by omega, by rw [Int.toNat_of_nonneg (by omega), ht]⟩

/-- `Update` leaves the TTL text as it was or sets it to a text that
`ValidateNumber` returned, whether it returns or throws. -/
theorem update_ttl (v : Value) (s : List Char) :
    (v.Update s).1.ttl = v.ttl ∨
      ∃ x t1, ValidateNumber x .kTTL = .ok t1 ∧ (v.Update s).1.ttl = some t1 := by
  unfold Value.Update
  cases hp : ParseValueFields s with
  | error e => exact Or.inl rfl
  | ok f =>
    simp only
    by_cases h1 : f.last_name = dash <;> by_cases h2 : f.first_name = dash <;>
      by_cases h3 : f.birth_year = dash <;> by_cases h4 : f.city = dash <;>
      by_cases h5 : f.coins = dash <;>
      cases hy : ValidateNumber f.birth_year .kDate <;>
      cases hc : ValidateNumber f.coins .kCoin <;>
      simp only [h1, h2, h3, h4, h5, hy, hc, Except.map, ne_eq, not_true_eq_false,
        not_false_eq_true, if_true, if_false] <;>
      first
        | exact Or.inl rfl
        | exact Or.inl trivial
        | (cases ht : f.ttl with
            | none => exact Or.inl rfl
            | some t =>
              by_cases h6 : t = dash
              · simp only [h6, ne_eq, not_true_eq_false, if_false]
                first | exact Or.inl rfl | exact Or.inl trivial
              · simp only [h6, ne_eq, not_false_eq_true, if_true]
                cases hv : ValidateNumber t .kTTL with
                | error e => exact Or.inl rfl
                | ok t1 => exact Or.inr ⟨t, t1, hv, rfl⟩)

/-- `Update` leaves a TTL text that `TTL()` can read, whether it returns or
throws. -/
theorem update_readable (v : Value) (s : List Char) (h : v.ttlReadable = true) :
    (v.Update s).1.ttlReadable = true := by
  unfold Value.ttlReadable at h ⊢
  rcases update_ttl v s with e | ⟨x, t1, hv, e⟩
  · rw [e]
    exact h
  · rw [e]
    obtain ⟨t, ht, rfl⟩ := validate_ttl x t1 hv
    simp only [stoull_to_string t ht]

/-- The whole seconds elapsed since the creation of the record. -/
theorem elapsed_eq (tps : Nat) (v : Value) (now : Int) (e : Nat) (htps : 0 < tps)
    (h1 : v.creation_time + (e : Int) * tps ≤ now)
    (h2 : now < v.creation_time + ((e : Int) + 1) * tps) (h3 : e < 18446744073709551616) :
    v.CalculateElapsedTime tps now = e := by
  unfold Value.CalculateElapsedTime
  have hd : 0 ≤ now - v.creation_time := by
    have : (0 : Int) ≤ (e : Int) * tps := by positivity
    omega
  rw [Int.tdiv_eq_ediv hd (by positivity)]
  have hq : (now - v.creation_time) / (tps : Int) = e := by
    have hpos : (0 : Int) < tps := by exact_mod_cast htps
    apply le_antisymm
    · have := (Int.ediv_lt_iff_lt_mul hpos).2 (by linarith : now - v.creation_time < ((e : Int) + 1) * tps)
      omega
    · exact (Int.le_ediv_iff_mul_le hpos).2 (by linarith)
  rw [hq, Int.emod_eq_of_lt (by positivity) (by exact_mod_cast h3)]
  rfl

/-- C27: for a record created with a TTL text that reads as the number `t`,
when `e` whole seconds have elapsed since its creation, `TTL()` returns
`t - e` if `e < t` and `0` otherwise; a record created without TTL returns
the absent value; and `IsExpired()` returns true exactly when `TTL()`
returns `0`. -/
theorem value_ttl_remaining (tps : Nat) (ln fn yr city coins : List Char)
    (ttl : Option (List Char)) (created : Int) (v : Value)
    (hv : Value.new ln fn yr city coins ttl created = .ok v)
    (now : Int) (e : Nat) (htps : 0 < tps)
    (h1 : created + (e : Int) * tps ≤ now)
    (h2 : now < created + ((e : Int) + 1) * tps) (h3 : e < 18446744073709551616) :
    (ttl = none → v.TTL tps now = .ok none) ∧
    (∀ x, ttl = some x → ∃ t : Nat, stoi x = .ok (t : Int) ∧
      v.TTL tps now = .ok (some (if e < t then t - e else 0))) ∧
    ∃ b, v.IsExpired tps now = .ok b ∧ (b = true ↔ v.TTL tps now = .ok (some 0)) := by
  obtain ⟨hc, hn, hs⟩ := new_ttl ln fn yr city coins ttl created v hv
  have he := elapsed_eq tps v now e htps (by rw [hc]; exact h1) (by rw [hc]; exact h2) h3
  cases ttl with
  | none =>
    have hvt := hn rfl
    refine ⟨fun _ => ?_, fun x hx => (by cases hx), false, ?_, ?_⟩
    · unfold Value.TTL
      rw [hvt]
    · unfold Value.IsExpired
      rw [hvt]
    · unfold Value.TTL
      rw [hvt]
      constructor
      · intro h
        cases h
      · intro h
        cases h
  | some x =>
    obtain ⟨t, ht, hst, hvt⟩ := hs x rfl
    have hull := stoull_to_string t ht
    have httl : v.TTL tps now = .ok (some (if e < t then t - e else 0)) := by
      unfold Value.TTL
      rw [hvt]
      simp only [he, hull, bind, Except.bind, pure, Except.pure]
      by_cases c : e < t
      · rw [if_neg (by omega), if_pos c]
      · rw [if_pos (by omega), if_neg c]
    have hexp : v.IsExpired tps now = .ok (decide (e ≥ t)) := by
      unfold Value.IsExpired
      rw [hvt]
      simp only [he, hull, bind, Except.bind, pure, Except.pure]
    refine ⟨fun hx => (by cases hx), ?_, decide (e ≥ t), hexp, ?_⟩
    · intro x2 hx
      cases hx
      exact ⟨t, hst, httl⟩
    · rw [httl]
      by_cases c : e < t
      · rw [if_pos c]
        constructor
        · intro h
          rw [decide_eq_true_eq] at h
          omega
        · intro h
          injection h with h
          injection h with h
          omega
      · rw [if_neg c]
        constructor
        · intro _
          rfl
        · intro _
          rw [decide_eq_true_eq]
          omega

theorem value_ttl_remaining_witness :
    Value.new "Ivanov".toList "Ivan".toList "2000".toList "Moscow".toList "55".toList
        (some " 10".toList) 0 = .ok timedRecord ∧
      timedRecord.TTL 1000 3999 = .ok (some 7) ∧
      timedRecord.TTL 1000 10000 = .ok (some 0) ∧
      (∃ b, timedRecord.IsExpired 1000 10000 = .ok b ∧
        (b = true ↔ timedRecord.TTL 1000 10000 = .ok (some 0))) :=
  have h := value_ttl_remaining 1000 "Ivanov".toList "Ivan".toList "2000".toList "Moscow".toList
    "55".toList (some " 10".toList) 0 timedRecord rfl 10000 10 (by decide) (by decide) (by decide)
    (by decide)
  ⟨rfl, rfl, rfl, h.2.2⟩

/-- The sentinel is not a number. -/
theorem validate_dash (t : TypeValidation) : ValidateNumber dash t = .error .invalidArgument := by
  cases t <;> rfl

/-- C28: for a text of five white-space separated fields whose year and
coins fields are the sentinel or valid numbers, `Update` returns normally;
every field whose text is the sentinel `"-"` keeps its old value, every
other field holds the new value (year and coins as `ValidateNumber` prints
them), and the TTL and the creation time are unchanged. -/
theorem value_update_fields (v : Value) (s a b c d e : List Char)
    (hs : FieldsOf s [a, b, c, d, e])
    (hy : c = dash ∨ ∃ y, ValidateNumber c .kDate = .ok y)
    (hc : e = dash ∨ ∃ n, ValidateNumber e .kCoin = .ok n) :
    ∃ v', v.Update s = (v', .ok ()) ∧
      v'.last_name = (if a = dash then v.last_name else a) ∧
      v'.first_name = (if b = dash then v.first_name else b) ∧
      (if c = dash then v'.birth_year = v.birth_year
        else ValidateNumber c .kDate = .ok v'.birth_year) ∧
      v'.city = (if d = dash then v.city else d) ∧
      (if e = dash then v'.coins = v.coins else ValidateNumber e .kCoin = .ok v'.coins) ∧
      v'.ttl = v.ttl ∧ v'.creation_time = v.creation_time := by
  have hp := parse_five s a b c d e hs
  unfold Value.Update
  rw [hp]
  simp only
  rcases hy with hy | ⟨y, hy⟩
  · rcases hc with hc | ⟨n, hc⟩
    · by_cases ha : a = dash <;> by_cases hb : b = dash <;> by_cases hd : d = dash <;>
        simp [ha, hb, hd, hy, hc]
    · have hne : e ≠ dash := by
        intro h
        rw [h, validate_dash] at hc
        cases hc
      by_cases ha : a = dash <;> by_cases hb : b = dash <;> by_cases hd : d = dash <;>
        simp [ha, hb, hd, hy, hc, hne, Except.map]
  · have hnc : c ≠ dash := by
      intro h
      rw [h, validate_dash] at hy
      cases hy
    rcases hc with hc | ⟨n, hc⟩
    · by_cases ha : a = dash <;> by_cases hb : b = dash <;> by_cases hd : d = dash <;>
        simp [ha, hb, hd, hy, hc, hnc, Except.map]
    · have hne : e ≠ dash := by
        intro h
        rw [h, validate_dash] at hc
        cases hc
      by_cases ha : a = dash <;> by_cases hb : b = dash <;> by_cases hd : d = dash <;>
        simp [ha, hb, hd, hy, hc, hnc, hne, Except.map]

/-- The update text `Petrov - 1999 - -` consists of five fields. -/
theorem petrov_fields : FieldsOf "Petrov - 1999 - -".toList
    ["Petrov".toList, dash, "1999".toList, dash, dash] :=
  FieldsOf.more [] "Petrov".toList " - 1999 - -".toList _ (by decide) ⟨by decide, by decide⟩
    ⟨' ', _, rfl, rfl⟩
    (FieldsOf.more [' '] dash " 1999 - -".toList _ (by decide) ⟨by decide, by decide⟩
      ⟨' ', _, rfl, rfl⟩
      (FieldsOf.more [' '] "1999".toList " - -".toList _ (by decide) ⟨by decide, by decide⟩
        ⟨' ', _, rfl, rfl⟩
        (FieldsOf.more [' '] dash " -".toList _ (by decide) ⟨by decide, by decide⟩
          ⟨' ', _, rfl, rfl⟩
          (FieldsOf.last [' '] dash (by decide) ⟨by decide, by decide⟩))))

theorem value_update_fields_witness :
    FieldsOf "Petrov - 1999 - -".toList ["Petrov".toList, dash, "1999".toList, dash, dash] ∧
    ValidateNumber "1999".toList .kDate = .ok "1999".toList ∧
    ∃ v2, timedRecord.Update "Petrov - 1999 - -".toList = (v2, .ok ()) ∧
      v2.last_name = (if "Petrov".toList = dash then timedRecord.last_name else "Petrov".toList) ∧
      v2.first_name = (if dash = dash then timedRecord.first_name else dash) ∧
      (if "1999".toList = dash then v2.birth_year = timedRecord.birth_year
        else ValidateNumber "1999".toList .kDate = .ok v2.birth_year) ∧
      v2.city = (if dash = dash then timedRecord.city else dash) ∧
      (if dash = dash then v2.coins = timedRecord.coins
        else ValidateNumber dash .kCoin = .ok v2.coins) ∧
      v2.ttl = timedRecord.ttl ∧ v2.creation_time = timedRecord.creation_time :=
  ⟨petrov_fields, rfl,
    value_update_fields timedRecord _ _ _ _ _ _ petrov_fields (Or.inr ⟨_, rfl⟩) (Or.inl rfl)⟩

/-- White space behind the fifth field is read as an empty sixth field: the
five fields are assigned as usual, then the TTL text is rejected. -/
theorem update_trailing_blank :
    sampleRecord.Update "Petrov - 1999 - - ".toList =
      (⟨"Petrov".toList, "Ivan".toList, "1999".toList, "Moscow".toList, "55".toList, none, 0⟩,
        .error .invalidArgument) :=
  rfl

/-- C29: for a query of five white-space separated fields, with or without
a sixth, `Match` returns true if and only if each of the five fields is the
sentinel `"-"` or equal to the corresponding field of the record, the year
and the coins being compared as `ValidateNumber` prints them; the sixth
field does not occur in the condition. -/
theorem value_match_iff (v : Value) (q a b c d e : List Char) (rest : List (List Char))
    (hrest : rest.length ≤ 1) (hq : FieldsOf q (a :: b :: c :: d :: e :: rest)) :
    v.Match q = .ok true ↔
      (a = dash ∨ a = v.last_name) ∧
      (b = dash ∨ b = v.first_name) ∧
      (c = dash ∨ ValidateNumber c .kDate = .ok v.birth_year) ∧
      (d = dash ∨ d = v.city) ∧
      (e = dash ∨ ValidateNumber e .kCoin = .ok v.coins) := by
  match rest, hrest, hq with
  | [], _, hq => exact match_parsed v q _ (parse_five q a b c d e hq)
  | [t], _, hq => exact match_parsed v q _ (parse_six q a b c d e t hq)

/-- The query `- Ivan +2000 - -  7` consists of six fields. -/
theorem ivan_fields : FieldsOf "- Ivan +2000 - -  7".toList
    [dash, "Ivan".toList, "+2000".toList, dash, dash, "7".toList] :=
  FieldsOf.more [] dash " Ivan +2000 - -  7".toList _ (by decide) ⟨by decide, by decide⟩
    ⟨' ', _, rfl, rfl⟩
    (FieldsOf.more [' '] "Ivan".toList " +2000 - -  7".toList _ (by decide) ⟨by decide, by decide⟩
      ⟨' ', _, rfl, rfl⟩
      (FieldsOf.more [' '] "+2000".toList " - -  7".toList _ (by decide) ⟨by decide, by decide⟩
        ⟨' ', _, rfl, rfl⟩
        (FieldsOf.more [' '] dash " -  7".toList _ (by decide) ⟨by decide, by decide⟩
          ⟨' ', _, rfl, rfl⟩
          (FieldsOf.more [' '] dash "  7".toList _ (by decide) ⟨by decide, by decide⟩
            ⟨' ', _, rfl, rfl⟩
            (FieldsOf.last [' ', ' '] "7".toList (by decide) ⟨by decide, by decide⟩)))))

theorem value_match_iff_witness :
    FieldsOf "- Ivan +2000 - -  7".toList
      [dash, "Ivan".toList, "+2000".toList, dash, dash, "7".toList] ∧
    sampleRecord.Match "- Ivan +2000 - -  7".toList = .ok true :=
  ⟨ivan_fields,
    (value_match_iff sampleRecord _ _ _ _ _ _ ["7".toList] (by decide) ivan_fields).2
      ⟨Or.inl rfl, Or.inr rfl, Or.inr rfl, Or.inl rfl, Or.inl rfl⟩⟩

/-- With fewer than five or more than six fields the text is rejected by
`ParseValueFields`, and `Update` throws before it assigns anything. -/
theorem update_field_count (v : Value) (s : List Char) (fs : List (List Char))
    (hs : FieldsOf s fs) (hn : fs.length < 5 ∨ 6 < fs.length) :
    v.Update s = (v, .error .invalidArgument) := by
  have hnone : readToken [] = none := rfl
  have hp : ParseValueFields s = .error .invalidArgument := by
    unfold ParseValueFields
    match fs, hs, hn with
    | [], hs, _ => exact absurd rfl (fieldsOf_ne_nil s _ hs)
    | [a], hs, _ =>
      obtain ⟨r1, h1, k1, _⟩ := readToken_fieldsOf s a _ hs
      rw [k1 rfl] at h1
      simp only [h1, hnone]
    | [a, b], hs, _ =>
      obtain ⟨r1, h1, _, k1⟩ := readToken_fieldsOf s a _ hs
      obtain ⟨r2, h2, k2, _⟩ := readToken_fieldsOf r1 b _ (k1 (by simp)).1
      rw [k2 rfl] at h2
      simp only [h1, h2, hnone]
    | [a, b, c], hs, _ =>
      obtain ⟨r1, h1, _, k1⟩ := readToken_fieldsOf s a _ hs
      obtain ⟨r2, h2, _, k2⟩ := readToken_fieldsOf r1 b _ (k1 (by simp)).1
      obtain ⟨r3, h3, k3, _⟩ := readToken_fieldsOf r2 c _ (k2 (by simp)).1
      rw [k3 rfl] at h3
      simp only [h1, h2, h3, hnone]
    | [a, b, c, d], hs, _ =>
      obtain ⟨r1, h1, _, k1⟩ := readToken_fieldsOf s a _ hs
      obtain ⟨r2, h2, _, k2⟩ := readToken_fieldsOf r1 b _ (k1 (by simp)).1
      obtain ⟨r3, h3, _, k3⟩ := readToken_fieldsOf r2 c _ (k2 (by simp)).1
      obtain ⟨r4, h4, k4, _⟩ := readToken_fieldsOf r3 d _ (k3 (by simp)).1
      rw [k4 rfl] at h4
      simp only [h1, h2, h3, h4, hnone]
    | [a, b, c, d, e], _, hn => simp at hn
    | [a, b, c, d, e, t], _, hn => simp at hn
    | a :: b :: c :: d :: e :: t :: u :: rest, hs, _ =>
      obtain ⟨r1, h1, _, k1⟩ := readToken_fieldsOf s a _ hs
      obtain ⟨r2, h2, _, k2⟩ := readToken_fieldsOf r1 b _ (k1 (by simp)).1
      obtain ⟨r3, h3, _, k3⟩ := readToken_fieldsOf r2 c _ (k2 (by simp)).1
      obtain ⟨r4, h4, _, k4⟩ := readToken_fieldsOf r3 d _ (k3 (by simp)).1
      obtain ⟨r5, h5, _, k5⟩ := readToken_fieldsOf r4 e _ (k4 (by simp)).1
      obtain ⟨r6, h6, _, k6⟩ := readToken_fieldsOf r5 t _ (k5 (by simp)).1
      have hne5 := (k5 (by simp)).2
      have hne6 := (k6 (by simp)).2
      simp only [h1, h2, h3, h4, h5]
      match r5, r6, hne5, hne6, h6 with
      | x :: r, y :: r6, _, _, h6 => simp only [h6]
  unfold Value.Update
  rw [hp]

/-- C30: the constructor does not fail for the year text `2000x`, nor for
the coins text `5.5` or the TTL text `10s`, none of which is a decimal
integer: `std::stoi` converts the digits in front and ignores the rest, and
the record is built with the year `2000`, the coins `5` and the TTL `10`.
`Update` accepts such texts in the same way. -/
theorem constructor_accepts_non_integer :
    Value.new "Ivanov".toList "Ivan".toList "2000x".toList "Moscow".toList "5.5".toList
        (some "10s".toList) 0 =
      .ok ⟨"Ivanov".toList, "Ivan".toList, "2000".toList, "Moscow".toList, "5".toList,
        some "10".toList, 0⟩ ∧
    sampleRecord.Update "- - +1999.5 - 12abc 7days".toList =
      (⟨"Ivanov".toList, "Ivan".toList, "1999".toList, "Moscow".toList, "12".toList,
        some "7".toList, 0⟩, .ok ()) :=
  ⟨rfl, rfl⟩

end Val

namespace Val

/-! ### Writing and reading back the lines of a file -/

/-- The text `std::to_string` prints for a number that is not negative: a
field of digits that reads back as the number. -/
theorem to_string_spec (n : Nat) :
    IsField (to_string (n : Int)) ∧ numeral (to_string (n : Int)) = (false, to_string (n : Int)) ∧
      parseDigits 0 (to_string (n : Int)) = n := by
  obtain ⟨ds, h1, h2, h3, h4⟩ := natDigits_spec (n + 1) n [] (Nat.lt_succ_self n)
  have hts : to_string (n : Int) = ds := by
    unfold to_string
    rw [if_neg (by omega), Int.natAbs_ofNat, h1, List.append_nil]
  rw [hts]
  have hsp : ∀ c ∈ ds, isSpace c = false := fun c hc => by
    obtain ⟨d, hd, rfl⟩ := h3 c hc
    exact digitChar_isSpace d hd
  have hnum : numeral ds = (false, ds) := by
    unfold numeral
    rw [dropWhile_all isSpace ds hsp]
    have htw := takeWhile_all isDigit ds (fun c hc => by
      obtain ⟨d, hd, rfl⟩ := h3 c hc
      exact digitChar_isDigit d hd)
    match ds, h2, h3, htw with
    | c :: r, _, h3, htw =>
      obtain ⟨d, hd, hc⟩ := h3 c (List.mem_cons_self _ _)
      have hs := digitChar_ne_sign d hd
      rw [← hc] at hs
      split
      · rename_i heq
        cases heq
        exact absurd rfl hs.1
      · rename_i heq
        cases heq
        exact absurd rfl hs.2
      · rename_i heq _ _
        rw [htw]
  have hval := h4 0
  simp only [Nat.zero_mul, Nat.zero_add] at hval
  exact ⟨⟨h2, hsp⟩, hnum, hval⟩

/-- `std::stoi` reads back what `std::to_string` printed for a number that is
not negative. -/
theorem stoi_to_string (n : Nat) (h : n ≤ 2147483647) : stoi (to_string (n : Int)) = .ok n := by
  obtain ⟨⟨hne, _⟩, hnum, hval⟩ := to_string_spec n
  unfold stoi
  rw [hnum]
  match hds : to_string (n : Int), hne with
  | c :: r, _ =>
    simp only
    rw [← hds, hval]
    simp only [Bool.false_eq_true, if_false]
    rw [if_neg (by omega)]

/-- A text that `ValidateNumber` returned is returned unchanged when it is
validated again, and is a field. -/
theorem validate_idem (x y : List Char) (type : TypeValidation)
    (h : ValidateNumber x type = .ok y) : ValidateNumber y type = .ok y ∧ IsField y := by
  unfold ValidateNumber at h
  cases hs : stoi x with
  | error e =>
    rw [hs] at h
    cases h
  | ok value =>
    rw [hs] at h
    simp only at h
    obtain ⟨_, hr⟩ := stoi_range x value hs
    by_cases hneg : value < 0
    · exfalso
      cases type <;> simp [hneg] at h
    · obtain ⟨n, hn⟩ : ∃ n : Nat, value = (n : Int) := ⟨value.toNat, by omega⟩
      have hy : y = to_string value := by
        split at h
        · cases h
        · split at h
          · cases h
          · split at h
            · cases h
            · injection h with h
              exact h.symm
      have hst : stoi y = .ok value := by
        rw [hy, hn]
        exact stoi_to_string n (by omega)
      refine ⟨?_, by rw [hy, hn]; exact (to_string_spec n).1⟩
      unfold ValidateNumber
      rw [hst]
      simp only
      rw [hy] at h ⊢
      exact h

/-- The constructor returns records with year and coins as `Export` needs
them. -/
theorem new_numbers (ln fn yr city coins : List Char) (ttl : Option (List Char)) (now : Int)
    (v : Value) (h : Value.new ln fn yr city coins ttl now = .ok v) :
    ValidateNumber v.birth_year .kDate = .ok v.birth_year ∧
      ValidateNumber v.coins .kCoin = .ok v.coins ∧ IsField v.birth_year ∧ IsField v.coins ∧
      v.last_name = ln ∧ v.first_name = fn ∧ v.city = city := by
  unfold Value.new at h
  cases hy : ValidateNumber yr .kDate with
  | error e =>
    rw [hy] at h
    cases h
  | ok y =>
  cases hc : ValidateNumber coins .kCoin with
  | error e =>
    rw [hy, hc] at h
    cases h
  | ok c =>
    rw [hy, hc] at h
    obtain ⟨y1, y2⟩ := validate_idem yr y _ hy
    obtain ⟨c1, c2⟩ := validate_idem coins c _ hc
    cases ttl with
    | none =>
      have h2 : (Except.ok ⟨ln, fn, y, city, c, none, now⟩ : Except Err Value) = .ok v := h
      injection h2 with h2
      subst h2
      exact ⟨y1, c1, y2, c2, rfl, rfl, rfl⟩
    | some x =>
      cases ht : ValidateNumber x .kTTL with
      | error e =>
        simp only [ht] at h
        cases h
      | ok t1 =>
        simp only [ht] at h
        have h2 : (Except.ok ⟨ln, fn, y, city, c, some t1, now⟩ : Except Err Value) = .ok v := h
        injection h2 with h2
        subst h2
        exact ⟨y1, c1, y2, c2, rfl, rfl, rfl⟩

end Val

namespace AVL
variable {K V : Type}

/-! ### Balance (heights) -/

theorem realHeight_ge (t : AVLNode K V) : -1 ≤ realHeight t := by
  induction t with
  | nil => simp [realHeight]
  | node k v l r h ihl ihr => simp only [realHeight]; omega

theorem GetHeight_eq_realHeight (t : AVLNode K V) (h : HeightsExact t) :
    GetHeight t = realHeight t := by
  cases t with
  | nil => rfl
  | node k v l r h0 => simp only [HeightsExact] at h; simp only [GetHeight, realHeight]; exact h.1

theorem GetHeight_node (k : K) (v : V) (l r : AVLNode K V) (h : Int) :
    GetHeight (.node k v l r h) = h := rfl

/-- Rebalancing a node whose subtrees are balanced with exact heights and
differ in height by at most two. -/
theorem balance_spec (k : K) (v : V) (l r : AVLNode K V) (h : Int)
    (bl : Balanced l) (el : HeightsExact l) (br : Balanced r) (er : HeightsExact r)
    (d1 : -2 ≤ realHeight r - realHeight l) (d2 : realHeight r - realHeight l ≤ 2) :
    Balanced (BalanceNode (UpdateHeight (.node k v l r h))) ∧
    HeightsExact (BalanceNode (UpdateHeight (.node k v l r h))) ∧
    (realHeight (BalanceNode (UpdateHeight (.node k v l r h)))
        = max (realHeight l) (realHeight r) + 1 ∨
      (realHeight (BalanceNode (UpdateHeight (.node k v l r h)))
        = max (realHeight l) (realHeight r) ∧
        (realHeight r - realHeight l = 2 ∨ realHeight r - realHeight l = -2))) := by
  have gl := GetHeight_eq_realHeight l el
  have gr := GetHeight_eq_realHeight r er
  have hl := realHeight_ge l
  have hr := realHeight_ge r
  simp only [UpdateHeight, BalanceNode, GetBalance, gl, gr]
  by_cases c1 : realHeight r - realHeight l = -2
  · rw [if_pos c1]
    cases l with
    | nil => simp only [realHeight] at c1; omega
    | node lk lv ll lr lh =>
      clear gl hl
      simp only [Balanced, HeightsExact, realHeight] at bl el c1 d1 d2 ⊢
      obtain ⟨bl1, bl2, bll, blr⟩ := bl
      obtain ⟨el1, ell, elr⟩ := el
      have gll := GetHeight_eq_realHeight ll ell
      have glr := GetHeight_eq_realHeight lr elr
      have hll := realHeight_ge ll
      have hlr := realHeight_ge lr
      simp only [GetBalance, gll, glr]
      by_cases c2 : realHeight lr - realHeight ll > 0
      · rw [if_pos c2]
        cases lr with
        | nil => simp only [realHeight] at c2; omega
        | node mk mv ml mr mh =>
          clear glr hlr
          simp only [Balanced, HeightsExact, realHeight] at blr elr bl1 bl2 el1 c2 c1 d1 d2 ⊢
          obtain ⟨bm1, bm2, bml, bmr⟩ := blr
          obtain ⟨em1, eml, emr⟩ := elr
          have gml := GetHeight_eq_realHeight ml eml
          have gmr := GetHeight_eq_realHeight mr emr
          have hml := realHeight_ge ml
          have hmr := realHeight_ge mr
          simp only [RotateLeft, RotateRight, UpdateHeight, GetHeight_node, Balanced,
            HeightsExact, realHeight, gml, gmr, gll, gr]
          refine ⟨?_, ?_, ?_⟩
          · and_intros <;> first | assumption | trivial | omega
          · and_intros <;> first | assumption | trivial
          · omega
      · rw [if_neg c2]
        simp only [RotateRight, UpdateHeight, GetHeight_node, Balanced, HeightsExact,
          realHeight, glr, gll, gr]
        refine ⟨?_, ?_, ?_⟩
        · and_intros <;> first | assumption | trivial | omega
        · and_intros <;> first | assumption | trivial
        · omega
  · rw [if_neg c1]
    by_cases c3 : realHeight r - realHeight l = 2
    · rw [if_pos c3]
      cases r with
      | nil => simp only [realHeight] at c3; omega
      | node rk rv rl rr rh =>
        clear gr hr
        simp only [Balanced, HeightsExact, realHeight] at br er c3 c1 d1 d2 ⊢
        obtain ⟨br1, br2, brl, brr⟩ := br
        obtain ⟨er1, erl, err⟩ := er
        have grl := GetHeight_eq_realHeight rl erl
        have grr := GetHeight_eq_realHeight rr err
        have hrl := realHeight_ge rl
        have hrr := realHeight_ge rr
        simp only [GetBalance, grl, grr]
        by_cases c4 : realHeight rr - realHeight rl < 0
        · rw [if_pos c4]
          cases rl with
          | nil => simp only [realHeight] at c4; omega
          | node mk mv ml mr mh =>
            clear grl hrl
            simp only [Balanced, HeightsExact, realHeight] at brl erl br1 br2 er1 c4 c3 c1 d1 d2 ⊢
            obtain ⟨bm1, bm2, bml, bmr⟩ := brl
            obtain ⟨em1, eml, emr⟩ := erl
            have gml := GetHeight_eq_realHeight ml eml
            have gmr := GetHeight_eq_realHeight mr emr
            have hml := realHeight_ge ml
            have hmr := realHeight_ge mr
            simp only [RotateLeft, RotateRight, UpdateHeight, GetHeight_node, Balanced,
              HeightsExact, realHeight, gml, gmr, grr, gl]
            refine ⟨?_, ?_, ?_⟩
            · and_intros <;> first | assumption | trivial | omega
            · and_intros <;> first | assumption | trivial
            · omega
        · rw [if_neg c4]
          simp only [RotateLeft, UpdateHeight, GetHeight_node, Balanced, HeightsExact,
            realHeight, grl, grr, gl]
          refine ⟨?_, ?_, ?_⟩
          · and_intros <;> first | assumption | trivial | omega
          · and_intros <;> first | assumption | trivial
          · omega
    · rw [if_neg c3]
      simp only [Balanced, HeightsExact, realHeight, gl, gr]
      refine ⟨?_, ?_, ?_⟩
      · and_intros <;> first | assumption | trivial | omega
      · and_intros <;> first | assumption | trivial
      · exact Or.inl trivial

/-- Height update and rebalancing leave a balanced node with exact heights
as it is. -/
theorem balance_noop (t : AVLNode K V) (b : Balanced t) (e : HeightsExact t) :
    BalanceNode (UpdateHeight t) = t := by
  cases t with
  | nil => rfl
  | node k v l r h =>
    simp only [Balanced, HeightsExact] at b e
    have gl := GetHeight_eq_realHeight l e.2.1
    have gr := GetHeight_eq_realHeight r e.2.2
    simp only [UpdateHeight, BalanceNode, GetBalance, gl, gr]
    rw [if_neg (by omega), if_neg (by omega), e.1]

section Order
variable [LinearOrder K]

theorem insert_balanced (key : K) (value : V) (t : AVLNode K V)
    (b : Balanced t) (e : HeightsExact t) :
    Balanced (InsertHelper t key value) ∧ HeightsExact (InsertHelper t key value) ∧
      (realHeight (InsertHelper t key value) = realHeight t ∨
        realHeight (InsertHelper t key value) = realHeight t + 1) := by
  induction t with
  | nil => simp [InsertHelper, Balanced, HeightsExact, realHeight]
  | node k v l r h ihl ihr =>
    simp only [Balanced, HeightsExact] at b e
    obtain ⟨b1, b2, bl, br⟩ := b
    obtain ⟨e1, el, er⟩ := e
    simp only [InsertHelper]
    split
    · obtain ⟨bl', el', hl'⟩ := ihl bl el
      obtain ⟨p, q, s⟩ := balance_spec k v (InsertHelper l key value) r h bl' el' br er
        (by omega) (by omega)
      refine ⟨p, q, ?_⟩
      simp only [realHeight]
      omega
    · obtain ⟨br', er', hr'⟩ := ihr br er
      obtain ⟨p, q, s⟩ := balance_spec k v l (InsertHelper r key value) h bl el br' er'
        (by omega) (by omega)
      refine ⟨p, q, ?_⟩
      simp only [realHeight]
      omega

theorem delete_balanced (t : AVLNode K V) (key : K)
    (b : Balanced t) (e : HeightsExact t) :
    Balanced (DeletHelper t key) ∧ HeightsExact (DeletHelper t key) ∧
      (realHeight (DeletHelper t key) = realHeight t ∨
        realHeight (DeletHelper t key) = realHeight t - 1) := by
  induction t generalizing key with
  | nil => simp [DeletHelper, Balanced, HeightsExact]
  | node k v l r h ihl ihr =>
    have b0 := b
    have e0 := e
    simp only [Balanced, HeightsExact] at b e
    obtain ⟨b1, b2, bl, br⟩ := b
    obtain ⟨e1, el, er⟩ := e
    have hl := realHeight_ge l
    have hr := realHeight_ge r
    unfold DeletHelper
    split
    · obtain ⟨bl', el', hl'⟩ := ihl key bl el
      obtain ⟨p, q, s⟩ := balance_spec k v (DeletHelper l key) r h bl' el' br er
        (by omega) (by omega)
      refine ⟨p, q, ?_⟩
      simp only [realHeight]
      omega
    · split
      · obtain ⟨br', er', hr'⟩ := ihr key br er
        obtain ⟨p, q, s⟩ := balance_spec k v l (DeletHelper r key) h bl el br' er'
          (by omega) (by omega)
        refine ⟨p, q, ?_⟩
        simp only [realHeight]
        omega
      · split
        · rw [balance_noop _ br er]
          refine ⟨br, er, ?_⟩
          simp only [realHeight] at b1 b2 ⊢
          omega
        · rw [balance_noop _ bl el]
          refine ⟨bl, el, ?_⟩
          simp only [realHeight] at b1 b2 hl ⊢
          omega
        · rename_i lk lv ll lr lh rk rv rl rr rh
          obtain ⟨br', er', hr'⟩ := ihr (FindMin rk rv rl).1 br er
          obtain ⟨p, q, s⟩ := balance_spec (FindMin rk rv rl).1 (FindMin rk rv rl).2
            (.node lk lv ll lr lh) (DeletHelper (.node rk rv rl rr rh) (FindMin rk rv rl).1) h
            bl el br' er' (by omega) (by omega)
          refine ⟨p, q, ?_⟩
          simp only [realHeight] at s hr' b1 b2 ⊢
          omega

/-- Invariant of the reachable stores: balanced, with exact stored heights. -/
theorem reachable_balanced (t : AVLNode K V) (h : Reachable t) :
    Balanced t ∧ HeightsExact t := by
  induction h with
  | empty => exact ⟨trivial, trivial⟩
  | set t key value _ ih =>
    unfold Set
    split
    · exact ih
    · exact ⟨(insert_balanced key value t ih.1 ih.2).1, (insert_balanced key value t ih.1 ih.2).2.1⟩
  | del t key _ ih =>
    unfold Del
    split
    · exact ih
    · exact ⟨(delete_balanced t key ih.1 ih.2).1, (delete_balanced t key ih.1 ih.2).2.1⟩

end Order

/-! ### Search-tree order and lookups, through the in-order list -/

section Lists
variable [LinearOrder K]

theorem assoc_none (k : K) (M : List (K × V)) (h : ∀ p ∈ M, p.1 ≠ k) : assoc k M = none := by
  induction M with
  | nil => rfl
  | cons p M ih =>
    simp only [assoc]
    rw [if_neg (h p (List.mem_cons_self _ _))]
    exact ih (fun q hq => h q (List.mem_cons_of_mem _ hq))

theorem assoc_append_left_none (k : K) (L M : List (K × V)) (h : ∀ p ∈ L, p.1 ≠ k) :
    assoc k (L ++ M) = assoc k M := by
  induction L with
  | nil => rfl
  | cons p L ih =>
    rw [List.cons_append, assoc]
    rw [if_neg (h p (List.mem_cons_self _ _))]
    exact ih (fun q hq => h q (List.mem_cons_of_mem _ hq))

theorem assoc_append_right_none (k : K) (L M : List (K × V)) (h : ∀ p ∈ M, p.1 ≠ k) :
    assoc k (L ++ M) = assoc k L := by
  induction L with
  | nil => simpa [assoc] using assoc_none k M h
  | cons p L ih =>
    rw [List.cons_append, assoc, assoc, ih]

theorem assoc_isSome_iff (k : K) (l : List (K × V)) :
    (assoc k l).isSome = true ↔ ∃ p ∈ l, p.1 = k := by
  induction l with
  | nil => simp [assoc]
  | cons p l ih =>
    simp only [assoc]
    by_cases c : p.1 = k
    · simp [c]
    · simp [c, ih]

theorem assoc_filter (k k' : K) (l : List (K × V)) :
    assoc k' (l.filter (fun p => decide (p.1 ≠ k))) = if k' = k then none else assoc k' l := by
  induction l with
  | nil => simp [assoc]
  | cons p l ih =>
    by_cases c : p.1 = k
    · simp only [List.filter, c, ne_eq, not_true_eq_false, decide_False, assoc]
      rw [ih]
      by_cases c' : k' = k
      · simp [c']
      · have : ¬ k = k' := fun e => c' e.symm
        simp [c', this]
    · simp only [List.filter, c, ne_eq, not_false_eq_true, decide_True, assoc]
      rw [ih]
      by_cases c' : k' = k
      · have : ¬ p.1 = k' := by rw [c']; exact c
        simp [c', this, c]
      · simp [c']

theorem filter_ne_of_not_mem (k : K) (M : List (K × V)) (h : ∀ p ∈ M, p.1 ≠ k) :
    M.filter (fun p => decide (p.1 ≠ k)) = M := by
  rw [List.filter_eq_self]
  intro p hp
  simpa using h p hp

theorem insertL_append_lt (k : K) (v : V) (L R : List (K × V)) (x : K × V) (h : k < x.1) :
    insertL k v (L ++ x :: R) = insertL k v L ++ x :: R := by
  induction L with
  | nil => simp [insertL, h]
  | cons p L ih =>
    rw [List.cons_append, insertL, insertL]
    split
    · rfl
    · rw [ih]; rfl

theorem insertL_append_ge (k : K) (v : V) (L R : List (K × V))
    (h : ∀ p ∈ L, ¬ k < p.1) :
    insertL k v (L ++ R) = L ++ insertL k v R := by
  induction L with
  | nil => rfl
  | cons p L ih =>
    rw [List.cons_append, insertL]
    rw [if_neg (h p (List.mem_cons_self _ _)), ih (fun q hq => h q (List.mem_cons_of_mem _ hq))]
    rfl

theorem mem_insertL (k : K) (v : V) (l : List (K × V)) (q : K × V) :
    q ∈ insertL k v l ↔ q = (k, v) ∨ q ∈ l := by
  induction l with
  | nil => simp [insertL]
  | cons p l ih =>
    simp only [insertL]
    split
    · simp
    · simp only [List.mem_cons, ih]
      tauto

theorem sorted_insertL (k : K) (v : V) (l : List (K × V)) (hs : SortedL l)
    (hk : ∀ p ∈ l, p.1 ≠ k) : SortedL (insertL k v l) := by
  induction l with
  | nil => simp [insertL, SortedL]
  | cons p l ih =>
    unfold SortedL at hs ih ⊢
    rw [List.pairwise_cons] at hs
    simp only [insertL]
    split
    · rename_i hlt
      rw [List.pairwise_cons, List.pairwise_cons]
      refine ⟨?_, hs⟩
      intro q hq
      rcases List.mem_cons.1 hq with rfl | hq
      · exact hlt
      · exact lt_trans hlt (hs.1 q hq)
    · rename_i hge
      rw [List.pairwise_cons]
      refine ⟨?_, ih hs.2 (fun q hq => hk q (List.mem_cons_of_mem _ hq))⟩
      intro q hq
      rcases (mem_insertL k v l q).1 hq with rfl | hq
      · exact lt_of_le_of_ne (not_lt.1 hge) (hk p (List.mem_cons_self _ _))
      · exact hs.1 q hq

theorem assoc_insertL (k k' : K) (v : V) (l : List (K × V)) (hk : ∀ p ∈ l, p.1 ≠ k) :
    assoc k' (insertL k v l) = if k' = k then some v else assoc k' l := by
  induction l with
  | nil =>
    by_cases c : k' = k
    · simp [insertL, assoc, c]
    · have : ¬ k = k' := fun e => c e.symm
      simp [insertL, assoc, c, this]
  | cons p l ih =>
    have hp := hk p (List.mem_cons_self _ _)
    simp only [insertL]
    split
    · by_cases c : k' = k
      · simp [assoc, c]
      · have : ¬ k = k' := fun e => c e.symm
        simp [assoc, c, this]
    · simp only [assoc]
      rw [ih (fun q hq => hk q (List.mem_cons_of_mem _ hq))]
      by_cases c : k' = k
      · have : ¬ p.1 = k' := by rw [c]; exact hp
        simp [c, this, hp]
      · simp [c]

end Lists

theorem inorder_UpdateHeight (t : AVLNode K V) :
    InOrderTraversal (UpdateHeight t) = InOrderTraversal t := by
  cases t <;> rfl

theorem inorder_RotateLeft (t : AVLNode K V) :
    InOrderTraversal (RotateLeft t) = InOrderTraversal t := by
  cases t with
  | nil => rfl
  | node k v l r h =>
    cases r with
    | nil => rfl
    | node rk rv rl rr rh =>
      simp [RotateLeft, UpdateHeight, InOrderTraversal]

theorem inorder_RotateRight (t : AVLNode K V) :
    InOrderTraversal (RotateRight t) = InOrderTraversal t := by
  cases t with
  | nil => rfl
  | node k v l r h =>
    cases l with
    | nil => rfl
    | node lk lv ll lr lh =>
      simp [RotateRight, UpdateHeight, InOrderTraversal]

theorem inorder_BalanceNode (t : AVLNode K V) :
    InOrderTraversal (BalanceNode t) = InOrderTraversal t := by
  cases t with
  | nil => rfl
  | node k v l r h =>
    simp only [BalanceNode]
    split_ifs <;>
      simp [inorder_RotateLeft, inorder_RotateRight, InOrderTraversal]

theorem inorder_fix (t : AVLNode K V) :
    InOrderTraversal (BalanceNode (UpdateHeight t)) = InOrderTraversal t := by
  rw [inorder_BalanceNode, inorder_UpdateHeight]

section Search
variable [LinearOrder K]

theorem sorted_node (k : K) (v : V) (l r : AVLNode K V) (h : Int) :
    Sorted (.node k v l r h) ↔
      Sorted l ∧ Sorted r ∧ (∀ p ∈ InOrderTraversal l, p.1 < k) ∧
        (∀ p ∈ InOrderTraversal r, k < p.1) := by
  unfold Sorted SortedL
  simp only [InOrderTraversal, List.pairwise_append, List.pairwise_cons, List.mem_cons]
  constructor
  · rintro ⟨hl, ⟨hkr, hr⟩, hlr⟩
    exact ⟨hl, hr, fun p hp => hlr p hp (k, v) (Or.inl rfl), hkr⟩
  · rintro ⟨hl, hr, hlk, hkr⟩
    refine ⟨hl, ⟨hkr, hr⟩, ?_⟩
    intro p hp q hq
    rcases hq with rfl | hq
    · exact hlk p hp
    · exact lt_trans (hlk p hp) (hkr q hq)

theorem FindNode_key (t n : AVLNode K V) (key : K) (h : FindNode t key = some n) :
    ∃ v l r ht, n = .node key v l r ht := by
  induction t with
  | nil => simp [FindNode] at h
  | node k v l r ht ihl ihr =>
    simp only [FindNode] at h
    split_ifs at h with c1 c2
    · subst c1
      exact ⟨v, l, r, ht, (Option.some.inj h).symm⟩
    · exact ihl h
    · exact ihr h

theorem Exists_eq_Get_isSome (t : AVLNode K V) (key : K) :
    Exists t key = (Get t key).isSome := by
  unfold Exists Get
  cases h : FindNode t key with
  | none => rfl
  | some n =>
    obtain ⟨v, l, r, ht, rfl⟩ := FindNode_key t n key h
    rfl

theorem Get_eq_assoc (t : AVLNode K V) (key : K) (hs : Sorted t) :
    Get t key = assoc key (InOrderTraversal t) := by
  induction t with
  | nil => rfl
  | node k v l r ht ihl ihr =>
    rw [sorted_node] at hs
    obtain ⟨sl, sr, hlk, hkr⟩ := hs
    have ihl := ihl sl
    have ihr := ihr sr
    unfold Get at ihl ihr ⊢
    simp only [FindNode, InOrderTraversal]
    split_ifs with c1 c2
    · subst c1
      rw [assoc_append_left_none _ _ _ (fun p hp => ne_of_lt (hlk p hp))]
      simp [assoc, nodeValue]
    · rw [ihl, assoc_append_right_none]
      intro p hp
      rcases List.mem_cons.1 hp with rfl | hp
      · exact c1
      · exact ne_of_gt (lt_trans c2 (hkr p hp))
    · have c3 : k < key := lt_of_le_of_ne (not_lt.1 c2) c1
      rw [ihr, assoc_append_left_none _ _ _ (fun p hp => ne_of_lt (lt_trans (hlk p hp) c3))]
      simp [assoc, c1]

theorem Exists_iff_mem_Keys (t : AVLNode K V) (key : K) (hs : Sorted t) :
    Exists t key = true ↔ key ∈ Keys t := by
  rw [Exists_eq_Get_isSome, Get_eq_assoc t key hs, assoc_isSome_iff]
  simp [Keys]

theorem inorder_insert (t : AVLNode K V) (key : K) (value : V) (hs : Sorted t) :
    InOrderTraversal (InsertHelper t key value) = insertL key value (InOrderTraversal t) := by
  induction t with
  | nil => rfl
  | node k v l r ht ihl ihr =>
    rw [sorted_node] at hs
    obtain ⟨sl, sr, hlk, hkr⟩ := hs
    simp only [InsertHelper]
    split
    · rename_i c
      rw [inorder_fix]
      simp only [InOrderTraversal]
      rw [ihl sl, insertL_append_lt key value _ _ (k, v) c]
    · rename_i c
      rw [inorder_fix]
      simp only [InOrderTraversal]
      rw [ihr sr, insertL_append_ge key value _ _
        (fun p hp => not_lt.2 (le_trans (le_of_lt (hlk p hp)) (not_lt.1 c)))]
      simp [insertL, c]

omit [LinearOrder K] in
theorem inorder_FindMin (k : K) (v : V) (l r : AVLNode K V) (h : Int) :
    ∃ rest, InOrderTraversal (.node k v l r h) = FindMin k v l :: rest := by
  induction l generalizing k v r h with
  | nil => exact ⟨InOrderTraversal r, rfl⟩
  | node lk lv ll lr lh ihl _ =>
    obtain ⟨rest, hrest⟩ := ihl lk lv lr lh
    refine ⟨rest ++ (k, v) :: InOrderTraversal r, ?_⟩
    rw [InOrderTraversal, hrest, FindMin]
    rfl

theorem inorder_delete (t : AVLNode K V) (key : K) (hs : Sorted t) :
    InOrderTraversal (DeletHelper t key) =
      (InOrderTraversal t).filter (fun p => decide (p.1 ≠ key)) := by
  induction t generalizing key with
  | nil => rfl
  | node k v l r ht ihl ihr =>
    have hs0 := hs
    rw [sorted_node] at hs
    obtain ⟨sl, sr, hlk, hkr⟩ := hs
    unfold DeletHelper
    split
    · rename_i c
      rw [inorder_fix]
      simp only [InOrderTraversal]
      rw [ihl key sl, List.filter_append, filter_ne_of_not_mem key ((k, v) :: InOrderTraversal r)]
      intro p hp
      rcases List.mem_cons.1 hp with rfl | hp
      · exact ne_of_gt c
      · exact ne_of_gt (lt_trans c (hkr p hp))
    · split
      · rename_i c1 c
        rw [inorder_fix]
        simp only [InOrderTraversal]
        rw [ihr key sr, List.filter_append,
          filter_ne_of_not_mem key (InOrderTraversal l)
            (fun p hp => ne_of_lt (lt_trans (hlk p hp) c))]
        have : ¬ k = key := ne_of_lt c
        simp [List.filter, this]
      · rename_i c1 c2
        have ek : key = k := le_antisymm (not_lt.1 c2) (not_lt.1 c1)
        subst ek
        split
        · rw [inorder_fix]
          simp only [InOrderTraversal, List.nil_append]
          rw [List.filter_cons_of_neg (by simp)]
          exact (filter_ne_of_not_mem key _ (fun p hp => ne_of_gt (hkr p hp))).symm
        · rw [inorder_fix]
          simp only [InOrderTraversal]
          rw [List.filter_append, List.filter_cons_of_neg (by simp)]
          simp only [List.filter_nil, List.append_nil]
          exact (filter_ne_of_not_mem key _ (fun p hp => ne_of_lt (hlk p hp))).symm
        · rename_i lk lv ll lr lh rk rv rl rr rh
          rw [inorder_fix]
          obtain ⟨rest, hrest⟩ := inorder_FindMin rk rv rl rr rh
          have sr' := sr
          unfold Sorted SortedL at sr'
          rw [hrest, List.pairwise_cons] at sr'
          have e1 : ∀ (a : K) (b : V) (x y : AVLNode K V),
              InOrderTraversal (.node a b x y ht) =
                InOrderTraversal x ++ (a, b) :: InOrderTraversal y := fun _ _ _ _ => rfl
          have hr2 := filter_ne_of_not_mem key _ (fun p hp => ne_of_gt (hkr p hp))
          rw [e1, e1, ihr _ sr, List.filter_append, List.filter_cons_of_neg (by simp),
            filter_ne_of_not_mem key _ (fun p hp => ne_of_lt (hlk p hp)), hr2, hrest,
            List.filter_cons_of_neg (by simp),
            filter_ne_of_not_mem _ rest (fun p hp => ne_of_gt (sr'.1 p hp))]

theorem sorted_insert (t : AVLNode K V) (key : K) (value : V) (hs : Sorted t)
    (hk : Exists t key = false) : Sorted (InsertHelper t key value) := by
  unfold Sorted
  rw [inorder_insert t key value hs]
  apply sorted_insertL _ _ _ hs
  intro p hp e
  have : Exists t key = true := by
    rw [Exists_eq_Get_isSome, Get_eq_assoc t key hs, assoc_isSome_iff]
    exact ⟨p, hp, e⟩
  rw [hk] at this
  exact Bool.false_ne_true this

theorem sorted_delete (t : AVLNode K V) (key : K) (hs : Sorted t) :
    Sorted (DeletHelper t key) := by
  unfold Sorted
  rw [inorder_delete t key hs]
  exact List.Pairwise.sublist (List.filter_sublist _) hs

/-- The reachable stores are search trees: the in-order keys increase. -/
theorem reachable_sorted (t : AVLNode K V) (h : Reachable t) : Sorted t := by
  induction h with
  | empty => exact List.Pairwise.nil
  | set t key value _ ih =>
    unfold Set
    split
    · exact ih
    · rename_i c
      apply sorted_insert t key value ih
      simpa [Exists] using c
  | del t key _ ih =>
    unfold Del
    split
    · exact ih
    · exact sorted_delete t key ih

end Search

section Contract
variable [LinearOrder K]

theorem Get_insert (t : AVLNode K V) (key k' : K) (value : V) (hs : Sorted t)
    (hk : Exists t key = false) :
    Get (InsertHelper t key value) k' = if k' = key then some value else Get t k' := by
  rw [Get_eq_assoc _ _ (sorted_insert t key value hs hk), inorder_insert t key value hs,
    Get_eq_assoc t k' hs]
  apply assoc_insertL
  intro p hp e
  have : Exists t key = true := by
    rw [Exists_eq_Get_isSome, Get_eq_assoc t key hs, assoc_isSome_iff]
    exact ⟨p, hp, e⟩
  rw [hk] at this
  exact Bool.false_ne_true this

theorem Get_delete (t : AVLNode K V) (key k' : K) (hs : Sorted t) :
    Get (DeletHelper t key) k' = if k' = key then none else Get t k' := by
  rw [Get_eq_assoc _ _ (sorted_delete t key hs), inorder_delete t key hs,
    Get_eq_assoc t k' hs]
  exact assoc_filter key k' _

end Contract

theorem sampleStore_reachable : Reachable sampleStore :=
  Reachable.del _ _ (Reachable.set _ _ _ (Reachable.set _ _ _ (Reachable.set _ _ _
    (Reachable.set _ _ _ (Reachable.set _ _ _ (Reachable.set _ _ _ Reachable.empty))))))

/-- C1: in every store reached from the empty store by `Set` and `Del`
operations, at every node the heights of the right and the left subtree
(an absent child counting `-1`) differ by at most one; and every node stores
its true height, so the balance the code reads from the `height` fields is
that difference. -/
theorem avl_balance_invariant [LinearOrder K] (t : AVLNode K V) (h : Reachable t) :
    Balanced t ∧ HeightsExact t :=
  reachable_balanced t h

theorem avl_balance_invariant_witness :
    Reachable sampleStore ∧ Balanced sampleStore ∧ HeightsExact sampleStore :=
  ⟨sampleStore_reachable, avl_balance_invariant sampleStore sampleStore_reachable⟩

/-- C7: on a store reached by `Set`/`Del` operations, `Set k v` of a stored key
returns false and leaves the whole store (keys and records) as it is; `Set k v`
of a key that is not stored returns true, and afterwards `Get k = v`,
`Exists k` holds and `Get k'` is unchanged for every other key. -/
theorem avl_set_contract [LinearOrder K] (t : AVLNode K V) (h : Reachable t) (k : K) (v : V) :
    (k ∈ Keys t → Set t k v = (false, t)) ∧
    (k ∉ Keys t → (Set t k v).1 = true ∧ Get (Set t k v).2 k = some v ∧
      Exists (Set t k v).2 k = true ∧
      ∀ k', k' ≠ k → Get (Set t k v).2 k' = Get t k') := by
  have hs := reachable_sorted t h
  constructor
  · intro hk
    have he := (Exists_iff_mem_Keys t k hs).2 hk
    unfold Exists at he
    simp [Set, he]
  · intro hk
    have he : Exists t k = false := by
      cases c : Exists t k with
      | false => rfl
      | true => exact absurd ((Exists_iff_mem_Keys t k hs).1 c) hk
    have he' := he
    unfold Exists at he'
    have hset : Set t k v = (true, InsertHelper t k v) := by simp [Set, he']
    rw [hset]
    refine ⟨rfl, ?_, ?_, ?_⟩
    · simp [Get_insert t k k v hs he]
    · rw [Exists_eq_Get_isSome, Get_insert t k k v hs he]
      simp
    · intro k' hne
      simp [Get_insert t k k' v hs he, hne]

theorem avl_set_contract_witness :
    Reachable sampleStore ∧ 5 ∉ Keys sampleStore ∧
      (Set sampleStore 5 "e").1 = true ∧ Get (Set sampleStore 5 "e").2 5 = some "e" :=
  have h := (avl_set_contract sampleStore sampleStore_reachable 5 "e").2 (by decide)
  ⟨sampleStore_reachable, by decide, h.1, h.2.1⟩

/-- C8: on a store reached by `Set`/`Del` operations, `Del k` of a key that is
not stored returns false and leaves the store as it is; `Del k` of a stored
key returns true, afterwards `Exists k` is false, and every other key is
present exactly when it was, with `Get k'` unchanged (also when the deleted
node had two children and took over its in-order successor). -/
theorem avl_del_contract [LinearOrder K] (t : AVLNode K V) (h : Reachable t) (k : K) :
    (k ∉ Keys t → Del t k = (false, t)) ∧
    (k ∈ Keys t → (Del t k).1 = true ∧ Exists (Del t k).2 k = false ∧
      Get (Del t k).2 k = none ∧
      ∀ k', k' ≠ k → Get (Del t k).2 k' = Get t k' ∧
        Exists (Del t k).2 k' = Exists t k') := by
  have hs := reachable_sorted t h
  constructor
  · intro hk
    have he : Exists t k = false := by
      cases c : Exists t k with
      | false => rfl
      | true => exact absurd ((Exists_iff_mem_Keys t k hs).1 c) hk
    unfold Exists at he
    simp [Del, he]
  · intro hk
    have he := (Exists_iff_mem_Keys t k hs).2 hk
    unfold Exists at he
    have hdel : Del t k = (true, DeletHelper t k) := by simp [Del, he]
    rw [hdel]
    refine ⟨rfl, ?_, ?_, ?_⟩
    · rw [Exists_eq_Get_isSome, Get_delete t k k hs]
      simp
    · simp [Get_delete t k k hs]
    · intro k' hne
      rw [Exists_eq_Get_isSome, Exists_eq_Get_isSome, Get_delete t k k' hs]
      simp [hne]

theorem avl_del_contract_witness :
    Reachable sampleStore ∧ 7 ∈ Keys sampleStore ∧
      (Del sampleStore 7).1 = true ∧ Exists (Del sampleStore 7).2 7 = false :=
  have h := (avl_del_contract sampleStore sampleStore_reachable 7).2 (by decide)
  ⟨sampleStore_reachable, by decide, h.1, h.2.1⟩

end AVL

namespace AVL
variable {K V : Type}

/-! ### Traversal, height fields and `Rename` of the AVL tree -/

theorem heightFields_of_exact (t : AVLNode K V) (e : HeightsExact t) : HeightFields t := by
  induction t with
  | nil => trivial
  | node k v l r h ihl ihr =>
    simp only [HeightsExact] at e
    simp only [HeightFields]
    refine ⟨?_, ihl e.2.1, ihr e.2.2⟩
    rw [GetHeight_eq_realHeight l e.2.1, GetHeight_eq_realHeight r e.2.2, e.1]
    omega

/-- In a list with strictly increasing keys every pair is the first one with
its key. -/
theorem assoc_of_mem [LinearOrder K] (l : List (K × V)) (hs : SortedL l) (k : K) (v : V)
    (h : (k, v) ∈ l) : assoc k l = some v := by
  induction l with
  | nil => cases h
  | cons p l ih =>
    unfold SortedL at hs ih
    rw [List.pairwise_cons] at hs
    rcases List.mem_cons.1 h with e | h'
    · subst e
      simp [assoc]
    · have hne : p.1 ≠ k := ne_of_lt (hs.1 (k, v) h')
      rw [assoc, if_neg hne]
      exact ih hs.2 h'

/-- C13: in a store reached by `Set`/`Del` operations, `Keys()` is the key
column of the in-order traversal and increases strictly, `ShowAll()` has the
same length, and at every index `ShowAll()` holds the record that `Get`
returns for the key `Keys()` holds there. -/
theorem avl_keys_showall [LinearOrder K] (t : AVLNode K V) (h : Reachable t) :
    Keys t = (InOrderTraversal t).map Prod.fst ∧
      (Keys t).Pairwise (fun a b => a < b) ∧
      (ShowAll t).length = (Keys t).length ∧
      ∀ (i : Nat) (k : K), (Keys t)[i]? = some k →
        ∃ v, (ShowAll t)[i]? = some v ∧ Get t k = some v := by
  have hs := reachable_sorted t h
  refine ⟨rfl, ?_, by simp [ShowAll, Keys], ?_⟩
  · unfold Keys
    rw [List.pairwise_map]
    exact hs
  · intro i k hk
    unfold Keys at hk
    rw [List.getElem?_map] at hk
    cases hp : (InOrderTraversal t)[i]? with
    | none => rw [hp] at hk; cases hk
    | some p =>
      rw [hp] at hk
      simp only [Option.map_some', Option.some.injEq] at hk
      refine ⟨p.2, ?_, ?_⟩
      · unfold ShowAll
        rw [List.getElem?_map, hp]
        rfl
      · rw [Get_eq_assoc t k hs]
        apply assoc_of_mem _ hs
        rw [← hk]
        exact List.getElem?_mem hp

theorem avl_keys_showall_witness :
    Reachable sampleStore ∧ Keys sampleStore = [2, 7, 9, 10, 11] ∧
      (Keys sampleStore).Pairwise (fun a b => a < b) ∧
      ∃ v, (ShowAll sampleStore)[1]? = some v ∧ Get sampleStore 7 = some v :=
  have h := avl_keys_showall sampleStore sampleStore_reachable
  ⟨sampleStore_reachable, by decide, h.2.1, h.2.2.2 1 7 (by decide)⟩

/-- C14: in a store reached by `Set`/`Del` operations every node stores in
`height` one more than the larger of the `height` fields of its two
children, an absent child counting `-1`; so a node without children stores
`0`. -/
theorem avl_height_fields [LinearOrder K] (t : AVLNode K V) (h : Reachable t) :
    HeightFields t :=
  heightFields_of_exact t (reachable_balanced t h).2

theorem avl_height_fields_witness :
    Reachable sampleStore ∧ HeightFields sampleStore :=
  ⟨sampleStore_reachable, avl_height_fields sampleStore sampleStore_reachable⟩

/-- The result flag of `Rename` on a search tree: true exactly when the old
key is stored and the new key is the old key or is not stored. -/
theorem Rename_fst [LinearOrder K] (t : AVLNode K V) (hs : Sorted t) (oldKey newKey : K) :
    (Rename t oldKey newKey).1 = true ↔
      Exists t oldKey = true ∧ (newKey = oldKey ∨ Exists t newKey = false) := by
  unfold Rename
  cases hf : FindNode t oldKey with
  | none => simp [Exists, hf]
  | some n =>
    obtain ⟨v, l, r, ht, rfl⟩ := FindNode_key t n oldKey hf
    have hdel : (Del t oldKey).2 = DeletHelper t oldKey := by simp [Del, hf]
    have hex : Exists t oldKey = true := by simp [Exists, hf]
    simp only [hdel, hex, true_and]
    have hget : Exists (DeletHelper t oldKey) newKey =
        if newKey = oldKey then false else Exists t newKey := by
      rw [Exists_eq_Get_isSome, Get_delete t oldKey newKey hs, Exists_eq_Get_isSome]
      split <;> rfl
    unfold Exists at hget
    unfold Set
    rw [hget]
    by_cases e : newKey = oldKey
    · simp [e]
    · simp only [if_neg e, e, false_or]
      unfold Exists
      cases (FindNode t newKey).isSome <;> simp

/-- C18: `Rename` of a stored key to itself returns true.  In the store after
`Set` of 7, 4, 9, 2, 10, 11 and `Del 4` the key 7 is stored, so the new key 7
is present before the call, and `Rename 7 7` returns true: `Del(old_key)`
runs before `Set(new_key, ...)` looks for the new key. -/
theorem avl_rename_same_key_true :
    Reachable sampleStore ∧ Exists sampleStore 7 = true ∧
      (Rename sampleStore 7 7).1 = true :=
  ⟨sampleStore_reachable, by decide, by decide⟩

/-- C19: `Rename` that returns false has deleted the old key.  In the store
after `Set` of 7, 4, 9, 2, 10, 11 and `Del 4` the keys 7 and 9 are stored;
`Rename 7 9` returns false, and afterwards 7 is no longer among the keys and
`Get 7` is absent, where it returned the record `"g"` before. -/
theorem avl_rename_false_loses_old :
    Reachable sampleStore ∧ Keys sampleStore = [2, 7, 9, 10, 11] ∧
      Get sampleStore 7 = some "g" ∧
      (Rename sampleStore 7 9).1 = false ∧
      Keys (Rename sampleStore 7 9).2 = [2, 9, 10, 11] ∧
      Get (Rename sampleStore 7 9).2 7 = none :=
  ⟨sampleStore_reachable, by decide, by decide, by decide, by decide, by decide⟩

end AVL

namespace AVL
variable {K : Type}

/-! ### `Find` and `DeleteExpiredElements` of the AVL tree -/

theorem zip_keys_showall (t : AVLNode K Val.Value) :
    List.zip (Keys t) (ShowAll t) = InOrderTraversal t := by
  unfold Keys ShowAll
  rw [List.zip_map']
  simp

/-- A pair found by `assoc` is a pair of the list. -/
theorem mem_of_assoc {V : Type} [DecidableEq K] (l : List (K × V)) (k : K) (v : V)
    (h : assoc k l = some v) : (k, v) ∈ l := by
  induction l with
  | nil => cases h
  | cons p l ih =>
    simp only [assoc] at h
    split at h
    · rename_i e
      cases h
      rw [← e]
      exact List.mem_cons_self _ _
    · exact List.mem_cons_of_mem _ (ih h)

theorem holds_iff (r : Except Val.Err Bool) : Val.holds r = true ↔ r = .ok true := by
  unfold Val.holds
  split
  · simp
  · rename_i h
    constructor
    · intro c
      cases c
    · intro c
      exact absurd c h

theorem ttlZero_iff (r : Except Val.Err (Option Nat)) :
    Val.ttlZero r = true ↔ r = .ok (some 0) := by
  unfold Val.ttlZero
  split
  · simp
  · rename_i h
    constructor
    · intro c
      cases c
    · intro c
      exact absurd c h

/-- When no `Match` throws, the loop of `Find` returns the keys of the
positions whose record matches. -/
theorem findLoop_spec (q : List Char) (L : List (K × Val.Value))
    (h : ∀ p ∈ L, ∃ b, p.2.Match q = .ok b) :
    findLoop q L = .ok ((L.filter (fun p => Val.holds (p.2.Match q))).map Prod.fst) := by
  induction L with
  | nil => rfl
  | cons n rest ih =>
    obtain ⟨b, hb⟩ := h n (List.mem_cons_self _ _)
    have ih := ih (fun p hp => h p (List.mem_cons_of_mem _ hp))
    unfold findLoop
    rw [hb, ih]
    simp only
    rw [List.filter_cons, hb]
    cases b <;> rfl

/-- The pairs of a sorted store are what `Get` returns. -/
theorem Get_iff_mem [LinearOrder K] {V : Type} (t : AVLNode K V) (hs : Sorted t) (k : K) (v : V) :
    Get t k = some v ↔ (k, v) ∈ InOrderTraversal t := by
  rw [Get_eq_assoc t k hs]
  exact ⟨mem_of_assoc _ k v, assoc_of_mem _ hs k v⟩

/-- C25: on a store reached by `Set`/`Del` operations and for a well-formed
query, `Find` returns the keys at the positions of `Keys()` whose record in
`ShowAll()` matches the query, in that order; the keys returned increase
strictly (each occurs once), and a key is returned exactly when the record
stored under it matches the query. -/
theorem avl_find_matches [LinearOrder K] (t : AVLNode K Val.Value) (h : Reachable t)
    (q : List Char) (hq : Val.wellFormed q = true) :
    ∃ ks, Find t q = .ok ks ∧
      ks = ((List.zip (Keys t) (ShowAll t)).filter
        (fun p => Val.holds (p.2.Match q))).map Prod.fst ∧
      ks.Pairwise (fun a b => a < b) ∧
      ∀ k, k ∈ ks ↔ ∃ v, Get t k = some v ∧ v.Match q = .ok true := by
  have hs := reachable_sorted t h
  refine ⟨_, findLoop_spec q _ (fun p _ => Val.match_total p.2 q hq), rfl, ?_, ?_⟩
  · rw [zip_keys_showall, List.pairwise_map]
    exact List.Pairwise.sublist (List.filter_sublist _) hs
  · intro k
    rw [zip_keys_showall, List.mem_map]
    constructor
    · rintro ⟨p, hp, rfl⟩
      rw [List.mem_filter] at hp
      exact ⟨p.2, (Get_iff_mem t hs p.1 p.2).2 hp.1, (holds_iff _).1 hp.2⟩
    · rintro ⟨v, hg, hm⟩
      exact ⟨(k, v), List.mem_filter.2 ⟨(Get_iff_mem t hs k v).1 hg, (holds_iff _).2 hm⟩, rfl⟩

theorem recordStore_reachable : Reachable recordStore :=
  Reachable.set _ _ _ (Reachable.set _ _ _ (Reachable.set _ _ _ Reachable.empty))

theorem avl_find_matches_witness :
    Reachable recordStore ∧ Val.wellFormed "- - 02000 Moscow -".toList = true ∧
      Find recordStore "- - 02000 Moscow -".toList = .ok [1, 2] :=
  have h := avl_find_matches recordStore recordStore_reachable "- - 02000 Moscow -".toList rfl
  ⟨recordStore_reachable, rfl, by
    obtain ⟨ks, h1, h2, _⟩ := h
    rw [h1, h2]
    rfl⟩

/-- The keys of the snapshot whose record has `TTL() == 0`. -/
theorem expired_cons (tps : Nat) (now : Int) (n : K × Val.Value) (rest : List (K × Val.Value)) :
    ((n :: rest).filter (fun p => Val.ttlZero (p.2.TTL tps now))).map Prod.fst =
      if Val.ttlZero (n.2.TTL tps now) = true then
        n.1 :: (rest.filter (fun p => Val.ttlZero (p.2.TTL tps now))).map Prod.fst
      else (rest.filter (fun p => Val.ttlZero (p.2.TTL tps now))).map Prod.fst := by
  rw [List.filter_cons]
  by_cases c : Val.ttlZero (n.2.TTL tps now) = true
  · rw [if_pos c, if_pos c]
    rfl
  · rw [if_neg c, if_neg c]

/-- The loop of `DeleteExpiredElements`: when no `TTL()` throws it ends, the
tree stays balanced, and its pairs are those of the start whose key is not
one of the expired keys of the snapshot. -/
theorem expireLoop_spec [LinearOrder K] (tps : Nat) (now : Int) (L : List (K × Val.Value)) :
    ∀ r : AVLNode K Val.Value, Sorted r → Balanced r → HeightsExact r →
      (∀ p ∈ L, ∃ x, p.2.TTL tps now = .ok x) →
      ∃ r2, expireLoop tps now L r = .ok r2 ∧ Balanced r2 ∧ HeightsExact r2 ∧
        InOrderTraversal r2 = (InOrderTraversal r).filter (fun p =>
          decide (p.1 ∉ (L.filter (fun p => Val.ttlZero (p.2.TTL tps now))).map Prod.fst)) := by
  induction L with
  | nil =>
    intro r _ hb he _
    refine ⟨r, rfl, hb, he, ?_⟩
    simp
  | cons n rest ih =>
    intro r hs hb he hv
    obtain ⟨x, hx⟩ := hv n (List.mem_cons_self _ _)
    have hv2 : ∀ p ∈ rest, ∃ x, p.2.TTL tps now = .ok x :=
      fun p hp => hv p (List.mem_cons_of_mem _ hp)
    unfold expireLoop
    rw [hx]
    simp only
    rw [expired_cons, hx]
    by_cases c : x = some 0
    · rw [if_pos c, if_pos (by rw [c]; rfl)]
      obtain ⟨d1, d2, _⟩ := delete_balanced r n.1 hb he
      obtain ⟨r2, h1, h2, h3, h4⟩ := ih (DeletHelper r n.1) (sorted_delete r n.1 hs) d1 d2 hv2
      refine ⟨r2, h1, h2, h3, ?_⟩
      rw [h4, inorder_delete r n.1 hs, List.filter_filter]
      congr 1
      funext p
      simp only [List.mem_cons, not_or, Bool.decide_and, Bool.and_comm]
    · rw [if_neg c, if_neg (by
        intro e
        have := (ttlZero_iff _).1 e
        injection this with e
        exact c e)]
      exact ih r hs hb he hv2

/-- C26: on a store reached by `Set`/`Del` operations whose records have a
readable TTL text, `DeleteExpiredElements` at the clock reading `now` ends;
afterwards the store is balanced, stores true heights and is ordered; the
keys whose record had `TTL() == 0` are not stored; every other stored key
still holds its record; and no key has been added. -/
theorem avl_delete_expired [LinearOrder K] (tps : Nat) (now : Int) (t : AVLNode K Val.Value)
    (h : Reachable t) (hv : ∀ p ∈ InOrderTraversal t, p.2.ttlReadable = true) :
    ∃ t2, DeleteExpiredElements tps now t = .ok t2 ∧
      Balanced t2 ∧ HeightsExact t2 ∧ (Keys t2).Pairwise (fun a b => a < b) ∧
      (∀ k v, Get t k = some v → v.TTL tps now = .ok (some 0) → Get t2 k = none) ∧
      (∀ k v, Get t k = some v → v.TTL tps now ≠ .ok (some 0) → Get t2 k = some v) ∧
      (∀ k, Get t k = none → Get t2 k = none) := by
  have hs := reachable_sorted t h
  obtain ⟨hb, he⟩ := reachable_balanced t h
  have hv2 : ∀ p ∈ InOrderTraversal t, ∃ x, p.2.TTL tps now = .ok x := by
    intro p hp
    have := hv p hp
    unfold Val.Value.ttlReadable at this
    unfold Val.Value.TTL
    cases ht : p.2.ttl with
    | none => exact ⟨_, rfl⟩
    | some x =>
      rw [ht] at this
      simp only at this ⊢
      cases hu : Val.stoull x with
      | error e =>
        rw [hu] at this
        cases this
      | ok n =>
        simp only [bind, Except.bind, pure, Except.pure]
        split <;> exact ⟨_, rfl⟩
  obtain ⟨t2, h1, h2, h3, h4⟩ := expireLoop_spec tps now (InOrderTraversal t) t hs hb he hv2
  have hs2 : Sorted t2 := by
    unfold Sorted
    rw [h4]
    exact List.Pairwise.sublist (List.filter_sublist _) hs
  refine ⟨t2, by unfold DeleteExpiredElements; rw [zip_keys_showall]; exact h1, h2, h3, ?_,
    ?_, ?_, ?_⟩
  · unfold Keys
    rw [List.pairwise_map]
    exact hs2
  · intro k v hg hz
    rw [Get_eq_assoc t2 k hs2, h4]
    apply assoc_none
    intro p hp e
    rw [List.mem_filter, decide_eq_true_eq] at hp
    apply hp.2
    rw [List.mem_map]
    exact ⟨(k, v), List.mem_filter.2 ⟨(Get_iff_mem t hs k v).1 hg, (ttlZero_iff _).2 hz⟩, e.symm⟩
  · intro k v hg hz
    rw [Get_iff_mem t2 hs2, h4, List.mem_filter, decide_eq_true_eq]
    refine ⟨(Get_iff_mem t hs k v).1 hg, ?_⟩
    intro hm
    rw [List.mem_map] at hm
    obtain ⟨p, hp, e⟩ := hm
    rw [List.mem_filter] at hp
    have hp1 : Get t k = some p.2 := by
      rw [Get_iff_mem t hs]
      have : (k, p.2) = p := Prod.ext e.symm rfl
      rw [this]
      exact hp.1
    rw [hg] at hp1
    injection hp1 with hp1
    apply hz
    rw [hp1]
    exact (ttlZero_iff _).1 hp.2
  · intro k hg
    rw [Get_eq_assoc t2 k hs2, h4]
    apply assoc_none
    intro p hp e
    rw [List.mem_filter] at hp
    have : Get t k = some p.2 := by
      rw [Get_iff_mem t hs]
      have : (k, p.2) = p := Prod.ext e.symm rfl
      rw [this]
      exact hp.1
    rw [hg] at this
    cases this

theorem avl_delete_expired_witness :
    Reachable recordStore ∧ (∀ p ∈ InOrderTraversal recordStore, p.2.ttlReadable = true) ∧
      Get recordStore 2 = some Val.timedRecord ∧
      Val.timedRecord.TTL 1000 10000 = .ok (some 0) ∧
      ∃ t2, DeleteExpiredElements 1000 10000 recordStore = .ok t2 ∧ Get t2 2 = none ∧
        Get t2 1 = some Val.sampleRecord :=
  have h := avl_delete_expired 1000 10000 recordStore recordStore_reachable (by decide)
  ⟨recordStore_reachable, by decide, rfl, rfl, by
    obtain ⟨t2, h1, _, _, _, h5, h6, _⟩ := h
    exact ⟨t2, h1, h5 2 _ rfl rfl, h6 1 _ rfl (by
      intro c
      cases c)⟩⟩

end AVL

namespace AVL
variable {K V : Type}

/-! ### Rebalancing of one node, and the height of the tree -/

theorem GetBalance_UpdateHeight (k : K) (v : V) (l r : AVLNode K V) (h : Int)
    (el : HeightsExact l) (er : HeightsExact r) :
    GetBalance (UpdateHeight (.node k v l r h)) = realHeight r - realHeight l := by
  simp only [UpdateHeight, GetBalance, GetHeight_eq_realHeight l el, GetHeight_eq_realHeight r er]

/-- C36: for a node whose subtrees are balanced with exact heights and whose
balance `b = height(right) - height(left)` lies in `[-2, 2]`, `BalanceNode`
after `UpdateHeight` returns a subtree that is balanced, has exact heights
and the same in-order sequence of keys and records (so a search-ordered node
stays search-ordered).  At `b = -2` the result is `RotateRight` of the node,
after `RotateLeft` of the left child exactly when that child is right-heavy;
at `b = 2` the mirror image; at any other balance the node is returned as
`UpdateHeight` left it. -/
theorem avl_balance_node (k : K) (v : V) (l r : AVLNode K V) (h : Int)
    (bl : Balanced l) (el : HeightsExact l) (br : Balanced r) (er : HeightsExact r)
    (d1 : -2 ≤ realHeight r - realHeight l) (d2 : realHeight r - realHeight l ≤ 2) :
    Balanced (BalanceNode (UpdateHeight (.node k v l r h))) ∧
    HeightsExact (BalanceNode (UpdateHeight (.node k v l r h))) ∧
    InOrderTraversal (BalanceNode (UpdateHeight (.node k v l r h))) =
      InOrderTraversal l ++ (k, v) :: InOrderTraversal r ∧
    (realHeight r - realHeight l = -2 → GetBalance l > 0 →
      BalanceNode (UpdateHeight (.node k v l r h)) =
        RotateRight (.node k v (RotateLeft l) r (max (GetHeight l) (GetHeight r) + 1))) ∧
    (realHeight r - realHeight l = -2 → ¬ GetBalance l > 0 →
      BalanceNode (UpdateHeight (.node k v l r h)) =
        RotateRight (.node k v l r (max (GetHeight l) (GetHeight r) + 1))) ∧
    (realHeight r - realHeight l = 2 → GetBalance r < 0 →
      BalanceNode (UpdateHeight (.node k v l r h)) =
        RotateLeft (.node k v l (RotateRight r) (max (GetHeight l) (GetHeight r) + 1))) ∧
    (realHeight r - realHeight l = 2 → ¬ GetBalance r < 0 →
      BalanceNode (UpdateHeight (.node k v l r h)) =
        RotateLeft (.node k v l r (max (GetHeight l) (GetHeight r) + 1))) ∧
    (realHeight r - realHeight l ≠ -2 → realHeight r - realHeight l ≠ 2 →
      BalanceNode (UpdateHeight (.node k v l r h)) =
        .node k v l r (max (GetHeight l) (GetHeight r) + 1)) := by
  obtain ⟨s1, s2, _⟩ := balance_spec k v l r h bl el br er d1 d2
  have hb := GetBalance_UpdateHeight k v l r h el er
  have hu : UpdateHeight (.node k v l r h) =
      .node k v l r (max (GetHeight l) (GetHeight r) + 1) := rfl
  rw [hu] at hb
  refine ⟨s1, s2, ?_, ?_, ?_, ?_, ?_, ?_⟩
  · rw [inorder_fix]
    rfl
  · intro e g
    rw [hu, BalanceNode]
    rw [if_pos (by rw [hb, e]), if_pos g]
  · intro e g
    rw [hu, BalanceNode]
    rw [if_pos (by rw [hb, e]), if_neg g]
  · intro e g
    rw [hu, BalanceNode]
    rw [if_neg (by rw [hb, e]; decide), if_pos (by rw [hb, e]), if_pos g]
  · intro e g
    rw [hu, BalanceNode]
    rw [if_neg (by rw [hb, e]; decide), if_pos (by rw [hb, e]), if_neg g]
  · intro e1 e2
    rw [hu, BalanceNode]
    rw [if_neg (by rw [hb]; exact e1), if_neg (by rw [hb]; exact e2)]

theorem avl_balance_node_witness :
    BalanceNode (UpdateHeight (.node 5 "e" (.node 2 "b" .nil (.node 3 "c" .nil .nil 0) 1)
        .nil 0)) =
      (.node 3 "c" (.node 2 "b" .nil .nil 0) (.node 5 "e" .nil .nil 0) 1 : AVLNode Nat String) ∧
    Balanced (BalanceNode (UpdateHeight (.node 5 "e"
      (.node 2 "b" .nil (.node 3 "c" .nil .nil 0) 1) (.nil : AVLNode Nat String) 0))) :=
  ⟨rfl, (avl_balance_node 5 "e" (.node 2 "b" .nil (.node 3 "c" .nil .nil 0) 1) .nil 0
    (by simp [Balanced, realHeight]) (by simp [HeightsExact, realHeight])
    trivial trivial (by simp [realHeight]) (by simp [realHeight])).1⟩

/-- A balanced tree of height `h` holds at least `fib (h + 3) - 1` keys. -/
theorem fib_le_size (t : AVLNode K V) (b : Balanced t) :
    Nat.fib ((realHeight t + 3).toNat) ≤ (InOrderTraversal t).length + 1 := by
  induction t with
  | nil => simp [realHeight, InOrderTraversal]
  | node k v l r h ihl ihr =>
    simp only [Balanced] at b
    obtain ⟨b1, b2, bl, br⟩ := b
    have il := ihl bl
    have ir := ihr br
    have gl := realHeight_ge l
    have gr := realHeight_ge r
    simp only [realHeight, InOrderTraversal, List.length_append, List.length_cons]
    obtain ⟨a, ha⟩ : ∃ a : Nat, realHeight l = (a : Int) - 1 := ⟨(realHeight l + 1).toNat, by omega⟩
    obtain ⟨c, hc⟩ : ∃ c : Nat, realHeight r = (c : Int) - 1 := ⟨(realHeight r + 1).toNat, by omega⟩
    rw [ha] at il
    rw [hc] at ir
    rw [ha, hc]
    have e1 : ((a : Int) - 1 + 3).toNat = a + 2 := by omega
    have e2 : ((c : Int) - 1 + 3).toNat = c + 2 := by omega
    rw [e1] at il
    rw [e2] at ir
    rw [ha, hc] at b1 b2
    rcases le_total a c with hac | hac
    · have e3 : (max ((a : Int) - 1) ((c : Int) - 1) + 1 + 3).toNat = c + 3 := by
        rw [max_eq_right (by omega)]
        omega
      have e4 : Nat.fib (c + 3) = Nat.fib (c + 1) + Nat.fib (c + 2) := Nat.fib_add_two
      rw [e3, e4]
      have hmono : Nat.fib (c + 1) ≤ Nat.fib (a + 2) := Nat.fib_mono (by omega)
      omega
    · have e3 : (max ((a : Int) - 1) ((c : Int) - 1) + 1 + 3).toNat = a + 3 := by
        rw [max_eq_left (by omega)]
        omega
      have e4 : Nat.fib (a + 3) = Nat.fib (a + 1) + Nat.fib (a + 2) := Nat.fib_add_two
      rw [e3, e4]
      have hmono : Nat.fib (a + 1) ≤ Nat.fib (c + 2) := Nat.fib_mono (by omega)
      omega

/-- The Fibonacci numbers grow geometrically. -/
theorem two_pow_le_fib_sq (h : Nat) : 2 ^ h ≤ Nat.fib (h + 3) ^ 2 := by
  induction h using Nat.strong_induction_on with
  | _ h ih =>
    match h with
    | 0 => decide
    | 1 => decide
    | h + 2 =>
      have i := ih h (by omega)
      have e : Nat.fib (h + 2 + 3) = Nat.fib (h + 3) + Nat.fib (h + 4) := Nat.fib_add_two
      have m : Nat.fib (h + 3) ≤ Nat.fib (h + 4) := Nat.fib_mono (by omega)
      rw [e, pow_succ, pow_succ]
      nlinarith

/-- C40: in a non-empty store reached by `Set`/`Del` operations whose root
has height `h` (the `height` field, `0` for a single node), the number `n`
of stored keys is at least `fib (h + 3) - 1`, with `fib 1 = fib 2 = 1`;
hence `2 ^ h ≤ (n + 1) ^ 2`, that is `h ≤ 2 * log2 (n + 1)`. -/
theorem avl_height_logarithmic [LinearOrder K] (t : AVLNode K V) (hr : Reachable t) (h : Nat)
    (hh : GetHeight t = (h : Int)) :
    Nat.fib (h + 3) - 1 ≤ (Keys t).length ∧ 2 ^ h ≤ ((Keys t).length + 1) ^ 2 := by
  obtain ⟨b, e⟩ := reachable_balanced t hr
  have hf := fib_le_size t b
  rw [← GetHeight_eq_realHeight t e, hh] at hf
  have e1 : ((h : Int) + 3).toNat = h + 3 := by omega
  rw [e1] at hf
  have hk : (Keys t).length = (InOrderTraversal t).length := by
    unfold Keys
    rw [List.length_map]
  rw [hk]
  refine ⟨by omega, le_trans (two_pow_le_fib_sq h) (Nat.pow_le_pow_left hf 2)⟩

theorem avl_height_logarithmic_witness :
    Reachable sampleStore ∧ GetHeight sampleStore = ((2 : Nat) : Int) ∧
      Nat.fib (2 + 3) - 1 ≤ (Keys sampleStore).length ∧
      2 ^ 2 ≤ ((Keys sampleStore).length + 1) ^ 2 :=
  ⟨sampleStore_reachable, by decide,
    avl_height_logarithmic sampleStore sampleStore_reachable 2 (by decide)⟩

end AVL

namespace AVL

/-! ### `Export` and `Upload` of the AVL tree -/

end AVL

namespace HT
variable {K V : Type}

/-! ### Buckets and chains -/

theorem getD_set_chain {α : Type} (T : List (List α)) (i j : Nat) (c : List α) :
    (T.set i c).getD j [] = if i = j ∧ i < T.length then c else T.getD j [] := by
  simp only [List.getD_eq_getElem?_getD, List.getElem?_set]
  by_cases h : i = j
  · subst h
    by_cases h2 : i < T.length
    · simp [h2]
    · simp [h2, List.getElem?_eq_none (not_lt.1 h2)]
  · simp [h]

theorem total_set {α : Type} (T : List (List α)) (i : Nat) (c : List α) (h : i < T.length) :
    ((T.set i c).map List.length).sum + (T.getD i []).length =
      (T.map List.length).sum + c.length := by
  induction T generalizing i with
  | nil => simp at h
  | cons a T ih =>
    cases i with
    | zero => simp; omega
    | succ i =>
      have := ih i (by simpa using h)
      simp only [List.set_cons_succ, List.map_cons, List.sum_cons, List.getD_cons_succ] at this ⊢
      omega

theorem mem_flatten_iff_getD {α : Type} (T : List (List α)) (n : α) :
    n ∈ T.flatten ↔ ∃ i, n ∈ T.getD i [] := by
  constructor
  · intro h
    obtain ⟨c, hc, hn⟩ := List.mem_flatten.1 h
    obtain ⟨i, hi, rfl⟩ := List.getElem_of_mem hc
    exact ⟨i, by simpa [List.getD_eq_getElem?_getD, List.getElem?_eq_getElem hi] using hn⟩
  · rintro ⟨i, hi⟩
    by_cases h : i < T.length
    · rw [List.getD_eq_getElem?_getD, List.getElem?_eq_getElem h] at hi
      exact List.mem_flatten.2 ⟨T[i], List.getElem_mem _, by simpa using hi⟩
    · rw [List.getD_eq_getElem?_getD, List.getElem?_eq_none (not_lt.1 h)] at hi
      simp at hi

section Chains
variable [DecidableEq K]

theorem findInChain_some_mem (key : K) (c : List (K × V)) (n : K × V)
    (h : findInChain key c = some n) : n ∈ c ∧ n.1 = key := by
  induction c with
  | nil => simp [findInChain] at h
  | cons a c ih =>
    simp only [findInChain] at h
    split at h
    · rename_i e
      cases h
      exact ⟨List.mem_cons_self _ _, e⟩
    · exact ⟨List.mem_cons_of_mem _ (ih h).1, (ih h).2⟩

theorem findInChain_none_iff (key : K) (c : List (K × V)) :
    findInChain key c = none ↔ ∀ n ∈ c, n.1 ≠ key := by
  induction c with
  | nil => simp [findInChain]
  | cons a c ih =>
    simp only [findInChain]
    by_cases e : a.1 = key
    · simp [e]
    · simp [e, ih]

theorem findInChain_eq_some_iff (key : K) (c : List (K × V)) (n : K × V)
    (hc : (c.map Prod.fst).Nodup) :
    findInChain key c = some n ↔ n ∈ c ∧ n.1 = key := by
  constructor
  · exact findInChain_some_mem key c n
  · rintro ⟨hn, hk⟩
    induction c with
    | nil => simp at hn
    | cons a c ih =>
      simp only [List.map_cons, List.nodup_cons] at hc
      simp only [findInChain]
      rcases List.mem_cons.1 hn with rfl | hn
      · simp [hk]
      · have : a.1 ≠ key := by
          intro e
          apply hc.1
          rw [e, ← hk]
          exact List.mem_map_of_mem _ hn
        simp [this, ih hc.2 hn]

theorem findInChain_append (key : K) (c d : List (K × V)) :
    findInChain key (c ++ d) =
      match findInChain key c with
      | some n => some n
      | none => findInChain key d := by
  induction c with
  | nil => rfl
  | cons a c ih =>
    rw [List.cons_append, findInChain, findInChain]
    split
    · rfl
    · exact ih

theorem findInChain_unlink (key key' : K) (c : List (K × V)) (hc : (c.map Prod.fst).Nodup) :
    findInChain key' (unlink key c) = if key' = key then none else findInChain key' c := by
  induction c with
  | nil => simp [unlink, findInChain]
  | cons a c ih =>
    simp only [List.map_cons, List.nodup_cons] at hc
    simp only [unlink]
    by_cases e : a.1 = key
    · rw [if_pos e]
      by_cases e' : key' = key
      · rw [if_pos e', findInChain_none_iff]
        intro n hn en
        apply hc.1
        rw [e, ← e', ← en]
        exact List.mem_map_of_mem _ hn
      · have : ¬ a.1 = key' := fun x => e' (x.symm.trans e)
        simp [findInChain, this, e']
    · rw [if_neg e]
      simp only [findInChain]
      rw [ih hc.2]
      by_cases e' : key' = key
      · have : ¬ a.1 = key' := by rw [e']; exact e
        simp [e', this, e]
      · simp [e']

theorem unlink_sublist (key : K) (c : List (K × V)) : List.Sublist (unlink key c) c := by
  induction c with
  | nil => exact List.Sublist.slnil
  | cons a c ih =>
    simp only [unlink]
    split
    · exact List.sublist_cons_self _ _
    · exact List.Sublist.cons₂ _ ih

theorem unlink_length (key : K) (c : List (K × V)) (h : (findInChain key c).isSome) :
    (unlink key c).length + 1 = c.length := by
  induction c with
  | nil => simp [findInChain] at h
  | cons a c ih =>
    simp only [unlink, findInChain] at h ⊢
    split
    · simp
    · rename_i e
      rw [if_neg e] at h
      simp [ih h]

end Chains

/-! ### Rehashing -/

theorem relink_length (hash : K → Nat) (m : Nat) (T : List (List (K × V))) (n : K × V) :
    (relink hash m T n).length = T.length := by
  simp [relink]

theorem foldl_relink_length (hash : K → Nat) (m : Nat) (L : List (K × V))
    (T : List (List (K × V))) : (L.foldl (relink hash m) T).length = T.length := by
  induction L generalizing T with
  | nil => rfl
  | cons n L ih => rw [List.foldl_cons, ih, relink_length]

theorem foldl_relink_getD (hash : K → Nat) (m : Nat) (L : List (K × V))
    (T : List (List (K × V))) (hT : T.length = m) (hm : 0 < m) (j : Nat) :
    (L.foldl (relink hash m) T).getD j [] =
      (L.filter (fun n => decide (hash n.1 % m = j))).reverse ++ T.getD j [] := by
  induction L generalizing T with
  | nil => simp
  | cons n L ih =>
    rw [List.foldl_cons, ih _ (by rw [relink_length, hT])]
    unfold relink
    rw [getD_set_chain]
    have hlt : hash n.1 % m < T.length := by rw [hT]; exact Nat.mod_lt _ hm
    by_cases e : hash n.1 % m = j
    · rw [if_pos ⟨e, hlt⟩, List.filter_cons_of_pos (by simpa using e), e]
      simp
    · rw [if_neg (fun h => e h.1), List.filter_cons_of_neg (by simpa using e)]

theorem foldl_relink_total (hash : K → Nat) (m : Nat) (L : List (K × V))
    (T : List (List (K × V))) (hT : T.length = m) (hm : 0 < m) :
    ((L.foldl (relink hash m) T).map List.length).sum = (T.map List.length).sum + L.length := by
  induction L generalizing T with
  | nil => simp
  | cons n L ih =>
    rw [List.foldl_cons, ih _ (by rw [relink_length, hT])]
    have hlt : hash n.1 % m < T.length := by rw [hT]; exact Nat.mod_lt _ hm
    have := total_set T (hash n.1 % m) (n :: T.getD (hash n.1 % m) []) hlt
    unfold relink
    simp only [List.length_cons] at this ⊢
    omega

theorem foldl_chains (hash : K → Nat) (m : Nat) (C : List (List (K × V)))
    (T : List (List (K × V))) :
    C.foldl (fun newTable chain => chain.foldl (relink hash m) newTable) T =
      C.flatten.foldl (relink hash m) T := by
  induction C generalizing T with
  | nil => rfl
  | cons c C ih => rw [List.foldl_cons, ih, List.flatten_cons, List.foldl_append]

/-- The table `Resize` builds when it rehashes into `m` buckets. -/
theorem rehash_bucket (hash : K → Nat) (m : Nat) (C : List (List (K × V))) (hm : 0 < m)
    (j : Nat) :
    (C.foldl (fun newTable chain => chain.foldl (relink hash m) newTable)
        (List.replicate m [])).getD j [] =
      (C.flatten.filter (fun n => decide (hash n.1 % m = j))).reverse := by
  rw [foldl_chains, foldl_relink_getD hash m _ _ (List.length_replicate _ _) hm]
  have : (List.replicate m ([] : List (K × V))).getD j [] = [] := by
    rw [List.getD_eq_getElem?_getD]
    by_cases h : j < m
    · simp [List.getElem?_replicate, h]
    · simp [List.getElem?_replicate, h]
  rw [this, List.append_nil]

section Invariant
variable [DecidableEq K]

omit [DecidableEq K] in
theorem keys_nodup_of_home (idx : K → Nat) (off : Nat) (T : List (List (K × V)))
    (hh : ∀ i, ∀ n ∈ T.getD i [], idx n.1 = off + i)
    (hn : ∀ i, ((T.getD i []).map Prod.fst).Nodup) :
    (T.flatten.map Prod.fst).Nodup := by
  induction T generalizing off with
  | nil => simp
  | cons c T ih =>
    rw [List.flatten_cons, List.map_append, List.nodup_append]
    refine ⟨by simpa using hn 0, ?_, ?_⟩
    · apply ih (off + 1)
      · intro i n hmem
        have := hh (i + 1) n (by simpa using hmem)
        omega
      · intro i
        simpa using hn (i + 1)
    · intro a ha hb
      obtain ⟨n, hnc, rfl⟩ := List.mem_map.1 ha
      obtain ⟨n', hn', e⟩ := List.mem_map.1 hb
      obtain ⟨i, hi⟩ := (mem_flatten_iff_getD T n').1 hn'
      have h1 := hh 0 n (by simpa using hnc)
      have h2 := hh (i + 1) n' (by simpa using hi)
      rw [e] at h2
      omega

theorem WF.keys_nodup (hash : K → Nat) (t : HashTable K V) (h : WF hash t) :
    (t.table.flatten.map Prod.fst).Nodup :=
  keys_nodup_of_home (fun k => hash k % t.capacity) 0 t.table
    (fun i n hn => by simpa using h.home i n hn) h.nodup

theorem WF.new (hash : K → Nat) (capacity : Nat) :
    WF hash (HashTable.new capacity : HashTable K V) := by
  have hb : ∀ (m i : Nat), (List.replicate m ([] : List (K × V))).getD i [] = [] := by
    intro m i
    rw [List.getD_eq_getElem?_getD]
    by_cases h : i < m <;> simp [List.getElem?_replicate, h]
  unfold HashTable.new
  split
  · exact ⟨le_refl _, by simp, by simp [bucket, hb], by simp [bucket, hb],
      by simp [nodeCount]⟩
  · rename_i h
    exact ⟨not_lt.1 h, by simp, by simp [bucket, hb], by simp [bucket, hb],
      by simp [nodeCount]⟩

omit [DecidableEq K] in
theorem Resize_eq (hash : K → Nat) (t : HashTable K V) (m : Nat)
    (hm : kTableCapacity ≤ m) (hne : m ≠ t.capacity) :
    Resize hash t m =
      { capacity := m, size := t.size,
        table := t.table.foldl (fun newTable chain => chain.foldl (relink hash m) newTable)
          (List.replicate m []) } := by
  unfold Resize
  simp only [if_neg (not_lt.2 hm), if_neg hne]

omit [DecidableEq K] in
theorem Resize_bucket (hash : K → Nat) (t : HashTable K V) (m : Nat)
    (hm : kTableCapacity ≤ m) (hne : m ≠ t.capacity) (j : Nat) :
    bucket (Resize hash t m) j =
      (t.table.flatten.filter (fun n => decide (hash n.1 % m = j))).reverse := by
  rw [Resize_eq hash t m hm hne]
  exact rehash_bucket hash m t.table (lt_of_lt_of_le (by decide) hm) j

theorem WF.resize (hash : K → Nat) (t : HashTable K V) (m : Nat) (h : WF hash t)
    (hm : kTableCapacity ≤ m) : WF hash (Resize hash t m) := by
  by_cases hne : m = t.capacity
  · have : Resize hash t m = t := by
      unfold Resize
      simp only [if_neg (not_lt.2 hm), if_pos hne]
    rw [this]; exact h
  · have hpos : 0 < m := lt_of_lt_of_le (by decide) hm
    have hb := Resize_bucket hash t m hm hne
    have hc : (Resize hash t m).capacity = m := by rw [Resize_eq hash t m hm hne]
    refine ⟨by rw [hc]; exact hm, ?_, ?_, ?_, ?_⟩
    · rw [Resize_eq hash t m hm hne]
      simp only
      rw [foldl_chains, foldl_relink_length, List.length_replicate]
    · intro i n hn
      rw [hb] at hn
      rw [hc]
      simpa using (List.mem_filter.1 (List.mem_reverse.1 hn)).2
    · intro i
      rw [hb, List.map_reverse, List.nodup_reverse]
      exact List.Nodup.sublist ((List.filter_sublist _).map _) (h.keys_nodup hash t)
    · rw [Resize_eq hash t m hm hne]
      simp only [nodeCount]
      rw [foldl_chains, foldl_relink_total hash m _ _ (List.length_replicate _ _) hpos, h.count]
      simp [nodeCount, List.length_flatten]

theorem mem_bucket_iff (hash : K → Nat) (t : HashTable K V) (h : WF hash t) (n : K × V) :
    n ∈ bucket t (hash n.1 % t.capacity) ↔ n ∈ t.table.flatten := by
  constructor
  · intro hn
    exact (mem_flatten_iff_getD _ _).2 ⟨_, hn⟩
  · intro hn
    obtain ⟨i, hi⟩ := (mem_flatten_iff_getD _ _).1 hn
    have := h.home i n hi
    rw [this]
    exact hi

/-- `FindNode` finds exactly the node of the table that carries the key. -/
theorem FindNode_eq_some_iff (hash : K → Nat) (t : HashTable K V) (h : WF hash t)
    (key : K) (n : K × V) :
    FindNode hash t key = some n ↔ n ∈ t.table.flatten ∧ n.1 = key := by
  unfold FindNode HashFunction
  rw [findInChain_eq_some_iff _ _ _ (h.nodup _)]
  constructor
  · rintro ⟨hn, hk⟩
    exact ⟨(mem_flatten_iff_getD _ _).2 ⟨_, hn⟩, hk⟩
  · rintro ⟨hn, hk⟩
    refine ⟨?_, hk⟩
    rw [← hk]
    exact (mem_bucket_iff hash t h n).2 hn

/-- Rehashing changes no lookup. -/
theorem FindNode_resize (hash : K → Nat) (t : HashTable K V) (m : Nat) (h : WF hash t)
    (hm : kTableCapacity ≤ m) (key : K) :
    FindNode hash (Resize hash t m) key = FindNode hash t key := by
  by_cases hne : m = t.capacity
  · have : Resize hash t m = t := by
      unfold Resize
      simp only [if_neg (not_lt.2 hm), if_pos hne]
    rw [this]
  · have hw := WF.resize hash t m h hm
    apply Option.ext
    intro n
    simp only [Option.mem_def]
    rw [FindNode_eq_some_iff hash _ hw, FindNode_eq_some_iff hash _ h]
    have hc : (Resize hash t m).capacity = m := by rw [Resize_eq hash t m hm hne]
    constructor
    · rintro ⟨hn, hk⟩
      have h1 := (mem_bucket_iff hash _ hw n).2 hn
      rw [Resize_bucket hash t m hm hne] at h1
      exact ⟨(List.mem_filter.1 (List.mem_reverse.1 h1)).1, hk⟩
    · rintro ⟨hn, hk⟩
      refine ⟨?_, hk⟩
      apply (mem_bucket_iff hash _ hw n).1
      rw [Resize_bucket hash t m hm hne, List.mem_reverse, List.mem_filter]
      exact ⟨hn, by simp [hc]⟩

omit [DecidableEq K] in
theorem InsertNode_eq (hash : K → Nat) (t : HashTable K V) (key : K) (value : V) :
    InsertNode hash t key value =
      linkNode hash (if loadExceeded t.size t.capacity then Resize hash t (t.capacity * 2)
        else t) key value := rfl

theorem append_wf (hash : K → Nat) (t : HashTable K V) (key : K) (value : V)
    (h : WF hash t) (hk : FindNode hash t key = none) :
    WF hash (linkNode hash t key value) := by
  have hpos : 0 < t.capacity := lt_of_lt_of_le (by decide) h.cap
  have hlt : hash key % t.capacity < t.table.length := by rw [h.len]; exact Nat.mod_lt _ hpos
  have hb : ∀ j, bucket (linkNode hash t key value) j =
      if hash key % t.capacity = j then bucket t j ++ [(key, value)] else bucket t j := by
    intro j
    simp only [bucket, linkNode, HashFunction]
    rw [getD_set_chain]
    by_cases e : hash key % t.capacity = j
    · rw [if_pos ⟨e, hlt⟩, if_pos e, e]
    · rw [if_neg (fun x => e x.1), if_neg e]
  have hcap : (linkNode hash t key value).capacity = t.capacity := rfl
  refine ⟨h.cap, by simpa [linkNode] using h.len, ?_, ?_, ?_⟩
  · intro i n hn
    rw [hb] at hn
    rw [hcap]
    split at hn
    · rename_i e
      rcases List.mem_append.1 hn with hn | hn
      · exact h.home i n hn
      · simp only [List.mem_singleton] at hn
        rw [hn]; exact e
    · exact h.home i n hn
  · intro i
    rw [hb]
    split
    · rename_i e
      rw [List.map_append, List.nodup_append]
      refine ⟨h.nodup i, by simp, ?_⟩
      intro a ha hb'
      simp only [List.map_cons, List.map_nil, List.mem_singleton] at hb'
      obtain ⟨n, hn, rfl⟩ := List.mem_map.1 ha
      have := (findInChain_none_iff key _).1 hk n (by
        unfold HashFunction; rw [e]; exact hn)
      exact this hb'
    · exact h.nodup i
  · have := total_set t.table (hash key % t.capacity)
      (bucket t (hash key % t.capacity) ++ [(key, value)]) hlt
    simp only [nodeCount, bucket, linkNode, HashFunction, List.length_append,
      List.length_singleton] at this ⊢
    have hc := h.count
    simp only [nodeCount] at hc
    omega

theorem append_find (hash : K → Nat) (t : HashTable K V) (key key' : K) (value : V)
    (h : WF hash t) (hk : FindNode hash t key = none) :
    FindNode hash (linkNode hash t key value) key' =
      if key' = key then some (key, value) else FindNode hash t key' := by
  have hpos : 0 < t.capacity := lt_of_lt_of_le (by decide) h.cap
  have hlt : hash key % t.capacity < t.table.length := by rw [h.len]; exact Nat.mod_lt _ hpos
  unfold FindNode HashFunction at hk ⊢
  simp only [bucket, linkNode, HashFunction] at hk ⊢
  rw [getD_set_chain]
  by_cases e : key' = key
  · subst e
    rw [if_pos ⟨rfl, hlt⟩, if_pos rfl, findInChain_append, hk]
    simp [findInChain]
  · rw [if_neg e]
    by_cases e2 : hash key % t.capacity = hash key' % t.capacity
    · rw [if_pos ⟨e2, hlt⟩, findInChain_append, e2]
      have : ¬ key = key' := fun x => e x.symm
      cases findInChain key' (t.table.getD (hash key' % t.capacity) []) with
      | none => simp [findInChain, this]
      | some n => rfl
    · rw [if_neg (fun x => e2 x.1)]

theorem WF.insert (hash : K → Nat) (t : HashTable K V) (key : K) (value : V)
    (h : WF hash t) (hk : FindNode hash t key = none) :
    WF hash (InsertNode hash t key value) := by
  rw [InsertNode_eq]
  split
  · have hw := WF.resize hash t (t.capacity * 2) h (by have := h.cap; omega)
    exact append_wf hash _ key value hw
      (by rw [FindNode_resize hash t _ h (by have := h.cap; omega)]; exact hk)
  · exact append_wf hash t key value h hk

theorem FindNode_insert (hash : K → Nat) (t : HashTable K V) (key key' : K) (value : V)
    (h : WF hash t) (hk : FindNode hash t key = none) :
    FindNode hash (InsertNode hash t key value) key' =
      if key' = key then some (key, value) else FindNode hash t key' := by
  rw [InsertNode_eq]
  split
  · have hm : kTableCapacity ≤ t.capacity * 2 := by have := h.cap; omega
    have hw := WF.resize hash t (t.capacity * 2) h hm
    rw [append_find hash _ key key' value hw (by rw [FindNode_resize hash t _ h hm]; exact hk),
      FindNode_resize hash t _ h hm]
  · exact append_find hash t key key' value h hk

theorem delete_bucket (hash : K → Nat) (t : HashTable K V) (key : K) (h : WF hash t) (j : Nat) :
    bucket (DeleteNode hash t key) j =
      if hash key % t.capacity = j then unlink key (bucket t j) else bucket t j := by
  have hpos : 0 < t.capacity := lt_of_lt_of_le (by decide) h.cap
  have hlt : hash key % t.capacity < t.table.length := by rw [h.len]; exact Nat.mod_lt _ hpos
  simp only [DeleteNode, bucket, HashFunction]
  rw [getD_set_chain]
  by_cases e : hash key % t.capacity = j
  · rw [if_pos ⟨e, hlt⟩, if_pos e, e]
  · rw [if_neg (fun x => e x.1), if_neg e]

theorem WF.delete (hash : K → Nat) (t : HashTable K V) (key : K)
    (h : WF hash t) (hk : (FindNode hash t key).isSome) :
    WF hash (DeleteNode hash t key) := by
  have hpos : 0 < t.capacity := lt_of_lt_of_le (by decide) h.cap
  have hlt : hash key % t.capacity < t.table.length := by rw [h.len]; exact Nat.mod_lt _ hpos
  have hcap : (DeleteNode hash t key).capacity = t.capacity := rfl
  refine ⟨h.cap, by simpa [DeleteNode] using h.len, ?_, ?_, ?_⟩
  · intro i n hn
    rw [delete_bucket hash t key h] at hn
    rw [hcap]
    split at hn
    · exact h.home i n ((unlink_sublist key _).subset hn)
    · exact h.home i n hn
  · intro i
    rw [delete_bucket hash t key h]
    split
    · exact List.Nodup.sublist ((unlink_sublist key _).map _) (h.nodup i)
    · exact h.nodup i
  · have := total_set t.table (hash key % t.capacity)
      (unlink key (bucket t (hash key % t.capacity))) hlt
    have hl := unlink_length key (bucket t (hash key % t.capacity)) hk
    have hc := h.count
    simp only [nodeCount, bucket, DeleteNode, HashFunction] at this hl hc ⊢
    omega

theorem FindNode_delete (hash : K → Nat) (t : HashTable K V) (key key' : K)
    (h : WF hash t) :
    FindNode hash (DeleteNode hash t key) key' =
      if key' = key then none else FindNode hash t key' := by
  have hcap : (DeleteNode hash t key).capacity = t.capacity := rfl
  unfold FindNode HashFunction
  rw [hcap, delete_bucket hash t key h]
  by_cases e : key' = key
  · subst e
    rw [if_pos rfl, if_pos rfl, findInChain_unlink _ _ _ (h.nodup _), if_pos rfl]
  · rw [if_neg e]
    split
    · rw [findInChain_unlink _ _ _ (h.nodup _), if_neg e]
    · rfl

/-- Every reachable table is well formed. -/
theorem reachable_wf (hash : K → Nat) (t : HashTable K V) (h : Reachable hash t) :
    WF hash t := by
  induction h with
  | new capacity => exact WF.new hash capacity
  | set t key value _ ih =>
    unfold Set
    split
    · exact ih
    · rename_i c
      exact WF.insert hash t key value ih (by simpa using c)
  | del t key _ ih =>
    unfold Del
    split
    · rename_i c
      exact WF.delete hash t key ih c
    · exact ih
  | rename t oldKey newKey _ ih =>
    unfold Rename
    split
    · exact ih
    · rename_i c
      simp only [Exists, not_or, not_not] at c
      split
      · exact ih
      · rename_i node hnode
        have hw := WF.delete hash t oldKey ih c.1
        apply WF.insert hash _ newKey node.2 hw
        rw [FindNode_delete hash t oldKey newKey ih]
        split
        · rfl
        · simpa using c.2

end Invariant

/-! ### Tables filled with consecutive keys -/

theorem fill_reachable (capacity n : Nat) : Reachable id (fill capacity n) := by
  induction n with
  | zero => exact Reachable.new capacity
  | succ n ih => exact Reachable.set _ _ _ ih

theorem mem_linkNode (hash : K → Nat) (t : HashTable K V) (key : K) (value : V) (p : K × V)
    (h : p ∈ (linkNode hash t key value).table.flatten) :
    p ∈ t.table.flatten ∨ p = (key, value) := by
  obtain ⟨j, hj⟩ := (mem_flatten_iff_getD _ _).1 h
  simp only [linkNode, bucket, HashFunction] at hj
  rw [getD_set_chain] at hj
  split at hj
  · rcases List.mem_append.1 hj with hj | hj
    · exact Or.inl ((mem_flatten_iff_getD _ _).2 ⟨_, hj⟩)
    · exact Or.inr (by simpa using hj)
  · exact Or.inl ((mem_flatten_iff_getD _ _).2 ⟨_, hj⟩)

/-- As long as the load test does not fire, filling keeps the capacity and
counts the keys. -/
theorem fill_spec (capacity n : Nat) (hc : kTableCapacity ≤ capacity)
    (hl : ∀ s, s < n → loadExceeded s capacity = false) :
    (fill capacity n).capacity = capacity ∧ (fill capacity n).size = n ∧
      (∀ p ∈ (fill capacity n).table.flatten, p.1 < n) ∧
      FindNode id (fill capacity n) n = none := by
  induction n with
  | zero =>
    have h0 : (fill capacity 0 : HashTable Nat Nat) =
        { capacity := capacity, size := 0, table := List.replicate capacity [] } := by
      simp only [fill, HashTable.new, if_neg (not_lt.2 hc)]
    have hm : ∀ p ∈ (fill capacity 0).table.flatten, p.1 < 0 := by
      intro p hp
      rw [h0] at hp
      simp at hp
    refine ⟨by rw [h0], by rw [h0], hm, ?_⟩
    cases hf : FindNode id (fill capacity 0) 0 with
    | none => rfl
    | some p =>
      have := (FindNode_eq_some_iff id _ (reachable_wf id _ (fill_reachable capacity 0)) 0 p).1 hf
      exact absurd (hm p this.1) (Nat.not_lt_zero _)
  | succ n ih =>
    obtain ⟨h1, h2, h3, h4⟩ := ih (fun s hs => hl s (Nat.lt_succ_of_lt hs))
    have hload : loadExceeded (fill capacity n).size (fill capacity n).capacity = false := by
      rw [h1, h2]; exact hl n (Nat.lt_succ_self n)
    have hstep : fill capacity (n + 1) = linkNode id (fill capacity n) n 0 := by
      show (Set id (fill capacity n) n 0).2 = _
      unfold Set
      rw [h4]
      simp only [Option.isSome_none, Bool.false_eq_true, if_false]
      rw [InsertNode_eq, hload]
      simp
    have hm : ∀ p ∈ (fill capacity (n + 1)).table.flatten, p.1 < n + 1 := by
      intro p hp
      rw [hstep] at hp
      rcases mem_linkNode id _ _ _ p hp with hp | hp
      · exact Nat.lt_succ_of_lt (h3 p hp)
      · rw [hp]; exact Nat.lt_succ_self n
    refine ⟨by rw [hstep]; exact h1, by rw [hstep]; simp [linkNode, h2], hm, ?_⟩
    cases hf : FindNode id (fill capacity (n + 1)) (n + 1) with
    | none => rfl
    | some p =>
      have := (FindNode_eq_some_iff id _
        (reachable_wf id _ (fill_reachable capacity (n + 1))) (n + 1) p).1 hf
      have hlt := hm p this.1
      omega

/-- Below `2^24` entries and at capacity `2^23 + 1` the single-precision load
test stays silent up to 6291457 entries. -/
theorem load_silent (s : Nat) (hs : s < 6291457) : loadExceeded s 8388609 = false := by
  unfold loadExceeded toFloat
  rw [if_pos (by norm_num; omega), if_pos (by norm_num)]
  simp only [decide_eq_false_iff_not, not_lt]
  norm_num
  omega

/-- C5: when a `Set` on a reachable table inserts a new key and the load test
fires, the capacity doubles, and every key stored before is still found, with
the record `Get` returned before. -/
theorem resize_preserves_membership [DecidableEq K] (hash : K → Nat) (t : HashTable K V)
    (h : Reachable hash t) (key : K) (value : V)
    (hnew : Exists hash t key = false)
    (hload : loadExceeded t.size t.capacity = true) :
    (Set hash t key value).1 = true ∧
    (Set hash t key value).2.capacity = 2 * t.capacity ∧
    ∀ k, Exists hash t k = true →
      Exists hash (Set hash t key value).2 k = true ∧
      Get hash (Set hash t key value).2 k = Get hash t k := by
  have hw := reachable_wf hash t h
  have hk : FindNode hash t key = none := by
    unfold Exists at hnew
    simpa using hnew
  have hset : Set hash t key value = (true, InsertNode hash t key value) := by
    unfold Set
    rw [hk]
    simp
  rw [hset]
  refine ⟨rfl, ?_, ?_⟩
  · rw [InsertNode_eq, hload]
    simp only [if_true]
    have hm : kTableCapacity ≤ t.capacity * 2 := by have := hw.cap; omega
    have hne : t.capacity * 2 ≠ t.capacity := by
      have := hw.cap
      unfold kTableCapacity at this
      omega
    show (Resize hash t (t.capacity * 2)).capacity = 2 * t.capacity
    rw [Resize_eq hash t _ hm hne]
    exact Nat.mul_comm _ _
  · intro k hk'
    have hne : k ≠ key := by
      intro e
      rw [e, hnew] at hk'
      exact Bool.false_ne_true hk'
    unfold Exists at hk' ⊢
    unfold Get
    rw [FindNode_insert hash t key k value hw hk, if_neg hne]
    exact ⟨hk', rfl⟩

theorem resize_preserves_membership_witness :
    Reachable id (fill 256 192) ∧ Exists id (fill 256 192) 192 = false ∧
      loadExceeded (fill 256 192).size (fill 256 192).capacity = true ∧
      (Set id (fill 256 192) 192 7).2.capacity = 2 * (fill 256 192).capacity :=
  have hs := fill_spec 256 192 (by decide) (by
    intro s hs
    unfold loadExceeded toFloat
    rw [if_pos (by norm_num; omega), if_pos (by norm_num)]
    simp only [decide_eq_false_iff_not, not_lt]
    norm_num
    omega)
  have hnew : Exists id (fill 256 192) 192 = false := by
    unfold Exists; rw [hs.2.2.2]; rfl
  have hload : loadExceeded (fill 256 192).size (fill 256 192).capacity = true := by
    rw [hs.1, hs.2.1]; decide
  ⟨fill_reachable 256 192, hnew, hload,
    (resize_preserves_membership id (fill 256 192) (fill_reachable 256 192) 192 7 hnew hload).2.1⟩

/-- C6, the load bound at scale: a table constructed with capacity
`2^23 + 1 = 8388609` and filled by `Set` of 6291457 distinct keys never
resizes, because the single-precision quotient `6291457 / 8388609` rounds to
`0.75`; it then holds `4 * size = 25165828 > 25165827 = 3 * capacity`. -/
theorem load_factor_exceeded_at_scale :
    Reachable id (fill 8388609 6291457) ∧
      (fill 8388609 6291457).capacity = 8388609 ∧
      (fill 8388609 6291457).size = 6291457 ∧
      ¬ (4 * (fill 8388609 6291457).size ≤ 3 * (fill 8388609 6291457).capacity) := by
  have hs := fill_spec 8388609 6291457 (by decide) load_silent
  refine ⟨fill_reachable _ _, hs.1, hs.2.1, ?_⟩
  rw [hs.1, hs.2.1]
  decide

end HT

namespace HT
variable {K V : Type}

/-! ### `Set`, `Del` and the chains of the hash table -/

theorem chainPair_reachable : Reachable id chainPair :=
  Reachable.set _ _ _ (Reachable.set _ _ _ (Reachable.set _ _ _ (Reachable.new 0)))

/-- A table in which a node is found holds at least one node. -/
theorem size_pos_of_found [DecidableEq K] (hash : K → Nat) (t : HashTable K V)
    (h : WF hash t) (key : K) (hk : (FindNode hash t key).isSome) : 0 < t.size := by
  obtain ⟨n, hn⟩ := Option.isSome_iff_exists.1 hk
  have hmem := ((FindNode_eq_some_iff hash t h key n).1 hn).1
  have hlen : 0 < t.table.flatten.length := List.length_pos_of_mem hmem
  rw [h.count]
  simpa [nodeCount, List.length_flatten] using hlen

/-- C11: on a table reached by `Set`/`Del`/`Rename` operations, `Set k v` of a
stored key returns false and leaves the table (chains, size, capacity) as it
is; `Set k v` of a key that is not stored returns true, and afterwards
`Get k = v` and `Get k'` is unchanged for every other key, whether or not the
insert doubles the capacity. -/
theorem ht_set_contract [DecidableEq K] (hash : K → Nat) (t : HashTable K V)
    (h : Reachable hash t) (k : K) (v : V) :
    (Exists hash t k = true → Set hash t k v = (false, t)) ∧
    (Exists hash t k = false → (Set hash t k v).1 = true ∧
      Get hash (Set hash t k v).2 k = some v ∧
      ∀ k', k' ≠ k → Get hash (Set hash t k v).2 k' = Get hash t k') := by
  have hw := reachable_wf hash t h
  constructor
  · intro hk
    unfold Exists at hk
    unfold Set
    rw [if_pos hk]
  · intro hk
    have hnone : FindNode hash t k = none := by
      unfold Exists at hk
      simpa using hk
    have hset : Set hash t k v = (true, InsertNode hash t k v) := by
      unfold Set
      rw [hnone]
      simp
    rw [hset]
    refine ⟨rfl, ?_, ?_⟩
    · unfold Get
      rw [FindNode_insert hash t k k v hw hnone, if_pos rfl]
      rfl
    · intro k' hne
      unfold Get
      rw [FindNode_insert hash t k k' v hw hnone, if_neg hne]

theorem ht_set_contract_witness :
    Reachable id chainPair ∧ Exists id chainPair 513 = false ∧
      (Set id chainPair 513 40).1 = true ∧ Get id (Set id chainPair 513 40).2 513 = some 40 ∧
      Get id (Set id chainPair 513 40).2 257 = Get id chainPair 257 :=
  have h := (ht_set_contract id chainPair chainPair_reachable 513 40).2 (by decide)
  ⟨chainPair_reachable, by decide, h.1, h.2.1, h.2.2 257 (by decide)⟩

/-- C12: on a table reached by `Set`/`Del`/`Rename` operations, `Del k` of a
key that is not stored returns false and leaves the table as it is; `Del k`
of a stored key returns true, afterwards `Exists k` is false, the size is
one less than before, and every other key, in the same chain or not, is
stored exactly when it was, with `Get k'` unchanged. -/
theorem ht_del_contract [DecidableEq K] (hash : K → Nat) (t : HashTable K V)
    (h : Reachable hash t) (k : K) :
    (Exists hash t k = false → Del hash t k = (false, t)) ∧
    (Exists hash t k = true → (Del hash t k).1 = true ∧
      Exists hash (Del hash t k).2 k = false ∧
      (Del hash t k).2.size + 1 = t.size ∧
      ∀ k', k' ≠ k → Get hash (Del hash t k).2 k' = Get hash t k' ∧
        Exists hash (Del hash t k).2 k' = Exists hash t k') := by
  have hw := reachable_wf hash t h
  constructor
  · intro hk
    unfold Exists at hk
    unfold Del
    rw [hk]
    simp
  · intro hk
    unfold Exists at hk
    have hdel : Del hash t k = (true, DeleteNode hash t k) := by
      unfold Del
      rw [if_pos hk]
    rw [hdel]
    refine ⟨rfl, ?_, ?_, ?_⟩
    · unfold Exists
      rw [FindNode_delete hash t k k hw, if_pos rfl]
      rfl
    · have := size_pos_of_found hash t hw k hk
      show t.size - 1 + 1 = t.size
      omega
    · intro k' hne
      unfold Get Exists
      rw [FindNode_delete hash t k k' hw, if_neg hne]
      exact ⟨rfl, rfl⟩

theorem ht_del_contract_witness :
    Reachable id chainPair ∧ Exists id chainPair 1 = true ∧
      (Del id chainPair 1).1 = true ∧ Exists id (Del id chainPair 1).2 1 = false ∧
      (Del id chainPair 1).2.size + 1 = chainPair.size ∧
      Get id (Del id chainPair 1).2 257 = Get id chainPair 257 :=
  have h := (ht_del_contract id chainPair chainPair_reachable 1).2 (by decide)
  ⟨chainPair_reachable, by decide, h.1, h.2.1, h.2.2.1, (h.2.2.2 257 (by decide)).1⟩

/-- C17: in a table reached by `Set`, `Del` and `Rename` operations (with the
resizes they cause) no key occurs twice in `Keys()`, the table has one
chain per bucket, and every node of the chain of bucket `i` has
`hash(key) mod capacity = i`. -/
theorem ht_keys_unique [DecidableEq K] (hash : K → Nat) (t : HashTable K V)
    (h : Reachable hash t) :
    (Keys t).Nodup ∧ t.table.length = t.capacity ∧
      ∀ i, ∀ n ∈ bucket t i, hash n.1 % t.capacity = i := by
  have hw := reachable_wf hash t h
  exact ⟨WF.keys_nodup hash t hw, hw.len, hw.home⟩

theorem ht_keys_unique_witness :
    Reachable id chainPair ∧ (Keys chainPair).Nodup ∧
      ∀ n ∈ bucket chainPair 1, id n.1 % chainPair.capacity = 1 :=
  have h := ht_keys_unique id chainPair chainPair_reachable
  ⟨chainPair_reachable, h.1, h.2.2 1⟩

end HT

namespace HT
variable {K V : Type}

/-! ### `Rename` and growth of the hash table -/

/-- C21: on a table reached by `Set`/`Del`/`Rename` operations, `Rename old new`
returns true exactly when `old` is stored and `new` is not; when it returns
true, afterwards `old` is not stored, `Get new` is the record `Get old`
returned before (the whole record is copied, so also its TTL and creation
instant), and `Get` is unchanged for every other key; when it returns false
the table is unchanged. -/
theorem ht_rename_contract [DecidableEq K] (hash : K → Nat) (t : HashTable K V)
    (h : Reachable hash t) (oldKey newKey : K) :
    ((Rename hash t oldKey newKey).1 = true ↔
        Exists hash t oldKey = true ∧ Exists hash t newKey = false) ∧
      ((Rename hash t oldKey newKey).1 = true →
        Exists hash (Rename hash t oldKey newKey).2 oldKey = false ∧
        Get hash (Rename hash t oldKey newKey).2 newKey = Get hash t oldKey ∧
        ∀ k, k ≠ oldKey → k ≠ newKey →
          Get hash (Rename hash t oldKey newKey).2 k = Get hash t k) ∧
      ((Rename hash t oldKey newKey).1 = false → (Rename hash t oldKey newKey).2 = t) := by
  have hw := reachable_wf hash t h
  by_cases c : ¬ Exists hash t oldKey = true ∨ Exists hash t newKey = true
  · have hr : Rename hash t oldKey newKey = (false, t) := by
      unfold Rename
      rw [if_pos c]
    rw [hr]
    refine ⟨?_, fun h => (by cases h), fun _ => rfl⟩
    constructor
    · intro h
      cases h
    · rintro ⟨h1, h2⟩
      rcases c with c | c
      · exact absurd h1 c
      · rw [h2] at c
        cases c
  · have c' := c
    have hold : Exists hash t oldKey = true := by
      by_contra hx
      exact c (Or.inl hx)
    have hnew : Exists hash t newKey = false := by
      cases e : Exists hash t newKey with
      | false => rfl
      | true => exact absurd (Or.inr e) c
    have hsome : (FindNode hash t oldKey).isSome = true := hold
    obtain ⟨node, hnode⟩ := Option.isSome_iff_exists.1 hsome
    have hnone : FindNode hash t newKey = none := by
      unfold Exists at hnew
      simpa using hnew
    have hne : newKey ≠ oldKey := by
      intro e
      rw [e, hold] at hnew
      cases hnew
    have hr : Rename hash t oldKey newKey =
        (true, InsertNode hash (DeleteNode hash t oldKey) newKey node.2) := by
      unfold Rename
      rw [if_neg c', hnode]
    have hwd := WF.delete hash t oldKey hw hsome
    have hnone' : FindNode hash (DeleteNode hash t oldKey) newKey = none := by
      rw [FindNode_delete hash t oldKey newKey hw, if_neg hne]
      exact hnone
    rw [hr]
    refine ⟨⟨fun _ => ⟨hold, hnew⟩, fun _ => rfl⟩, fun _ => ⟨?_, ?_, ?_⟩, fun h => (by cases h)⟩
    · unfold Exists
      rw [FindNode_insert hash _ newKey oldKey node.2 hwd hnone', if_neg (Ne.symm hne),
        FindNode_delete hash t oldKey oldKey hw, if_pos rfl]
      rfl
    · unfold Get
      rw [FindNode_insert hash _ newKey newKey node.2 hwd hnone', if_pos rfl, hnode]
      rfl
    · intro k h1 h2
      unfold Get
      rw [FindNode_insert hash _ newKey k node.2 hwd hnone', if_neg h2,
        FindNode_delete hash t oldKey k hw, if_neg h1]

theorem ht_rename_contract_witness :
    Reachable id chainPair ∧ Exists id chainPair 1 = true ∧ Exists id chainPair 513 = false ∧
      (Rename id chainPair 1 513).1 = true ∧
      Exists id (Rename id chainPair 1 513).2 1 = false ∧
      Get id (Rename id chainPair 1 513).2 513 = Get id chainPair 1 :=
  have h := ht_rename_contract id chainPair chainPair_reachable 1 513
  have ht := h.1.2 ⟨by decide, by decide⟩
  ⟨chainPair_reachable, by decide, by decide, ht, (h.2.1 ht).1, (h.2.1 ht).2.1⟩

/-- Below `2^24` both operands of the load test are converted exactly. -/
theorem loadExceeded_small (s c : Nat) (hs : s + 1 < 2 ^ 24) (hc : c < 2 ^ 24) :
    loadExceeded s c = decide (2 ^ 25 * (s + 1) > (3 * 2 ^ 23 + 1) * c) := by
  unfold loadExceeded toFloat
  rw [if_pos hs, if_pos hc]

/-- The capacity after one more insert into a table of default capacity. -/
theorem capacity_step (s : Nat) (hs : s < 1024) :
    (if loadExceeded s (capacityAfter s) = true then capacityAfter s * 2 else capacityAfter s) =
      capacityAfter (s + 1) := by
  have hc : capacityAfter s < 2 ^ 24 := by
    unfold capacityAfter
    split_ifs <;> norm_num
  rw [loadExceeded_small s _ (by norm_num; omega) hc]
  unfold capacityAfter
  simp only [decide_eq_true_eq]
  split_ifs <;> omega

/-- `InsertNode` counts the node and doubles the capacity when the load test
fires. -/
theorem InsertNode_size_capacity [DecidableEq K] (hash : K → Nat) (t : HashTable K V)
    (hw : WF hash t) (key : K) (value : V) :
    (InsertNode hash t key value).size = t.size + 1 ∧
      (InsertNode hash t key value).capacity =
        if loadExceeded t.size t.capacity = true then t.capacity * 2 else t.capacity := by
  rw [InsertNode_eq]
  by_cases c : loadExceeded t.size t.capacity = true
  · have hm : kTableCapacity ≤ t.capacity * 2 := by have := hw.cap; omega
    have hne : t.capacity * 2 ≠ t.capacity := by
      have := hw.cap
      unfold kTableCapacity at this
      omega
    rw [if_pos c, if_pos c, Resize_eq hash t _ hm hne]
    exact ⟨rfl, rfl⟩
  · rw [if_neg c, if_neg c]
    exact ⟨rfl, rfl⟩

/-- `Set` of keys that are new and pairwise distinct, on a table that has
the capacity of a default table with that many nodes. -/
theorem setAll_spec [DecidableEq K] (hash : K → Nat) (kvs : List (K × V)) :
    ∀ t : HashTable K V, WF hash t → t.capacity = capacityAfter t.size →
      t.size + kvs.length ≤ 1024 → (kvs.map Prod.fst).Nodup →
      (∀ n ∈ kvs, FindNode hash t n.1 = none) →
      (SetAll hash t kvs).1 = List.replicate kvs.length true ∧
        WF hash (SetAll hash t kvs).2 ∧
        (SetAll hash t kvs).2.size = t.size + kvs.length ∧
        (SetAll hash t kvs).2.capacity = capacityAfter (t.size + kvs.length) := by
  induction kvs with
  | nil =>
    intro t hw hc _ _ _
    exact ⟨rfl, hw, rfl, hc⟩
  | cons n rest ih =>
    intro t hw hc hlen hnd hnew
    have hn : FindNode hash t n.1 = none := hnew n (List.mem_cons_self _ _)
    have hset : Set hash t n.1 n.2 = (true, InsertNode hash t n.1 n.2) := by
      unfold Set
      rw [hn]
      simp
    simp only [List.length_cons] at hlen
    simp only [List.map_cons, List.nodup_cons] at hnd
    have hw1 := WF.insert hash t n.1 n.2 hw hn
    obtain ⟨hs1, hc1⟩ := InsertNode_size_capacity hash t hw n.1 n.2
    rw [hc, capacity_step t.size (by omega), ← hs1] at hc1
    obtain ⟨h1, h2, h3, h4⟩ := ih (InsertNode hash t n.1 n.2) hw1 hc1 (by rw [hs1]; omega) hnd.2
      (fun m hm => by
        rw [FindNode_insert hash t n.1 m.1 n.2 hw hn, if_neg]
        · exact hnew m (List.mem_cons_of_mem _ hm)
        · intro e
          exact hnd.1 (e ▸ List.mem_map_of_mem Prod.fst hm))
    simp only [SetAll, hset, List.length_cons, List.replicate_succ]
    refine ⟨by rw [h1], h2, by rw [h3, hs1]; omega, by rw [h4, hs1]; congr 1; omega⟩

/-- C24: `Set` of 1024 pairwise distinct keys into a table of the default
capacity 256.  Every `Set` returns true, `Keys()` ends with 1024 elements,
and the capacity follows the steps 256, 512, 1024, 2048: it doubles on the
inserts number 193, 385 and 769, the first inserts that would take the
size above 192, 384 and 768. -/
theorem ht_grows_with_1024_keys [DecidableEq K] (hash : K → Nat) (kvs : List (K × V))
    (hnd : (kvs.map Prod.fst).Nodup) (hlen : kvs.length = 1024) :
    (SetAll hash (HashTable.new 256) kvs).1 = List.replicate 1024 true ∧
      (Keys (SetAll hash (HashTable.new 256) kvs).2).length = 1024 ∧
      (SetAll hash (HashTable.new 256) kvs).2.capacity = 2048 ∧
      ∀ n, n ≤ 1024 →
        (SetAll hash (HashTable.new 256) (kvs.take n)).2.capacity = capacityAfter n := by
  have hw0 : WF hash (HashTable.new 256 : HashTable K V) := WF.new hash 256
  have hs0 : (HashTable.new 256 : HashTable K V).size = 0 := rfl
  have hc0 : (HashTable.new 256 : HashTable K V).capacity = 256 := rfl
  have hfind : ∀ k, FindNode hash (HashTable.new 256 : HashTable K V) k = none := by
    intro k
    cases hf : FindNode hash (HashTable.new 256 : HashTable K V) k with
    | none => rfl
    | some p =>
      have hp := ((FindNode_eq_some_iff hash _ hw0 k p).1 hf).1
      have hcount := hw0.count
      rw [hs0] at hcount
      have hlen0 : 0 < (HashTable.new 256 : HashTable K V).table.flatten.length :=
        List.length_pos_of_mem hp
      simp only [nodeCount] at hcount
      rw [List.length_flatten] at hlen0
      omega
  have hpre : ∀ n, n ≤ 1024 →
      (SetAll hash (HashTable.new 256) (kvs.take n)).1 = List.replicate n true ∧
        WF hash (SetAll hash (HashTable.new 256) (kvs.take n)).2 ∧
        (SetAll hash (HashTable.new 256) (kvs.take n)).2.size = n ∧
        (SetAll hash (HashTable.new 256) (kvs.take n)).2.capacity = capacityAfter n := by
    intro n hn
    have hl : (kvs.take n).length = n := by
      rw [List.length_take, hlen]
      omega
    have := setAll_spec hash (kvs.take n) (HashTable.new 256) hw0 (by rw [hs0, hc0]; rfl)
      (by rw [hs0, hl]; omega)
      (List.Nodup.sublist ((List.take_sublist n kvs).map Prod.fst) hnd)
      (fun m _ => hfind m.1)
    rw [hl, hs0, Nat.zero_add] at this
    exact this
  have hall := hpre 1024 (le_refl _)
  rw [List.take_of_length_le (by rw [hlen])] at hall
  obtain ⟨h1, h2, h3, h4⟩ := hall
  refine ⟨h1, ?_, by rw [h4]; rfl, fun n hn => (hpre n hn).2.2.2⟩
  have hcount := h2.count
  rw [h3] at hcount
  unfold Keys
  rw [List.length_map, List.length_flatten]
  simp only [nodeCount] at hcount
  exact hcount.symm

theorem ht_grows_with_1024_keys_witness :
    (((List.range 1024).map (fun i => (i, 0))).map Prod.fst).Nodup ∧
      ((List.range 1024).map (fun i => (i, 0))).length = 1024 ∧
      (SetAll id (HashTable.new 256) ((List.range 1024).map (fun i => (i, 0)))).2.capacity
        = 2048 :=
  have hnd : (((List.range 1024).map (fun i => (i, 0))).map Prod.fst).Nodup := by
    rw [List.map_map]
    exact List.Nodup.map (fun a b h => h) (List.nodup_range 1024)
  have hlen : ((List.range 1024).map (fun i => (i, 0))).length = 1024 := by simp
  ⟨hnd, hlen, (ht_grows_with_1024_keys id _ hnd hlen).2.2.1⟩

/-- C22: in the table that holds the record `Ivanov Ivan 2000 Moscow 55`
under the key 1, `Update(1, "Petrov Petr abc - -")` fails with
`std::invalid_argument` (the year text `abc` is not a number), and the
record stored under the key 1 afterwards has the last name `Petrov` and the
first name `Petr`: the two fields in front of the malformed one have been
overwritten. -/
theorem ht_failed_update_overwrites :
    Get id oneRecord 1 = some Val.sampleRecord ∧
    (Update id oneRecord 1 "Petrov Petr abc - -".toList).2 = .error .invalidArgument ∧
    Get id (Update id oneRecord 1 "Petrov Petr abc - -".toList).1 1 =
      some ⟨"Petrov".toList, "Petr".toList, "2000".toList, "Moscow".toList, "55".toList,
        none, 0⟩ :=
  ⟨rfl, rfl, rfl⟩

end HT

namespace HT

/-! ### `Export` and `Upload` of the hash table -/

end HT

namespace BPT
variable {K V : Type}

/-! ### The B+ tree on concrete inputs -/

theorem setAll_123 : setAll 3 [1, 2, 3] = .ok tree123 := by rfl

theorem setAll_six : setAll 4 [10, 20, 30, 40, 5, 15] = .ok treeSix := by rfl

theorem built_foldlM (degree : Nat) (ks : List Nat) (t0 t : BPlusTree Nat Nat)
    (h0 : BuiltBySet degree t0)
    (h : ks.foldlM (fun t k => do let r ← Set t k (k * 10); pure r.2) t0 = .ok t) :
    BuiltBySet degree t := by
  induction ks generalizing t0 with
  | nil =>
    simp only [List.foldlM, pure, Except.pure] at h
    cases h
    exact h0
  | cons k ks ih =>
    simp only [List.foldlM, bind, Except.bind] at h
    cases hs : Set t0 k (k * 10) with
    | error e => simp [hs] at h
    | ok r =>
      simp only [hs, pure, Except.pure] at h
      exact ih r.2 (BuiltBySet.set t0 r.2 k (k * 10) r.1 h0 hs) h

theorem setAll_built (degree : Nat) (ks : List Nat) (t : BPlusTree Nat Nat)
    (h : setAll degree ks = .ok t) : BuiltBySet degree t :=
  built_foldlM degree ks _ t BuiltBySet.new h

theorem tree123_built : BuiltBySet 3 tree123 := setAll_built 3 [1, 2, 3] _ setAll_123

theorem treeSix_built : BuiltBySet 4 treeSix := setAll_built 4 [10, 20, 30, 40, 5, 15] _ setAll_six

end BPT

namespace BPT
variable {K V : Type}

/-! ### Sorted key vectors -/

section Bounds
variable [LinearOrder K]

theorem lowerBound_split (keys : List K) (key : K) (hs : keys.Pairwise (fun a b => a < b)) :
    ∃ A B, keys = A ++ B ∧ lowerBound keys key = A.length ∧
      (∀ a ∈ A, a < key) ∧ (∀ b ∈ B, key ≤ b) := by
  refine ⟨keys.takeWhile (fun k => decide (k < key)), keys.dropWhile (fun k => decide (k < key)),
    (List.takeWhile_append_dropWhile _ _).symm, rfl, ?_, ?_⟩
  · intro a ha
    simpa using List.mem_takeWhile_imp ha
  · induction keys with
    | nil => simp
    | cons k ks ih =>
      rw [List.pairwise_cons] at hs
      intro b hb
      rw [List.dropWhile_cons] at hb
      split at hb
      · exact ih hs.2 b hb
      · rename_i hk
        have hk' : key ≤ k := by simpa using hk
        rcases List.mem_cons.1 hb with rfl | hb
        · exact hk'
        · exact le_trans hk' (le_of_lt (hs.1 b hb))

theorem upperBound_split (keys : List K) (key : K) (hs : keys.Pairwise (fun a b => a < b)) :
    ∃ A B, keys = A ++ B ∧ upperBound keys key = A.length ∧
      (∀ a ∈ A, a ≤ key) ∧ (∀ b ∈ B, key < b) := by
  refine ⟨keys.takeWhile (fun k => decide (¬ key < k)),
    keys.dropWhile (fun k => decide (¬ key < k)),
    (List.takeWhile_append_dropWhile _ _).symm, rfl, ?_, ?_⟩
  · intro a ha
    simpa using List.mem_takeWhile_imp ha
  · induction keys with
    | nil => simp
    | cons k ks ih =>
      rw [List.pairwise_cons] at hs
      intro b hb
      rw [List.dropWhile_cons] at hb
      split at hb
      · exact ih hs.2 b hb
      · rename_i hk
        have hk' : key < k := by simpa using hk
        rcases List.mem_cons.1 hb with rfl | hb
        · exact hk'
        · exact lt_trans hk' (hs.1 b hb)

theorem lowerBound_append (A B : List K) (key : K) (hA : ∀ a ∈ A, a < key)
    (hB : ∀ b ∈ B, key ≤ b) : lowerBound (A ++ B) key = A.length := by
  unfold lowerBound
  induction A with
  | nil =>
    cases B with
    | nil => rfl
    | cons b B =>
      have : ¬ b < key := not_lt.2 (hB b (List.mem_cons_self _ _))
      simp [List.takeWhile_cons, this]
  | cons a A ih =>
    have h1 : a < key := hA a (List.mem_cons_self _ _)
    simp only [List.cons_append, List.takeWhile_cons, h1, decide_True, List.length_cons,
      if_true]
    rw [ih (fun x hx => hA x (List.mem_cons_of_mem _ hx))]

theorem upperBound_append (A B : List K) (key : K) (hA : ∀ a ∈ A, a ≤ key)
    (hB : ∀ b ∈ B, key < b) : upperBound (A ++ B) key = A.length := by
  unfold upperBound
  induction A with
  | nil =>
    cases B with
    | nil => rfl
    | cons b B =>
      have : key < b := hB b (List.mem_cons_self _ _)
      simp [List.takeWhile_cons, this]
  | cons a A ih =>
    have h1 : ¬ key < a := not_lt.2 (hA a (List.mem_cons_self _ _))
    simp only [List.cons_append, List.takeWhile_cons, h1, not_false_eq_true, decide_True,
      List.length_cons, if_true]
    rw [ih (fun x hx => hA x (List.mem_cons_of_mem _ hx))]

theorem insertIdx_append_length {α : Type} (A B : List α) (a : α) :
    (A ++ B).insertIdx A.length a = A ++ a :: B := by
  induction A with
  | nil => rfl
  | cons x A ih =>
    rw [List.cons_append, List.length_cons, List.insertIdx_succ_cons, ih, List.cons_append]

theorem insertIdx_append_succ {α : Type} (A B : List α) (x a : α) :
    (A ++ x :: B).insertIdx (A.length + 1) a = A ++ x :: a :: B := by
  induction A with
  | nil => rfl
  | cons y A ih =>
    rw [List.cons_append, List.length_cons, List.insertIdx_succ_cons, ih, List.cons_append]

theorem getElem?_append_length {α : Type} (A B : List α) :
    (A ++ B)[A.length]? = B.head? := by
  induction A with
  | nil => cases B <;> simp
  | cons x A ih => simpa using ih

/-- On sorted keys `BPlusNode::Exists` is membership. -/
theorem exists_iff_mem (n : BPlusNode K V) (key : K)
    (hs : n.keys.Pairwise (fun a b => a < b)) :
    n.Exists key = true ↔ key ∈ n.keys := by
  obtain ⟨A, B, hk, hl, hA, hB⟩ := lowerBound_split n.keys key hs
  unfold BPlusNode.Exists
  rw [hl, hk, getElem?_append_length]
  cases B with
  | nil =>
    simp only [List.head?_nil, List.append_nil, Bool.false_eq_true, false_iff]
    exact fun h => lt_irrefl _ (hA key h)
  | cons b B =>
    simp only [List.head?_cons, decide_eq_true_eq, not_lt, List.mem_append, List.mem_cons]
    constructor
    · intro h
      exact Or.inr (Or.inl (le_antisymm (hB b (List.mem_cons_self _ _)) h))
    · rintro (h | h | h)
      · exact absurd (hA key h) (lt_irrefl _)
      · rw [h]
      · rw [hk, List.pairwise_append] at hs
        exact absurd ((List.pairwise_cons.1 hs.2.1).1 key h)
          (not_lt.2 (hB b (List.mem_cons_self _ _)))

/-- The test of `BPlusNode::Insert(key, value)` for a present key. -/
theorem lowerBound_get_iff_mem (keys : List K) (key : K)
    (hs : keys.Pairwise (fun a b => a < b)) :
    keys[lowerBound keys key]? = some key ↔ key ∈ keys := by
  obtain ⟨A, B, hk, hl, hA, hB⟩ := lowerBound_split keys key hs
  rw [hl, hk, getElem?_append_length]
  cases B with
  | nil =>
    simp only [List.head?_nil, List.append_nil]
    exact ⟨fun h => (by cases h), fun h => absurd (hA key h) (lt_irrefl _)⟩
  | cons b B =>
    simp only [List.head?_cons, Option.some.injEq, List.mem_append, List.mem_cons]
    constructor
    · intro h
      exact Or.inr (Or.inl h.symm)
    · rintro (h | h | h)
      · exact absurd (hA key h) (lt_irrefl _)
      · exact h.symm
      · rw [hk, List.pairwise_append] at hs
        exact absurd ((List.pairwise_cons.1 hs.2.1).1 key h)
          (not_lt.2 (hB b (List.mem_cons_self _ _)))

end Bounds

end BPT

namespace BPT
variable {K V : Type}

/-! ### Keys and children of an internal node -/

section ChainLemmas
variable [LinearOrder K]

theorem upperBound_cons (k : K) (ks : List K) (key : K) :
    upperBound (k :: ks) key = if key < k then 0 else upperBound ks key + 1 := by
  unfold upperBound
  rw [List.takeWhile_cons]
  by_cases h : key < k
  · simp [h]
  · simp [h]

theorem lowerBound_cons (k : K) (ks : List K) (key : K) :
    lowerBound (k :: ks) key = if k < key then lowerBound ks key + 1 else 0 := by
  unfold lowerBound
  rw [List.takeWhile_cons]
  by_cases h : k < key
  · simp [h]
  · simp [h]

omit [LinearOrder K] in
theorem chain_length (P : Option K → Nat → Option K → Prop) (lo : Option K) (ks : List K)
    (cs : List Nat) (hi : Option K) (h : Chain P lo ks cs hi) :
    cs.length = ks.length + 1 := by
  induction ks generalizing lo cs with
  | nil =>
    match cs, h with
    | [c], _ => rfl
  | cons k ks ih =>
    match cs, h with
    | c :: cs, h =>
      simp only [Chain] at h
      simp [ih _ _ h.2]

omit [LinearOrder K] in
theorem chain_mono (P Q : Option K → Nat → Option K → Prop) (lo : Option K) (ks : List K)
    (cs : List Nat) (hi : Option K) (h : Chain P lo ks cs hi)
    (hPQ : ∀ l c h, c ∈ cs → P l c h → Q l c h) : Chain Q lo ks cs hi := by
  induction ks generalizing lo cs with
  | nil =>
    match cs, h with
    | [c], h =>
      simp only [Chain] at h ⊢
      exact hPQ _ _ _ (List.mem_cons_self _ _) h
  | cons k ks ih =>
    match cs, h with
    | c :: cs, h =>
      simp only [Chain] at h ⊢
      exact ⟨hPQ _ _ _ (List.mem_cons_self _ _) h.1,
        ih _ _ h.2 (fun l c' h' hc hp => hPQ l c' h' (List.mem_cons_of_mem _ hc) hp)⟩

omit [LinearOrder K] in
theorem chain_mem (P : Option K → Nat → Option K → Prop) (lo : Option K) (ks : List K)
    (cs : List Nat) (hi : Option K) (h : Chain P lo ks cs hi) (c : Nat) (hc : c ∈ cs) :
    ∃ l h, P l c h := by
  induction ks generalizing lo cs with
  | nil =>
    match cs, h with
    | [c0], h =>
      simp only [Chain] at h
      simp only [List.mem_singleton] at hc
      subst hc
      exact ⟨_, _, h⟩
  | cons k ks ih =>
    match cs, h with
    | c0 :: cs, h =>
      simp only [Chain] at h
      rcases List.mem_cons.1 hc with rfl | hc
      · exact ⟨_, _, h.1⟩
      · exact ih _ _ h.2 hc

/-- Behind a separator every child starts at or above it. -/
theorem chain_mem_ge (P : Option K → Nat → Option K → Prop) (k0 : K) (ks : List K)
    (cs : List Nat) (hi : Option K) (h : Chain P (some k0) ks cs hi)
    (hs : (k0 :: ks).Pairwise (fun a b => a < b)) (c : Nat) (hc : c ∈ cs) :
    ∃ l h a, P l c h ∧ l = some a ∧ k0 ≤ a := by
  induction ks generalizing k0 cs with
  | nil =>
    match cs, h with
    | [c0], h =>
      simp only [Chain] at h
      simp only [List.mem_singleton] at hc
      subst hc
      exact ⟨_, _, k0, h, rfl, le_refl _⟩
  | cons k ks ih =>
    match cs, h with
    | c0 :: cs, h =>
      simp only [Chain] at h
      rcases List.mem_cons.1 hc with rfl | hc
      · exact ⟨_, _, k0, h.1, rfl, le_refl _⟩
      · rw [List.pairwise_cons] at hs
        obtain ⟨l, h', a, hp, hl, hle⟩ := ih k cs h.2 hs.2 hc
        exact ⟨l, h', a, hp, hl,
          le_trans (le_of_lt (hs.1 k (List.mem_cons_self _ _))) hle⟩

/-- The child at the upper bound of a key is the child between whose
separators the key lies. -/
theorem chain_find (P : Option K → Nat → Option K → Prop) (lo : Option K) (ks : List K)
    (cs : List Nat) (hi : Option K) (h : Chain P lo ks cs hi) (key : K)
    (hlo : LoLe lo key) (hhi : LtHi key hi) :
    ∃ c l h, cs[upperBound ks key]? = some c ∧ P l c h ∧ LoLe l key ∧ LtHi key h := by
  induction ks generalizing lo cs with
  | nil =>
    match cs, h with
    | [c0], h =>
      simp only [Chain] at h
      exact ⟨c0, lo, hi, rfl, h, hlo, hhi⟩
  | cons k ks ih =>
    match cs, h with
    | c0 :: cs, h =>
      simp only [Chain] at h
      rw [upperBound_cons]
      by_cases hk : key < k
      · rw [if_pos hk]
        refine ⟨c0, lo, some k, by simp, h.1, hlo, ?_⟩
        intro b hb
        cases hb
        exact hk
      · rw [if_neg hk]
        obtain ⟨c, l, h', hget, hp, hl, hh⟩ := ih (some k) cs h.2
          (by intro a ha; cases ha; exact not_lt.1 hk)
        exact ⟨c, l, h', by simpa using hget, hp, hl, hh⟩

/-- A child between whose separators the key lies is the child at the upper
bound of the key. -/
theorem chain_locate (P : Option K → Nat → Option K → Prop) (lo : Option K) (ks : List K)
    (cs : List Nat) (hi : Option K) (h : Chain P lo ks cs hi)
    (hs : ks.Pairwise (fun a b => a < b)) (key : K) (c : Nat) (hc : c ∈ cs)
    (hP : ∀ l h, P l c h → LoLe l key ∧ LtHi key h) :
    cs[upperBound ks key]? = some c := by
  induction ks generalizing lo cs with
  | nil =>
    match cs, h with
    | [c0], h =>
      simp only [List.mem_singleton] at hc
      subst hc
      rfl
  | cons k ks ih =>
    match cs, h with
    | c0 :: cs, h =>
      simp only [Chain] at h
      rw [upperBound_cons]
      have key_ge : c ∈ cs → ¬ key < k := by
        intro hc'
        obtain ⟨l, h', a, hp, hl, hle⟩ := chain_mem_ge P k ks cs hi h.2 hs c hc'
        exact not_lt.2 (le_trans hle ((hP l h' hp).1 a hl))
      by_cases hk : key < k
      · rw [if_pos hk]
        rcases List.mem_cons.1 hc with rfl | hc
        · simp
        · exact absurd hk (key_ge hc)
      · rw [if_neg hk]
        rcases List.mem_cons.1 hc with rfl | hc
        · exact absurd ((hP _ _ h.1).2 k rfl) hk
        · simpa using ih (some k) cs h.2 (List.pairwise_cons.1 hs).2 hc

omit [LinearOrder K] in
/-- The separators left and right of a child are ends of the node or keys
of the node. -/
theorem chain_mem_ends (P : Option K → Nat → Option K → Prop) (lo : Option K) (ks : List K)
    (cs : List Nat) (hi : Option K) (h : Chain P lo ks cs hi) (c : Nat) (hc : c ∈ cs) :
    ∃ l h, P l c h ∧ (l = lo ∨ ∃ k ∈ ks, l = some k) ∧ (h = hi ∨ ∃ k ∈ ks, h = some k) := by
  induction ks generalizing lo cs with
  | nil =>
    match cs, h with
    | [c0], h =>
      simp only [Chain] at h
      simp only [List.mem_singleton] at hc
      subst hc
      exact ⟨_, _, h, Or.inl rfl, Or.inl rfl⟩
  | cons k ks ih =>
    match cs, h with
    | c0 :: cs, h =>
      simp only [Chain] at h
      rcases List.mem_cons.1 hc with rfl | hc
      · exact ⟨_, _, h.1, Or.inl rfl, Or.inr ⟨k, List.mem_cons_self _ _, rfl⟩⟩
      · obtain ⟨l, h', hp, hl, hh⟩ := ih (some k) cs h.2 hc
        refine ⟨l, h', hp, ?_, ?_⟩
        · rcases hl with hl | ⟨k', hk', hl⟩
          · exact Or.inr ⟨k, List.mem_cons_self _ _, hl⟩
          · exact Or.inr ⟨k', List.mem_cons_of_mem _ hk', hl⟩
        · rcases hh with hh | ⟨k', hk', hh⟩
          · exact Or.inl hh
          · exact Or.inr ⟨k', List.mem_cons_of_mem _ hk', hh⟩

theorem lowerBound_le_length (ks : List K) (key : K) : lowerBound ks key ≤ ks.length := by
  unfold lowerBound
  exact (List.takeWhile_sublist _).length_le

/-- `parent->Insert(key, right)` behind the split child `left`: key and right
node go between `left` and its right neighbour. -/
theorem chain_insert (P Q : Option K → Nat → Option K → Prop) (lo : Option K) (ks : List K)
    (cs : List Nat) (hi : Option K) (h : Chain P lo ks cs hi)
    (hs : ks.Pairwise (fun a b => a < b)) (left right : Nat) (key : K) (lL HI : Option K)
    (hmem : left ∈ cs)
    (huniq : ∀ l h, P l left h → l = lL ∧ h = HI)
    (hlo : ∀ a, lL = some a → a < key) (hhi : LtHi key HI)
    (hQ1 : Q lL left (some key)) (hQ2 : Q (some key) right HI)
    (hQ : ∀ l c h, c ∈ cs → c ≠ left → P l c h → Q l c h) :
    Chain Q lo (ks.insertIdx (lowerBound ks key) key)
        (cs.insertIdx (lowerBound ks key + 1) right) hi ∧
      (ks.insertIdx (lowerBound ks key) key).Pairwise (fun a b => a < b) := by
  induction ks generalizing lo cs with
  | nil =>
    match cs, h with
    | [c0], h =>
      simp only [Chain] at h
      simp only [List.mem_singleton] at hmem
      subst hmem
      obtain ⟨e1, e2⟩ := huniq _ _ h
      subst e1; subst e2
      refine ⟨?_, by simp [lowerBound]⟩
      show Chain Q lo [key] [left, right] hi
      simp only [Chain]
      exact ⟨hQ1, hQ2⟩
  | cons k ks ih =>
    match cs, h with
    | c0 :: cs, h =>
      simp only [Chain] at h
      have hs' := List.pairwise_cons.1 hs
      have in_tail : left ∈ cs → k < key := by
        intro hc'
        obtain ⟨l, h', a, hp, hl, hle⟩ := chain_mem_ge P k ks cs hi h.2 hs left hc'
        have := (huniq l h' hp).1
        exact lt_of_le_of_lt hle (hlo a (by rw [← this, hl]))
      by_cases hc0 : c0 = left
      · subst hc0
        obtain ⟨e1, e2⟩ := huniq _ _ h.1
        have hk : key < k := hhi k e2.symm
        have hnot : c0 ∉ cs := fun hc' => lt_asymm hk (in_tail hc')
        rw [lowerBound_cons, if_neg (not_lt.2 (le_of_lt hk))]
        refine ⟨?_, ?_⟩
        · show Chain Q lo (key :: k :: ks) (c0 :: right :: cs) hi
          simp only [Chain]
          refine ⟨by rw [e1]; exact hQ1, by rw [e2]; exact hQ2, ?_⟩
          exact chain_mono P Q _ _ _ _ h.2 (fun l c h' hc hp =>
            hQ l c h' (List.mem_cons_of_mem _ hc) (fun e => hnot (e ▸ hc)) hp)
        · show (key :: k :: ks).Pairwise (fun a b => a < b)
          rw [List.pairwise_cons]
          refine ⟨?_, hs⟩
          intro b hb
          rcases List.mem_cons.1 hb with rfl | hb
          · exact hk
          · exact lt_trans hk (hs'.1 b hb)
      · have hmem' : left ∈ cs := by
          rcases List.mem_cons.1 hmem with e | e
          · exact absurd e.symm hc0
          · exact e
        have hk : k < key := in_tail hmem'
        rw [lowerBound_cons, if_pos hk]
        obtain ⟨ihc, ihs⟩ := ih (some k) cs h.2 hs'.2 hmem'
          (fun l c h' hc hne hp => hQ l c h' (List.mem_cons_of_mem _ hc) hne hp)
        refine ⟨?_, ?_⟩
        · show Chain Q lo (k :: ks.insertIdx (lowerBound ks key) key)
            (c0 :: cs.insertIdx (lowerBound ks key + 1) right) hi
          have hlen := chain_length P _ _ _ _ h.2
          have hne : cs.insertIdx (lowerBound ks key + 1) right ≠ [] := by
            intro e
            have := congrArg List.length e
            rw [List.length_insertIdx _ _ (by have := lowerBound_le_length ks key; omega)] at this
            simp at this
          simp only [Chain]
          exact ⟨hQ _ _ _ (List.mem_cons_self _ _) hc0 h.1, ihc⟩
        · show (k :: ks.insertIdx (lowerBound ks key) key).Pairwise (fun a b => a < b)
          rw [List.pairwise_cons]
          refine ⟨?_, ihs⟩
          intro b hb
          rcases (List.mem_insertIdx (lowerBound_le_length ks key)).1 hb with rfl | hb
          · exact hk
          · exact hs'.1 b hb

omit [LinearOrder K] in
/-- `Split` of an internal node at `mid`: the key at `mid` separates the
lower children from the upper ones. -/
theorem chain_split (P : Option K → Nat → Option K → Prop) (lo : Option K) (ks : List K)
    (cs : List Nat) (hi : Option K) (h : Chain P lo ks cs hi) (mid : Nat) (up : K)
    (hup : ks[mid]? = some up) :
    Chain P lo (ks.take mid) (cs.take (mid + 1)) (some up) ∧
      Chain P (some up) (ks.drop (mid + 1)) (cs.drop (mid + 1)) hi := by
  induction mid generalizing lo ks cs with
  | zero =>
    match ks, cs, h with
    | k :: ks, c :: cs, h =>
      simp only [Chain] at h
      simp only [List.getElem?_cons_zero, Option.some.injEq] at hup
      subst hup
      refine ⟨?_, by simpa using h.2⟩
      show Chain P lo [] [c] (some k)
      simp only [Chain]
      exact h.1
    | [], [c], h => simp at hup
  | succ mid ih =>
    match ks, cs, h with
    | k :: ks, c :: cs, h =>
      simp only [Chain] at h
      simp only [List.getElem?_cons_succ] at hup
      obtain ⟨h1, h2⟩ := ih (some k) ks cs h.2 hup
      refine ⟨?_, by simpa using h2⟩
      show Chain P lo (k :: ks.take mid) (c :: cs.take (mid + 1)) (some up)
      cases hks : ks.take mid with
      | nil =>
        rw [hks] at h1
        cases hcs : cs.take (mid + 1) with
        | nil => rw [hcs] at h1; simp [Chain] at h1
        | cons c1 cs1 =>
          rw [hcs] at h1
          simp only [Chain]
          exact ⟨h.1, h1⟩
      | cons k1 ks1 =>
        rw [hks] at h1
        cases hcs : cs.take (mid + 1) with
        | nil => rw [hcs] at h1; simp [Chain] at h1
        | cons c1 cs1 =>
          rw [hcs] at h1
          simp only [Chain]
          exact ⟨h.1, h1⟩
    | [], [c], h => simp at hup

end ChainLemmas

end BPT

namespace BPT
variable {K V : Type}

/-! ### The node store -/

theorem deref_eq_ok (heap : List (BPlusNode K V)) (p : Nat) (n : BPlusNode K V) :
    deref heap p = .ok n ↔ heap[p]? = some n := by
  unfold deref
  cases heap[p]? with
  | none => simp
  | some m => simp

theorem deref_of_get (heap : List (BPlusNode K V)) (p : Nat) (n : BPlusNode K V)
    (h : heap[p]? = some n) : deref heap p = .ok n :=
  (deref_eq_ok heap p n).2 h

theorem index_of_get {α : Type} (l : List α) (i : Nat) (a : α) (h : l[i]? = some a) :
    index l i = .ok a := by
  unfold index
  rw [h]

theorem store_get (heap : List (BPlusNode K V)) (p x : Nat) (n : BPlusNode K V) :
    (store heap p n)[x]? = if p = x then (if p < heap.length then some n else none)
      else heap[x]? := by
  unfold store
  rw [List.getElem?_set]

theorem store_get_self (heap : List (BPlusNode K V)) (p : Nat) (n m : BPlusNode K V)
    (h : heap[p]? = some m) : (store heap p n)[p]? = some n := by
  rw [store_get, if_pos rfl, if_pos]
  exact (List.getElem?_eq_some.1 h).1

theorem store_get_ne (heap : List (BPlusNode K V)) (p x : Nat) (n : BPlusNode K V)
    (h : p ≠ x) : (store heap p n)[x]? = heap[x]? := by
  rw [store_get, if_neg h]

theorem store_length (heap : List (BPlusNode K V)) (p : Nat) (n : BPlusNode K V) :
    (store heap p n).length = heap.length := by
  simp [store]

theorem ekeys_nil (x : Nat) (n : BPlusNode K V) : ekeys [] x n = n.keys := by
  simp [ekeys]

/-! ### Descent to the leaf -/

section Find
variable [LinearOrder K]

/-- With enough fuel `FindLeaf` arrives at a leaf whose interval holds the key. -/
theorem findLeaf_good (t : BPlusTree K V) (g : Ghost K) (hg : Good t g []) (key : K)
    (fuel : Nat) (x : Nat) (n : BPlusNode K V) (hx : t.heap[x]? = some n)
    (hlo : LoLe (g.lo x) key) (hhi : LtHi key (g.hi x)) (hf : g.ht x < fuel) :
    ∃ L ln, FindLeaf t.heap fuel x key = .ok L ∧ t.heap[L]? = some ln ∧ g.ht L = 0 ∧
      LoLe (g.lo L) key ∧ LtHi key (g.hi L) := by
  induction fuel generalizing x n with
  | zero => omega
  | succ fuel ih =>
    have hn := (hg.node x n hx).1
    unfold FindLeaf
    simp only [deref_of_get _ _ _ hx, bind, Except.bind]
    by_cases h0 : g.ht x = 0
    · rw [(hn.leaf h0).1]
      exact ⟨x, n, rfl, hx, h0, hlo, hhi⟩
    · obtain ⟨hl, hc⟩ := hn.inner h0
      rw [hl, ekeys_nil] at *
      obtain ⟨c, l, h, hget, ⟨cn, hcn, _, hht, hcl, hch⟩, hl', hh'⟩ :=
        chain_find _ _ _ _ _ hc key hlo hhi
      simp only [index_of_get _ _ _ hget, Bool.false_eq_true, if_false]
      simp only [hiSeen] at hch
      exact ih c cn hcn (by rw [hcl]; exact hl') (by rw [hch]; exact hh') (by omega)

/-- The descent from the root and the descent from a node whose interval
holds the key end at the same leaf. -/
theorem findLeaf_from (t : BPlusTree K V) (g : Ghost K) (hg : Good t g []) (key : K)
    (d : Nat) (y : Nat) (yn : BPlusNode K V) (hy : t.heap[y]? = some yn)
    (hd : g.ht t.root - g.ht y = d)
    (hlo : LoLe (g.lo y) key) (hhi : LtHi key (g.hi y)) (e : Nat) :
    FindLeaf t.heap (g.ht t.root + 1 + e) t.root key =
      FindLeaf t.heap (g.ht y + 1 + e) y key := by
  induction d generalizing y yn with
  | zero =>
    have hny := hg.node y yn hy
    by_cases hr : y = t.root
    · rw [hr]
    · obtain ⟨⟨p, pn, hp, hpn, hmem⟩, _⟩ := hny.2.2 hr
      have hnp := (hg.node p pn hpn).1
      have hp0 : g.ht p ≠ 0 := by
        intro h0
        rw [(hnp.leaf h0).2.2] at hmem
        simp at hmem
      obtain ⟨l, h, ⟨cn, _, _, hht, _, _⟩, _⟩ :=
        chain_mem_ends _ _ _ _ _ (hnp.inner hp0).2 y hmem
      have := hnp.height
      have := hny.1.height
      omega
  | succ d ih =>
    have hny := hg.node y yn hy
    have hr : y ≠ t.root := by
      intro h
      rw [h] at hd
      omega
    obtain ⟨⟨p, pn, hp, hpn, hmem⟩, _⟩ := hny.2.2 hr
    have hnp := (hg.node p pn hpn).1
    have hp0 : g.ht p ≠ 0 := by
      intro h0
      rw [(hnp.leaf h0).2.2] at hmem
      simp at hmem
    obtain ⟨hpl, hpc⟩ := hnp.inner hp0
    rw [ekeys_nil] at hpc
    obtain ⟨l, h, ⟨cn, hcn, _, hht, hcl, hch⟩, hl, hh⟩ :=
      chain_mem_ends _ _ _ _ _ hpc y hmem
    simp only [hiSeen] at hch
    have hbp := hnp.bounds
    rw [ekeys_nil] at hbp
    have hplo : LoLe (g.lo p) key := by
      rcases hl with hl | ⟨k, hk, hl⟩
      · rw [← hl, ← hcl]; exact hlo
      · intro a ha
        exact le_trans ((hbp k hk).1 a ha) (hlo k (by rw [hcl, hl]))
    have hphi : LtHi key (g.hi p) := by
      rcases hh with hh | ⟨k, hk, hh⟩
      · rw [← hh, ← hch]; exact hhi
      · intro b hb
        exact lt_trans (hhi k (by rw [hch, hh])) ((hbp k hk).2 b hb)
    rw [ih p pn hpn (by omega) hplo hphi]
    have hloc := chain_locate _ _ _ _ _ hpc (by have := hnp.sorted; rwa [ekeys_nil] at this)
      key y hmem (by
        intro l' h' ⟨cn', _, _, _, hl', hh'⟩
        simp only [hiSeen] at hh'
        exact ⟨by rw [← hl']; exact hlo, by rw [← hh']; exact hhi⟩)
    have e1 : g.ht p + 1 + e = (g.ht y + 1 + e) + 1 := by omega
    rw [e1]
    conv => lhs; unfold FindLeaf
    simp only [deref_of_get _ _ _ hpn, bind, Except.bind, hpl, index_of_get _ _ _ hloc,
      Bool.false_eq_true, if_false]

theorem lowerBound_eq_of_get (keys : List K) (k : K) (i : Nat)
    (hs : keys.Pairwise (fun a b => a < b)) (hi : keys[i]? = some k) :
    lowerBound keys k = i := by
  induction keys generalizing i with
  | nil => simp at hi
  | cons a ks ih =>
    rw [lowerBound_cons]
    rw [List.pairwise_cons] at hs
    cases i with
    | zero =>
      simp only [List.getElem?_cons_zero, Option.some.injEq] at hi
      rw [hi, if_neg (lt_irrefl _)]
    | succ j =>
      simp only [List.getElem?_cons_succ] at hi
      have : a < k := hs.1 k (List.getElem?_mem hi)
      rw [if_pos this, ih j hs.2 hi]

/-- In a leaf the record stored with a key is the record `GetValue` reads. -/
theorem mem_zip_iff_getValue (keys : List K) (values : List V) (k : K) (v : V)
    (hs : keys.Pairwise (fun a b => a < b)) :
    (k, v) ∈ keys.zip values ↔ k ∈ keys ∧ values[lowerBound keys k]? = some v := by
  constructor
  · intro h
    obtain ⟨i, hi⟩ := List.mem_iff_getElem?.1 h
    rw [List.getElem?_zip_eq_some] at hi
    rw [lowerBound_eq_of_get keys k i hs hi.1]
    exact ⟨List.getElem?_mem hi.1, hi.2⟩
  · rintro ⟨hk, hv⟩
    obtain ⟨i, hi⟩ := List.mem_iff_getElem?.1 hk
    rw [lowerBound_eq_of_get keys k i hs hi] at hv
    exact List.mem_iff_getElem?.2 ⟨i, List.getElem?_zip_eq_some.2 ⟨hi, hv⟩⟩

theorem leaf_of_isLeaf (t : BPlusTree K V) (g : Ghost K) (X : List Nat)
    (pend : Option (Nat × Option K)) (x : Nat) (n : BPlusNode K V)
    (h : NodeOK t g X pend x n) (hl : n.isLeaf = true) : g.ht x = 0 := by
  by_contra h0
  rw [(h.inner h0).1] at hl
  exact Bool.false_ne_true hl

/-- The leaf `FindLeaf` arrives at holds every record stored under the key. -/
theorem stored_at_found (t : BPlusTree K V) (g : Ghost K) (hg : Good t g []) (key : K) :
    ∃ L ln, FindLeaf t.heap t.heap.length t.root key = .ok L ∧ t.heap[L]? = some ln ∧
      g.ht L = 0 ∧ LoLe (g.lo L) key ∧ LtHi key (g.hi L) ∧
      ∀ v, Stored t.heap key v ↔ (key, v) ∈ ln.keys.zip ln.values := by
  obtain ⟨rn, hrn⟩ : ∃ rn, t.heap[t.root]? = some rn :=
    ⟨_, List.getElem?_eq_getElem hg.rootIn⟩
  have hroot := (hg.node _ _ hrn).2.1 rfl
  obtain ⟨L, ln, hfind, hL, hL0, hLlo, hLhi⟩ := findLeaf_good t g hg key t.heap.length
    t.root rn hrn (by rw [hroot.2.1]; intro a ha; cases ha)
    (by have := hroot.2.2; simp only [hiSeen] at this; rw [this]; intro a ha; cases ha) hg.tall
  refine ⟨L, ln, hfind, hL, hL0, hLlo, hLhi, ?_⟩
  intro v
  constructor
  · rintro ⟨x, n, hx, hxl, hmem⟩
    have hnx := (hg.node x n hx).1
    have hx0 := leaf_of_isLeaf _ _ _ _ _ _ hnx hxl
    have hk : key ∈ n.keys := (List.of_mem_zip hmem).1
    have hb := hnx.bounds key (by rw [ekeys_nil]; exact hk)
    have hfrom := findLeaf_from t g hg key _ x n hx rfl hb.1 hb.2
      (t.heap.length - (g.ht t.root + 1))
    have e1 : g.ht t.root + 1 + (t.heap.length - (g.ht t.root + 1)) = t.heap.length := by
      have := hg.tall; omega
    rw [e1, hfind, hx0] at hfrom
    have e2 : 0 + 1 + (t.heap.length - (g.ht t.root + 1)) =
        (t.heap.length - (g.ht t.root + 1)) + 1 := by omega
    rw [e2] at hfrom
    unfold FindLeaf at hfrom
    simp only [deref_of_get _ _ _ hx, bind, Except.bind, hxl, if_true, pure, Except.pure] at hfrom
    cases hfrom
    rw [hx] at hL
    cases hL
    exact hmem
  · intro hmem
    exact ⟨L, ln, hL, ((hg.node L ln hL).1.leaf hL0).1, hmem⟩

/-- `Get` returns the record stored under the key, if there is one. -/
theorem get_spec (t : BPlusTree K V) (g : Ghost K) (hg : Good t g []) (key : K) :
    ∃ r, Get t key = .ok r ∧ ∀ v, r = some v ↔ Stored t.heap key v := by
  obtain ⟨L, ln, hfind, hL, hL0, _, _, hst⟩ := stored_at_found t g hg key
  have hn := (hg.node L ln hL).1
  have hs := hn.sorted
  rw [ekeys_nil] at hs
  have hlen := (hn.leaf hL0).2.1
  unfold Get
  simp only [hfind, deref_of_get _ _ _ hL, bind, Except.bind]
  by_cases hk : key ∈ ln.keys
  · rw [(exists_iff_mem ln key hs).2 hk]
    obtain ⟨i, hi⟩ := List.mem_iff_getElem?.1 hk
    have hlb := lowerBound_eq_of_get _ _ _ hs hi
    have hlt : lowerBound ln.keys key < ln.values.length := by
      rw [hlb, hlen]; exact (List.getElem?_eq_some.1 hi).1
    refine ⟨some (ln.values[lowerBound ln.keys key]), ?_, ?_⟩
    · simp only [BPlusNode.GetValue, index, List.getElem?_eq_getElem hlt, if_true, pure,
        Except.pure]
    · intro v
      rw [hst v, mem_zip_iff_getValue _ _ _ _ hs, List.getElem?_eq_getElem hlt]
      constructor
      · intro h; exact ⟨hk, h⟩
      · intro h; exact h.2
  · have : ln.Exists key = false := by
      cases h : ln.Exists key with
      | false => rfl
      | true => exact absurd ((exists_iff_mem ln key hs).1 h) hk
    rw [this]
    refine ⟨none, rfl, ?_⟩
    intro v
    rw [hst v]
    constructor
    · intro h; cases h
    · intro h; exact absurd (List.of_mem_zip h).1 hk

/-- `Exists` tells whether a record is stored under the key. -/
theorem exists_spec (t : BPlusTree K V) (g : Ghost K) (hg : Good t g []) (key : K) :
    ∃ b, Exists t key = .ok b ∧ (b = true ↔ ∃ v, Stored t.heap key v) := by
  obtain ⟨L, ln, hfind, hL, hL0, _, _, hst⟩ := stored_at_found t g hg key
  have hn := (hg.node L ln hL).1
  have hs := hn.sorted
  rw [ekeys_nil] at hs
  have hlen := (hn.leaf hL0).2.1
  unfold Exists
  simp only [hfind, deref_of_get _ _ _ hL, bind, Except.bind]
  refine ⟨ln.Exists key, rfl, ?_⟩
  rw [exists_iff_mem ln key hs]
  constructor
  · intro hk
    obtain ⟨i, hi⟩ := List.mem_iff_getElem?.1 hk
    have hlt : i < ln.values.length := by
      rw [hlen]; exact (List.getElem?_eq_some.1 hi).1
    refine ⟨ln.values[i], (hst _).2 ?_⟩
    exact List.mem_iff_getElem?.2 ⟨i, List.getElem?_zip_eq_some.2
      ⟨hi, List.getElem?_eq_getElem hlt⟩⟩
  · rintro ⟨v, hv⟩
    exact (List.of_mem_zip ((hst v).1 hv)).1

end Find

end BPT

namespace BPT
variable {K V : Type}

/-! ### Moving the shape of a node from one state to the next -/

section Frame
variable [LinearOrder K]

omit [LinearOrder K] in
theorem childOK_transfer (heap heap' : List (BPlusNode K V)) (g g' : Ghost K)
    (pend pend' : Option (Nat × Option K)) (x : Nat) (l : Option K) (c : Nat) (h : Option K)
    (hc : ChildOK heap g pend x l c h)
    (hheap : ∀ cn, heap[c]? = some cn → ∃ cn', heap'[c]? = some cn' ∧ cn'.parent = cn.parent)
    (hx : g'.ht x = g.ht x) (hht : g'.ht c = g.ht c) (hlo : g'.lo c = g.lo c)
    (hhi : hiSeen g' pend' c = hiSeen g pend c) :
    ChildOK heap' g' pend' x l c h := by
  obtain ⟨cn, h1, h2, h3, h4, h5⟩ := hc
  obtain ⟨cn', h1', h2'⟩ := hheap cn h1
  exact ⟨cn', h1', by rw [h2', h2], by rw [hx, hht, h3], by rw [hlo, h4], by rw [hhi, h5]⟩

theorem nodeOK_transfer (t t' : BPlusTree K V) (g g' : Ghost K) (X X' : List Nat)
    (pend pend' : Option (Nat × Option K)) (x : Nat) (n n' : BPlusNode K V)
    (h : NodeOK t g X pend x n)
    (hkeys : n'.keys = n.keys) (hvals : n'.values = n.values)
    (hch : n'.children = n.children) (hleaf : n'.isLeaf = n.isLeaf)
    (hX : x ∈ X' ↔ x ∈ X) (hdeg : t'.degree = t.degree)
    (hht : g'.ht x = g.ht x) (hlo : g'.lo x = g.lo x) (hhi : g'.hi x = g.hi x)
    (hroot : g'.ht x ≤ g'.ht t'.root)
    (hchild : ∀ l c h, c ∈ n.children → ChildOK t.heap g pend x l c h →
      ChildOK t'.heap g' pend' x l c h) :
    NodeOK t' g' X' pend' x n' := by
  have hek : ekeys X' x n' = ekeys X x n := by
    unfold ekeys
    by_cases hx : x ∈ X
    · rw [if_pos hx, if_pos (hX.2 hx), hkeys]
    · rw [if_neg hx, if_neg (fun h' => hx (hX.1 h')), hkeys]
  refine ⟨by rw [hek]; exact h.sorted, ?_, ?_, ?_, by rw [hek, hdeg]; exact h.small, hroot⟩
  · intro k hk
    rw [hek] at hk
    rw [hlo, hhi]
    exact h.bounds k hk
  · intro h0
    rw [hht] at h0
    rw [hleaf, hvals, hkeys, hch]
    exact h.leaf h0
  · intro h0
    rw [hht] at h0
    rw [hleaf, hek, hch, hlo, hhi]
    exact ⟨(h.inner h0).1, chain_mono _ _ _ _ _ _ (h.inner h0).2 hchild⟩

/-- Every child of a node is an allocated node one level below. -/
theorem child_of_nodeOK (t : BPlusTree K V) (g : Ghost K) (X : List Nat)
    (pend : Option (Nat × Option K)) (x : Nat) (n : BPlusNode K V)
    (h : NodeOK t g X pend x n) (c : Nat) (hc : c ∈ n.children) :
    g.ht x ≠ 0 ∧ ∃ l h', ChildOK t.heap g pend x l c h' := by
  have h0 : g.ht x ≠ 0 := by
    intro h0
    rw [(h.leaf h0).2.2] at hc
    simp at hc
  exact ⟨h0, chain_mem _ _ _ _ _ (h.inner h0).2 c hc⟩

theorem child_lt (t : BPlusTree K V) (g : Ghost K) (X : List Nat)
    (pend : Option (Nat × Option K)) (x : Nat) (n : BPlusNode K V)
    (h : NodeOK t g X pend x n) (c : Nat) (hc : c ∈ n.children) : c < t.heap.length := by
  obtain ⟨_, l, h', cn, hcn, _⟩ := child_of_nodeOK t g X pend x n h c hc
  exact (List.getElem?_eq_some.1 hcn).1

end Frame

end BPT

namespace BPT
variable {K V : Type}

/-! ### `Set` in the leaf -/

section LeafStep
variable [LinearOrder K]

/-- `BPlusNode::Insert(key, value)` of a key the leaf does not hold. -/
theorem insertValue_new (ln : BPlusNode K V) (key : K) (value : V)
    (hs : ln.keys.Pairwise (fun a b => a < b)) (hl : ln.values.length = ln.keys.length)
    (hk : key ∉ ln.keys) :
    ∃ A B VA VB, ln.keys = A ++ B ∧ ln.values = VA ++ VB ∧ VA.length = A.length ∧
      (∀ a ∈ A, a < key) ∧ (∀ b ∈ B, key < b) ∧
      (ln.InsertValue key value).2 =
        { ln with values := VA ++ value :: VB, keys := A ++ key :: B } := by
  obtain ⟨A, B, hAB, hlb, hA, hB⟩ := lowerBound_split ln.keys key hs
  have hlen : A.length ≤ ln.values.length := by
    rw [hl, hAB, List.length_append]; omega
  refine ⟨A, B, ln.values.take A.length, ln.values.drop A.length, hAB,
    (List.take_append_drop _ _).symm, by rw [List.length_take]; omega, hA, ?_, ?_⟩
  · intro b hb
    refine lt_of_le_of_ne (hB b hb) ?_
    intro e
    apply hk
    rw [hAB, e]
    exact List.mem_append_right _ hb
  · unfold BPlusNode.InsertValue
    simp only
    rw [if_neg (by rw [lowerBound_get_iff_mem _ _ hs]; exact hk), hlb]
    have e1 : ln.keys.insertIdx A.length key = A ++ key :: B := by
      rw [hAB]; exact insertIdx_append_length A B key
    have e2 : ln.values.insertIdx A.length value =
        ln.values.take A.length ++ value :: ln.values.drop A.length := by
      have h3 := insertIdx_append_length (ln.values.take A.length)
        (ln.values.drop A.length) value
      rw [List.take_append_drop, List.length_take, Nat.min_eq_left hlen] at h3
      exact h3
    rw [e1, e2]

omit [LinearOrder K] in
theorem stored_store_leaf (heap : List (BPlusNode K V)) (L : Nat) (ln l1 : BPlusNode K V)
    (hL : heap[L]? = some ln) (hleaf1 : l1.isLeaf = true)
    (k : K) (v : V) :
    Stored (store heap L l1) k v ↔
      (k, v) ∈ l1.keys.zip l1.values ∨
        ∃ x n, x ≠ L ∧ heap[x]? = some n ∧ n.isLeaf = true ∧ (k, v) ∈ n.keys.zip n.values := by
  constructor
  · rintro ⟨x, n, hx, hn, hm⟩
    by_cases e : L = x
    · subst e
      rw [store_get_self _ _ _ _ hL] at hx
      cases hx
      exact Or.inl hm
    · rw [store_get_ne _ _ _ _ e] at hx
      exact Or.inr ⟨x, n, fun h => e h.symm, hx, hn, hm⟩
  · rintro (hm | ⟨x, n, hne, hx, hn, hm⟩)
    · exact ⟨L, l1, store_get_self _ _ _ _ hL, hleaf1, hm⟩
    · exact ⟨x, n, by rw [store_get_ne _ _ _ _ (fun h => hne h.symm)]; exact hx, hn, hm⟩

omit [LinearOrder K] in
theorem stored_iff_leaf (heap : List (BPlusNode K V)) (L : Nat) (ln : BPlusNode K V)
    (hL : heap[L]? = some ln) (hleaf : ln.isLeaf = true) (k : K) (v : V) :
    Stored heap k v ↔
      (k, v) ∈ ln.keys.zip ln.values ∨
        ∃ x n, x ≠ L ∧ heap[x]? = some n ∧ n.isLeaf = true ∧ (k, v) ∈ n.keys.zip n.values := by
  constructor
  · rintro ⟨x, n, hx, hn, hm⟩
    by_cases e : x = L
    · subst e
      rw [hL] at hx
      cases hx
      exact Or.inl hm
    · exact Or.inr ⟨x, n, e, hx, hn, hm⟩
  · rintro (hm | ⟨x, n, _, hx, hn, hm⟩)
    · exact ⟨L, ln, hL, hleaf, hm⟩
    · exact ⟨x, n, hx, hn, hm⟩

/-- A leaf rewritten in place, with its links kept, keeps the shape of the
tree when the new leaf is sorted, inside its interval and not too small. -/
theorem good_store_leaf (t : BPlusTree K V) (g : Ghost K) (hg : Good t g [])
    (L : Nat) (ln l1 : BPlusNode K V) (hL : t.heap[L]? = some ln) (hL0 : g.ht L = 0)
    (hp : l1.parent = ln.parent) (hleaf : l1.isLeaf = true) (hch : l1.children = [])
    (hs : l1.keys.Pairwise (fun a b => a < b))
    (hb : ∀ k ∈ l1.keys, LoLe (g.lo L) k ∧ LtHi k (g.hi L))
    (hv : l1.values.length = l1.keys.length) (hsm : l1.keys.length < t.degree)
    (hocc : ln.keys.length ≤ l1.keys.length) :
    Good { t with heap := store t.heap L l1 } g [] := by
  have hlinks : ∀ (x : Nat) (n : BPlusNode K V), t.heap[x]? = some n →
      ∃ n' : BPlusNode K V, (store t.heap L l1)[x]? = some n' ∧ n'.parent = n.parent ∧
        n'.children = n.children := by
    intro x n hx
    by_cases e : L = x
    · subst e
      rw [hL] at hx
      cases hx
      exact ⟨l1, store_get_self _ _ _ _ hL, hp, by
        rw [hch, ((hg.node L ln hL).1.leaf hL0).2.2]⟩
    · exact ⟨n, by rw [store_get_ne _ _ _ _ e]; exact hx, rfl, rfl⟩
  have hchild : ∀ x l c h, ChildOK t.heap g none x l c h →
      ChildOK (store t.heap L l1) g none x l c h := by
    intro x l c h hc
    apply childOK_transfer _ _ _ _ _ _ _ _ _ _ hc _ rfl rfl rfl rfl
    intro cn hcn
    obtain ⟨cn', h1, h2, _⟩ := hlinks c cn hcn
    exact ⟨cn', h1, h2⟩
  refine ⟨hg.deg, by simpa [store_length] using hg.rootIn,
    by simpa [store_length] using hg.tall, ?_, by simp⟩
  intro x n' hx
  by_cases e : L = x
  · subst e
    simp only [store_get_self _ _ _ _ hL, Option.some.injEq] at hx
    subst hx
    have hold := hg.node L ln hL
    refine ⟨⟨by rw [ekeys_nil]; exact hs, by rw [ekeys_nil]; exact hb,
      fun _ => ⟨hleaf, hv, hch⟩, fun h0 => absurd hL0 h0, by rw [ekeys_nil]; exact hsm,
      hold.1.height⟩, ?_, ?_⟩
    · intro hr
      rw [hp]
      exact hold.2.1 hr
    · intro hr
      obtain ⟨⟨p, pn, h1, h2, h3⟩, hocc'⟩ := hold.2.2 hr
      obtain ⟨pn', h4, _, h5⟩ := hlinks p pn h2
      refine ⟨⟨p, pn', by rw [hp]; exact h1, h4, by rw [h5]; exact h3⟩, ?_, ?_⟩
      · intro h0
        exact le_trans (hocc'.1 h0) hocc
      · intro h0
        exact absurd hL0 h0
  · simp only [store_get_ne _ _ _ _ e] at hx
    have hold := hg.node x n' hx
    refine ⟨nodeOK_transfer t _ g g [] [] none none x n' n' hold.1 rfl rfl rfl rfl Iff.rfl rfl
      rfl rfl rfl hold.1.height (fun l c h _ hc => hchild x l c h hc), hold.2.1, ?_⟩
    intro hr
    obtain ⟨⟨p, pn, h1, h2, h3⟩, hocc'⟩ := hold.2.2 hr
    obtain ⟨pn', h4, _, h5⟩ := hlinks p pn h2
    exact ⟨⟨p, pn', h1, h4, by rw [h5]; exact h3⟩, hocc'⟩

omit [LinearOrder K] in
theorem drop_eq_cons_of_get {α : Type} (l : List α) (m : Nat) (a : α) (h : l[m]? = some a) :
    l.drop m = a :: l.drop (m + 1) := by
  obtain ⟨hlt, rfl⟩ := List.getElem?_eq_some.1 h
  exact List.drop_eq_getElem_cons hlt

theorem sorted_at (l : List K) (m : Nat) (up : K) (hs : l.Pairwise (fun a b => a < b))
    (h : l[m]? = some up) :
    (∀ k ∈ l.take m, k < up) ∧ (∀ k ∈ l.drop (m + 1), up < k) ∧
      (∀ k ∈ l.drop m, up ≤ k) := by
  have e := drop_eq_cons_of_get l m up h
  have hl : l = l.take m ++ up :: l.drop (m + 1) := by
    rw [← e, List.take_append_drop]
  rw [hl, List.pairwise_append, List.pairwise_cons] at hs
  refine ⟨fun k hk => hs.2.2 k hk up (List.mem_cons_self _ _), hs.2.1.1, ?_⟩
  intro k hk
  rw [e] at hk
  rcases List.mem_cons.1 hk with rfl | hk
  · exact le_refl _
  · exact le_of_lt (hs.2.1.1 k hk)

/-- The split of a full leaf `l1` at position `L` into the halves `low`
(in place) and `high` (newly allocated) leaves the tree ready for `Expand`. -/
theorem leaf_split_pend (t : BPlusTree K V) (g : Ghost K) (hg : Good t g [])
    (L : Nat) (ln l1 low high : BPlusNode K V) (hL : t.heap[L]? = some ln)
    (hL0 : g.ht L = 0) (hp : l1.parent = ln.parent)
    (hs : l1.keys.Pairwise (fun a b => a < b))
    (hb : ∀ k ∈ l1.keys, LoLe (g.lo L) k ∧ LtHi k (g.hi L))
    (hv : l1.values.length = l1.keys.length) (hfull : l1.keys.length = t.degree)
    (up : K) (hup : l1.keys[t.degree / 2]? = some up)
    (hlk : low.keys = l1.keys.take (t.degree / 2))
    (hlv : low.values = l1.values.take (t.degree / 2))
    (hll : low.isLeaf = true) (hlc : low.children = []) (hlp : low.parent = l1.parent)
    (hhk : high.keys = l1.keys.drop (t.degree / 2))
    (hhv : high.values = l1.values.drop (t.degree / 2))
    (hhl : high.isLeaf = true) (hhc : high.children = [])
    (heap2 : List (BPlusNode K V)) (hlen : heap2.length = t.heap.length + 1)
    (hget : ∀ x, heap2[x]? = if x = L then some low
      else if x = t.heap.length then some high else t.heap[x]?) :
    Pend { t with heap := heap2 } (g.split L t.heap.length up) [] L t.heap.length up
      (g.hi L) := by
  have hdeg := hg.deg
  have hLlt : L < t.heap.length := (List.getElem?_eq_some.1 hL).1
  have hLN : L ≠ t.heap.length := Nat.ne_of_lt hLlt
  have holdL := hg.node L ln hL
  obtain ⟨hlt, hgt, hge⟩ := sorted_at l1.keys _ up hs hup
  have hmid1 : 1 ≤ t.degree / 2 := by omega
  have hmidlt : t.degree / 2 < t.degree := by omega
  have hupmem : up ∈ l1.keys := List.getElem?_mem hup
  -- reading the bookkeeping
  have ght : ∀ x, x ≠ t.heap.length → (g.split L t.heap.length up).ht x = g.ht x := by
    intro x hx; simp [Ghost.split, hx]
  have glo : ∀ x, x ≠ t.heap.length → (g.split L t.heap.length up).lo x = g.lo x := by
    intro x hx; simp [Ghost.split, hx]
  have ghi : ∀ x, x ≠ t.heap.length → x ≠ L →
      (g.split L t.heap.length up).hi x = g.hi x := by
    intro x hx hx'; simp [Ghost.split, hx, hx']
  have ghtN : (g.split L t.heap.length up).ht t.heap.length = 0 := by
    simp [Ghost.split, hL0]
  have gloN : (g.split L t.heap.length up).lo t.heap.length = some up := by
    simp [Ghost.split]
  have ghiN : (g.split L t.heap.length up).hi t.heap.length = g.hi L := by
    simp [Ghost.split]
  have ghiL : (g.split L t.heap.length up).hi L = some up := by
    simp [Ghost.split, hLN]
  have hseen : ∀ c, c ≠ t.heap.length →
      hiSeen (g.split L t.heap.length up) (some (L, g.hi L)) c = hiSeen g none c := by
    intro c hc
    simp only [hiSeen]
    by_cases e : c = L
    · rw [if_pos e, e]
    · rw [if_neg e, ghi c hc e]
  have hrootN : t.root ≠ t.heap.length := Nat.ne_of_lt hg.rootIn
  -- children keep their parents
  have hchild : ∀ x l c h, x ≠ t.heap.length → ChildOK t.heap g none x l c h →
      ChildOK heap2 (g.split L t.heap.length up) (some (L, g.hi L)) x l c h := by
    intro x l c h hx hc
    have hcN : c ≠ t.heap.length := by
      obtain ⟨cn, hcn, _⟩ := hc
      exact Nat.ne_of_lt (List.getElem?_eq_some.1 hcn).1
    apply childOK_transfer _ _ _ _ _ _ _ _ _ _ hc _ (ght x hx) (ght c hcN) (glo c hcN)
      (hseen c hcN)
    intro cn hcn
    rw [hget]
    by_cases e : c = L
    · rw [if_pos e]
      rw [e, hL] at hcn
      cases hcn
      exact ⟨low, rfl, by rw [hlp, hp]⟩
    · rw [if_neg e, if_neg hcN]
      exact ⟨cn, hcn, rfl⟩
  have hparent : ∀ (x p : Nat) (pn : BPlusNode K V), t.heap[p]? = some pn → x ∈ pn.children →
      ∃ pn' : BPlusNode K V, heap2[p]? = some pn' ∧ x ∈ pn'.children := by
    intro x p pn hpn hx
    have hpL : p ≠ L := by
      intro e
      rw [e, hL] at hpn
      cases hpn
      rw [(holdL.1.leaf hL0).2.2] at hx
      simp at hx
    have hpN : p ≠ t.heap.length := Nat.ne_of_lt (List.getElem?_eq_some.1 hpn).1
    exact ⟨pn, by rw [hget, if_neg hpL, if_neg hpN]; exact hpn, hx⟩
  refine
    { deg := hdeg
      rootIn := by simp only [hlen]; exact Nat.lt_succ_of_lt hg.rootIn
      tall := by
        simp only [hlen]
        rw [ght _ hrootN]
        exact Nat.lt_succ_of_lt hg.tall
      ne := hLN
      node := ?_
      rightOK := ?_
      fresh := ?_
      leftOK := ?_
      hts := by rw [ghtN, ght L hLN, hL0]
      loR := gloN
      hiR := ghiN
      hiL := ghiL
      loL := ?_
      keyHI := (hb up hupmem).2
      notRoot := fun e => hrootN e.symm
      below := by simp
      inX := by simp }
  · -- the nodes other than the new one
    intro x n hx hxN
    simp only at hx hxN
    rw [hget, if_neg hxN] at hx
    by_cases e : x = L
    · subst e
      rw [if_pos rfl] at hx
      cases hx
      refine ⟨⟨?_, ?_, ?_, ?_, ?_, ?_⟩, ?_, ?_⟩
      · rw [ekeys_nil, hlk]
        exact List.Pairwise.sublist (List.take_sublist _ _) hs
      · intro k hk
        rw [ekeys_nil, hlk] at hk
        rw [glo x hLN, ghiL]
        refine ⟨(hb k (List.mem_of_mem_take hk)).1, ?_⟩
        intro b hb'
        cases hb'
        exact hlt k hk
      · intro _
        refine ⟨hll, ?_, hlc⟩
        rw [hlk, hlv, List.length_take, List.length_take, hv]
      · intro h0
        rw [ght x hLN] at h0
        exact absurd hL0 h0
      · rw [ekeys_nil, hlk, List.length_take]
        simp only
        omega
      · rw [ght x hLN, ght _ hrootN]
        exact holdL.1.height
      · intro hr
        simp only at hr
        have := holdL.2.1 hr
        refine ⟨by rw [hlp, hp]; exact this.1, by rw [glo x hLN]; exact this.2.1, ?_⟩
        simp only [hiSeen, if_true]
        have h3 := this.2.2
        simp only [hiSeen] at h3
        exact h3
      · intro hr
        simp only at hr
        obtain ⟨⟨p, pn, h1, h2, h3⟩, _⟩ := holdL.2.2 hr
        obtain ⟨pn', h4, h5⟩ := hparent x p pn h2 h3
        refine ⟨⟨p, pn', by rw [hlp, hp]; exact h1, h4, h5⟩, ?_, ?_⟩
        · intro _
          rw [hlk, List.length_take, hfull]
          simp only
          omega
        · intro h0
          rw [ght x hLN] at h0
          exact absurd hL0 h0
    · rw [if_neg e] at hx
      have hold := hg.node x n hx
      refine ⟨nodeOK_transfer t _ g _ [] [] none _ x n n hold.1 rfl rfl rfl rfl Iff.rfl rfl
        (ght x hxN) (glo x hxN) (ghi x hxN e) ?_ (fun l c h _ hc => hchild x l c h hxN hc),
        ?_, ?_⟩
      · rw [ght x hxN, ght _ hrootN]
        exact hold.1.height
      · intro hr
        simp only at hr
        have := hold.2.1 hr
        exact ⟨this.1, by rw [glo x hxN]; exact this.2.1, by rw [hseen x hxN]; exact this.2.2⟩
      · intro hr
        simp only at hr
        obtain ⟨⟨p, pn, h1, h2, h3⟩, hocc⟩ := hold.2.2 hr
        obtain ⟨pn', h4, h5⟩ := hparent x p pn h2 h3
        refine ⟨⟨p, pn', h1, h4, h5⟩, ?_, ?_⟩
        · intro h0
          rw [ght x hxN] at h0
          exact hocc.1 h0
        · intro h0
          rw [ght x hxN] at h0
          exact hocc.2 h0
  · -- the new node
    refine ⟨high, by simp only; rw [hget, if_neg (Ne.symm hLN), if_pos rfl], ⟨?_, ?_, ?_, ?_, ?_, ?_⟩,
      ?_, ?_⟩
    · rw [ekeys_nil, hhk]
      exact List.Pairwise.sublist (List.drop_sublist _ _) hs
    · intro k hk
      rw [ekeys_nil, hhk] at hk
      rw [gloN, ghiN]
      refine ⟨?_, (hb k (List.mem_of_mem_drop hk)).2⟩
      intro a ha
      cases ha
      exact hge k hk
    · intro _
      refine ⟨hhl, ?_, hhc⟩
      rw [hhk, hhv, List.length_drop, List.length_drop, hv]
    · intro h0
      exact absurd ghtN h0
    · rw [ekeys_nil, hhk, List.length_drop, hfull]
      simp only
      omega
    · rw [ghtN]
      exact Nat.zero_le _
    · intro _
      rw [hhk, List.length_drop, hfull]
      simp only
      omega
    · intro h0
      exact absurd ghtN h0
  · -- nobody points at the new node
    intro x n hx hmem
    simp only at hx
    rw [hget] at hx
    by_cases e : x = L
    · rw [if_pos e] at hx
      cases hx
      rw [hlc] at hmem
      simp at hmem
    · rw [if_neg e] at hx
      by_cases e2 : x = t.heap.length
      · rw [if_pos e2] at hx
        cases hx
        rw [hhc] at hmem
        simp at hmem
      · rw [if_neg e2] at hx
        exact absurd (child_lt t g [] none x n (hg.node x n hx).1 _ hmem) (lt_irrefl _)
  · refine ⟨low, by simp only; rw [hget, if_pos rfl], ?_, ?_⟩
    · intro _
      rw [hlk, List.length_take, hfull]
      simp only
      omega
    · intro h0
      rw [ght L hLN] at h0
      exact absurd hL0 h0
  · -- the lower end of the leaf is below the key that goes up
    intro a ha
    rw [glo L hLN] at ha
    have hpos : 0 < l1.keys.length := by omega
    obtain ⟨k0, h0⟩ : ∃ k0, l1.keys[0]? = some k0 := ⟨_, List.getElem?_eq_getElem hpos⟩
    have hm0 : k0 ∈ l1.keys.take (t.degree / 2) := by
      have h1 : (l1.keys.take (t.degree / 2))[0]? = some k0 := by
        rw [List.getElem?_take_of_lt hmid1]
        exact h0
      exact List.getElem?_mem h1
    exact lt_of_le_of_lt ((hb _ (List.getElem?_mem h0)).1 a ha) (hlt _ hm0)

end LeafStep

end BPT

namespace BPT
variable {K V : Type}

/-! ### `Expand`: the split goes up the tree -/

theorem setParent_ok (heap : List (BPlusNode K V)) (p : Option Nat) (c : Nat)
    (cn : BPlusNode K V) (h : heap[c]? = some cn) :
    setParent heap p c = .ok (store heap c { cn with parent := p }) := by
  unfold setParent
  simp only [deref_of_get _ _ _ h, bind, Except.bind, pure, Except.pure]

/-- The loop over the children handed over by `Split`: every listed node gets
the new parent, nothing else changes. -/
theorem setParents_ok (p : Option Nat) (cs : List Nat) (heap : List (BPlusNode K V))
    (hcs : ∀ c ∈ cs, c < heap.length) :
    ∃ heap', setParents heap p cs = .ok heap' ∧ heap'.length = heap.length ∧
      ∀ (x : Nat) (n : BPlusNode K V), heap[x]? = some n →
        heap'[x]? = some (if x ∈ cs then { n with parent := p } else n) := by
  induction cs generalizing heap with
  | nil =>
    exact ⟨heap, rfl, rfl, fun x n hx => by simpa using hx⟩
  | cons c cs ih =>
    have hc : c < heap.length := hcs c (List.mem_cons_self _ _)
    have hcn : heap[c]? = some heap[c] := List.getElem?_eq_getElem hc
    obtain ⟨heap', h1, h2, h3⟩ := ih (store heap c { heap[c] with parent := p })
      (fun x hx => by rw [store_length]; exact hcs x (List.mem_cons_of_mem _ hx))
    refine ⟨heap', ?_, by rw [h2, store_length], ?_⟩
    · unfold setParents
      simp only [setParent_ok _ _ _ _ hcn, bind, Except.bind]
      exact h1
    · intro x n hx
      by_cases e : c = x
      · subst e
        rw [hcn] at hx
        cases hx
        rw [h3 c _ (store_get_self _ _ _ _ hcn)]
        simp only [List.mem_cons, true_or, if_true]
        by_cases e2 : c ∈ cs
        · rw [if_pos e2]
        · rw [if_neg e2]
      · have hx' : (store heap c { heap[c] with parent := p })[x]? = some n := by
          rw [store_get_ne _ _ _ _ e]; exact hx
        rw [h3 x n hx']
        have : x ∈ c :: cs ↔ x ∈ cs := by
          simp only [List.mem_cons]
          constructor
          · rintro (h | h)
            · exact absurd h.symm e
            · exact h
          · exact Or.inr
        by_cases e2 : x ∈ cs
        · rw [if_pos e2, if_pos (this.2 e2)]
        · rw [if_neg e2, if_neg (fun h => e2 (this.1 h))]

section ExpandStep
variable [LinearOrder K]

/-- No node is a child of an internal node twice: the upper separator of a
child determines its position. -/
theorem chain_nodup (P : Option K → Nat → Option K → Prop) (f : Nat → Option K)
    (hf : ∀ l c h, P l c h → h = f c) (lo : Option K) (ks : List K) (cs : List Nat)
    (hi : Option K) (h : Chain P lo ks cs hi) (hs : ks.Pairwise (fun a b => a < b))
    (hb : ∀ k ∈ ks, LtHi k hi) : cs.Nodup := by
  induction ks generalizing lo cs with
  | nil =>
    match cs, h with
    | [c0], _ => simp
  | cons k ks ih =>
    match cs, h with
    | c :: cs, h =>
      simp only [Chain] at h
      rw [List.pairwise_cons] at hs
      rw [List.nodup_cons]
      refine ⟨?_, ih _ _ h.2 hs.2 (fun k' hk' => hb k' (List.mem_cons_of_mem _ hk'))⟩
      intro hc
      obtain ⟨l', h', hP, _, hend⟩ := chain_mem_ends P _ _ _ _ h.2 c hc
      have e1 := hf _ _ _ h.1
      have e2 := hf _ _ _ hP
      rw [← e1] at e2
      rcases hend with hend | ⟨k', hk', hend⟩
      · rw [e2] at hend
        exact lt_irrefl _ (hb k (List.mem_cons_self _ _) k hend.symm)
      · rw [e2] at hend
        cases hend
        exact lt_irrefl _ (hs.1 k hk')

omit [LinearOrder K] in
/-- Records stay stored when every leaf keeps its keys and records. -/
theorem stored_of_leaves (heap heap' : List (BPlusNode K V))
    (h : ∀ (x : Nat) (n : BPlusNode K V), heap[x]? = some n → n.isLeaf = true →
      ∃ n' : BPlusNode K V, heap'[x]? = some n' ∧ n'.isLeaf = true ∧ n'.keys = n.keys ∧
        n'.values = n.values) (k : K) (v : V) (hs : Stored heap k v) : Stored heap' k v := by
  obtain ⟨x, n, hx, hl, hm⟩ := hs
  obtain ⟨n', h1, h2, h3, h4⟩ := h x n hx hl
  exact ⟨x, n', h1, h2, by rw [h3, h4]; exact hm⟩

omit [LinearOrder K] in
theorem occ_transfer (degree : Nat) (g g' : Ghost K) (x : Nat) (n n' : BPlusNode K V)
    (h : Occ degree g x n) (hht : g'.ht x = g.ht x) (hk : n'.keys = n.keys)
    (hc : n'.children = n.children) : Occ degree g' x n' := by
  unfold Occ
  rw [hht, hk, hc]
  exact h

/-- The split of the root: the new root above `left` and `right` completes
the tree. -/
theorem expand_root (t : BPlusTree K V) (g : Ghost K) (X : List Nat) (left right : Nat)
    (key : K) (HI : Option K) (hp : Pend t g X left right key HI) (hroot : left = t.root)
    (rootNode : BPlusNode K V) (hrk : rootNode.keys = [key])
    (hrc : rootNode.children = [left, right]) (hrl : rootNode.isLeaf = false)
    (hrp : rootNode.parent = none)
    (heap' : List (BPlusNode K V)) (hlen : heap'.length = t.heap.length + 1)
    (hR : heap'[t.heap.length]? = some rootNode)
    (hget : ∀ (x : Nat) (n : BPlusNode K V), t.heap[x]? = some n →
      heap'[x]? = some (if x = left ∨ x = right then { n with parent := some t.heap.length }
        else n)) :
    Good { t with heap := heap', root := t.heap.length } (g.grow left t.heap.length) X := by
  obtain ⟨ln, hln, hoccL⟩ := hp.leftOK
  obtain ⟨rn, hrn, hnokR, hoccR⟩ := hp.rightOK
  have hlinkL := (hp.node left ln hln hp.ne).2.1 hroot
  have hHI : HI = none := by
    have := hlinkL.2.2
    simpa [hiSeen] using this
  have hltR : ∀ (x : Nat) (n : BPlusNode K V), t.heap[x]? = some n → x ≠ t.heap.length :=
    fun x n hx => Nat.ne_of_lt (List.getElem?_eq_some.1 hx).1
  have ght : ∀ x, x ≠ t.heap.length → (g.grow left t.heap.length).ht x = g.ht x := by
    intro x hx; simp [Ghost.grow, hx]
  have glo : ∀ x, x ≠ t.heap.length → (g.grow left t.heap.length).lo x = g.lo x := by
    intro x hx; simp [Ghost.grow, hx]
  have ghi : ∀ x, x ≠ t.heap.length → (g.grow left t.heap.length).hi x = g.hi x := by
    intro x hx; simp [Ghost.grow, hx]
  have ghtR : (g.grow left t.heap.length).ht t.heap.length = g.ht left + 1 := by
    simp [Ghost.grow]
  have hold : ∀ (x : Nat) (n : BPlusNode K V), t.heap[x]? = some n →
      NodeOK t g X (some (left, HI)) x n := by
    intro x n hx
    by_cases e : x = right
    · subst e
      rw [hrn] at hx
      cases hx
      exact hnokR
    · exact (hp.node x n hx e).1
  have hkeep : ∀ (x : Nat) (n : BPlusNode K V), t.heap[x]? = some n →
      ∃ n' : BPlusNode K V, heap'[x]? = some n' ∧ n'.keys = n.keys ∧ n'.values = n.values ∧
        n'.children = n.children ∧ n'.isLeaf = n.isLeaf ∧
        (x ≠ left → x ≠ right → n'.parent = n.parent) ∧
        (x = left ∨ x = right → n'.parent = some t.heap.length) := by
    intro x n hx
    refine ⟨_, hget x n hx, ?_⟩
    by_cases e : x = left ∨ x = right
    · rw [if_pos e]
      exact ⟨rfl, rfl, rfl, rfl, fun h1 h2 => absurd e (by simp [h1, h2]), fun _ => rfl⟩
    · rw [if_neg e]
      exact ⟨rfl, rfl, rfl, rfl, fun _ _ => rfl, fun h => absurd h e⟩
  have hchild : ∀ (x : Nat) (n : BPlusNode K V) l c h, t.heap[x]? = some n → c ∈ n.children →
      ChildOK t.heap g (some (left, HI)) x l c h →
      ChildOK heap' (g.grow left t.heap.length) none x l c h := by
    intro x n l c h hx hc hch
    have hcR : c ≠ right := fun e => hp.fresh x n hx (e ▸ hc)
    have hcL : c ≠ left := by
      intro e
      obtain ⟨cn, h1, h2, _⟩ := hch
      rw [e, hln] at h1
      cases h1
      rw [hlinkL.1] at h2
      cases h2
    have hcN : c ≠ t.heap.length := by
      obtain ⟨cn, h1, _⟩ := hch
      exact hltR c cn h1
    apply childOK_transfer _ _ _ _ _ _ _ _ _ _ hch _ (ght x (hltR x n hx)) (ght c hcN)
      (glo c hcN)
    · simp only [hiSeen, if_neg hcL]
      exact ghi c hcN
    · intro cn hcn
      obtain ⟨cn', h1, _, _, _, _, h2, _⟩ := hkeep c cn hcn
      exact ⟨cn', h1, h2 hcL hcR⟩
  have hRX : t.heap.length ∉ X := fun h => lt_irrefl _ (hp.inX _ h).1
  refine ⟨hp.deg, by simp only [hlen]; omega, ?_, ?_, ?_⟩
  · simp only [hlen]
    rw [ghtR, hroot]
    have := hp.tall
    omega
  · intro x n' hx
    simp only at hx
    by_cases e : x = t.heap.length
    · subst e
      rw [hR] at hx
      cases hx
      have hek : ekeys X t.heap.length rootNode = [key] := by
        unfold ekeys
        rw [if_neg hRX, hrk]
      refine ⟨⟨?_, ?_, ?_, ?_, ?_, le_refl _⟩, ?_, ?_⟩
      · rw [hek]; simp
      · intro k _
        simp only [Ghost.grow, if_true]
        exact ⟨fun a ha => (by cases ha), fun a ha => (by cases ha)⟩
      · intro h0
        rw [ghtR] at h0
        omega
      · intro _
        refine ⟨hrl, ?_⟩
        rw [hek, hrc]
        simp only [Ghost.grow, if_true, Chain]
        obtain ⟨ln', h1, _, _, _, _, _, h2⟩ := hkeep left ln hln
        obtain ⟨rn', h3, _, _, _, _, _, h4⟩ := hkeep right rn hrn
        have hLN := hltR left ln hln
        have hRN := hltR right rn hrn
        refine ⟨⟨ln', h1, h2 (Or.inl rfl), ?_, ?_, ?_⟩, ⟨rn', h3, h4 (Or.inr rfl), ?_, ?_, ?_⟩⟩
        · simp [hLN]
        · simp only [if_neg hLN]
          exact hlinkL.2.1
        · simp only [hiSeen, if_neg hLN]
          exact hp.hiL
        · simp [hRN, hp.hts]
        · simp only [if_neg hRN]
          exact hp.loR
        · simp only [hiSeen, if_neg hRN]
          rw [hp.hiR, hHI]
      · rw [hek]
        simp only [List.length_singleton]
        have := hp.deg
        omega
      · intro _
        refine ⟨hrp, ?_, ?_⟩
        · simp [Ghost.grow]
        · simp [hiSeen, Ghost.grow]
      · intro h
        exact absurd rfl h
    · have hxlt : x < t.heap.length := by
        have := (List.getElem?_eq_some.1 hx).1
        rw [hlen] at this
        omega
      have hxn : t.heap[x]? = some t.heap[x] := List.getElem?_eq_getElem hxlt
      obtain ⟨n'', h1, hk, hv, hc, hl, hpar, hpar'⟩ := hkeep x _ hxn
      rw [h1] at hx
      cases hx
      refine ⟨nodeOK_transfer t _ g _ X X _ none x _ n' (hold x _ hxn) hk hv hc hl Iff.rfl
        rfl (ght x e) (glo x e) (ghi x e) ?_ (fun l c h hcm hch => hchild x _ l c h hxn hcm hch),
        fun h => absurd h e, ?_⟩
      · simp only
        rw [ght x e, ghtR, hroot]
        exact Nat.le_succ_of_le (hold x _ hxn).height
      · intro _
        simp only
        by_cases e2 : x = left ∨ x = right
        · refine ⟨⟨t.heap.length, rootNode, hpar' e2, hR, ?_⟩, ?_⟩
          · rw [hrc]
            rcases e2 with e2 | e2 <;> simp [e2]
          · rcases e2 with e2 | e2
            · subst e2
              rw [hln] at hxn
              cases hxn
              exact occ_transfer _ _ _ _ _ _ hoccL (ght _ e) hk hc
            · subst e2
              rw [hrn] at hxn
              cases hxn
              exact occ_transfer _ _ _ _ _ _ hoccR (ght _ e) hk hc
        · have e3 : x ≠ left := fun h => e2 (Or.inl h)
          have e4 : x ≠ right := fun h => e2 (Or.inr h)
          obtain ⟨⟨p, pn, h2, h3, h4⟩, hocc⟩ := (hp.node x _ hxn e4).2.2 (by rw [← hroot]; exact e3)
          obtain ⟨pn', h5, _, _, h6, _⟩ := hkeep p pn h3
          exact ⟨⟨p, pn', by rw [hpar e3 e4]; exact h2, h5, by rw [h6]; exact h4⟩,
            occ_transfer _ _ _ _ _ _ hocc (ght _ e) hk hc⟩
  · intro x hx
    have := hp.inX x hx
    refine ⟨by simp only [hlen]; omega, ?_⟩
    rw [ght x (Nat.ne_of_lt this.1)]
    exact this.2

/-- The state after `parent->Insert(key, right)`: every node is in shape,
except that the parent may now hold `degree` keys. -/
theorem expand_insert (t : BPlusTree K V) (g : Ghost K) (X : List Nat) (left right : Nat)
    (key : K) (HI : Option K) (hp : Pend t g X left right key HI) (hroot : left ≠ t.root)
    (p : Nat) (ln pn rn : BPlusNode K V) (hln : t.heap[left]? = some ln)
    (hpar : ln.parent = some p) (hpn : t.heap[p]? = some pn) (hrn : t.heap[right]? = some rn)
    (p1 : BPlusNode K V) (hp1k : p1.keys = pn.keys.insertIdx (lowerBound pn.keys key) key)
    (hp1c : p1.children = pn.children.insertIdx (lowerBound pn.keys key + 1) right)
    (hp1l : p1.isLeaf = pn.isLeaf) (hp1p : p1.parent = pn.parent)
    (heap1 : List (BPlusNode K V)) (hlen : heap1.length = t.heap.length)
    (hgetp : heap1[p]? = some p1)
    (hgetr : heap1[right]? = some { rn with parent := some p })
    (hget : ∀ x, x ≠ p → x ≠ right → heap1[x]? = t.heap[x]?) :
    (∀ (x : Nat) (n : BPlusNode K V), heap1[x]? = some n → x ≠ p →
        NodeOK { t with heap := heap1 } g X none x n ∧
          Linked { t with heap := heap1 } g none x n) ∧
      NodeOK { t with heap := heap1, degree := t.degree + 1 } g X none p p1 ∧
      Linked { t with heap := heap1 } g none p p1 ∧ p ∉ X ∧ g.ht p = g.ht left + 1 ∧
      p ≠ right ∧ (∀ k v, Stored heap1 k v ↔ Stored t.heap k v) := by
  obtain ⟨rn', hrn', hnokR, hoccR⟩ := hp.rightOK
  rw [hrn] at hrn'
  cases hrn'
  have hold : ∀ (x : Nat) (n : BPlusNode K V), t.heap[x]? = some n →
      NodeOK t g X (some (left, HI)) x n := by
    intro x n hx
    by_cases e : x = right
    · subst e
      rw [hrn] at hx
      cases hx
      exact hnokR
    · exact (hp.node x n hx e).1
  have hlinkL := (hp.node left ln hln hp.ne).2.2 hroot
  have hmem : left ∈ pn.children := by
    obtain ⟨⟨p', pn', h1, h2, h3⟩, _⟩ := hlinkL
    rw [hpar] at h1
    cases h1
    rw [hpn] at h2
    cases h2
    exact h3
  have hnokP := hold p pn hpn
  obtain ⟨hp0, lL, hL, hchL⟩ := child_of_nodeOK t g X _ p pn hnokP left hmem
  have hhtp : g.ht p = g.ht left + 1 := by
    obtain ⟨_, _, _, h, _⟩ := hchL
    exact h.symm
  have hpR : p ≠ right := by
    intro e
    have := hp.hts
    rw [← e] at this
    omega
  have hpL : p ≠ left := by
    intro e
    rw [e] at hhtp
    omega
  have hpX : p ∉ X := by
    intro h
    have := hp.below p h
    omega
  have hekP : ekeys X p pn = pn.keys := by
    unfold ekeys
    rw [if_neg hpX]
  have hekP1 : ekeys X p p1 = p1.keys := by
    unfold ekeys
    rw [if_neg hpX]
  have hsP := hnokP.sorted
  rw [hekP] at hsP
  have hchain := (hnokP.inner hp0).2
  rw [hekP] at hchain
  have hidx := lowerBound_le_length pn.keys key
  have hclen := chain_length _ _ _ _ _ hchain
  have hidx1 : lowerBound pn.keys key + 1 ≤ pn.children.length := by omega
  -- all nodes keep keys, records and at least their children
  have hkeep : ∀ (x : Nat) (n : BPlusNode K V), t.heap[x]? = some n → x ≠ p →
      ∃ n' : BPlusNode K V, heap1[x]? = some n' ∧ n'.keys = n.keys ∧ n'.values = n.values ∧
        n'.children = n.children ∧ n'.isLeaf = n.isLeaf ∧ (x ≠ right → n' = n) ∧
        (x = right → n'.parent = some p) := by
    intro x n hx hxp
    by_cases e : x = right
    · subst e
      rw [hrn] at hx
      cases hx
      exact ⟨_, hgetr, rfl, rfl, rfl, rfl, fun h => absurd rfl h, fun _ => rfl⟩
    · exact ⟨n, by rw [hget x hxp e]; exact hx, rfl, rfl, rfl, rfl, fun _ => rfl,
        fun h => absurd h e⟩
  have hsup : ∀ (q : Nat) (qn : BPlusNode K V), t.heap[q]? = some qn →
      ∃ qn' : BPlusNode K V, heap1[q]? = some qn' ∧ ∀ c ∈ qn.children, c ∈ qn'.children := by
    intro q qn hq
    by_cases e : q = p
    · subst e
      rw [hpn] at hq
      cases hq
      refine ⟨p1, hgetp, ?_⟩
      intro c hc
      rw [hp1c, List.mem_insertIdx hidx1]
      exact Or.inr hc
    · obtain ⟨qn', h1, _, _, h2, _⟩ := hkeep q qn hq e
      exact ⟨qn', h1, fun c hc => by rw [h2]; exact hc⟩
  have hchild : ∀ (x : Nat) (n : BPlusNode K V) l c h, t.heap[x]? = some n → c ∈ n.children →
      c ≠ left → ChildOK t.heap g (some (left, HI)) x l c h → ChildOK heap1 g none x l c h := by
    intro x n l c h hx hc hcL hch
    have hcR : c ≠ right := fun e => hp.fresh x n hx (e ▸ hc)
    apply childOK_transfer _ _ _ _ _ _ _ _ _ _ hch _ rfl rfl rfl
    · simp only [hiSeen, if_neg hcL]
    · intro cn hcn
      by_cases e : c = p
      · subst e
        rw [hpn] at hcn
        cases hcn
        exact ⟨p1, hgetp, hp1p⟩
      · exact ⟨cn, by rw [hget c e hcR]; exact hcn, rfl⟩
  have hnotL : ∀ (x : Nat) (n : BPlusNode K V) l c h, x ≠ p →
      ChildOK t.heap g (some (left, HI)) x l c h → c ≠ left := by
    intro x n l c h hxp hch e
    obtain ⟨cn, h1, h2, _⟩ := hch
    rw [e, hln] at h1
    cases h1
    rw [hpar] at h2
    cases h2
    exact hxp rfl
  have huniq : ∀ l h, ChildOK t.heap g (some (left, HI)) p l left h → l = g.lo left ∧ h = HI := by
    intro l h hch
    obtain ⟨_, _, _, _, h1, h2⟩ := hch
    simp only [hiSeen, if_true] at h2
    exact ⟨h1.symm, h2.symm⟩
  have hQ1 : ChildOK heap1 g none p (g.lo left) left (some key) :=
    ⟨ln, by rw [hget left (Ne.symm hpL) hp.ne]; exact hln, hpar, hhtp.symm, rfl, by
      simp only [hiSeen]; exact hp.hiL⟩
  have hQ2 : ChildOK heap1 g none p (some key) right HI :=
    ⟨_, hgetr, rfl, by rw [hp.hts, hhtp], hp.loR, by simp only [hiSeen]; exact hp.hiR⟩
  obtain ⟨hchain1, hsorted1⟩ := chain_insert _ (ChildOK heap1 g none p) _ _ _ _ hchain hsP left
    right key (g.lo left) HI hmem huniq hp.loL hp.keyHI hQ1 hQ2
    (fun l c h hc hcL hch => hchild p pn l c h hpn hc hcL hch)
  obtain ⟨l0, h0, hP0, hlo0, hhi0⟩ := chain_mem_ends _ _ _ _ _ hchain left hmem
  obtain ⟨e1, e2⟩ := huniq _ _ hP0
  subst e1 e2
  have hbP := hnokP.bounds
  rw [hekP] at hbP
  have hbkey : LoLe (g.lo p) key ∧ LtHi key (g.hi p) := by
    constructor
    · intro a ha
      rcases hlo0 with h | ⟨k, hk, h⟩
      · exact le_of_lt (hp.loL a (by rw [h, ha]))
      · exact le_trans ((hbP k hk).1 a ha) (le_of_lt (hp.loL k h))
    · intro b hb
      rcases hhi0 with h | ⟨k, hk, h⟩
      · exact hp.keyHI b (by rw [h, hb])
      · exact lt_trans (hp.keyHI k h) ((hbP k hk).2 b hb)
  have hleafP : pn.isLeaf = false := (hnokP.inner hp0).1
  refine ⟨?_, ?_, ?_, hpX, hhtp, hpR, ?_⟩
  · intro x n hx hxp
    have hxlt : x < t.heap.length := by
      have := (List.getElem?_eq_some.1 hx).1
      rw [hlen] at this
      exact this
    have hxn : t.heap[x]? = some t.heap[x] := List.getElem?_eq_getElem hxlt
    obtain ⟨n', h1, hk, hv, hc, hl, hsame, hparR⟩ := hkeep x _ hxn hxp
    rw [h1] at hx
    cases hx
    refine ⟨nodeOK_transfer t _ g g X X _ none x _ n (hold x _ hxn) hk hv hc hl Iff.rfl rfl rfl
      rfl rfl (hold x _ hxn).height ?_, ?_, ?_⟩
    · intro l c h hcm hch
      refine hchild x _ l c h hxn hcm ?_ hch
      by_cases e : x = right
      · intro e2
        obtain ⟨_, _, _, h3, _⟩ := hch
        rw [e2, e, hp.hts] at h3
        omega
      · exact hnotL x t.heap[x] l c h hxp hch
    · intro hr
      replace hr : x = t.root := hr
      have e : x ≠ right := fun e => hp.notRoot (e ▸ hr)
      have e2 : x ≠ left := fun e => hroot (e ▸ hr)
      have := (hp.node x _ hxn e).2.1 hr
      rw [hsame e]
      refine ⟨this.1, this.2.1, ?_⟩
      have h3 := this.2.2
      simp only [hiSeen, if_neg e2] at h3
      exact h3
    · intro hr
      replace hr : x ≠ t.root := hr
      simp only
      by_cases e : x = right
      · refine ⟨⟨p, p1, hparR e, hgetp, ?_⟩, ?_⟩
        · rw [hp1c, List.mem_insertIdx hidx1]
          exact Or.inl e
        · subst e
          rw [hrn] at hxn
          cases hxn
          exact occ_transfer _ _ _ _ _ _ hoccR rfl hk hc
      · obtain ⟨⟨q, qn, h2, h3, h4⟩, hocc⟩ := (hp.node x _ hxn e).2.2 hr
        obtain ⟨qn', h5, h6⟩ := hsup q qn h3
        exact ⟨⟨q, qn', by rw [hsame e]; exact h2, h5, h6 x h4⟩,
          occ_transfer _ _ _ _ _ _ hocc rfl hk hc⟩
  · refine ⟨by rw [hekP1, hp1k]; exact hsorted1, ?_, fun h => absurd h hp0, ?_, ?_,
      hnokP.height⟩
    · intro k hk
      rw [hekP1, hp1k, List.mem_insertIdx hidx] at hk
      rcases hk with rfl | hk
      · exact hbkey
      · exact hbP k hk
    · intro _
      refine ⟨by rw [hp1l]; exact hleafP, ?_⟩
      rw [hekP1, hp1k, hp1c]
      exact hchain1
    · rw [hekP1, hp1k, List.length_insertIdx _ _ hidx]
      have := hnokP.small
      rw [hekP] at this
      simp only
      omega
  · have hlinkP := (hp.node p pn hpn hpR).2
    constructor
    · intro hr
      replace hr : p = t.root := hr
      have := hlinkP.1 hr
      refine ⟨by rw [hp1p]; exact this.1, this.2.1, ?_⟩
      have h3 := this.2.2
      simp only [hiSeen, if_neg hpL] at h3
      exact h3
    · intro hr
      replace hr : p ≠ t.root := hr
      obtain ⟨⟨q, qn, h2, h3, h4⟩, hocc⟩ := hlinkP.2 hr
      obtain ⟨qn', h5, h6⟩ := hsup q qn h3
      refine ⟨⟨q, qn', by rw [hp1p]; exact h2, h5, h6 p h4⟩, fun h => absurd h hp0, ?_⟩
      intro _
      rw [hp1c, List.length_insertIdx _ _ hidx1]
      have := hocc.2 hp0
      simp only
      omega
  · intro k v
    constructor
    · apply stored_of_leaves
      intro x n hx hl
      have hxlt : x < t.heap.length := by
        have := (List.getElem?_eq_some.1 hx).1
        rw [hlen] at this
        exact this
      have hxn : t.heap[x]? = some t.heap[x] := List.getElem?_eq_getElem hxlt
      have hxp : x ≠ p := by
        intro e
        subst e
        rw [hgetp] at hx
        cases hx
        rw [hp1l, hleafP] at hl
        cases hl
      obtain ⟨n', h1, hk, hv, _, hl', _⟩ := hkeep x _ hxn hxp
      rw [h1] at hx
      cases hx
      exact ⟨_, hxn, by rw [← hl']; exact hl, hk.symm, hv.symm⟩
    · apply stored_of_leaves
      intro x n hx hl
      have hxp : x ≠ p := by
        intro e
        subst e
        rw [hpn] at hx
        cases hx
        rw [hleafP] at hl
        cases hl
      obtain ⟨n', h1, hk, hv, _, hl', _⟩ := hkeep x n hx hxp
      exact ⟨n', h1, by rw [hl']; exact hl, hk, hv⟩

/-- The split of a full internal node `p1` at position `p` into `low` (in
place) and `high` (newly allocated, its children handed over) leaves the
tree ready for `Expand` one level up; `high` still carries the key that
goes up. -/
theorem split_pend (t : BPlusTree K V) (g : Ghost K) (X : List Nat) (p : Nat)
    (p1 : BPlusNode K V) (hdeg : 3 ≤ t.degree) (hrootIn : t.root < t.heap.length)
    (htall : g.ht t.root < t.heap.length)
    (hinX : ∀ x ∈ X, x < t.heap.length ∧ g.ht x ≠ 0)
    (hbelow : ∀ x ∈ X, g.ht x < g.ht p)
    (hp1 : t.heap[p]? = some p1)
    (hA : ∀ (x : Nat) (n : BPlusNode K V), t.heap[x]? = some n → x ≠ p →
      NodeOK t g X none x n ∧ Linked t g none x n)
    (hB : NodeOK { t with degree := t.degree + 1 } g X none p p1)
    (hL : Linked t g none p p1) (hp0 : g.ht p ≠ 0)
    (hfull : p1.keys.length = t.degree)
    (up : K) (hup : p1.keys[t.degree / 2]? = some up)
    (low high : BPlusNode K V)
    (hlk : low.keys = p1.keys.take (t.degree / 2))
    (hlc : low.children = p1.children.take (t.degree / 2 + 1))
    (hll : low.isLeaf = false) (hlp : low.parent = p1.parent)
    (hhk : high.keys = p1.keys.drop (t.degree / 2))
    (hhc : high.children = p1.children.drop (t.degree / 2 + 1))
    (hhl : high.isLeaf = false)
    (heap2 : List (BPlusNode K V)) (hlen : heap2.length = t.heap.length + 1)
    (hgetp : heap2[p]? = some low) (hgetN : heap2[t.heap.length]? = some high)
    (hget : ∀ (x : Nat) (n : BPlusNode K V), t.heap[x]? = some n → x ≠ p →
      heap2[x]? = some (if x ∈ high.children then { n with parent := some t.heap.length }
        else n)) :
    Pend { t with heap := heap2 } (g.split p t.heap.length up) (t.heap.length :: X) p
        t.heap.length up (g.hi p) ∧
      ∀ k v, Stored heap2 k v ↔ Stored t.heap k v := by
  have hpX : p ∉ X := fun h => lt_irrefl _ (hbelow p h)
  have hplt : p < t.heap.length := (List.getElem?_eq_some.1 hp1).1
  have hpN : p ≠ t.heap.length := Nat.ne_of_lt hplt
  have hrootN : t.root ≠ t.heap.length := Nat.ne_of_lt hrootIn
  have hNX : t.heap.length ∉ X := fun h => lt_irrefl _ (hinX _ h).1
  have hek : ekeys X p p1 = p1.keys := by
    unfold ekeys
    rw [if_neg hpX]
  have hs := hB.sorted
  rw [hek] at hs
  have hb := hB.bounds
  rw [hek] at hb
  have hchain : Chain (ChildOK t.heap g none p) (g.lo p) p1.keys p1.children (g.hi p) := by
    have := (hB.inner hp0).2
    rw [hek] at this
    exact this
  have hclen := chain_length _ _ _ _ _ hchain
  obtain ⟨hlt, hgt, hge⟩ := sorted_at p1.keys _ up hs hup
  have hnodup := chain_nodup _ (fun c => g.hi c)
    (fun l c h hc => by obtain ⟨_, _, _, _, _, h5⟩ := hc; exact h5.symm) _ _ _ _ hchain hs
    (fun k hk => (hb k hk).2)
  have hdisj : ∀ c, c ∈ p1.children.take (t.degree / 2 + 1) →
      c ∉ p1.children.drop (t.degree / 2 + 1) := by
    rw [← List.take_append_drop (t.degree / 2 + 1) p1.children, List.nodup_append] at hnodup
    exact fun c h1 h2 => hnodup.2.2 h1 h2
  obtain ⟨hlow, hhigh⟩ := chain_split _ _ _ _ _ hchain _ up hup
  have hmid1 : 1 ≤ t.degree / 2 := by omega
  have hmidlt : t.degree / 2 < t.degree := by omega
  have hupmem : up ∈ p1.keys := List.getElem?_mem hup
  have hleafP : p1.isLeaf = false := (hB.inner hp0).1
  -- the children of the split node
  have hofp : ∀ c, c ∈ p1.children → ∃ cn, t.heap[c]? = some cn ∧ cn.parent = some p ∧
      g.ht c + 1 = g.ht p := by
    intro c hc
    obtain ⟨l, h, cn, h1, h2, h3, _⟩ := chain_mem _ _ _ _ _ hchain c hc
    exact ⟨cn, h1, h2, h3⟩
  have hhighp : ∀ c, c ∈ high.children → c ∈ p1.children := by
    intro c hc
    rw [hhc] at hc
    exact List.mem_of_mem_drop hc
  have hlowp : ∀ c, c ∈ low.children → c ∈ p1.children := by
    intro c hc
    rw [hlc] at hc
    exact List.mem_of_mem_take hc
  have hold : ∀ (x : Nat) (n : BPlusNode K V), t.heap[x]? = some n →
      ∀ c ∈ n.children, c < t.heap.length ∧ ∃ l h, ChildOK t.heap g none x l c h := by
    intro x n hx c hc
    by_cases e : x = p
    · rw [e, hp1] at hx
      cases hx
      rw [e]
      exact ⟨child_lt _ g X none p p1 hB c hc, (child_of_nodeOK _ g X none p p1 hB c hc).2⟩
    · exact ⟨child_lt t g X none x n (hA x n hx e).1 c hc,
        (child_of_nodeOK t g X none x n (hA x n hx e).1 c hc).2⟩
  have hnothigh : ∀ (x : Nat) l c h, x ≠ p → ChildOK t.heap g none x l c h →
      c ∉ high.children := by
    intro x l c h hxp hch hc
    obtain ⟨cn, h1, h2, _⟩ := hofp c (hhighp c hc)
    obtain ⟨cn', h3, h4, _⟩ := hch
    rw [h1] at h3
    cases h3
    rw [h2] at h4
    cases h4
    exact hxp rfl
  -- reading the bookkeeping
  have ght : ∀ x, x ≠ t.heap.length → (g.split p t.heap.length up).ht x = g.ht x := by
    intro x hx; simp [Ghost.split, hx]
  have glo : ∀ x, x ≠ t.heap.length → (g.split p t.heap.length up).lo x = g.lo x := by
    intro x hx; simp [Ghost.split, hx]
  have ghi : ∀ x, x ≠ t.heap.length → x ≠ p →
      (g.split p t.heap.length up).hi x = g.hi x := by
    intro x hx hx'; simp [Ghost.split, hx, hx']
  have ghtN : (g.split p t.heap.length up).ht t.heap.length = g.ht p := by
    simp [Ghost.split]
  have gloN : (g.split p t.heap.length up).lo t.heap.length = some up := by
    simp [Ghost.split]
  have ghiN : (g.split p t.heap.length up).hi t.heap.length = g.hi p := by
    simp [Ghost.split]
  have ghiP : (g.split p t.heap.length up).hi p = some up := by
    simp [Ghost.split, hpN]
  have hseen : ∀ c, c ≠ t.heap.length →
      hiSeen (g.split p t.heap.length up) (some (p, g.hi p)) c = hiSeen g none c := by
    intro c hc
    simp only [hiSeen]
    by_cases e : c = p
    · rw [if_pos e, e]
    · rw [if_neg e, ghi c hc e]
  -- reading the store
  have hkeep : ∀ (x : Nat) (n : BPlusNode K V), t.heap[x]? = some n → x ≠ p →
      ∃ n' : BPlusNode K V, heap2[x]? = some n' ∧ n'.keys = n.keys ∧ n'.values = n.values ∧
        n'.children = n.children ∧ n'.isLeaf = n.isLeaf ∧
        (x ∉ high.children → n'.parent = n.parent) ∧
        (x ∈ high.children → n'.parent = some t.heap.length) := by
    intro x n hx hxp
    refine ⟨_, hget x n hx hxp, ?_⟩
    by_cases e : x ∈ high.children
    · rw [if_pos e]
      exact ⟨rfl, rfl, rfl, rfl, fun h => absurd e h, fun _ => rfl⟩
    · rw [if_neg e]
      exact ⟨rfl, rfl, rfl, rfl, fun _ => rfl, fun h => absurd h e⟩
  have hpnothigh : p ∉ high.children := by
    intro h
    obtain ⟨_, _, _, h3⟩ := hofp p (hhighp p h)
    omega
  have hchild : ∀ (x : Nat) l c h, x ≠ t.heap.length → c ∉ high.children →
      ChildOK t.heap g none x l c h →
      ChildOK heap2 (g.split p t.heap.length up) (some (p, g.hi p)) x l c h := by
    intro x l c h hx hc hch
    have hcN : c ≠ t.heap.length := by
      obtain ⟨cn, hcn, _⟩ := hch
      exact Nat.ne_of_lt (List.getElem?_eq_some.1 hcn).1
    apply childOK_transfer _ _ _ _ _ _ _ _ _ _ hch _ (ght x hx) (ght c hcN) (glo c hcN)
      (hseen c hcN)
    intro cn hcn
    by_cases e : c = p
    · subst e
      rw [hp1] at hcn
      cases hcn
      exact ⟨low, hgetp, hlp⟩
    · obtain ⟨cn', h1, _, _, _, _, h2, _⟩ := hkeep c cn hcn e
      exact ⟨cn', h1, h2 hc⟩
  have hchildN : ∀ l c h, c ∈ high.children → ChildOK t.heap g none p l c h →
      ChildOK heap2 (g.split p t.heap.length up) (some (p, g.hi p)) t.heap.length l c h := by
    intro l c h hc hch
    obtain ⟨cn, h1, h2, h3, h4, h5⟩ := hch
    have hcN : c ≠ t.heap.length := Nat.ne_of_lt (List.getElem?_eq_some.1 h1).1
    have hcp : c ≠ p := by
      intro e
      rw [e] at h3
      omega
    obtain ⟨cn', h6, _, _, _, _, _, h7⟩ := hkeep c cn h1 hcp
    exact ⟨cn', h6, h7 hc, by rw [ght c hcN, ghtN]; exact h3, by rw [glo c hcN]; exact h4, by
      rw [hseen c hcN]; exact h5⟩
  have hparent : ∀ (x q : Nat) (qn : BPlusNode K V), x ∉ high.children →
      t.heap[q]? = some qn → x ∈ qn.children →
      ∃ qn' : BPlusNode K V, heap2[q]? = some qn' ∧ x ∈ qn'.children := by
    intro x q qn hx hq hmem
    by_cases e : q = p
    · rw [e, hp1] at hq
      cases hq
      rw [e]
      refine ⟨low, hgetp, ?_⟩
      rw [← List.take_append_drop (t.degree / 2 + 1) p1.children, List.mem_append] at hmem
      rcases hmem with h | h
      · rw [hlc]; exact h
      · rw [hhc] at hx
        exact absurd h hx
    · obtain ⟨qn', h1, _, _, h2, _⟩ := hkeep q qn hq e
      exact ⟨qn', h1, by rw [h2]; exact hmem⟩
  have hlowlen : low.children.length = t.degree / 2 + 1 := by
    rw [hlc, List.length_take, hclen, hfull]
    omega
  have hhighlen : high.children.length = t.degree - t.degree / 2 := by
    rw [hhc, List.length_drop, hclen, hfull]
    omega
  have hoccP : Occ t.degree (g.split p t.heap.length up) p low := by
    refine ⟨fun h0 => ?_, fun _ => ?_⟩
    · rw [ght p hpN] at h0
      exact absurd h0 hp0
    · rw [hlowlen]
      omega
  have hekN : ekeys (t.heap.length :: X) t.heap.length high =
      p1.keys.drop (t.degree / 2 + 1) := by
    unfold ekeys
    rw [if_pos (List.mem_cons_self _ _), hhk, List.tail_drop]
  have hekX : ∀ (x : Nat) (n : BPlusNode K V), x ≠ t.heap.length →
      ekeys (t.heap.length :: X) x n = ekeys X x n := by
    intro x n hx
    unfold ekeys
    by_cases e : x ∈ X
    · rw [if_pos e, if_pos (List.mem_cons_of_mem _ e)]
    · rw [if_neg e, if_neg]
      simp only [List.mem_cons, not_or]
      exact ⟨hx, e⟩
  constructor
  · refine
      { deg := hdeg
        rootIn := by simp only [hlen]; exact Nat.lt_succ_of_lt hrootIn
        tall := by
          simp only [hlen]
          rw [ght _ hrootN]
          exact Nat.lt_succ_of_lt htall
        ne := hpN
        node := ?_
        rightOK := ?_
        fresh := ?_
        leftOK := ⟨low, hgetp, hoccP⟩
        hts := by rw [ghtN, ght p hpN]
        loR := gloN
        hiR := ghiN
        hiL := ghiP
        loL := ?_
        keyHI := (hb up hupmem).2
        notRoot := fun e => hrootN e.symm
        below := ?_
        inX := ?_ }
    · -- the nodes other than the new one
      intro x n2 hx hxN
      replace hx : heap2[x]? = some n2 := hx
      have hxlt : x < t.heap.length := by
        have := (List.getElem?_eq_some.1 hx).1
        rw [hlen] at this
        omega
      by_cases e : x = p
      · subst e
        rw [hgetp] at hx
        cases hx
        have hekl : ekeys (t.heap.length :: X) x low = p1.keys.take (t.degree / 2) := by
          rw [hekX x low hpN]
          unfold ekeys
          rw [if_neg hpX, hlk]
        refine ⟨⟨?_, ?_, ?_, ?_, ?_, ?_⟩, ?_, ?_⟩
        · rw [hekl]
          exact List.Pairwise.sublist (List.take_sublist _ _) hs
        · intro k hk
          rw [hekl] at hk
          rw [glo x hpN, ghiP]
          refine ⟨(hb k (List.mem_of_mem_take hk)).1, ?_⟩
          intro b hb'
          cases hb'
          exact hlt k hk
        · intro h0
          rw [ght x hpN] at h0
          exact absurd h0 hp0
        · intro _
          refine ⟨hll, ?_⟩
          rw [hekl, hlc, glo x hpN, ghiP]
          exact chain_mono _ _ _ _ _ _ hlow
            (fun l c h hc hP => hchild x l c h hpN (by rw [hhc]; exact hdisj c hc) hP)
        · rw [hekl, List.length_take]
          simp only
          omega
        · rw [ght x hpN, ght _ hrootN]
          exact hB.height
        · intro hr
          replace hr : x = t.root := hr
          have := hL.1 hr
          refine ⟨by rw [hlp]; exact this.1, by rw [glo x hpN]; exact this.2.1, ?_⟩
          simp only [hiSeen, if_true]
          have h3 := this.2.2
          simp only [hiSeen] at h3
          exact h3
        · intro hr
          replace hr : x ≠ t.root := hr
          obtain ⟨⟨q, qn, h1, h2, h3⟩, _⟩ := hL.2 hr
          obtain ⟨qn', h4, h5⟩ := hparent x q qn hpnothigh h2 h3
          exact ⟨⟨q, qn', by rw [hlp]; exact h1, h4, h5⟩, hoccP⟩
      · have hxn : t.heap[x]? = some t.heap[x] := List.getElem?_eq_getElem hxlt
        obtain ⟨n', h1, hk, hv, hc, hl, hpar, hpar'⟩ := hkeep x _ hxn e
        rw [h1] at hx
        cases hx
        have hAx := hA x _ hxn e
        refine ⟨nodeOK_transfer t _ g _ X (t.heap.length :: X) none _ x _ n2 hAx.1 hk hv hc hl
          ?_ rfl (ght x hxN) (glo x hxN) (ghi x hxN e) ?_ ?_, ?_, ?_⟩
        · simp only [List.mem_cons]
          constructor
          · rintro (h | h)
            · exact absurd h hxN
            · exact h
          · exact Or.inr
        · simp only
          rw [ght x hxN, ght _ hrootN]
          exact hAx.1.height
        · intro l c h _ hch
          exact hchild x l c h hxN (hnothigh x l c h e hch) hch
        · intro hr
          replace hr : x = t.root := hr
          have := hAx.2.1 hr
          have hxh : x ∉ high.children := by
            intro h
            obtain ⟨cn, h2, h3, _⟩ := hofp x (hhighp x h)
            rw [hxn] at h2
            cases h2
            rw [this.1] at h3
            cases h3
          refine ⟨by rw [hpar hxh]; exact this.1, by rw [glo x hxN]; exact this.2.1, ?_⟩
          rw [hseen x hxN]
          exact this.2.2
        · intro hr
          replace hr : x ≠ t.root := hr
          obtain ⟨⟨q, qn, h2, h3, h4⟩, hocc⟩ := hAx.2.2 hr
          refine ⟨?_, occ_transfer _ _ _ _ _ _ hocc (ght x hxN) hk hc⟩
          by_cases hxh : x ∈ high.children
          · exact ⟨t.heap.length, high, hpar' hxh, hgetN, hxh⟩
          · obtain ⟨qn', h5, h6⟩ := hparent x q qn hxh h3 h4
            exact ⟨q, qn', by rw [hpar hxh]; exact h2, h5, h6⟩
    · -- the new node
      refine ⟨high, hgetN, ⟨?_, ?_, ?_, ?_, ?_, ?_⟩, ?_, ?_⟩
      · rw [hekN]
        exact List.Pairwise.sublist (List.drop_sublist _ _) hs
      · intro k hk
        rw [hekN] at hk
        rw [gloN, ghiN]
        refine ⟨?_, (hb k (List.mem_of_mem_drop hk)).2⟩
        intro a ha
        cases ha
        exact le_of_lt (hgt k hk)
      · intro h0
        rw [ghtN] at h0
        exact absurd h0 hp0
      · intro _
        refine ⟨hhl, ?_⟩
        rw [hekN, hhc, gloN, ghiN]
        exact chain_mono _ _ _ _ _ _ hhigh
          (fun l c h hc hP => hchildN l c h (by rw [hhc]; exact hc) hP)
      · rw [hekN, List.length_drop, hfull]
        simp only
        omega
      · rw [ghtN, ght _ hrootN]
        exact hB.height
      · intro h0
        rw [ghtN] at h0
        exact absurd h0 hp0
      · intro _
        rw [hhighlen]
        simp only
        omega
    · -- nobody points at the new node
      intro x n2 hx hmem
      replace hx : heap2[x]? = some n2 := hx
      have hxlt : x < t.heap.length + 1 := by
        have := (List.getElem?_eq_some.1 hx).1
        rw [hlen] at this
        exact this
      by_cases e : x = t.heap.length
      · rw [e, hgetN] at hx
        cases hx
        exact absurd (hold p p1 hp1 _ (hhighp _ hmem)).1 (lt_irrefl _)
      · by_cases e2 : x = p
        · rw [e2, hgetp] at hx
          cases hx
          exact absurd (hold p p1 hp1 _ (hlowp _ hmem)).1 (lt_irrefl _)
        · have hxn : t.heap[x]? = some t.heap[x] :=
            List.getElem?_eq_getElem (by omega)
          obtain ⟨n', h1, _, _, hc, _⟩ := hkeep x _ hxn e2
          rw [h1] at hx
          cases hx
          rw [hc] at hmem
          exact absurd (hold x _ hxn _ hmem).1 (lt_irrefl _)
    · -- the lower end of the node is below the key that goes up
      intro a ha
      rw [glo p hpN] at ha
      have hpos : 0 < p1.keys.length := by omega
      obtain ⟨k0, h0⟩ : ∃ k0, p1.keys[0]? = some k0 := ⟨_, List.getElem?_eq_getElem hpos⟩
      have hm0 : k0 ∈ p1.keys.take (t.degree / 2) := by
        have h1 : (p1.keys.take (t.degree / 2))[0]? = some k0 := by
          rw [List.getElem?_take_of_lt hmid1]
          exact h0
        exact List.getElem?_mem h1
      exact lt_of_le_of_lt ((hb _ (List.getElem?_mem h0)).1 a ha) (hlt _ hm0)
    · intro x hx
      rcases List.mem_cons.1 hx with rfl | hx
      · rw [ghtN, ght p hpN]
      · rw [ght x (Nat.ne_of_lt (hinX x hx).1), ght p hpN]
        exact le_of_lt (hbelow x hx)
    · intro x hx
      rcases List.mem_cons.1 hx with rfl | hx
      · exact ⟨by simp only [hlen]; omega, by rw [ghtN]; exact hp0⟩
      · have := hinX x hx
        exact ⟨by simp only [hlen]; omega, by rw [ght x (Nat.ne_of_lt this.1)]; exact this.2⟩
  · intro k v
    constructor
    · apply stored_of_leaves
      intro x n hx hl
      have hxlt : x < t.heap.length + 1 := by
        have := (List.getElem?_eq_some.1 hx).1
        rw [hlen] at this
        exact this
      have hxN : x ≠ t.heap.length := by
        intro e
        rw [e, hgetN] at hx
        cases hx
        rw [hhl] at hl
        cases hl
      have hxp : x ≠ p := by
        intro e
        rw [e, hgetp] at hx
        cases hx
        rw [hll] at hl
        cases hl
      have hxn : t.heap[x]? = some t.heap[x] := List.getElem?_eq_getElem (by omega)
      obtain ⟨n', h1, hk, hv, _, hl', _⟩ := hkeep x _ hxn hxp
      rw [h1] at hx
      cases hx
      exact ⟨_, hxn, by rw [← hl']; exact hl, hk.symm, hv.symm⟩
    · apply stored_of_leaves
      intro x n hx hl
      have hxp : x ≠ p := by
        intro e
        subst e
        rw [hp1] at hx
        cases hx
        rw [hleafP] at hl
        cases hl
      obtain ⟨n', h1, hk, hv, _, hl', _⟩ := hkeep x n hx hxp
      exact ⟨n', h1, by rw [hl']; exact hl, hk, hv⟩

/-- The last step of `Expand`: the new internal node drops the key that
went up. -/
theorem delkey_good (t : BPlusTree K V) (g : Ghost K) (X : List Nat) (N : Nat)
    (n3 : BPlusNode K V) (hg : Good t g (N :: X)) (hNX : N ∉ X) (hN : t.heap[N]? = some n3) :
    Good { t with heap := store t.heap N { n3 with keys := n3.keys.eraseIdx 0 } } g X ∧
      ∀ k v, Stored (store t.heap N { n3 with keys := n3.keys.eraseIdx 0 }) k v ↔
        Stored t.heap k v := by
  have hN0 : g.ht N ≠ 0 := (hg.inX N (List.mem_cons_self _ _)).2
  have hnokN := (hg.node N n3 hN).1
  have hleafN : n3.isLeaf = false := (hnokN.inner hN0).1
  have hlinks : ∀ (x : Nat) (n : BPlusNode K V), t.heap[x]? = some n →
      ∃ n' : BPlusNode K V,
        (store t.heap N { n3 with keys := n3.keys.eraseIdx 0 })[x]? = some n' ∧
        n'.parent = n.parent ∧ n'.children = n.children ∧ n'.isLeaf = n.isLeaf ∧
        n'.values = n.values ∧ (x ≠ N → n' = n) := by
    intro x n hx
    by_cases e : N = x
    · subst e
      rw [hN] at hx
      cases hx
      exact ⟨_, store_get_self _ _ _ _ hN, rfl, rfl, rfl, rfl, fun h => absurd rfl h⟩
    · exact ⟨n, by rw [store_get_ne _ _ _ _ e]; exact hx, rfl, rfl, rfl, rfl, fun _ => rfl⟩
  have hchild : ∀ x l c h, ChildOK t.heap g none x l c h →
      ChildOK (store t.heap N { n3 with keys := n3.keys.eraseIdx 0 }) g none x l c h := by
    intro x l c h hc
    apply childOK_transfer _ _ _ _ _ _ _ _ _ _ hc _ rfl rfl rfl rfl
    intro cn hcn
    obtain ⟨cn', h1, h2, _⟩ := hlinks c cn hcn
    exact ⟨cn', h1, h2⟩
  have hekN : ekeys X N { n3 with keys := n3.keys.eraseIdx 0 } = ekeys (N :: X) N n3 := by
    unfold ekeys
    rw [if_neg hNX, if_pos (List.mem_cons_self _ _)]
    cases n3.keys <;> rfl
  have hekX : ∀ (x : Nat) (n : BPlusNode K V), x ≠ N → ekeys X x n = ekeys (N :: X) x n := by
    intro x n hx
    unfold ekeys
    by_cases e : x ∈ X
    · rw [if_pos e, if_pos (List.mem_cons_of_mem _ e)]
    · rw [if_neg e, if_neg]
      simp only [List.mem_cons, not_or]
      exact ⟨hx, e⟩
  constructor
  · refine ⟨hg.deg, by simpa [store_length] using hg.rootIn,
      by simpa [store_length] using hg.tall, ?_, ?_⟩
    · intro x n' hx
      replace hx : (store t.heap N { n3 with keys := n3.keys.eraseIdx 0 })[x]? = some n' := hx
      have hxlt : x < t.heap.length := by
        have := (List.getElem?_eq_some.1 hx).1
        rw [store_length] at this
        exact this
      have hxn : t.heap[x]? = some t.heap[x] := List.getElem?_eq_getElem hxlt
      obtain ⟨n'', h1, hpar, hc, hl, hv, hsame⟩ := hlinks x _ hxn
      rw [h1] at hx
      cases hx
      have hold := hg.node x _ hxn
      have hek : ekeys X x n' = ekeys (N :: X) x t.heap[x] := by
        by_cases e : x = N
        · subst e
          rw [hN] at hxn
          cases hxn
          rw [store_get_self _ _ _ _ hN] at h1
          cases h1
          exact hekN
        · rw [hsame e]
          exact hekX x _ e
      refine ⟨⟨by rw [hek]; exact hold.1.sorted, by rw [hek]; exact hold.1.bounds, ?_, ?_,
        by rw [hek]; exact hold.1.small, hold.1.height⟩, ?_, ?_⟩
      · intro h0
        have e : x ≠ N := fun e => hN0 (e ▸ h0)
        rw [hsame e]
        exact hold.1.leaf h0
      · intro h0
        rw [hl, hek, hc]
        exact ⟨(hold.1.inner h0).1,
          chain_mono _ _ _ _ _ _ (hold.1.inner h0).2 (fun l c h _ hch => hchild x l c h hch)⟩
      · intro hr
        rw [hpar]
        exact hold.2.1 hr
      · intro hr
        obtain ⟨⟨q, qn, h2, h3, h4⟩, hocc⟩ := hold.2.2 hr
        obtain ⟨qn', h5, _, h6, _⟩ := hlinks q qn h3
        refine ⟨⟨q, qn', by rw [hpar]; exact h2, h5, by rw [h6]; exact h4⟩, ?_, ?_⟩
        · intro h0
          have e : x ≠ N := fun e => hN0 (e ▸ h0)
          rw [hsame e]
          exact hocc.1 h0
        · intro h0
          rw [hc]
          exact hocc.2 h0
    · intro x hx
      have := hg.inX x (List.mem_cons_of_mem _ hx)
      exact ⟨by simpa [store_length] using this.1, this.2⟩
  · intro k v
    constructor
    · apply stored_of_leaves
      intro x n hx hl
      have hxlt : x < t.heap.length := by
        have := (List.getElem?_eq_some.1 hx).1
        rw [store_length] at this
        exact this
      have hxn : t.heap[x]? = some t.heap[x] := List.getElem?_eq_getElem hxlt
      obtain ⟨n'', h1, _, _, hl', _, hsame⟩ := hlinks x _ hxn
      rw [h1] at hx
      cases hx
      have e : x ≠ N := by
        intro e
        subst e
        rw [hN] at hxn
        cases hxn
        rw [hl', hleafN] at hl
        cases hl
      exact ⟨_, hxn, by rw [← hl']; exact hl, by rw [hsame e], by rw [hsame e]⟩
    · apply stored_of_leaves
      intro x n hx hl
      have e : x ≠ N := by
        intro e
        subst e
        rw [hN] at hx
        cases hx
        rw [hleafN] at hl
        cases hl
      obtain ⟨n', h1, _, _, _, _, hsame⟩ := hlinks x n hx
      exact ⟨n', h1, by rw [hsame e]; exact hl, by rw [hsame e], by rw [hsame e]⟩

end ExpandStep

end BPT

namespace BPT
variable {K V : Type}

/-! ### `Set` returns and keeps the shape of the tree -/

section SetSpec
variable [LinearOrder K]

/-- `parent->Insert(key, node)` with its result spelled out. -/
theorem insertChild_ok (heap : List (BPlusNode K V)) (self node : Nat) (key : K)
    (s nn : BPlusNode K V) (hs : heap[self]? = some s) (hn : heap[node]? = some nn)
    (hne : self ≠ node) (hidx : lowerBound s.keys key + 1 ≤ s.children.length) :
    InsertChild heap self key node true =
      .ok (store (store heap node { nn with parent := some self }) self
        { s with children := s.children.insertIdx (lowerBound s.keys key + 1) node,
                 keys := s.keys.insertIdx (lowerBound s.keys key) key }) := by
  have h1 : (store heap node { nn with parent := some self })[self]? = some s := by
    rw [store_get_ne _ _ _ _ (Ne.symm hne)]; exact hs
  unfold InsertChild
  simp only [deref_of_get _ _ _ hs, setParent_ok _ _ _ _ hn, deref_of_get _ _ _ h1, bind,
    Except.bind, pure, Except.pure, Bool.toNat_true]
  rw [if_neg (by omega)]

omit [LinearOrder K] in
/-- `Split` of a leaf with its result spelled out. -/
theorem split_leaf_ok (heap : List (BPlusNode K V)) (self : Nat) (s : BPlusNode K V)
    (hs : heap[self]? = some s) (hl : s.isLeaf = true) :
    Split heap self = .ok (store (heap ++
        [{ isLeaf := true, keys := s.keys.drop (s.keys.length / 2), values := s.values.drop (s.keys.length / 2), children := [], parent := none, next := s.next }]) self
        { s with keys := s.keys.take (s.keys.length / 2), values := s.values.take (s.keys.length / 2), next := some heap.length }, heap.length) := by
  unfold Split
  simp only [deref_of_get _ _ _ hs, bind, Except.bind, hl, if_true, pure, Except.pure]

omit [LinearOrder K] in
/-- `Split` of an internal node: it returns, and the children behind the
midpoint have the new node as parent. -/
theorem split_internal_ok (heap : List (BPlusNode K V)) (self : Nat) (s : BPlusNode K V)
    (hs : heap[self]? = some s) (hl : s.isLeaf = false)
    (hcs : ∀ c ∈ s.children.drop (s.keys.length / 2 + 1), c < heap.length ∧ c ≠ self) :
    ∃ heap2, Split heap self = .ok (heap2, heap.length) ∧ heap2.length = heap.length + 1 ∧
      heap2[self]? = some { s with keys := s.keys.take (s.keys.length / 2), children := s.children.take (s.keys.length / 2 + 1) } ∧
      heap2[heap.length]? = some { isLeaf := false, keys := s.keys.drop (s.keys.length / 2), values := [], children := s.children.drop (s.keys.length / 2 + 1), parent := none, next := none } ∧
      ∀ (x : Nat) (m : BPlusNode K V), heap[x]? = some m → x ≠ self →
        heap2[x]? = some (if x ∈ s.children.drop (s.keys.length / 2 + 1) then
          { m with parent := some heap.length } else m) := by
  have hslt : self < heap.length := (List.getElem?_eq_some.1 hs).1
  have hlen0 : (store (heap ++
      [({ isLeaf := false, keys := s.keys.drop (s.keys.length / 2), values := [], children := s.children.drop (s.keys.length / 2 + 1), parent := none, next := none } : BPlusNode K V)]) self
      { s with keys := s.keys.take (s.keys.length / 2), children := s.children.take (s.keys.length / 2 + 1) }).length =
      heap.length + 1 := by
    rw [store_length, List.length_append, List.length_singleton]
  obtain ⟨heap2, h1, h2, h3⟩ := setParents_ok (some heap.length)
    (s.children.drop (s.keys.length / 2 + 1)) _
    (fun c hc => by rw [hlen0]; exact Nat.lt_succ_of_lt (hcs c hc).1)
  refine ⟨heap2, ?_, by rw [h2, hlen0], ?_, ?_, ?_⟩
  · unfold Split
    simp only [deref_of_get _ _ _ hs, bind, Except.bind, pure, Except.pure]
    rw [if_neg (by rw [hl]; exact Bool.false_ne_true), h1]
  · have hget : (store (heap ++
        [({ isLeaf := false, keys := s.keys.drop (s.keys.length / 2), values := [], children := s.children.drop (s.keys.length / 2 + 1), parent := none, next := none } : BPlusNode K V)]) self
        { s with keys := s.keys.take (s.keys.length / 2), children := s.children.take (s.keys.length / 2 + 1) })[self]? = some
        { s with keys := s.keys.take (s.keys.length / 2), children := s.children.take (s.keys.length / 2 + 1) } := by
      rw [store_get, if_pos rfl, if_pos]
      rw [List.length_append, List.length_singleton]
      omega
    rw [h3 _ _ hget, if_neg (fun h => (hcs self h).2 rfl)]
  · have hget : (store (heap ++
        [({ isLeaf := false, keys := s.keys.drop (s.keys.length / 2), values := [], children := s.children.drop (s.keys.length / 2 + 1), parent := none, next := none } : BPlusNode K V)]) self
        { s with keys := s.keys.take (s.keys.length / 2), children := s.children.take (s.keys.length / 2 + 1) })[heap.length]? = some
        { isLeaf := false, keys := s.keys.drop (s.keys.length / 2), values := [], children := s.children.drop (s.keys.length / 2 + 1), parent := none, next := none } := by
      rw [store_get_ne _ _ _ _ (Nat.ne_of_lt hslt), getElem?_append_length]
      rfl
    rw [h3 _ _ hget, if_neg (fun h => lt_irrefl _ (hcs _ h).1)]
  · intro x m hx hxs
    have hxlt : x < heap.length := (List.getElem?_eq_some.1 hx).1
    have hget : (store (heap ++
        [({ isLeaf := false, keys := s.keys.drop (s.keys.length / 2), values := [], children := s.children.drop (s.keys.length / 2 + 1), parent := none, next := none } : BPlusNode K V)]) self
        { s with keys := s.keys.take (s.keys.length / 2), children := s.children.take (s.keys.length / 2 + 1) })[x]? = some m := by
      rw [store_get_ne _ _ _ _ (Ne.symm hxs), List.getElem?_append_left hxlt]
      exact hx
    exact h3 _ _ hget

omit [LinearOrder K] in
theorem front_of_get {α : Type} (l : List α) (m : Nat) (a : α) (h : l[m]? = some a) :
    front (l.drop m) = .ok a := by
  rw [drop_eq_cons_of_get l m a h]
  rfl

omit [LinearOrder K] in
/-- The records below a new root are the records of the old tree. -/
theorem stored_root (heap heap' : List (BPlusNode K V)) (left right : Nat)
    (rootNode : BPlusNode K V) (hrl : rootNode.isLeaf = false)
    (hlen : heap'.length = heap.length + 1) (hR : heap'[heap.length]? = some rootNode)
    (hget : ∀ (x : Nat) (n : BPlusNode K V), heap[x]? = some n →
      heap'[x]? = some (if x = left ∨ x = right then { n with parent := some heap.length }
        else n)) (k : K) (v : V) :
    Stored heap' k v ↔ Stored heap k v := by
  have hkeep : ∀ (x : Nat) (n : BPlusNode K V), heap[x]? = some n →
      ∃ n' : BPlusNode K V, heap'[x]? = some n' ∧ n'.keys = n.keys ∧ n'.values = n.values ∧
        n'.isLeaf = n.isLeaf := by
    intro x n hx
    refine ⟨_, hget x n hx, ?_⟩
    by_cases e : x = left ∨ x = right
    · rw [if_pos e]
      exact ⟨rfl, rfl, rfl⟩
    · rw [if_neg e]
      exact ⟨rfl, rfl, rfl⟩
  constructor
  · apply stored_of_leaves
    intro x n hx hl
    have hxlt : x < heap.length + 1 := by
      have := (List.getElem?_eq_some.1 hx).1
      rw [hlen] at this
      exact this
    have hxN : x ≠ heap.length := by
      intro e
      rw [e, hR] at hx
      cases hx
      rw [hrl] at hl
      cases hl
    have hxn : heap[x]? = some heap[x] := List.getElem?_eq_getElem (by omega)
    obtain ⟨n', h1, hk, hv, hl'⟩ := hkeep x _ hxn
    rw [h1] at hx
    cases hx
    exact ⟨_, hxn, by rw [← hl']; exact hl, hk.symm, hv.symm⟩
  · apply stored_of_leaves
    intro x n hx hl
    obtain ⟨n', h1, hk, hv, hl'⟩ := hkeep x n hx
    exact ⟨n', h1, by rw [hl']; exact hl, hk, hv⟩

/-- The parent of the split node on entry to `Expand`. -/
theorem pend_parent (t : BPlusTree K V) (g : Ghost K) (X : List Nat) (left right : Nat)
    (key : K) (HI : Option K) (hp : Pend t g X left right key HI) (hroot : left ≠ t.root)
    (ln : BPlusNode K V) (hln : t.heap[left]? = some ln) :
    ∃ (p : Nat) (pn : BPlusNode K V), ln.parent = some p ∧ t.heap[p]? = some pn ∧ p ≠ right ∧
      pn.children.length = pn.keys.length + 1 ∧ g.ht p = g.ht left + 1 ∧
      g.ht p ≤ g.ht t.root := by
  obtain ⟨⟨p, pn, hpar, hpn, hmem⟩, _⟩ := (hp.node left ln hln hp.ne).2.2 hroot
  have hnokP : NodeOK t g X (some (left, HI)) p pn := by
    by_cases e : p = right
    · obtain ⟨rn, hrn, hnokR, _⟩ := hp.rightOK
      rw [e, hrn] at hpn
      cases hpn
      rw [e]
      exact hnokR
    · exact (hp.node p pn hpn e).1
  obtain ⟨hp0, lL, hL, _, _, _, hht, _⟩ := child_of_nodeOK t g X _ p pn hnokP left hmem
  have hpR : p ≠ right := by
    intro e
    have := hp.hts
    rw [← e] at this
    omega
  have hpX : p ∉ X := by
    intro h
    have := hp.below p h
    omega
  have hchain := (hnokP.inner hp0).2
  have hek : ekeys X p pn = pn.keys := by
    unfold ekeys
    rw [if_neg hpX]
  rw [hek] at hchain
  exact ⟨p, pn, hpar, hpn, hpR, chain_length _ _ _ _ _ hchain, hht.symm, hnokP.height⟩

/-- `Expand` returns, on a tree in the shape a split leaves behind, a tree
in shape with the same records. -/
theorem expand_spec (fuel : Nat) : ∀ (t : BPlusTree K V) (g : Ghost K) (X : List Nat)
    (left right : Nat) (key : K) (HI : Option K), Pend t g X left right key HI →
    g.ht t.root - g.ht left < fuel →
    ∃ t' g', Expand fuel t left right key = .ok t' ∧ Good t' g' X ∧
      (∀ k v, Stored t'.heap k v ↔ Stored t.heap k v) ∧ t'.degree = t.degree := by
  induction fuel with
  | zero =>
    intro t g X left right key HI _ h
    omega
  | succ fuel ih =>
    intro t g X left right key HI hp hfuel
    obtain ⟨ln, hln, hoccL⟩ := hp.leftOK
    obtain ⟨rn, hrn, hnokR, hoccR⟩ := hp.rightOK
    have hLlt : left < t.heap.length := (List.getElem?_eq_some.1 hln).1
    have hRlt : right < t.heap.length := (List.getElem?_eq_some.1 hrn).1
    by_cases hroot : left = t.root
    · have e1 : (t.heap ++ [(BPlusNode.new false : BPlusNode K V)])[left]? = some ln := by
        rw [List.getElem?_append_left hLlt]
        exact hln
      have e2 : (store (t.heap ++ [(BPlusNode.new false : BPlusNode K V)]) left
          { ln with parent := some t.heap.length })[right]? = some rn := by
        rw [store_get_ne _ _ _ _ hp.ne, List.getElem?_append_left hRlt]
        exact hrn
      have e3 : (store (store (t.heap ++ [(BPlusNode.new false : BPlusNode K V)]) left
          { ln with parent := some t.heap.length }) right
          { rn with parent := some t.heap.length })[t.heap.length]? =
          some (BPlusNode.new false) := by
        rw [store_get_ne _ _ _ _ (Nat.ne_of_lt hRlt), store_get_ne _ _ _ _ (Nat.ne_of_lt hLlt),
          getElem?_append_length]
        rfl
      obtain ⟨rootNode, hrootNode⟩ : ∃ rootNode : BPlusNode K V, rootNode =
          { (BPlusNode.new false : BPlusNode K V) with
            children := [left, right], keys := [key] } := ⟨_, rfl⟩
      obtain ⟨heap', hheap'⟩ : ∃ heap' : List (BPlusNode K V), heap' =
          store (store (store (t.heap ++ [(BPlusNode.new false : BPlusNode K V)]) left
          { ln with parent := some t.heap.length }) right
          { rn with parent := some t.heap.length }) t.heap.length rootNode := ⟨_, rfl⟩
      have hlen : heap'.length = t.heap.length + 1 := by
        rw [hheap']
        simp [store_length]
      have hR : heap'[t.heap.length]? = some rootNode := by
        rw [hheap']
        exact store_get_self _ _ _ _ e3
      have hget : ∀ (x : Nat) (n : BPlusNode K V), t.heap[x]? = some n → heap'[x]? =
          some (if x = left ∨ x = right then { n with parent := some t.heap.length }
            else n) := by
        intro x n hx
        have hxlt : x < t.heap.length := (List.getElem?_eq_some.1 hx).1
        rw [hheap', store_get_ne _ _ _ _ (Ne.symm (Nat.ne_of_lt hxlt))]
        by_cases e : x = right
        · subst e
          rw [hrn] at hx
          cases hx
          rw [store_get_self _ _ _ _ e2, if_pos (Or.inr rfl)]
        · rw [store_get_ne _ _ _ _ (Ne.symm e)]
          by_cases e' : x = left
          · subst e'
            rw [hln] at hx
            cases hx
            rw [store_get_self _ _ _ _ e1, if_pos (Or.inl rfl)]
          · rw [store_get_ne _ _ _ _ (Ne.symm e'), List.getElem?_append_left hxlt, hx,
              if_neg (by simp [e, e'])]
      refine ⟨{ t with heap := heap', root := t.heap.length }, g.grow left t.heap.length, ?_,
        expand_root t g X left right key HI hp hroot rootNode (by rw [hrootNode])
          (by rw [hrootNode]) (by rw [hrootNode]; rfl) (by rw [hrootNode]; rfl) heap' hlen hR
          hget,
        stored_root _ _ left right rootNode (by rw [hrootNode]; rfl) hlen hR hget, rfl⟩
      unfold Expand
      rw [if_pos hroot]
      simp only [setParent_ok _ _ _ _ e1, setParent_ok _ _ _ _ e2, deref_of_get _ _ _ e3, bind,
        Except.bind, pure, Except.pure]
      rw [hheap', hrootNode]
    · obtain ⟨p, pn, hpar, hpn, hpR, hclen, hhtp, hple⟩ :=
        pend_parent t g X left right key HI hp hroot ln hln
      have hidx := lowerBound_le_length pn.keys key
      have hidx1 : lowerBound pn.keys key + 1 ≤ pn.children.length := by omega
      obtain ⟨p1, hp1⟩ : ∃ p1 : BPlusNode K V, p1 =
          { pn with children := pn.children.insertIdx (lowerBound pn.keys key + 1) right,
                    keys := pn.keys.insertIdx (lowerBound pn.keys key) key } := ⟨_, rfl⟩
      obtain ⟨heap1, hheap1⟩ : ∃ heap1 : List (BPlusNode K V), heap1 =
          store (store t.heap right { rn with parent := some p }) p p1 := ⟨_, rfl⟩
      have hins : InsertChild t.heap p key right true = .ok heap1 := by
        rw [hheap1, hp1]
        exact insertChild_ok t.heap p right key pn rn hpn hrn hpR hidx1
      have hpr : (store t.heap right { rn with parent := some p })[p]? = some pn := by
        rw [store_get_ne _ _ _ _ (Ne.symm hpR)]
        exact hpn
      have hgetp : heap1[p]? = some p1 := by
        rw [hheap1]
        exact store_get_self _ _ _ _ hpr
      have hgetr : heap1[right]? = some { rn with parent := some p } := by
        rw [hheap1, store_get_ne _ _ _ _ hpR]
        exact store_get_self _ _ _ _ hrn
      have hget : ∀ x, x ≠ p → x ≠ right → heap1[x]? = t.heap[x]? := by
        intro x h1 h2
        rw [hheap1, store_get_ne _ _ _ _ (Ne.symm h1), store_get_ne _ _ _ _ (Ne.symm h2)]
      have hlen1 : heap1.length = t.heap.length := by
        rw [hheap1, store_length, store_length]
      have hp1k : p1.keys = pn.keys.insertIdx (lowerBound pn.keys key) key := by rw [hp1]
      have hp1c : p1.children = pn.children.insertIdx (lowerBound pn.keys key + 1) right := by
        rw [hp1]
      have hp1l : p1.isLeaf = pn.isLeaf := by rw [hp1]
      have hp1p : p1.parent = pn.parent := by rw [hp1]
      clear hheap1 hp1
      obtain ⟨hA, hB, hL, hpX, _, _, hst1⟩ := expand_insert t g X left right key HI hp hroot p
        ln pn rn hln hpar hpn hrn p1 hp1k hp1c hp1l hp1p heap1 hlen1 hgetp hgetr hget
      have hp0 : g.ht p ≠ 0 := by omega
      have hekP : ∀ n : BPlusNode K V, ekeys X p n = n.keys := by
        intro n
        unfold ekeys
        rw [if_neg hpX]
      by_cases hsmall : p1.keys.length < t.degree
      · refine ⟨{ t with heap := heap1 }, g, ?_, ?_, hst1, rfl⟩
        · unfold Expand
          rw [if_neg hroot]
          simp only [deref_of_get _ _ _ hln, hpar, hins, deref_of_get _ _ _ hgetp, bind,
            Except.bind, pure, Except.pure]
          rw [if_pos hsmall]
        · refine ⟨hp.deg, by rw [hlen1]; exact hp.rootIn, by rw [hlen1]; exact hp.tall, ?_, ?_⟩
          · intro x n hx
            by_cases e : x = p
            · subst e
              replace hx := hx.symm.trans hgetp
              cases hx
              exact ⟨⟨hB.sorted, hB.bounds, hB.leaf, hB.inner, by rw [hekP]; exact hsmall,
                hB.height⟩, hL⟩
            · exact hA x n hx e
          · intro x hx
            rw [hlen1]
            exact hp.inX x hx
      · have hBs := hB.small
        rw [hekP] at hBs
        have hfull : p1.keys.length = t.degree := by
          have : p1.keys.length < t.degree + 1 := hBs
          omega
        have hdeg := hp.deg
        have hBchain := (hB.inner hp0)
        obtain ⟨heap2, hsplit, hlen2, hget2p, hget2N, hget2⟩ := split_internal_ok heap1 p p1
          hgetp hBchain.1 (fun c hc => by
            have hc' := List.mem_of_mem_drop hc
            obtain ⟨_, l, h, cn, h1, _, h3, _⟩ := child_of_nodeOK _ g X none p _ hB c hc'
            refine ⟨(List.getElem?_eq_some.1 h1).1, ?_⟩
            intro e
            rw [e] at h3
            omega)
        rw [hfull] at hget2p hget2N hget2
        rw [hlen1] at hsplit hlen2 hget2N hget2
        obtain ⟨low, hlow⟩ : ∃ low : BPlusNode K V, low =
            { p1 with keys := p1.keys.take (t.degree / 2),
                      children := p1.children.take (t.degree / 2 + 1) } := ⟨_, rfl⟩
        obtain ⟨high, hhigh⟩ : ∃ high : BPlusNode K V, high =
            { isLeaf := false, keys := p1.keys.drop (t.degree / 2), values := [],
              children := p1.children.drop (t.degree / 2 + 1), parent := none,
              next := none } := ⟨_, rfl⟩
        rw [← hlow] at hget2p
        rw [← hhigh] at hget2N
        have hhighc : high.children = p1.children.drop (t.degree / 2 + 1) := by rw [hhigh]
        rw [← hhighc] at hget2
        have hmid : t.degree / 2 < p1.keys.length := by omega
        have hup : p1.keys[t.degree / 2]? = some (p1.keys[t.degree / 2]) :=
          List.getElem?_eq_getElem hmid
        obtain ⟨hpend, hst2⟩ := split_pend { t with heap := heap1 } g X p p1 hdeg
          (by rw [hlen1]; exact hp.rootIn) (by rw [hlen1]; exact hp.tall)
          (fun x hx => by rw [hlen1]; exact hp.inX x hx)
          (fun x hx => by have := hp.below x hx; omega) hgetp hA hB hL hp0 hfull _ hup low high
          (by rw [hlow]) (by rw [hlow]) (by rw [hlow]; exact hBchain.1) (by rw [hlow])
          (by rw [hhigh]) hhighc (by rw [hhigh]) heap2 (by rw [hlen2, hlen1])
          hget2p (by rw [hlen1]; exact hget2N) (by rw [hlen1]; exact hget2)
        replace hpend : Pend { t with heap := heap2 } (g.split p t.heap.length p1.keys[t.degree / 2])
            (t.heap.length :: X) p t.heap.length p1.keys[t.degree / 2] (g.hi p) := by
          have := hpend
          simp only [hlen1] at this
          exact this
        obtain ⟨t3, g3, hE, hG3, hst3, hdeg3⟩ := ih _ _ _ _ _ _ _ hpend (by
          simp only [Ghost.split, if_neg (Nat.ne_of_lt hp.rootIn),
            if_neg (Nat.ne_of_lt (List.getElem?_eq_some.1 hpn).1)]
          omega)
        have hNX : t.heap.length ∉ X := fun h => lt_irrefl _ (hp.inX _ h).1
        have hN3lt := (hG3.inX _ (List.mem_cons_self _ _)).1
        have hN3 : t3.heap[t.heap.length]? = some t3.heap[t.heap.length] :=
          List.getElem?_eq_getElem hN3lt
        obtain ⟨hG4, hst4⟩ := delkey_good t3 g3 X _ _ hG3 hNX hN3
        have hfront : front high.keys = .ok p1.keys[t.degree / 2] := by
          rw [hhigh]
          exact front_of_get _ _ _ hup
        refine ⟨_, g3, ?_, hG4, ?_, hdeg3⟩
        · unfold Expand
          rw [if_neg hroot]
          simp only [deref_of_get _ _ _ hln, hpar, hins, deref_of_get _ _ _ hgetp, bind,
            Except.bind, pure, Except.pure]
          rw [if_neg hsmall]
          simp only [hsplit, deref_of_get _ _ _ hget2N, hfront, hE, deref_of_get _ _ _ hN3]
        · intro k v
          rw [hst4 k v, hst3 k v]
          exact (hst2 k v).trans (hst1 k v)

omit [LinearOrder K] in
theorem zip_take_drop (ks : List K) (vs : List V) (m : Nat) (h : vs.length = ks.length) :
    ks.zip vs = (ks.take m).zip (vs.take m) ++ (ks.drop m).zip (vs.drop m) := by
  rw [← List.zip_append (by rw [List.length_take, List.length_take, h]),
    List.take_append_drop, List.take_append_drop]

omit [LinearOrder K] in
/-- The records after the split of a leaf: those of the leaf before the
split, and those of the other leaves. -/
theorem stored_split (heap heap2 : List (BPlusNode K V)) (L : Nat)
    (l1 low high : BPlusNode K V) (m : Nat) (hLlt : L < heap.length)
    (hv : l1.values.length = l1.keys.length)
    (hlk : low.keys = l1.keys.take m) (hlv : low.values = l1.values.take m)
    (hll : low.isLeaf = true)
    (hhk : high.keys = l1.keys.drop m) (hhv : high.values = l1.values.drop m)
    (hhl : high.isLeaf = true)
    (hget : ∀ x, heap2[x]? = if x = L then some low
      else if x = heap.length then some high else heap[x]?) (k : K) (v : V) :
    Stored heap2 k v ↔ (k, v) ∈ l1.keys.zip l1.values ∨
      ∃ x n, x ≠ L ∧ heap[x]? = some n ∧ n.isLeaf = true ∧ (k, v) ∈ n.keys.zip n.values := by
  rw [zip_take_drop l1.keys l1.values m hv, List.mem_append, ← hlk, ← hlv, ← hhk, ← hhv]
  have hLN : L ≠ heap.length := Nat.ne_of_lt hLlt
  constructor
  · rintro ⟨x, n, hx, hl, hm⟩
    rw [hget] at hx
    by_cases e : x = L
    · rw [if_pos e] at hx
      cases hx
      exact Or.inl (Or.inl hm)
    · rw [if_neg e] at hx
      by_cases e2 : x = heap.length
      · rw [if_pos e2] at hx
        cases hx
        exact Or.inl (Or.inr hm)
      · rw [if_neg e2] at hx
        exact Or.inr ⟨x, n, e, hx, hl, hm⟩
  · rintro ((hm | hm) | ⟨x, n, hne, hx, hl, hm⟩)
    · exact ⟨L, low, by rw [hget, if_pos rfl], hll, hm⟩
    · exact ⟨heap.length, high, by rw [hget, if_neg (Ne.symm hLN), if_pos rfl], hhl, hm⟩
    · have hxlt : x < heap.length := (List.getElem?_eq_some.1 hx).1
      exact ⟨x, n, by rw [hget, if_neg hne, if_neg (Nat.ne_of_lt hxlt)]; exact hx, hl, hm⟩

/-- `Set` returns; it refuses exactly the keys that are stored, and else
stores the record, keeps the other records and the shape of the tree. -/
theorem set_spec (t : BPlusTree K V) (g : Ghost K) (hg : Good t g []) (key : K) (value : V) :
    ∃ b t', Set t key value = .ok (b, t') ∧ (∃ g', Good t' g' []) ∧ t'.degree = t.degree ∧
      (b = false → t' = t ∧ ∃ v, Stored t.heap key v) ∧
      (b = true → (¬ ∃ v, Stored t.heap key v) ∧
        ∀ k v, Stored t'.heap k v ↔ (k = key ∧ v = value) ∨ Stored t.heap k v) := by
  obtain ⟨L, ln, hfind, hL, hL0, hLlo, hLhi, hst⟩ := stored_at_found t g hg key
  have hn := (hg.node L ln hL).1
  have hs := hn.sorted
  rw [ekeys_nil] at hs
  have hbn := hn.bounds
  rw [ekeys_nil] at hbn
  obtain ⟨hleaf, hlenv, hchn⟩ := hn.leaf hL0
  have hLlt : L < t.heap.length := (List.getElem?_eq_some.1 hL).1
  by_cases hk : key ∈ ln.keys
  · have hex : ln.Exists key = true := (exists_iff_mem ln key hs).2 hk
    refine ⟨false, t, ?_, ⟨g, hg⟩, rfl, fun _ => ⟨rfl, ?_⟩, fun h => by cases h⟩
    · unfold Set
      simp only [hfind, deref_of_get _ _ _ hL, bind, Except.bind, hex, if_true, pure,
        Except.pure]
    · obtain ⟨b, hb, hiff⟩ := exists_spec t g hg key
      have hcomp : Exists t key = .ok (ln.Exists key) := by
        unfold Exists
        simp only [hfind, deref_of_get _ _ _ hL, bind, Except.bind, pure, Except.pure]
      rw [hcomp, hex] at hb
      cases hb
      exact hiff.1 rfl
  · have hex : ln.Exists key = false := by
      cases h : ln.Exists key with
      | false => rfl
      | true => exact absurd ((exists_iff_mem ln key hs).1 h) hk
    have hno : ¬ ∃ v, Stored t.heap key v := by
      rintro ⟨v, hv⟩
      exact hk (List.of_mem_zip ((hst v).1 hv)).1
    obtain ⟨A, B, VA, VB, hAB, hVAB, hVA, hA, hB, hins⟩ :=
      insertValue_new ln key value hs hlenv hk
    obtain ⟨l1, hl1⟩ : ∃ l1 : BPlusNode K V, l1 = (ln.InsertValue key value).2 := ⟨_, rfl⟩
    have hl1' := hl1.trans hins
    have hl1k : l1.keys = A ++ key :: B := by rw [hl1']
    have hl1v : l1.values = VA ++ value :: VB := by rw [hl1']
    have hl1p : l1.parent = ln.parent := by rw [hl1']
    have hl1l : l1.isLeaf = true := by rw [hl1']; exact hleaf
    have hl1c : l1.children = [] := by rw [hl1']; exact hchn
    have hs1 : l1.keys.Pairwise (fun a b => a < b) := by
      rw [hl1k]
      rw [hAB, List.pairwise_append] at hs
      rw [List.pairwise_append, List.pairwise_cons]
      refine ⟨hs.1, ⟨hB, hs.2.1⟩, ?_⟩
      intro a ha b hb
      rcases List.mem_cons.1 hb with rfl | hb
      · exact hA a ha
      · exact hs.2.2 a ha b hb
    have hb1 : ∀ k ∈ l1.keys, LoLe (g.lo L) k ∧ LtHi k (g.hi L) := by
      intro k hk'
      rw [hl1k, List.mem_append, List.mem_cons] at hk'
      rcases hk' with h | rfl | h
      · exact hbn k (by rw [hAB]; exact List.mem_append_left _ h)
      · exact ⟨hLlo, hLhi⟩
      · exact hbn k (by rw [hAB]; exact List.mem_append_right _ h)
    have hv1 : l1.values.length = l1.keys.length := by
      rw [hl1k, hl1v]
      simp [hVA]
      have := hlenv
      rw [hAB, hVAB, List.length_append, List.length_append] at this
      omega
    have hlen1 : l1.keys.length = ln.keys.length + 1 := by
      rw [hl1k, hAB]
      simp
      omega
    have hsmall := hn.small
    rw [ekeys_nil] at hsmall
    have hst1 : ∀ k v, Stored (store t.heap L l1) k v ↔
        (k = key ∧ v = value) ∨ Stored t.heap k v := by
      intro k v
      rw [stored_store_leaf _ L ln l1 hL hl1l, stored_iff_leaf _ L ln hL hleaf, hl1k, hl1v,
        hAB, hVAB, List.zip_append hVA.symm, List.zip_append hVA.symm, List.zip_cons_cons,
        List.mem_append, List.mem_append, List.mem_cons, Prod.mk.injEq]
      tauto
    by_cases hfull : l1.keys.length = t.degree
    · have hget1 : (store t.heap L l1)[L]? = some l1 := store_get_self _ _ _ _ hL
      have hsplit := split_leaf_ok (store t.heap L l1) L l1 hget1 hl1l
      rw [hfull, store_length] at hsplit
      obtain ⟨low, hlow⟩ : ∃ low : BPlusNode K V, low =
          { l1 with keys := l1.keys.take (t.degree / 2),
                    values := l1.values.take (t.degree / 2),
                    next := some t.heap.length } := ⟨_, rfl⟩
      obtain ⟨high, hhigh⟩ : ∃ high : BPlusNode K V, high =
          { isLeaf := true, keys := l1.keys.drop (t.degree / 2),
            values := l1.values.drop (t.degree / 2), children := [], parent := none,
            next := l1.next } := ⟨_, rfl⟩
      obtain ⟨heap2, hheap2⟩ : ∃ heap2 : List (BPlusNode K V), heap2 =
          store (store t.heap L l1 ++ [high]) L low := ⟨_, rfl⟩
      rw [← hlow, ← hhigh, ← hheap2] at hsplit
      have hlen2 : heap2.length = t.heap.length + 1 := by
        rw [hheap2, store_length, List.length_append, store_length, List.length_singleton]
      have hget : ∀ x, heap2[x]? = if x = L then some low
          else if x = t.heap.length then some high else t.heap[x]? := by
        intro x
        rw [hheap2]
        by_cases e : x = L
        · rw [if_pos e, e, store_get, if_pos rfl, if_pos]
          rw [List.length_append, store_length]
          omega
        · rw [if_neg e, store_get_ne _ _ _ _ (Ne.symm e)]
          by_cases e2 : x = t.heap.length
          · rw [if_pos e2, e2]
            have := getElem?_append_length (store t.heap L l1) [high]
            rw [store_length] at this
            rw [this]
            rfl
          · rw [if_neg e2, List.getElem?_append, store_length]
            by_cases e3 : x < t.heap.length
            · rw [if_pos e3, store_get_ne _ _ _ _ (Ne.symm e)]
            · rw [if_neg e3, List.getElem?_eq_none (by omega : t.heap.length ≤ x),
                List.getElem?_eq_none]
              simp only [List.length_singleton]
              omega
      have hmid : t.degree / 2 < l1.keys.length := by
        have := hg.deg
        omega
      have hup : l1.keys[t.degree / 2]? = some (l1.keys[t.degree / 2]) :=
        List.getElem?_eq_getElem hmid
      have hpend := leaf_split_pend t g hg L ln l1 low high hL hL0 hl1p hs1 hb1 hv1 hfull _ hup
        (by rw [hlow]) (by rw [hlow]) (by rw [hlow]; exact hl1l) (by rw [hlow]; exact hl1c)
        (by rw [hlow]) (by rw [hhigh]) (by rw [hhigh]) (by rw [hhigh]) (by rw [hhigh]) heap2
        hlen2 hget
      obtain ⟨t3, g3, hE, hG3, hst3, hdeg3⟩ := expand_spec heap2.length _ _ _ _ _ _ _ hpend (by
        simp only [Ghost.split, if_neg (Nat.ne_of_lt hg.rootIn), if_neg (Nat.ne_of_lt hLlt)]
        have := hg.tall
        rw [hlen2]
        omega)
      have hgetN : heap2[t.heap.length]? = some high := by
        rw [hget, if_neg (Ne.symm (Nat.ne_of_lt hLlt)), if_pos rfl]
      have hfront : front high.keys = .ok l1.keys[t.degree / 2] := by
        rw [hhigh]
        exact front_of_get _ _ _ hup
      refine ⟨true, t3, ?_, ⟨g3, hG3⟩, hdeg3, fun h => (by cases h), fun _ => ⟨hno, ?_⟩⟩
      · unfold Set
        simp only [hfind, deref_of_get _ _ _ hL, bind, Except.bind, hex, Bool.false_eq_true,
          if_false, pure, Except.pure]
        rw [← hl1, if_pos hfull]
        simp only [hsplit, deref_of_get _ _ _ hgetN, hfront, hE]
      · intro k v
        rw [hst3 k v, ← hst1 k v, stored_store_leaf _ L ln l1 hL hl1l]
        exact stored_split t.heap heap2 L l1 low high (t.degree / 2) hLlt hv1 (by rw [hlow])
          (by rw [hlow]) (by rw [hlow]; exact hl1l) (by rw [hhigh]) (by rw [hhigh])
          (by rw [hhigh]) hget k v
    · have hsm : l1.keys.length < t.degree := by omega
      have hgood := good_store_leaf t g hg L ln l1 hL hL0 hl1p hl1l hl1c hs1 hb1 hv1 hsm
        (by omega)
      refine ⟨true, { t with heap := store t.heap L l1 }, ?_, ⟨g, hgood⟩, rfl,
        fun h => (by cases h), fun _ => ⟨hno, hst1⟩⟩
      unfold Set
      simp only [hfind, deref_of_get _ _ _ hL, bind, Except.bind, hex, Bool.false_eq_true,
        if_false, pure, Except.pure]
      rw [← hl1, if_neg hfull]

end SetSpec

end BPT

namespace BPT
variable {K V : Type}

/-! ### Trees built by `Set` -/

section Built
variable [LinearOrder K]

/-- The empty tree is in shape. -/
theorem good_new (degree : Nat) (hd : 3 ≤ degree) :
    Good (BPlusTree.new degree : BPlusTree K V)
      { ht := fun _ => 0, lo := fun _ => none, hi := fun _ => none } [] := by
  refine ⟨hd, by simp [BPlusTree.new], by simp [BPlusTree.new], ?_, by simp⟩
  intro x n hx
  have hx' : [(BPlusNode.new true : BPlusNode K V)][x]? = some n := hx
  have hx0 : x = 0 := by
    have := (List.getElem?_eq_some.1 hx').1
    simpa using this
  subst hx0
  simp only [List.getElem?_cons_zero, Option.some.injEq] at hx'
  subst hx'
  refine ⟨⟨by simp [ekeys, BPlusNode.new], by simp [ekeys, BPlusNode.new],
    fun _ => by simp [BPlusNode.new], fun h => absurd rfl h, ?_, le_refl _⟩, ?_, ?_⟩
  · simp only [ekeys_nil, BPlusNode.new, List.length_nil, BPlusTree.new]
    omega
  · intro _
    exact ⟨rfl, rfl, rfl⟩
  · intro h
    exact absurd rfl h

/-- Every tree built by `Set` operations is in shape. -/
theorem built_good (degree : Nat) (hd : 3 ≤ degree) (t : BPlusTree K V)
    (hb : BuiltBySet degree t) : (∃ g, Good t g []) ∧ t.degree = degree := by
  induction hb with
  | new => exact ⟨⟨_, good_new degree hd⟩, rfl⟩
  | set t t' key value b _ hset ih =>
    obtain ⟨⟨g, hg⟩, hdeg⟩ := ih
    obtain ⟨b', t'', hset', hg', hdeg', _⟩ := set_spec t g hg key value
    rw [hset] at hset'
    cases hset'
    exact ⟨hg', hdeg'.trans hdeg⟩

end Built

/-! ### The claims on the B+ tree -/

/-- C9: on a B+ tree of degree at least 3 built from the empty tree by `Set`
operations, `Exists k` and `Set k v` return; when `k` is stored (`Exists k`
is true) `Set k v` returns false and the tree is unchanged; when `k` is not
stored `Set k v` returns true, and afterwards `Get k = v`, `Exists k` is true
and `Get k'` is unchanged for every other key, whether or not the insert
splits the leaf and nodes above it up to a new root. -/
theorem bpt_set_contract [LinearOrder K] (degree : Nat) (hd : 3 ≤ degree)
    (t : BPlusTree K V) (hb : BuiltBySet degree t) (key : K) (value : V) :
    ∃ stored b t', Exists t key = .ok stored ∧ Set t key value = .ok (b, t') ∧
      (stored = true → b = false ∧ t' = t) ∧
      (stored = false → b = true ∧ Get t' key = .ok (some value) ∧
        Exists t' key = .ok true ∧ ∀ k', k' ≠ key → Get t' k' = Get t k') := by
  obtain ⟨⟨g, hg⟩, _⟩ := built_good degree hd t hb
  obtain ⟨stored, hex, hexiff⟩ := exists_spec t g hg key
  obtain ⟨b, t', hset, ⟨g', hg'⟩, _, hfalse, htrue⟩ := set_spec t g hg key value
  refine ⟨stored, b, t', hex, hset, ?_, ?_⟩
  · intro hs
    have hstored := hexiff.1 hs
    cases b with
    | false => exact ⟨rfl, (hfalse rfl).1⟩
    | true => exact absurd hstored (htrue rfl).1
  · intro hs
    have hno : ¬ ∃ v, Stored t.heap key v := by
      intro h
      have := hexiff.2 h
      rw [hs] at this
      cases this
    cases b with
    | false => exact absurd (hfalse rfl).2 hno
    | true =>
      obtain ⟨_, hst⟩ := htrue rfl
      refine ⟨rfl, ?_, ?_, ?_⟩
      · obtain ⟨r, hr, hriff⟩ := get_spec t' g' hg' key
        rw [hr, (hriff value).2 ((hst key value).2 (Or.inl ⟨rfl, rfl⟩))]
      · obtain ⟨b2, hb2, hiff2⟩ := exists_spec t' g' hg' key
        rw [hb2, hiff2.2 ⟨value, (hst key value).2 (Or.inl ⟨rfl, rfl⟩)⟩]
      · intro k' hne
        obtain ⟨r', hr', hriff'⟩ := get_spec t' g' hg' k'
        obtain ⟨r, hr, hriff⟩ := get_spec t g hg k'
        rw [hr', hr]
        congr 1
        apply Option.ext
        intro v
        rw [Option.mem_def, Option.mem_def, hriff' v, hriff v, hst k' v]
        constructor
        · rintro (⟨h, _⟩ | h)
          · exact absurd h hne
          · exact h
        · exact Or.inr

theorem bpt_set_contract_witness :
    3 ≤ 3 ∧ BuiltBySet 3 tree123 ∧
      ∃ stored b t', Exists tree123 4 = .ok stored ∧ Set tree123 4 40 = .ok (b, t') ∧
        (stored = true → b = false ∧ t' = tree123) ∧
        (stored = false → b = true ∧ Get t' 4 = .ok (some 40) ∧
          Exists t' 4 = .ok true ∧ ∀ k', k' ≠ 4 → Get t' k' = Get tree123 k') :=
  ⟨by decide, tree123_built, bpt_set_contract 3 (by decide) tree123 tree123_built 4 40⟩

theorem setAll_thirteen : setAll 5 (List.range 13) = .ok treeThirteen := by rfl

/-- C2 (counterexample): both bounds of the claim fail.  The degree-3 tree
after `Set` of 1, 2, 3 is built by `Set` operations, and its leaf `[1]`
(node 0) is not the root and holds one entry, fewer than
`ceil(3 / 2) = (3 + 1) / 2 = 2`.  With `Del` also the bounds rounded down
fail: in the degree-5 tree after `Set` of 0, ..., 12 (nodes at ascending
addresses in the order of allocation), `Del 0` returns true, the leaves
`[1]` and `[2, 3]` are merged, and `Reduce` leaves their parent (node 2, a
child of the root, node 8) with the one key 4 and the two children 0 and 3,
fewer than `(5 + 1) / 2 = 3`. -/
theorem bpt_occupancy_fails :
    (BuiltBySet 3 tree123 ∧ tree123.heap[0]? = some tree123Leaf ∧ 0 ≠ tree123.root ∧
      tree123Leaf.isLeaf = true ∧ tree123Leaf.keys.length < (3 + 1) / 2) ∧
    (BuiltBySet 5 treeThirteen ∧
      ∃ t', Del id treeThirteen 0 = .ok (true, t') ∧ t'.degree = 5 ∧ t'.root = 8 ∧
        t'.heap[8]? = some ⟨false, [6], [], [2, 7], none, none⟩ ∧
        t'.heap[2]? = some ⟨false, [4], [], [0, 3], some 8, none⟩ ∧
        [0, 3].length < (5 + 1) / 2 ∧ [0, 3].length < (5 + 1 + 1) / 2) :=
  ⟨⟨tree123_built, by rfl, by decide, by rfl, by decide⟩,
    setAll_built 5 (List.range 13) _ setAll_thirteen,
    _, by rfl, by rfl, by rfl, by rfl, by rfl, by decide, by decide⟩

/-- C2 (amended): in a B+ tree of degree at least 3 built from the empty
tree by `Set` operations, every leaf other than the root holds at least
`degree / 2` entries (rounded down) and every internal node other than the
root has at least `(degree + 1) / 2` children (rounded down). -/
theorem bpt_occupancy_floor [LinearOrder K] (degree : Nat) (hd : 3 ≤ degree)
    (t : BPlusTree K V) (hb : BuiltBySet degree t) (x : Nat) (n : BPlusNode K V)
    (hx : t.heap[x]? = some n) (hroot : x ≠ t.root) :
    (n.isLeaf = true → degree / 2 ≤ n.keys.length) ∧
      (n.isLeaf = false → (degree + 1) / 2 ≤ n.children.length) := by
  obtain ⟨⟨g, hg⟩, hdeg⟩ := built_good degree hd t hb
  obtain ⟨hnok, hlink⟩ := hg.node x n hx
  obtain ⟨_, hocc⟩ := hlink.2 hroot
  rw [hdeg] at hocc
  constructor
  · intro hl
    exact hocc.1 (leaf_of_isLeaf _ _ _ _ _ _ hnok hl)
  · intro hl
    apply hocc.2
    intro h0
    rw [(hnok.leaf h0).1] at hl
    cases hl

theorem bpt_occupancy_floor_witness :
    3 ≤ 3 ∧ BuiltBySet 3 tree123 ∧ tree123.heap[0]? = some tree123Leaf ∧ 0 ≠ tree123.root ∧
      (tree123Leaf.isLeaf = true → 3 / 2 ≤ tree123Leaf.keys.length) ∧
      (tree123Leaf.isLeaf = false → (3 + 1) / 2 ≤ tree123Leaf.children.length) :=
  ⟨by decide, tree123_built, by rfl, by decide,
    bpt_occupancy_floor 3 (by decide) tree123 tree123_built 0 tree123Leaf (by rfl) (by decide)⟩

/-- C10: `Del` of a stored key loses other keys.  In the degree-4 tree after
`Set` of 10, 20, 30, 40, 5, 15, with the nodes at ascending addresses in the
order of their allocation, `Get` finds the records of 15, 20 and 40.
`Del 40` returns true and `Get 40` is absent afterwards, but so are `Get 15`
and `Get 20`: `Merge` has taken the leaf `[15, 20]` out of the root instead
of the emptied leaf. -/
theorem bpt_del_loses_keys :
    BuiltBySet 4 treeSix ∧ Get treeSix 40 = .ok (some 400) ∧
      Get treeSix 15 = .ok (some 150) ∧ Get treeSix 20 = .ok (some 200) ∧
      ∃ t', Del id treeSix 40 = .ok (true, t') ∧ Get t' 40 = .ok none ∧
        Get t' 15 = .ok none ∧ Get t' 20 = .ok none :=
  ⟨treeSix_built, by rfl, by rfl, by rfl, _, by rfl, by rfl, by rfl, by rfl⟩

/-- C3: the degree-4 tree after `Set` of 10, 20, 30, 40, 5, 15, with the nodes
at ascending addresses in the order of their allocation.  `Del 40` returns
true; `Merge` looks the right node up among the children of the parent by
`std::lower_bound` over the node addresses and takes the leaf `[15, 20]` out
of the parent instead of the emptied one.  The leaf chain still lists 15 and
20, while `Exists` finds neither below the root. -/
theorem bpt_keys_not_exists :
    BuiltBySet 4 treeSix ∧
      ∃ t', Del id treeSix 40 = .ok (true, t') ∧ Keys t' = .ok [5, 10, 15, 20, 30] ∧
        Exists t' 15 = .ok false ∧ Exists t' 20 = .ok false :=
  ⟨treeSix_built, _, by rfl, by rfl, by rfl, by rfl⟩

/-- C4: the sequence `Set` of 10, 20, 30, 40, 5, 15 and `Del 40` replayed
from empty against the three engines (B+ tree of degree 4 with the nodes at
ascending addresses in the order of their allocation).  All three return true
for `Del 40`.  Afterwards `Get 15` returns the record 150 in the AVL tree and
in the hash table, and nothing in the B+ tree. -/
theorem engines_diverge_on_del :
    (AVL.Del avlSix 40).1 = true ∧ AVL.Get (AVL.Del avlSix 40).2 15 = some 150 ∧
      (HT.Del id htSix 40).1 = true ∧ HT.Get id (HT.Del id htSix 40).2 15 = some 150 ∧
      setAll 4 [10, 20, 30, 40, 5, 15] = .ok treeSix ∧
      ∃ t', Del id treeSix 40 = .ok (true, t') ∧ Get t' 15 = .ok none :=
  ⟨by rfl, by rfl, by rfl, by rfl, by rfl, _, by rfl, by rfl⟩

end BPT

namespace BPT
variable {K V : Type}

/-! ### Levels, internal nodes and `Rename` of the B+ tree -/

theorem setAll_five : setAll 4 [10, 20, 30, 40, 50] = .ok treeFive := by rfl

theorem treeFive_built : BuiltBySet 4 treeFive := setAll_built 4 [10, 20, 30, 40, 50] _ setAll_five

/-- Along child links the height above the leaves goes down by one per
link. -/
theorem path_height [LinearOrder K] (t : BPlusTree K V) (g : Ghost K) (hg : Good t g [])
    (x y d : Nat) (hp : Path t.heap x y d) : g.ht x = g.ht y + d := by
  induction hp with
  | here x => rfl
  | step x c y d n hx hc _ ih =>
    obtain ⟨_, l, h, cn, _, _, hht, _⟩ := child_of_nodeOK t g [] none x n (hg.node x n hx).1 c hc
    omega

/-- In a tree built by `Set` operations every leaf reached from the root is
reached along the same number of child links. -/
theorem built_leaves_level [LinearOrder K] (degree : Nat) (hd : 3 ≤ degree)
    (t : BPlusTree K V) (hb : BuiltBySet degree t) :
    ∃ depth, ∀ (y d : Nat) (n : BPlusNode K V), Path t.heap t.root y d →
      t.heap[y]? = some n → n.isLeaf = true → d = depth := by
  obtain ⟨⟨g, hg⟩, _⟩ := built_good degree hd t hb
  refine ⟨g.ht t.root, ?_⟩
  intro y d n hp hy hl
  have h1 := path_height t g hg _ _ _ hp
  have h2 := leaf_of_isLeaf _ _ _ _ _ _ (hg.node y n hy).1 hl
  omega

/-- C16: in a B+ tree of degree at least 3 built from the empty tree by `Set`
operations, every internal node has one more child than keys, its keys
increase strictly, and every child is a node whose `parent_` is this
node. -/
theorem bpt_internal_shape [LinearOrder K] (degree : Nat) (hd : 3 ≤ degree)
    (t : BPlusTree K V) (hb : BuiltBySet degree t) (x : Nat) (n : BPlusNode K V)
    (hx : t.heap[x]? = some n) (hl : n.isLeaf = false) :
    n.children.length = n.keys.length + 1 ∧ n.keys.Pairwise (fun a b => a < b) ∧
      ∀ c ∈ n.children, ∃ cn, t.heap[c]? = some cn ∧ cn.parent = some x := by
  obtain ⟨⟨g, hg⟩, _⟩ := built_good degree hd t hb
  have hnok := (hg.node x n hx).1
  have h0 : g.ht x ≠ 0 := by
    intro h0
    rw [(hnok.leaf h0).1] at hl
    cases hl
  have hchain := (hnok.inner h0).2
  have hs := hnok.sorted
  rw [ekeys_nil] at hchain hs
  refine ⟨chain_length _ _ _ _ _ hchain, hs, ?_⟩
  intro c hc
  obtain ⟨l, h, cn, h1, h2, _⟩ := chain_mem _ _ _ _ _ hchain c hc
  exact ⟨cn, h1, h2⟩

theorem bpt_internal_shape_witness :
    3 ≤ 4 ∧ BuiltBySet 4 treeSix ∧
      ∃ n, treeSix.heap[2]? = some n ∧ n.isLeaf = false ∧
        n.children.length = n.keys.length + 1 ∧ n.keys.Pairwise (fun a b => a < b) ∧
        ∀ c ∈ n.children, ∃ cn, treeSix.heap[c]? = some cn ∧ cn.parent = some 2 :=
  ⟨by decide, treeSix_built, _, by rfl, by rfl,
    bpt_internal_shape 4 (by decide) treeSix treeSix_built 2 _ (by rfl) (by rfl)⟩

/-- C20: `Rename` that returns false has deleted the old key.  In the degree-4
tree after `Set` of 10, 20, 30, 40, 50 the keys 50 and 10 are stored in
different leaves.  `Rename 50 10` looks for the new key only in the leaf of
the old key, deletes 50 and then returns the false of `Set 10`; afterwards
`Get 50` is absent and `Keys()` has lost 50, for every placement of the
nodes in memory. -/
theorem bpt_rename_false_loses_old (addr : Nat → Nat) :
    BuiltBySet 4 treeFive ∧ Get treeFive 50 = .ok (some 500) ∧
      Keys treeFive = .ok [10, 20, 30, 40, 50] ∧
      ∃ t', Rename addr treeFive 50 10 = .ok (false, t') ∧ Get t' 50 = .ok none ∧
        Keys t' = .ok [10, 20, 30, 40] :=
  ⟨treeFive_built, by rfl, by rfl, _, by rfl, by rfl, by rfl⟩

end BPT

namespace BPT
variable {K V : Type}

/-- C23: in a B+ tree of degree 3, `Set` of three increasing keys, one after
the other, on the empty tree: after the second `Set` the root is a single
leaf with the two keys; the third `Set` fills the leaf to three keys, the
leaf is split at the midpoint `3 / 2 = 1`, and the tree has a new root
(node 2), an internal node with the one separator key `k2` and the two
children 0 and 1, which are the leaf with `k1` (size 1) and the new leaf
with `k2, k3` (size 2), both with the new root as parent. -/
theorem bpt_third_set_splits [LinearOrder K] (k1 k2 k3 : K) (v1 v2 v3 : V)
    (h12 : k1 < k2) (h23 : k2 < k3) :
    Set (BPlusTree.new 3) k1 v1 = .ok (true, ⟨[⟨true, [k1], [v1], [], none, none⟩], 0, 0, 3⟩) ∧
    Set (⟨[⟨true, [k1], [v1], [], none, none⟩], 0, 0, 3⟩ : BPlusTree K V) k2 v2 =
      .ok (true, ⟨[⟨true, [k1, k2], [v1, v2], [], none, none⟩], 0, 0, 3⟩) ∧
    Set (⟨[⟨true, [k1, k2], [v1, v2], [], none, none⟩], 0, 0, 3⟩ : BPlusTree K V) k3 v3 =
      .ok (true, ⟨[⟨true, [k1], [v1], [], some 2, some 1⟩,
        ⟨true, [k2, k3], [v2, v3], [], some 2, none⟩,
        ⟨false, [k2], [], [0, 1], none, none⟩], 2, 0, 3⟩) := by
  have h13 : k1 < k3 := lt_trans h12 h23
  refine ⟨rfl, ?_, ?_⟩
  · simp [Set, FindLeaf, deref, BPlusNode.Exists, BPlusNode.InsertValue, lowerBound, store,
      bind, Except.bind, pure, Except.pure, h12, List.takeWhile, List.insertIdx]
  · simp [Set, FindLeaf, deref, BPlusNode.Exists, BPlusNode.InsertValue, lowerBound, store,
      bind, Except.bind, pure, Except.pure, h12, h23, h13, List.takeWhile, List.insertIdx,
      Split, front, Expand, setParent, BPlusNode.new]

theorem bpt_third_set_splits_witness :
    (1 : Nat) < 2 ∧ (2 : Nat) < 3 ∧
    Set (⟨[⟨true, [1, 2], [10, 20], [], none, none⟩], 0, 0, 3⟩ : BPlusTree Nat Nat) 3 30 =
      .ok (true, tree123) :=
  ⟨by decide, by decide,
    (bpt_third_set_splits 1 2 3 10 20 30 (by decide) (by decide)).2.2⟩

end BPT

namespace BPT
variable {K V : Type}

/-! ### Single nodes: `Split` of a leaf, `Insert` into a leaf, node sizes -/

/-- C32: `Split` of a leaf with `n` keys and `n` records leaves the first
`n / 2` keys and records in the leaf and returns a new leaf (the node
allocated by the call) with the remaining keys and records in the same
order, so that old half followed by new half is the former content; the new
leaf takes over the `next` link of the leaf, and the `next` link of the leaf
becomes the new leaf. -/
theorem bpt_split_leaf (heap : List (BPlusNode K V)) (self : Nat) (s : BPlusNode K V)
    (hs : heap[self]? = some s) (hl : s.isLeaf = true)
    (hv : s.values.length = s.keys.length) :
    ∃ heap2 low high, Split heap self = .ok (heap2, heap.length) ∧
      heap2[self]? = some low ∧ heap2[heap.length]? = some high ∧
      low.keys = s.keys.take (s.keys.length / 2) ∧
      low.values = s.values.take (s.keys.length / 2) ∧
      low.keys.length = s.keys.length / 2 ∧ low.values.length = s.keys.length / 2 ∧
      high.isLeaf = true ∧
      high.keys = s.keys.drop (s.keys.length / 2) ∧
      high.values = s.values.drop (s.keys.length / 2) ∧
      low.keys ++ high.keys = s.keys ∧ low.values ++ high.values = s.values ∧
      high.next = s.next ∧ low.next = some heap.length ∧
      ∀ x, x ≠ self → x < heap.length → heap2[x]? = heap[x]? := by
  have hlt : self < heap.length := (List.getElem?_eq_some.1 hs).1
  have hs2 : (heap ++ [(⟨true, s.keys.drop (s.keys.length / 2),
      s.values.drop (s.keys.length / 2), [], none, s.next⟩ : BPlusNode K V)])[self]? = some s := by
    rw [List.getElem?_append_left hlt]
    exact hs
  refine ⟨_, { s with keys := s.keys.take (s.keys.length / 2), values := s.values.take (s.keys.length / 2), next := some heap.length },
    ⟨true, s.keys.drop (s.keys.length / 2), s.values.drop (s.keys.length / 2), [], none, s.next⟩,
    split_leaf_ok heap self s hs hl, store_get_self _ _ _ _ hs2, ?_, rfl, rfl, ?_,
    ?_, rfl, rfl, rfl, ?_, ?_, rfl, rfl, ?_⟩
  · rw [store_get_ne _ _ _ _ (Nat.ne_of_lt hlt), getElem?_append_length]
    rfl
  · simp only [List.length_take]
    omega
  · simp only [List.length_take]
    omega
  · exact List.take_append_drop _ _
  · exact List.take_append_drop _ _
  · intro x hx hxl
    rw [store_get_ne _ _ _ _ (Ne.symm hx), List.getElem?_append_left hxl]

theorem bpt_split_leaf_witness :
    ∃ heap2 low high,
      Split [(⟨true, [1, 2, 3], [10, 20, 30], [], none, some 7⟩ : BPlusNode Nat Nat)] 0 =
        .ok (heap2, 1) ∧
      heap2[0]? = some low ∧ heap2[1]? = some high ∧
      low.keys = [1] ∧ high.keys = [2, 3] ∧ low.values = [10] ∧ high.values = [20, 30] ∧
      high.next = some 7 ∧ low.next = some 1 := by
  obtain ⟨heap2, low, high, h1, h2, h3, h4, h5, _, _, _, h9, h10, _, _, h13, h14, _⟩ :=
    bpt_split_leaf [(⟨true, [1, 2, 3], [10, 20, 30], [], none, some 7⟩ : BPlusNode Nat Nat)] 0 _
      rfl rfl rfl
  exact ⟨heap2, low, high, h1, h2, h3, h4, h9, h5, h10, h13, h14⟩

/-- C35: in a tree of degree at least 3 built from the empty tree by `Set`
operations every node, leaf or internal, holds fewer than `degree` keys; and
every further `Set` returns, with a tree of which the same holds. -/
theorem bpt_nodes_below_degree [LinearOrder K] (degree : Nat) (hd : 3 ≤ degree)
    (t : BPlusTree K V) (hb : BuiltBySet degree t) :
    (∀ (x : Nat) (n : BPlusNode K V), t.heap[x]? = some n → n.keys.length < degree) ∧
    ∀ (key : K) (value : V), ∃ b t2, Set t key value = .ok (b, t2) ∧
      ∀ (x : Nat) (n : BPlusNode K V), t2.heap[x]? = some n → n.keys.length < degree := by
  obtain ⟨⟨g, hg⟩, hdeg⟩ := built_good degree hd t hb
  have small : ∀ (t : BPlusTree K V) (g : Ghost K), Good t g [] → t.degree = degree →
      ∀ (x : Nat) (n : BPlusNode K V), t.heap[x]? = some n → n.keys.length < degree := by
    intro t g hg hdeg x n hx
    have := ((hg.node x n hx).1).small
    unfold ekeys at this
    rw [if_neg (List.not_mem_nil _), hdeg] at this
    exact this
  refine ⟨small t g hg hdeg, ?_⟩
  intro key value
  obtain ⟨b, t2, h1, ⟨g2, hg2⟩, hdeg2, _⟩ := set_spec t g hg key value
  exact ⟨b, t2, h1, small t2 g2 hg2 (hdeg2.trans hdeg)⟩

theorem bpt_nodes_below_degree_witness :
    3 ≤ 4 ∧ BuiltBySet 4 treeSix ∧
      ∀ (x : Nat) (n : BPlusNode Nat Nat), treeSix.heap[x]? = some n → n.keys.length < 4 :=
  ⟨by decide, treeSix_built, (bpt_nodes_below_degree 4 (by decide) treeSix treeSix_built).1⟩

/-- The position of a key of a strictly ascending vector. -/
theorem lowerBound_mid [LinearOrder K] (A B : List K) (k : K)
    (hs : (A ++ k :: B).Pairwise (fun a b => a < b)) : lowerBound (A ++ k :: B) k = A.length :=
  lowerBound_eq_of_get _ k A.length hs (by rw [getElem?_append_length]; rfl)

/-- C37: `Insert(key, value)` on a leaf with strictly ascending keys and as
many records.  For a key the leaf holds it returns false and the leaf is as
before; else it returns true, the keys are strictly ascending again and are
the old keys and the new key, there is one key and one record more, and
`GetValue` returns the new record for the new key and the same record as
before for every old key. -/
theorem bpt_leaf_insert [LinearOrder K] (n : BPlusNode K V) (key : K) (value : V)
    (hs : n.keys.Pairwise (fun a b => a < b)) (hv : n.values.length = n.keys.length) :
    (key ∈ n.keys → n.InsertValue key value = (false, n)) ∧
    (key ∉ n.keys →
      (n.InsertValue key value).1 = true ∧
      (n.InsertValue key value).2.keys.Pairwise (fun a b => a < b) ∧
      (∀ k, k ∈ (n.InsertValue key value).2.keys ↔ k = key ∨ k ∈ n.keys) ∧
      (n.InsertValue key value).2.keys.length = n.keys.length + 1 ∧
      (n.InsertValue key value).2.values.length = n.values.length + 1 ∧
      (n.InsertValue key value).2.GetValue key = .ok value ∧
      ∀ k, k ∈ n.keys → (n.InsertValue key value).2.GetValue k = n.GetValue k) := by
  constructor
  · intro hk
    unfold BPlusNode.InsertValue
    simp only
    rw [if_pos ((lowerBound_get_iff_mem n.keys key hs).2 hk)]
  · intro hk
    obtain ⟨A, B, VA, VB, hkeys, hvals, hlen, hA, hB, hres⟩ := insertValue_new n key value hs hv hk
    have hfst : (n.InsertValue key value).1 = true := by
      unfold BPlusNode.InsertValue
      simp only
      rw [if_neg (fun h => hk ((lowerBound_get_iff_mem n.keys key hs).1 h))]
    have hsorted : (A ++ key :: B).Pairwise (fun a b => a < b) := by
      rw [hkeys, List.pairwise_append] at hs
      rw [List.pairwise_append, List.pairwise_cons]
      refine ⟨hs.1, ⟨hB, hs.2.1⟩, ?_⟩
      intro a ha b hb
      rcases List.mem_cons.1 hb with e | hb
      · rw [e]
        exact hA a ha
      · exact hs.2.2 a ha b hb
    have hlenV : VB.length = B.length := by
      have := hv
      rw [hkeys, hvals, List.length_append, List.length_append] at this
      omega
    rw [hres]
    refine ⟨hfst, hsorted, ?_, ?_, ?_, ?_, ?_⟩
    · intro k
      simp only [hkeys, List.mem_append, List.mem_cons]
      tauto
    · simp only [hkeys, List.length_append, List.length_cons]
      omega
    · simp only [hvals, List.length_append, List.length_cons]
      omega
    · unfold BPlusNode.GetValue index
      simp only
      rw [lowerBound_mid A B key hsorted, ← hlen, getElem?_append_length]
      rfl
    · intro k hkm
      unfold BPlusNode.GetValue index
      simp only
      rw [hkeys] at hkm hs
      rw [hkeys, hvals]
      rcases List.mem_append.1 hkm with hka | hkb
      · obtain ⟨i, hi, hget⟩ := List.getElem_of_mem hka
        have h1 : (A ++ key :: B)[i]? = some k := by
          rw [List.getElem?_append_left hi, List.getElem?_eq_getElem hi, hget]
        have h2 : (A ++ B)[i]? = some k := by
          rw [List.getElem?_append_left hi, List.getElem?_eq_getElem hi, hget]
        rw [lowerBound_eq_of_get _ k i hsorted h1, lowerBound_eq_of_get _ k i hs h2,
          List.getElem?_append_left (by omega), List.getElem?_append_left (by omega)]
      · obtain ⟨j, hj, hget⟩ := List.getElem_of_mem hkb
        have h1 : (A ++ key :: B)[A.length + (j + 1)]? = some k := by
          rw [List.getElem?_append_right (by omega)]
          simp only [Nat.add_sub_cancel_left, List.getElem?_cons_succ]
          rw [List.getElem?_eq_getElem hj, hget]
        have h2 : (A ++ B)[A.length + j]? = some k := by
          rw [List.getElem?_append_right (by omega)]
          simp only [Nat.add_sub_cancel_left]
          rw [List.getElem?_eq_getElem hj, hget]
        rw [lowerBound_eq_of_get _ k _ hsorted h1, lowerBound_eq_of_get _ k _ hs h2,
          List.getElem?_append_right (by omega), List.getElem?_append_right (by omega)]
        simp only [← hlen, Nat.add_sub_cancel_left, List.getElem?_cons_succ]

theorem bpt_leaf_insert_witness :
    ((⟨true, [1, 3], [10, 30], [], none, none⟩ : BPlusNode Nat Nat).InsertValue 2 20).2 =
      ⟨true, [1, 2, 3], [10, 20, 30], [], none, none⟩ ∧
    ((⟨true, [1, 3], [10, 30], [], none, none⟩ : BPlusNode Nat Nat).InsertValue 2 20).2.GetValue 2
      = .ok 20 :=
  ⟨rfl, ((bpt_leaf_insert (⟨true, [1, 3], [10, 30], [], none, none⟩ : BPlusNode Nat Nat) 2 20
    (by decide) rfl).2 (by decide)).2.2.2.2.2.1⟩

end BPT

namespace BPT
variable {K V : Type}

/-! ### `Del`: redistribution, positions of children, reads outside a vector -/

theorem setAll_seven : setAll 4 [10, 20, 30, 40, 5, 15, 35] = .ok treeSeven := by rfl

theorem setAll_pair : setAll 4 [10, 20, 30, 40] = .ok treePair := by rfl

/-- C34: the degree-4 tree after `Set` of 10, 20, 30, 40, 5, 15, 35, with the
nodes at addresses that descend in the order of allocation.  `Del 20` leaves
the leaf `[15]` (node 3) below the minimum of two entries; its left sibling
`[5, 10]` has no surplus, its right sibling `[30, 35, 40]` (node 1) has, and
the entry 30 moves into the leaf.  `Redistribute` looks the leaf up among
the children of the parent by `std::lower_bound` over the node addresses,
gets position 0 instead of 1, and writes the new first key 35 of the right
sibling over the separator in front of the leaf: the separator between the
two leaves stays 30, the keys of the parent are `[35, 30]`, and `Get 15`
no longer finds the record that is still in the leaf. -/
theorem bpt_redistribute_wrong_separator :
    setAll 4 [10, 20, 30, 40, 5, 15, 35] = .ok treeSeven ∧
    Get treeSeven 15 = .ok (some 150) ∧
    ∃ t2, Del descending treeSeven 20 = .ok (true, t2) ∧
      t2.heap[3]? = some ⟨true, [15, 30], [150, 300], [], some 2, some 1⟩ ∧
      t2.heap[1]? = some ⟨true, [35, 40], [350, 400], [], some 2, none⟩ ∧
      t2.heap[2]? = some ⟨false, [35, 30], [], [0, 3, 1], none, none⟩ ∧
      Get t2 15 = .ok none :=
  ⟨by rfl, by rfl, _, by rfl, by rfl, by rfl, by rfl, by rfl⟩

/-- C39: the degree-4 tree after `Set` of 10, 20, 30, 40, 5, 15, with the
nodes at ascending addresses in the order of allocation.  The children of
the root are the nodes 0, 3, 1 in this order; the lower bound of node 1
among them by address is position 1, where node 3 stands, while node 1 is
at position 2.  `Merge` of the leaf `[30]` (node 1, after `Remove` of 40)
into its left sibling (node 3) therefore takes node 3 and the separator 15
out of the parent, not node 1 and the separator 30.  With descending
addresses the lower bound of node 3 is position 0 instead of 1. -/
theorem bpt_child_position_wrong :
    BuiltBySet 4 treeSix ∧
    treeSix.heap[2]? = some ⟨false, [15, 30], [], [0, 3, 1], none, none⟩ ∧
    ptrLowerBound id [0, 3, 1] 1 = .ok 1 ∧
    [0, 3, 1].indexOf 1 = 2 ∧
    (∃ heap2, Merge id (store treeSix.heap 1 ⟨true, [30], [300], [], some 2, none⟩) 3 1
        = .ok heap2 ∧
      heap2[2]? = some ⟨false, [30], [], [0, 1], none, none⟩) ∧
    ptrLowerBound descending [0, 3, 1] 3 = .ok 0 ∧ [0, 3, 1].indexOf 3 = 1 :=
  ⟨treeSix_built, by rfl, by rfl, by decide, ⟨_, by rfl, by rfl⟩, by rfl, by decide⟩

/-- C38: `Del` reads outside a key vector on trees reached by `Set` and `Del`
operations.  On the degree-3 tree after `Set` of 1, 2, 3, 4 and `Del` of 4,
`Del 3` empties the leaf `[3]` and `Adjacents` reads `front()` of its empty
key vector, for every placement of the nodes in memory.  On the degree-4
tree after `Set` of 10, 20, 30, 40, with descending addresses, `Del 30`
merges the leaf `[40]` into its left sibling; `Merge` gets position 0 for
the leaf and erases the key of the parent at position `0 - 1`. -/
theorem bpt_del_reads_outside (addr : Nat → Nat) :
    (∃ t, setAll 3 [1, 2, 3, 4] = .ok t ∧ Del addr t 4 = .ok (true, treeFour)) ∧
    Exists treeFour 3 = .ok true ∧
    Del addr treeFour 3 = .error Fault.frontOfEmpty ∧
    setAll 4 [10, 20, 30, 40] = .ok treePair ∧
    Exists treePair 30 = .ok true ∧
    Del descending treePair 30 = .error Fault.outOfRange :=
  ⟨⟨_, by rfl, by rfl⟩, by rfl, by rfl, by rfl, by rfl, by rfl⟩

end BPT

namespace BPT
variable {K V : Type}

/-! ### The split of an internal node -/

section InternalSplit
variable [LinearOrder K]

omit [LinearOrder K] in
theorem halves_mono (degree base base2 : Nat) (heap2 : List (BPlusNode K V)) (k : List K)
    (cs : List Nat) (n2 : BPlusNode K V) (N : Nat) (up : K) (hb : base2 ≤ base)
    (h : Halves degree base heap2 k cs n2 N up) : Halves degree base2 heap2 k cs n2 N up := by
  obtain ⟨h1, h2, h3, h4, h5, h6, h7⟩ := h
  exact ⟨h1, h2, h3, h4, h5, le_trans hb h6, h7⟩

omit [LinearOrder K] in
/-- A later assignment to the keys of an older node does not touch what the
split of a node left behind. -/
theorem halves_store (degree base : Nat) (heap2 : List (BPlusNode K V)) (k : List K)
    (cs : List Nat) (n2 : BPlusNode K V) (N : Nat) (up : K) (M : Nat) (m m2 : BPlusNode K V)
    (hm : heap2[M]? = some m) (hpar : m2.parent = m.parent) (hM : M < base)
    (h : Halves degree base heap2 k cs n2 N up) :
    Halves degree base (store heap2 M m2) k cs n2 N up := by
  obtain ⟨h1, h2, h3, h4, h5, h6, high, h7, h8, h9, h10, h11, h12⟩ := h
  refine ⟨h1, h2, h3, h4, h5, h6, high, ?_, h8, h9, h10, h11, ?_⟩
  · rw [store_get_ne _ _ _ _ (by omega)]
    exact h7
  · intro ch hch
    obtain ⟨cn, hcn, hcp⟩ := h12 ch hch
    by_cases e : ch = M
    · subst e
      rw [hm] at hcn
      cases hcn
      exact ⟨m2, store_get_self _ _ _ _ hm, hpar.trans hcp⟩
    · exact ⟨cn, by rw [store_get_ne _ _ _ _ (Ne.symm e)]; exact hcn, hcp⟩

omit [LinearOrder K] in
theorem took_mono (degree base base2 : Nat) (heap2 : List (BPlusNode K V))
    (n n2 : BPlusNode K V) (i : Nat) (sep : K) (c : Nat) (hb : base2 ≤ base)
    (h : Took degree base heap2 n n2 i sep c) : Took degree base2 heap2 n n2 i sep c := by
  rcases h with h | ⟨N, up, h⟩
  · exact Or.inl h
  · exact Or.inr ⟨N, up, halves_mono _ _ _ _ _ _ _ _ _ hb h⟩

omit [LinearOrder K] in
theorem took_store (degree base : Nat) (heap2 : List (BPlusNode K V))
    (n n2 : BPlusNode K V) (i : Nat) (sep : K) (c : Nat) (M : Nat) (m m2 : BPlusNode K V)
    (hm : heap2[M]? = some m) (hpar : m2.parent = m.parent) (hM : M < base)
    (h : Took degree base heap2 n n2 i sep c) :
    Took degree base (store heap2 M m2) n n2 i sep c := by
  rcases h with h | ⟨N, up, h⟩
  · exact Or.inl h
  · exact Or.inr ⟨N, up, halves_store _ _ _ _ _ _ _ _ _ _ _ hm hpar hM h⟩

omit [LinearOrder K] in
theorem movedUp_mono (degree base base2 root : Nat) (heap : List (BPlusNode K V)) (root2 : Nat)
    (heap2 : List (BPlusNode K V)) (x N : Nat) (up : K) (hb : base2 ≤ base)
    (h : MovedUp degree base root heap root2 heap2 x N up) :
    MovedUp degree base2 root heap root2 heap2 x N up := by
  rcases h with ⟨h1, h2, h3⟩ | ⟨hne, xn, p, pn, pn2, j, h1, h2, h3, h4, h5, h6, h7, h8⟩
  · exact Or.inl ⟨h1, le_trans hb h2, h3⟩
  · exact Or.inr ⟨hne, xn, p, pn, pn2, j, h1, h2, h3, h4, h5, h6, h7,
      took_mono _ _ _ _ _ _ _ _ _ hb h8⟩

omit [LinearOrder K] in
theorem movedUp_store (degree base root : Nat) (heap : List (BPlusNode K V)) (root2 : Nat)
    (heap2 : List (BPlusNode K V)) (x N : Nat) (up : K) (M : Nat) (m m2 : BPlusNode K V)
    (hm : heap2[M]? = some m) (hpar : m2.parent = m.parent) (hM : M < base)
    (hlen : heap.length ≤ M) (h : MovedUp degree base root heap root2 heap2 x N up) :
    MovedUp degree base root heap root2 (store heap2 M m2) x N up := by
  rcases h with ⟨h1, h2, r, h3, h4⟩ | ⟨hne, xn, p, pn, pn2, j, h1, h2, h3, h4, h5, h6, h7, h8⟩
  · refine Or.inl ⟨h1, h2, r, ?_, h4⟩
    rw [store_get_ne _ _ _ _ (by omega)]
    exact h3
  · have hplt : p < heap.length := (List.getElem?_eq_some.1 h3).1
    refine Or.inr ⟨hne, xn, p, pn, pn2, j, h1, h2, h3, h4, h5, ?_, h7,
      took_store _ _ _ _ _ _ _ _ _ _ _ hm hpar hM h8⟩
    rw [store_get_ne _ _ _ _ (by omega)]
    exact h6

omit [LinearOrder K] in
/-- The fate of the key that moved up, read against another heap in which
the node and its parent are the same. -/
theorem movedUp_heap (degree base root : Nat) (heapA heap : List (BPlusNode K V)) (root2 : Nat)
    (heap2 : List (BPlusNode K V)) (x N : Nat) (up : K)
    (hx : ∀ xn, heapA[x]? = some xn → ∃ xn0, heap[x]? = some xn0 ∧ xn0.parent = xn.parent)
    (hp : ∀ xn p pn, heapA[x]? = some xn → xn.parent = some p → heapA[p]? = some pn →
      x ∈ pn.children → heap[p]? = some pn)
    (h : MovedUp degree base root heapA root2 heap2 x N up) :
    MovedUp degree base root heap root2 heap2 x N up := by
  rcases h with h | ⟨hne, xn, p, pn, pn2, j, h1, h2, h3, h4, h5, h6, h7, h8⟩
  · exact Or.inl h
  · obtain ⟨xn0, e1, e2⟩ := hx xn h1
    exact Or.inr ⟨hne, xn0, p, pn, pn2, j, e1, e2.trans h2,
      hp xn p pn h1 h2 h3 (List.mem_iff_getElem?.2 ⟨_, h5⟩), h4, h5, h6, h7, h8⟩

omit [LinearOrder K] in
theorem nodeStep_congr (degree base root : Nat) (heap : List (BPlusNode K V)) (root2 : Nat)
    (heap2 : List (BPlusNode K V)) (x : Nat) (n m n2 : BPlusNode K V) (hk : n.keys = m.keys)
    (hc : n.children = m.children) (h : NodeStep degree base root heap root2 heap2 x n n2) :
    NodeStep degree base root heap root2 heap2 x m n2 := by
  unfold NodeStep SplitStep at h ⊢
  rw [hk, hc] at h
  exact h

omit [LinearOrder K] in
theorem nodeStep_mono (degree base base2 root : Nat) (heap : List (BPlusNode K V)) (root2 : Nat)
    (heap2 : List (BPlusNode K V)) (x : Nat) (n n2 : BPlusNode K V) (hb : base2 ≤ base)
    (h : NodeStep degree base root heap root2 heap2 x n n2) :
    NodeStep degree base2 root heap root2 heap2 x n n2 := by
  rcases h with h | h | ⟨i, sep, c, N, up, h1, h2⟩
  · exact Or.inl h
  · exact Or.inr (Or.inl h)
  · exact Or.inr (Or.inr ⟨i, sep, c, N, up, halves_mono _ _ _ _ _ _ _ _ _ hb h1,
      movedUp_mono _ _ _ _ _ _ _ _ _ _ hb h2⟩)

omit [LinearOrder K] in
theorem nodeStep_store (degree base root : Nat) (heap : List (BPlusNode K V)) (root2 : Nat)
    (heap2 : List (BPlusNode K V)) (x : Nat) (n n2 : BPlusNode K V) (M : Nat)
    (m m2 : BPlusNode K V) (hm : heap2[M]? = some m) (hpar : m2.parent = m.parent)
    (hM : M < base) (hlen : heap.length ≤ M)
    (h : NodeStep degree base root heap root2 heap2 x n n2) :
    NodeStep degree base root heap root2 (store heap2 M m2) x n n2 := by
  rcases h with h | h | ⟨i, sep, c, N, up, h1, h2⟩
  · exact Or.inl h
  · exact Or.inr (Or.inl h)
  · exact Or.inr (Or.inr ⟨i, sep, c, N, up, halves_store _ _ _ _ _ _ _ _ _ _ _ hm hpar hM h1,
      movedUp_store _ _ _ _ _ _ _ _ _ _ _ _ hm hpar hM hlen h2⟩)

omit [LinearOrder K] in
theorem nodeStep_heap (degree base root : Nat) (heapA heap : List (BPlusNode K V)) (root2 : Nat)
    (heap2 : List (BPlusNode K V)) (x : Nat) (n n2 : BPlusNode K V)
    (hx : ∀ xn, heapA[x]? = some xn → ∃ xn0, heap[x]? = some xn0 ∧ xn0.parent = xn.parent)
    (hp : ∀ xn p pn, heapA[x]? = some xn → xn.parent = some p → heapA[p]? = some pn →
      x ∈ pn.children → heap[p]? = some pn)
    (h : NodeStep degree base root heapA root2 heap2 x n n2) :
    NodeStep degree base root heap root2 heap2 x n n2 := by
  rcases h with h | h | ⟨i, sep, c, N, up, h1, h2⟩
  · exact Or.inl h
  · exact Or.inr (Or.inl h)
  · exact Or.inr (Or.inr ⟨i, sep, c, N, up, h1, movedUp_heap _ _ _ _ _ _ _ _ _ _ hx hp h2⟩)

/-- The split child is the child of its parent at the position the key that
moves up is inserted at. -/
theorem chain_left_at (P : Option K → Nat → Option K → Prop) (lo : Option K) (ks : List K)
    (cs : List Nat) (hi : Option K) (h : Chain P lo ks cs hi)
    (hs : ks.Pairwise (fun a b => a < b)) (left : Nat) (key : K) (lL HI : Option K)
    (hmem : left ∈ cs) (huniq : ∀ l h, P l left h → l = lL ∧ h = HI)
    (hlo : ∀ a, lL = some a → a < key) (hhi : LtHi key HI) :
    cs[lowerBound ks key]? = some left := by
  induction ks generalizing lo cs with
  | nil =>
    match cs, h with
    | [c0], h =>
      simp only [List.mem_singleton] at hmem
      subst hmem
      rfl
  | cons k ks ih =>
    match cs, h with
    | c0 :: cs, h =>
      simp only [Chain] at h
      have hs' := List.pairwise_cons.1 hs
      have in_tail : left ∈ cs → k < key := by
        intro hc'
        obtain ⟨l, h', a, hp, hl, hle⟩ := chain_mem_ge P k ks cs hi h.2 hs left hc'
        have := (huniq l h' hp).1
        exact lt_of_le_of_lt hle (hlo a (by rw [← this, hl]))
      by_cases hc0 : c0 = left
      · subst hc0
        obtain ⟨e1, e2⟩ := huniq _ _ h.1
        have hk : key < k := hhi k e2.symm
        rw [lowerBound_cons, if_neg (not_lt.2 (le_of_lt hk))]
        simp
      · have hmem' : left ∈ cs := by
          rcases List.mem_cons.1 hmem with e | e
          · exact absurd e.symm hc0
          · exact e
        have hk : k < key := in_tail hmem'
        rw [lowerBound_cons, if_pos hk]
        simpa using ih (some k) cs h.2 hs'.2 hmem'

/-- On entry to `Expand`, the split node `left` is the child of its parent at
the lower bound of the key that moves up. -/
theorem pend_left_at (t : BPlusTree K V) (g : Ghost K) (X : List Nat) (left right : Nat)
    (key : K) (HI : Option K) (hp : Pend t g X left right key HI) (hroot : left ≠ t.root)
    (p : Nat) (ln pn : BPlusNode K V) (hln : t.heap[left]? = some ln)
    (hpar : ln.parent = some p) (hpn : t.heap[p]? = some pn) :
    pn.children[lowerBound pn.keys key]? = some left := by
  obtain ⟨rn, hrn, hnokR, _⟩ := hp.rightOK
  have hlinkL := (hp.node left ln hln hp.ne).2.2 hroot
  have hmem : left ∈ pn.children := by
    obtain ⟨⟨p', pn', h1, h2, h3⟩, _⟩ := hlinkL
    rw [hpar] at h1
    cases h1
    rw [hpn] at h2
    cases h2
    exact h3
  have hnokP : NodeOK t g X (some (left, HI)) p pn := by
    by_cases e : p = right
    · rw [e, hrn] at hpn
      cases hpn
      rw [e]
      exact hnokR
    · exact (hp.node p pn hpn e).1
  obtain ⟨hp0, lL, hL, hchL⟩ := child_of_nodeOK t g X _ p pn hnokP left hmem
  have hhtp : g.ht p = g.ht left + 1 := by
    obtain ⟨_, _, _, h, _⟩ := hchL
    exact h.symm
  have hpX : p ∉ X := by
    intro h
    have := hp.below p h
    omega
  have hekP : ekeys X p pn = pn.keys := by
    unfold ekeys
    rw [if_neg hpX]
  have hsP := hnokP.sorted
  rw [hekP] at hsP
  have hchain := (hnokP.inner hp0).2
  rw [hekP] at hchain
  have huniq : ∀ l h, ChildOK t.heap g (some (left, HI)) p l left h → l = g.lo left ∧ h = HI := by
    intro l h hch
    obtain ⟨_, _, _, _, h1, h2⟩ := hch
    simp only [hiSeen, if_true] at h2
    exact ⟨h1.symm, h2.symm⟩
  exact chain_left_at _ _ _ _ _ hchain hsP left key (g.lo left) HI hmem huniq hp.loL hp.keyHI

/-- The key at a position of a strictly ascending vector is neither in front
of the position nor behind it. -/
theorem get_not_mem_halves (k : List K) (m : Nat) (up : K)
    (hs : k.Pairwise (fun a b => a < b)) (hup : k[m]? = some up) :
    up ∉ k.take m ∧ up ∉ k.drop (m + 1) := by
  have hsplit : k = k.take m ++ up :: k.drop (m + 1) := by
    rw [← drop_eq_cons_of_get k m up hup, List.take_append_drop]
  rw [hsplit, List.pairwise_append, List.pairwise_cons] at hs
  constructor
  · intro h
    exact lt_irrefl _ (hs.2.2 up h up (List.mem_cons_self _ _))
  · intro h
    exact lt_irrefl _ (hs.2.1.1 up h)

omit [LinearOrder K] in
theorem mem_halves (k : List K) (m : Nat) (up key : K) (hup : k[m]? = some up)
    (hk : key ∈ k) : key ∈ k.take m ∨ key = up ∨ key ∈ k.drop (m + 1) := by
  have hsplit : k = k.take m ++ up :: k.drop (m + 1) := by
    rw [← drop_eq_cons_of_get k m up hup, List.take_append_drop]
  rw [hsplit, List.mem_append, List.mem_cons] at hk
  exact hk

omit [LinearOrder K] in
theorem eraseIdx_zero_drop (k : List K) (m : Nat) : (k.drop m).eraseIdx 0 = k.drop (m + 1) := by
  rw [List.eraseIdx_zero, List.tail_drop]

/-- What `Expand` leaves behind, node by node: the nodes below the level of
`left` are untouched; the nodes of that level keep keys and children; every
node above has kept its keys and children, or taken one key and child, or
been split; and the key handed to `Expand` went into the parent of `left`
or into a new root. -/
theorem expand_shape (fuel : Nat) : ∀ (t : BPlusTree K V) (g : Ghost K) (X : List Nat)
    (left right : Nat) (key : K) (HI : Option K), Pend t g X left right key HI →
    g.ht t.root - g.ht left < fuel →
    ∀ t2, Expand fuel t left right key = .ok t2 →
      (∀ (x : Nat) (n : BPlusNode K V), t.heap[x]? = some n → g.ht x < g.ht left →
        t2.heap[x]? = some n) ∧
      (∀ (x : Nat) (n : BPlusNode K V), t.heap[x]? = some n → g.ht x ≤ g.ht left →
        ∃ n2, t2.heap[x]? = some n2 ∧ n2.keys = n.keys ∧ n2.children = n.children ∧
          n2.isLeaf = n.isLeaf) ∧
      (∀ (x : Nat) (n : BPlusNode K V), t.heap[x]? = some n → g.ht left < g.ht x →
        ∃ n2, t2.heap[x]? = some n2 ∧ n2.isLeaf = n.isLeaf ∧
          NodeStep t.degree t.heap.length t.root t.heap t2.root t2.heap x n n2) ∧
      MovedUp t.degree t.heap.length t.root t.heap t2.root t2.heap left right key := by
  induction fuel with
  | zero =>
    intro t g X left right key HI _ h
    omega
  | succ fuel ih =>
    intro t g X left right key HI hp hfuel t2 hE2
    obtain ⟨ln, hln, hoccL⟩ := hp.leftOK
    obtain ⟨rn, hrn, hnokR, hoccR⟩ := hp.rightOK
    have hLlt : left < t.heap.length := (List.getElem?_eq_some.1 hln).1
    have hRlt : right < t.heap.length := (List.getElem?_eq_some.1 hrn).1
    have hts := hp.hts
    by_cases hroot : left = t.root
    · have e1 : (t.heap ++ [(BPlusNode.new false : BPlusNode K V)])[left]? = some ln := by
        rw [List.getElem?_append_left hLlt]
        exact hln
      have e2 : (store (t.heap ++ [(BPlusNode.new false : BPlusNode K V)]) left
          { ln with parent := some t.heap.length })[right]? = some rn := by
        rw [store_get_ne _ _ _ _ hp.ne, List.getElem?_append_left hRlt]
        exact hrn
      have e3 : (store (store (t.heap ++ [(BPlusNode.new false : BPlusNode K V)]) left
          { ln with parent := some t.heap.length }) right
          { rn with parent := some t.heap.length })[t.heap.length]? =
          some (BPlusNode.new false) := by
        rw [store_get_ne _ _ _ _ (Nat.ne_of_lt hRlt), store_get_ne _ _ _ _ (Nat.ne_of_lt hLlt),
          getElem?_append_length]
        rfl
      obtain ⟨rootNode, hrootNode⟩ : ∃ rootNode : BPlusNode K V, rootNode =
          { (BPlusNode.new false : BPlusNode K V) with
            children := [left, right], keys := [key] } := ⟨_, rfl⟩
      obtain ⟨heap', hheap'⟩ : ∃ heap' : List (BPlusNode K V), heap' =
          store (store (store (t.heap ++ [(BPlusNode.new false : BPlusNode K V)]) left
          { ln with parent := some t.heap.length }) right
          { rn with parent := some t.heap.length }) t.heap.length rootNode := ⟨_, rfl⟩
      have hR : heap'[t.heap.length]? = some rootNode := by
        rw [hheap']
        exact store_get_self _ _ _ _ e3
      have hget : ∀ (x : Nat) (n : BPlusNode K V), t.heap[x]? = some n → heap'[x]? =
          some (if x = left ∨ x = right then { n with parent := some t.heap.length }
            else n) := by
        intro x n hx
        have hxlt : x < t.heap.length := (List.getElem?_eq_some.1 hx).1
        rw [hheap', store_get_ne _ _ _ _ (Ne.symm (Nat.ne_of_lt hxlt))]
        by_cases e : x = right
        · subst e
          rw [hrn] at hx
          cases hx
          rw [store_get_self _ _ _ _ e2, if_pos (Or.inr rfl)]
        · rw [store_get_ne _ _ _ _ (Ne.symm e)]
          by_cases e' : x = left
          · subst e'
            rw [hln] at hx
            cases hx
            rw [store_get_self _ _ _ _ e1, if_pos (Or.inl rfl)]
          · rw [store_get_ne _ _ _ _ (Ne.symm e'), List.getElem?_append_left hxlt, hx,
              if_neg (by simp [e, e'])]
      have hcalc : Expand (fuel + 1) t left right key =
          .ok { t with heap := heap', root := t.heap.length } := by
        unfold Expand
        rw [if_pos hroot]
        simp only [setParent_ok _ _ _ _ e1, setParent_ok _ _ _ _ e2, deref_of_get _ _ _ e3, bind,
          Except.bind, pure, Except.pure]
        rw [hheap', hrootNode]
      rw [hcalc] at hE2
      injection hE2 with hE2
      subst hE2
      clear hheap'
      refine ⟨?_, ?_, ?_, ?_⟩
      · intro x n hx hlt
        show heap'[x]? = some n
        rw [hget x n hx, if_neg]
        rintro (e | e)
        · rw [e] at hlt
          exact lt_irrefl _ hlt
        · rw [e, hts] at hlt
          exact lt_irrefl _ hlt
      · intro x n hx _
        refine ⟨_, hget x n hx, ?_, ?_, ?_⟩ <;> split <;> rfl
      · intro x n hx _
        refine ⟨_, hget x n hx, by split <;> rfl, Or.inl ⟨?_, ?_⟩⟩ <;> split <;> rfl
      · exact Or.inl ⟨hroot, le_refl _, rootNode, hR, by rw [hrootNode]; rfl,
          by rw [hrootNode], by rw [hrootNode]⟩
    · obtain ⟨p, pn, hpar, hpn, hpR, hclen, hhtp, hple⟩ :=
        pend_parent t g X left right key HI hp hroot ln hln
      have hPlt : p < t.heap.length := (List.getElem?_eq_some.1 hpn).1
      have hidx := lowerBound_le_length pn.keys key
      have hidx1 : lowerBound pn.keys key + 1 ≤ pn.children.length := by omega
      obtain ⟨p1, hp1⟩ : ∃ p1 : BPlusNode K V, p1 =
          { pn with children := pn.children.insertIdx (lowerBound pn.keys key + 1) right,
                    keys := pn.keys.insertIdx (lowerBound pn.keys key) key } := ⟨_, rfl⟩
      obtain ⟨heap1, hheap1⟩ : ∃ heap1 : List (BPlusNode K V), heap1 =
          store (store t.heap right { rn with parent := some p }) p p1 := ⟨_, rfl⟩
      have hins : InsertChild t.heap p key right true = .ok heap1 := by
        rw [hheap1, hp1]
        exact insertChild_ok t.heap p right key pn rn hpn hrn hpR hidx1
      have hpr : (store t.heap right { rn with parent := some p })[p]? = some pn := by
        rw [store_get_ne _ _ _ _ (Ne.symm hpR)]
        exact hpn
      have hgetp : heap1[p]? = some p1 := by
        rw [hheap1]
        exact store_get_self _ _ _ _ hpr
      have hgetr : heap1[right]? = some { rn with parent := some p } := by
        rw [hheap1, store_get_ne _ _ _ _ hpR]
        exact store_get_self _ _ _ _ hrn
      have hget : ∀ x, x ≠ p → x ≠ right → heap1[x]? = t.heap[x]? := by
        intro x h1 h2
        rw [hheap1, store_get_ne _ _ _ _ (Ne.symm h1), store_get_ne _ _ _ _ (Ne.symm h2)]
      have hlen1 : heap1.length = t.heap.length := by
        rw [hheap1, store_length, store_length]
      have hp1k : p1.keys = pn.keys.insertIdx (lowerBound pn.keys key) key := by rw [hp1]
      have hp1c : p1.children = pn.children.insertIdx (lowerBound pn.keys key + 1) right := by
        rw [hp1]
      have hp1l : p1.isLeaf = pn.isLeaf := by rw [hp1]
      have hp1p : p1.parent = pn.parent := by rw [hp1]
      clear hheap1 hp1
      obtain ⟨hA, hB, hL, hpX, _, _, hst1⟩ := expand_insert t g X left right key HI hp hroot p
        ln pn rn hln hpar hpn hrn p1 hp1k hp1c hp1l hp1p heap1 hlen1 hgetp hgetr hget
      have hp0 : g.ht p ≠ 0 := by omega
      have hekP : ∀ n : BPlusNode K V, ekeys X p n = n.keys := by
        intro n
        unfold ekeys
        rw [if_neg hpX]
      have hBchain := (hB.inner hp0)
      have hp1leaf : p1.isLeaf = false := hBchain.1
      have hpnleaf : pn.isLeaf = false := hp1l.symm.trans hp1leaf
      have hleftAt := pend_left_at t g X left right key HI hp hroot p ln pn hln hpar hpn
      have hold1 : ∀ (x : Nat) (n : BPlusNode K V), t.heap[x]? = some n → x ≠ p →
          ∃ n1, heap1[x]? = some n1 ∧ n1.keys = n.keys ∧ n1.children = n.children ∧
            n1.isLeaf = n.isLeaf := by
        intro x n hx hxp
        by_cases e : x = right
        · subst e
          rw [hrn] at hx
          cases hx
          exact ⟨_, hgetr, rfl, rfl, rfl⟩
        · exact ⟨n, by rw [hget x hxp e]; exact hx, rfl, rfl, rfl⟩
      by_cases hsmall : p1.keys.length < t.degree
      · have hcalc : Expand (fuel + 1) t left right key = .ok { t with heap := heap1 } := by
          unfold Expand
          rw [if_neg hroot]
          simp only [deref_of_get _ _ _ hln, hpar, hins, deref_of_get _ _ _ hgetp, bind,
            Except.bind, pure, Except.pure]
          rw [if_pos hsmall]
        rw [hcalc] at hE2
        injection hE2 with hE2
        subst hE2
        refine ⟨?_, ?_, ?_, ?_⟩
        · intro x n hx hlt
          show heap1[x]? = some n
          rw [hget x (by intro e; rw [e] at hlt; omega) (by intro e; rw [e] at hlt; omega)]
          exact hx
        · intro x n hx hle
          exact hold1 x n hx (by intro e; rw [e] at hle; omega)
        · intro x n hx hlt
          by_cases e : x = p
          · rw [e, hpn] at hx
            injection hx with hx
            rw [e, ← hx]
            exact ⟨p1, hgetp, hp1l, Or.inr (Or.inl ⟨_, key, right, hp1k, hp1c, hsmall⟩)⟩
          · obtain ⟨n1, h1, h2, h3, h4⟩ := hold1 x n hx e
            exact ⟨n1, h1, h4, Or.inl ⟨h2, h3⟩⟩
        · exact Or.inr ⟨hroot, ln, p, pn, p1, _, hln, hpar, hpn, hpnleaf, hleftAt, hgetp,
            hp1leaf, Or.inl ⟨hp1k, hp1c, hsmall⟩⟩
      · have hBs := hB.small
        rw [hekP] at hBs
        have hfull : p1.keys.length = t.degree := by
          have : p1.keys.length < t.degree + 1 := hBs
          omega
        have hdeg := hp.deg
        have hsorted : p1.keys.Pairwise (fun a b => a < b) := by
          have := hB.sorted
          rw [hekP] at this
          exact this
        have hch : ∀ c ∈ p1.children, c < t.heap.length ∧ c ≠ p ∧ g.ht c + 1 = g.ht p ∧
            ∃ cn, heap1[c]? = some cn := by
          intro c hc
          obtain ⟨_, l, h, cn, h1, _, h3, _⟩ := child_of_nodeOK _ g X none p _ hB c hc
          refine ⟨by rw [← hlen1]; exact (List.getElem?_eq_some.1 h1).1, ?_, h3, cn, h1⟩
          intro e
          rw [e] at h3
          omega
        obtain ⟨heap2, hsplit, hlen2, hget2p, hget2N, hget2⟩ := split_internal_ok heap1 p p1
          hgetp hBchain.1 (fun c hc => by
            obtain ⟨h1, h2, _⟩ := hch c (List.mem_of_mem_drop hc)
            exact ⟨by rw [hlen1]; exact h1, h2⟩)
        rw [hfull] at hget2p hget2N hget2
        rw [hlen1] at hsplit hlen2 hget2N hget2
        obtain ⟨low, hlow⟩ : ∃ low : BPlusNode K V, low =
            { p1 with keys := p1.keys.take (t.degree / 2),
                      children := p1.children.take (t.degree / 2 + 1) } := ⟨_, rfl⟩
        obtain ⟨high, hhigh⟩ : ∃ high : BPlusNode K V, high =
            { isLeaf := false, keys := p1.keys.drop (t.degree / 2), values := [],
              children := p1.children.drop (t.degree / 2 + 1), parent := none,
              next := none } := ⟨_, rfl⟩
        rw [← hlow] at hget2p
        rw [← hhigh] at hget2N
        have hhighc : high.children = p1.children.drop (t.degree / 2 + 1) := by rw [hhigh]
        have hhighk : high.keys = p1.keys.drop (t.degree / 2) := by rw [hhigh]
        have hhighl : high.isLeaf = false := by rw [hhigh]
        have hlowk : low.keys = p1.keys.take (t.degree / 2) := by rw [hlow]
        have hlowc : low.children = p1.children.take (t.degree / 2 + 1) := by rw [hlow]
        have hlowl : low.isLeaf = false := by rw [hlow]; exact hBchain.1
        rw [← hhighc] at hget2
        have hmid : t.degree / 2 < p1.keys.length := by omega
        obtain ⟨up, hupdef⟩ : ∃ up : K, up = p1.keys[t.degree / 2] := ⟨_, rfl⟩
        have hup : p1.keys[t.degree / 2]? = some up := by
          rw [hupdef]
          exact List.getElem?_eq_getElem hmid
        obtain ⟨hpend, hst2⟩ := split_pend { t with heap := heap1 } g X p p1 hdeg
          (by rw [hlen1]; exact hp.rootIn) (by rw [hlen1]; exact hp.tall)
          (fun x hx => by rw [hlen1]; exact hp.inX x hx)
          (fun x hx => by have := hp.below x hx; omega) hgetp hA hB hL hp0 hfull _ hup low high
          hlowk hlowc hlowl (by rw [hlow]) hhighk hhighc hhighl heap2 (by rw [hlen2, hlen1])
          hget2p (by rw [hlen1]; exact hget2N) (by rw [hlen1]; exact hget2)
        replace hpend : Pend { t with heap := heap2 } (g.split p t.heap.length up)
            (t.heap.length :: X) p t.heap.length up (g.hi p) := by
          have := hpend
          simp only [hlen1] at this
          exact this
        have hfuel2 : (g.split p t.heap.length up).ht ({ t with heap := heap2 } : BPlusTree K V).root
            - (g.split p t.heap.length up).ht p < fuel := by
          simp only [Ghost.split, if_neg (Nat.ne_of_lt hp.rootIn), if_neg (Nat.ne_of_lt hPlt)]
          omega
        obtain ⟨t3, g3, hE, hG3, hst3, hdeg3⟩ := expand_spec fuel _ _ _ _ _ _ _ hpend hfuel2
        obtain ⟨I1, I2, I3, I4⟩ := ih _ _ _ _ _ _ _ hpend hfuel2 t3 hE
        have hNX : t.heap.length ∉ X := fun h => lt_irrefl _ (hp.inX _ h).1
        have hN3lt := (hG3.inX _ (List.mem_cons_self _ _)).1
        obtain ⟨n3, hn3def⟩ : ∃ n3 : BPlusNode K V, n3 = t3.heap[t.heap.length] := ⟨_, rfl⟩
        have hN3 : t3.heap[t.heap.length]? = some n3 := by
          rw [hn3def]
          exact List.getElem?_eq_getElem hN3lt
        have hfront : front high.keys = .ok up := by
          rw [hhighk]
          exact front_of_get _ _ _ hup
        have hcalc : Expand (fuel + 1) t left right key =
            .ok { t3 with heap := store t3.heap t.heap.length { n3 with keys := n3.keys.eraseIdx 0 } } := by
          unfold Expand
          rw [if_neg hroot]
          simp only [deref_of_get _ _ _ hln, hpar, hins, deref_of_get _ _ _ hgetp, bind,
            Except.bind, pure, Except.pure]
          rw [if_neg hsmall]
          simp only [hsplit, deref_of_get _ _ _ hget2N, hfront, hE, deref_of_get _ _ _ hN3]
        rw [hcalc] at hE2
        injection hE2 with hE2
        subst hE2
        have hht : ∀ x, x ≠ t.heap.length → (g.split p t.heap.length up).ht x = g.ht x := by
          intro x hx
          simp only [Ghost.split, if_neg hx]
        have hhtN : (g.split p t.heap.length up).ht t.heap.length = g.ht p := by
          simp only [Ghost.split, if_pos]
        have hhtp2 : (g.split p t.heap.length up).ht p = g.ht p := hht p (Nat.ne_of_lt hPlt)
        have hold2 : ∀ (x : Nat) (n : BPlusNode K V), t.heap[x]? = some n → x ≠ p →
            ∃ n2, heap2[x]? = some n2 ∧ n2.keys = n.keys ∧ n2.children = n.children ∧
              n2.isLeaf = n.isLeaf := by
          intro x n hx hxp
          obtain ⟨n1, h1, h2, h3, h4⟩ := hold1 x n hx hxp
          refine ⟨_, hget2 x n1 h1 hxp, ?_, ?_, ?_⟩
          · rw [← h2]
            split <;> rfl
          · rw [← h3]
            split <;> rfl
          · rw [← h4]
            split <;> rfl
        -- the two halves after the call
        obtain ⟨np, hnp, hnpk, hnpc, hnpl⟩ := I2 p low hget2p (le_refl _)
        obtain ⟨n3', hn3', hn3k, hn3c, hn3l⟩ := I2 t.heap.length high hget2N (by
          rw [hhtN, hhtp2])
        rw [hN3] at hn3'
        cases hn3'
        have hnpfin : (store t3.heap t.heap.length { n3 with keys := n3.keys.eraseIdx 0 })[p]?
            = some np := by
          rw [store_get_ne _ _ _ _ (Ne.symm (Nat.ne_of_lt hPlt))]
          exact hnp
        have hNfin : (store t3.heap t.heap.length { n3 with keys := n3.keys.eraseIdx 0 })[
            t.heap.length]? = some { n3 with keys := n3.keys.eraseIdx 0 } :=
          store_get_self _ _ _ _ hN3
        have hfink : ({ n3 with keys := n3.keys.eraseIdx 0 } : BPlusNode K V).keys =
            p1.keys.drop (t.degree / 2 + 1) := by
          show n3.keys.eraseIdx 0 = _
          rw [hn3k, hhighk, eraseIdx_zero_drop]
        obtain ⟨hnot1, hnot2⟩ := get_not_mem_halves p1.keys (t.degree / 2) up hsorted hup
        -- the nodes above the level of `p` are as they were when `p` was split
        have hold : ∀ (y : Nat) (yn : BPlusNode K V), heap2[y]? = some yn →
            NodeOK ({ t with heap := heap2 } : BPlusTree K V) (g.split p t.heap.length up)
              (t.heap.length :: X) (some (p, g.hi p)) y yn := by
          intro y yn hy
          by_cases e : y = t.heap.length
          · obtain ⟨rn', hrn', hnokR', _⟩ := hpend.rightOK
            have hrn2 : heap2[t.heap.length]? = some rn' := hrn'
            rw [e, hrn2] at hy
            cases hy
            rw [e]
            exact hnokR'
          · exact (hpend.node y yn hy e).1
        have hlev : ∀ (y : Nat) (yn : BPlusNode K V) (c : Nat), heap2[y]? = some yn →
            c ∈ yn.children →
            (g.split p t.heap.length up).ht c + 1 = (g.split p t.heap.length up).ht y := by
          intro y yn c hy hc
          obtain ⟨_, l, h, cn, _, _, h3, _⟩ := child_of_nodeOK _ _ _ _ y yn (hold y yn hy) c hc
          exact h3
        have hsame : ∀ (y : Nat) (yn : BPlusNode K V), heap2[y]? = some yn →
            g.ht p < (g.split p t.heap.length up).ht y → t.heap[y]? = some yn := by
          intro y yn hy hlt
          have hyN : y ≠ t.heap.length := by
            intro e
            rw [e, hhtN] at hlt
            exact lt_irrefl _ hlt
          rw [hht y hyN] at hlt
          have hylt : y < t.heap.length := by
            have := (List.getElem?_eq_some.1 hy).1
            omega
          have hyp : y ≠ p := by
            intro e
            rw [e] at hlt
            exact lt_irrefl _ hlt
          have hyr : y ≠ right := by
            intro e
            rw [e] at hlt
            omega
          have h0 : t.heap[y]? = some t.heap[y] := List.getElem?_eq_getElem hylt
          have h1 : heap1[y]? = some t.heap[y] := by
            rw [hget y hyp hyr]
            exact h0
          have hnc : y ∉ high.children := by
            intro hm
            rw [hhighc] at hm
            obtain ⟨_, _, h3, _⟩ := hch y (List.mem_of_mem_drop hm)
            omega
          have h2 := hget2 y _ h1 hyp
          rw [if_neg hnc, hy] at h2
          rw [h0, h2]
        have hpar2 : ∀ (x : Nat), g.ht p ≤ (g.split p t.heap.length up).ht x →
            ∀ xn p' pn', heap2[x]? = some xn → xn.parent = some p' → heap2[p']? = some pn' →
              x ∈ pn'.children → t.heap[p']? = some pn' := by
          intro x hx xn p' pn' _ _ h3 h4
          have := hlev p' pn' x h3 h4
          exact hsame p' pn' h3 (by omega)
        have hlowp : low.parent = pn.parent := by rw [hlow, ← hp1p]
        -- the split of `p`
        have hHalves : Halves t.degree t.heap.length
            (store t3.heap t.heap.length { n3 with keys := n3.keys.eraseIdx 0 })
            (pn.keys.insertIdx (lowerBound pn.keys key) key)
            (pn.children.insertIdx (lowerBound pn.keys key + 1) right) np t.heap.length up := by
          rw [← hp1k, ← hp1c]
          refine ⟨hfull, hup, by rw [hnpk, hlowk], by rw [hnpc, hlowc],
            by rw [hnpk, hlowk]; exact hnot1, le_refl _, _, hNfin, hn3l.trans hhighl, hfink,
            hn3c.trans hhighc, by rw [hfink]; exact hnot2, ?_⟩
          intro ch hch2
          have hch3 : ch ∈ high.children := by
            rw [← hn3c]
            exact hch2
          have hch4 : ch ∈ p1.children := by
            rw [hhighc] at hch3
            exact List.mem_of_mem_drop hch3
          obtain ⟨c1, c2, c3, cn, c4⟩ := hch ch hch4
          have h2 := hget2 ch cn c4 c2
          rw [if_pos hch3] at h2
          have h3 := I1 ch _ h2 (by rw [hht ch (Nat.ne_of_lt c1), hhtp2]; omega)
          refine ⟨{ cn with parent := some t.heap.length }, ?_, rfl⟩
          rw [store_get_ne _ _ _ _ (Ne.symm (Nat.ne_of_lt c1))]
          exact h3
        -- the key that went up from `p`
        have hMovedP : MovedUp t.degree t.heap.length t.root t.heap t3.root
            (store t3.heap t.heap.length { n3 with keys := n3.keys.eraseIdx 0 })
            p t.heap.length up := by
          have k1 : MovedUp t.degree heap2.length t.root t.heap t3.root t3.heap
              p t.heap.length up := by
            refine movedUp_heap _ _ _ heap2 _ _ _ _ _ _ ?_ ?_ I4
            · intro xn hxn
              rw [hget2p] at hxn
              cases hxn
              exact ⟨pn, hpn, hlowp.symm⟩
            · exact hpar2 p (by rw [hhtp2])
          have k2 := movedUp_store _ _ _ _ _ _ _ _ _ t.heap.length n3
            { n3 with keys := n3.keys.eraseIdx 0 } hN3 rfl (by omega) (le_refl _) k1
          exact movedUp_mono _ _ _ _ _ _ _ _ _ _ (by omega) k2
        refine ⟨?_, ?_, ?_, ?_⟩
        · intro x n hx hlt
          have hxlt : x < t.heap.length := (List.getElem?_eq_some.1 hx).1
          have hxp : x ≠ p := by
            intro e
            rw [e] at hlt
            omega
          have hxr : x ≠ right := by
            intro e
            rw [e] at hlt
            omega
          have h1 : heap1[x]? = some n := by
            rw [hget x hxp hxr]
            exact hx
          have hnc : x ∉ high.children := by
            intro hm
            rw [hhighc] at hm
            obtain ⟨_, _, h3, _⟩ := hch x (List.mem_of_mem_drop hm)
            omega
          have h2 := hget2 x n h1 hxp
          rw [if_neg hnc] at h2
          have h3 := I1 x n h2 (by rw [hht x (Nat.ne_of_lt hxlt), hhtp2]; omega)
          show (store t3.heap t.heap.length { n3 with keys := n3.keys.eraseIdx 0 })[x]? = some n
          rw [store_get_ne _ _ _ _ (Ne.symm (Nat.ne_of_lt hxlt))]
          exact h3
        · intro x n hx hle
          have hxlt : x < t.heap.length := (List.getElem?_eq_some.1 hx).1
          have hxp : x ≠ p := by
            intro e
            rw [e] at hle
            omega
          obtain ⟨n2, h1, h2, h3, h4⟩ := hold2 x n hx hxp
          have h5 := I1 x n2 h1 (by rw [hht x (Nat.ne_of_lt hxlt), hhtp2]; omega)
          refine ⟨n2, ?_, h2, h3, h4⟩
          show (store t3.heap t.heap.length { n3 with keys := n3.keys.eraseIdx 0 })[x]? = some n2
          rw [store_get_ne _ _ _ _ (Ne.symm (Nat.ne_of_lt hxlt))]
          exact h5
        · intro x n hx hlt
          have hxlt : x < t.heap.length := (List.getElem?_eq_some.1 hx).1
          by_cases e : x = p
          · rw [e, hpn] at hx
            injection hx with hx
            rw [e, ← hx]
            exact ⟨np, hnpfin, by rw [hnpl, hlowl, ← hp1l, hp1leaf],
              Or.inr (Or.inr ⟨_, key, right, t.heap.length, up, hHalves, hMovedP⟩)⟩
          · obtain ⟨n2, h1, h2, h3, h4⟩ := hold2 x n hx e
            by_cases hle : g.ht x ≤ g.ht p
            · obtain ⟨nx, k1, k2, k3, k4⟩ := I2 x n2 h1 (by
                rw [hht x (Nat.ne_of_lt hxlt), hhtp2]
                exact hle)
              refine ⟨nx, ?_, k4.trans h4, Or.inl ⟨k2.trans h2, k3.trans h3⟩⟩
              show (store t3.heap t.heap.length { n3 with keys := n3.keys.eraseIdx 0 })[x]?
                = some nx
              rw [store_get_ne _ _ _ _ (Ne.symm (Nat.ne_of_lt hxlt))]
              exact k1
            · obtain ⟨nx, k1, k2, k3⟩ := I3 x n2 h1 (by
                rw [hht x (Nat.ne_of_lt hxlt), hhtp2]
                omega)
              refine ⟨nx, ?_, k2.trans h4, ?_⟩
              · show (store t3.heap t.heap.length { n3 with keys := n3.keys.eraseIdx 0 })[x]?
                  = some nx
                rw [store_get_ne _ _ _ _ (Ne.symm (Nat.ne_of_lt hxlt))]
                exact k1
              · have hxgt : g.ht p < (g.split p t.heap.length up).ht x := by
                  rw [hht x (Nat.ne_of_lt hxlt)]
                  omega
                have k4 := nodeStep_congr _ _ _ _ _ _ _ n2 n nx h2 h3 k3
                have k5 : NodeStep t.degree heap2.length t.root t.heap t3.root t3.heap x n nx := by
                  refine nodeStep_heap _ _ _ heap2 _ _ _ _ _ _ ?_ ?_ k4
                  · intro xn hxn
                    exact ⟨xn, hsame x xn hxn hxgt, rfl⟩
                  · exact hpar2 x (by omega)
                have k6 := nodeStep_store _ _ _ _ _ _ _ _ _ t.heap.length n3
                  { n3 with keys := n3.keys.eraseIdx 0 } hN3 rfl (by omega) (le_refl _) k5
                exact nodeStep_mono _ _ _ _ _ _ _ _ _ _ (by omega) k6
        · exact Or.inr ⟨hroot, ln, p, pn, np, _, hln, hpar, hpn, hpnleaf, hleftAt, hnpfin,
            by rw [hnpl, hlowl], Or.inr ⟨t.heap.length, up, hHalves⟩⟩

/-- What `Set` does to the internal nodes of a tree in shape. -/
theorem set_shape (t : BPlusTree K V) (g : Ghost K) (hg : Good t g []) (key : K) (value : V) :
    ∃ b t2, Set t key value = .ok (b, t2) ∧
      ∀ (x : Nat) (n : BPlusNode K V), t.heap[x]? = some n → n.isLeaf = false →
        ∃ n2, t2.heap[x]? = some n2 ∧ n2.isLeaf = false ∧
          NodeStep t.degree t.heap.length t.root t.heap t2.root t2.heap x n n2 := by
  obtain ⟨L, ln, hfind, hL, hL0, hLlo, hLhi, hst⟩ := stored_at_found t g hg key
  have hn := (hg.node L ln hL).1
  have hs := hn.sorted
  rw [ekeys_nil] at hs
  have hbn := hn.bounds
  rw [ekeys_nil] at hbn
  obtain ⟨hleaf, hlenv, hchn⟩ := hn.leaf hL0
  have hLlt : L < t.heap.length := (List.getElem?_eq_some.1 hL).1
  have hxL : ∀ (x : Nat) (n : BPlusNode K V), t.heap[x]? = some n → n.isLeaf = false → x ≠ L := by
    intro x n hx hl e
    rw [e, hL] at hx
    injection hx with hx
    rw [← hx, hleaf] at hl
    cases hl
  by_cases hk : key ∈ ln.keys
  · have hex : ln.Exists key = true := (exists_iff_mem ln key hs).2 hk
    refine ⟨false, t, ?_, fun x n hx hl => ⟨n, hx, hl, Or.inl ⟨rfl, rfl⟩⟩⟩
    unfold Set
    simp only [hfind, deref_of_get _ _ _ hL, bind, Except.bind, hex, if_true, pure,
      Except.pure]
  · have hex : ln.Exists key = false := by
      cases h : ln.Exists key with
      | false => rfl
      | true => exact absurd ((exists_iff_mem ln key hs).1 h) hk
    obtain ⟨A, B, VA, VB, hAB, hVAB, hVA, hA, hB, hins⟩ :=
      insertValue_new ln key value hs hlenv hk
    obtain ⟨l1, hl1⟩ : ∃ l1 : BPlusNode K V, l1 = (ln.InsertValue key value).2 := ⟨_, rfl⟩
    have hl1' := hl1.trans hins
    have hl1k : l1.keys = A ++ key :: B := by rw [hl1']
    have hl1v : l1.values = VA ++ value :: VB := by rw [hl1']
    have hl1p : l1.parent = ln.parent := by rw [hl1']
    have hl1l : l1.isLeaf = true := by rw [hl1']; exact hleaf
    have hl1c : l1.children = [] := by rw [hl1']; exact hchn
    have hs1 : l1.keys.Pairwise (fun a b => a < b) := by
      rw [hl1k]
      rw [hAB, List.pairwise_append] at hs
      rw [List.pairwise_append, List.pairwise_cons]
      refine ⟨hs.1, ⟨hB, hs.2.1⟩, ?_⟩
      intro a ha b hb
      rcases List.mem_cons.1 hb with rfl | hb
      · exact hA a ha
      · exact hs.2.2 a ha b hb
    have hb1 : ∀ k ∈ l1.keys, LoLe (g.lo L) k ∧ LtHi k (g.hi L) := by
      intro k hk'
      rw [hl1k, List.mem_append, List.mem_cons] at hk'
      rcases hk' with h | rfl | h
      · exact hbn k (by rw [hAB]; exact List.mem_append_left _ h)
      · exact ⟨hLlo, hLhi⟩
      · exact hbn k (by rw [hAB]; exact List.mem_append_right _ h)
    have hv1 : l1.values.length = l1.keys.length := by
      rw [hl1k, hl1v]
      simp [hVA]
      have := hlenv
      rw [hAB, hVAB, List.length_append, List.length_append] at this
      omega
    by_cases hfull : l1.keys.length = t.degree
    · have hget1 : (store t.heap L l1)[L]? = some l1 := store_get_self _ _ _ _ hL
      have hsplit := split_leaf_ok (store t.heap L l1) L l1 hget1 hl1l
      rw [hfull, store_length] at hsplit
      obtain ⟨low, hlow⟩ : ∃ low : BPlusNode K V, low =
          { l1 with keys := l1.keys.take (t.degree / 2),
                    values := l1.values.take (t.degree / 2),
                    next := some t.heap.length } := ⟨_, rfl⟩
      obtain ⟨high, hhigh⟩ : ∃ high : BPlusNode K V, high =
          { isLeaf := true, keys := l1.keys.drop (t.degree / 2),
            values := l1.values.drop (t.degree / 2), children := [], parent := none,
            next := l1.next } := ⟨_, rfl⟩
      obtain ⟨heap2, hheap2⟩ : ∃ heap2 : List (BPlusNode K V), heap2 =
          store (store t.heap L l1 ++ [high]) L low := ⟨_, rfl⟩
      rw [← hlow, ← hhigh, ← hheap2] at hsplit
      have hlen2 : heap2.length = t.heap.length + 1 := by
        rw [hheap2, store_length, List.length_append, store_length, List.length_singleton]
      have hget : ∀ x, heap2[x]? = if x = L then some low
          else if x = t.heap.length then some high else t.heap[x]? := by
        intro x
        rw [hheap2]
        by_cases e : x = L
        · rw [if_pos e, e, store_get, if_pos rfl, if_pos]
          rw [List.length_append, store_length]
          omega
        · rw [if_neg e, store_get_ne _ _ _ _ (Ne.symm e)]
          by_cases e2 : x = t.heap.length
          · rw [if_pos e2, e2]
            have := getElem?_append_length (store t.heap L l1) [high]
            rw [store_length] at this
            rw [this]
            rfl
          · rw [if_neg e2, List.getElem?_append, store_length]
            by_cases e3 : x < t.heap.length
            · rw [if_pos e3, store_get_ne _ _ _ _ (Ne.symm e)]
            · rw [if_neg e3, List.getElem?_eq_none (by omega : t.heap.length ≤ x),
                List.getElem?_eq_none]
              simp only [List.length_singleton]
              omega
      have hmid : t.degree / 2 < l1.keys.length := by
        have := hg.deg
        omega
      have hup : l1.keys[t.degree / 2]? = some (l1.keys[t.degree / 2]) :=
        List.getElem?_eq_getElem hmid
      have hpend := leaf_split_pend t g hg L ln l1 low high hL hL0 hl1p hs1 hb1 hv1 hfull _ hup
        (by rw [hlow]) (by rw [hlow]) (by rw [hlow]; exact hl1l) (by rw [hlow]; exact hl1c)
        (by rw [hlow]) (by rw [hhigh]) (by rw [hhigh]) (by rw [hhigh]) (by rw [hhigh]) heap2
        hlen2 hget
      have hfuel : (g.split L t.heap.length l1.keys[t.degree / 2]).ht
          ({ t with heap := heap2 } : BPlusTree K V).root -
          (g.split L t.heap.length l1.keys[t.degree / 2]).ht L < heap2.length := by
        simp only [Ghost.split, if_neg (Nat.ne_of_lt hg.rootIn), if_neg (Nat.ne_of_lt hLlt)]
        have := hg.tall
        rw [hlen2]
        omega
      obtain ⟨t3, g3, hE, hG3, hst3, hdeg3⟩ := expand_spec heap2.length _ _ _ _ _ _ _ hpend hfuel
      obtain ⟨_, _, S3, _⟩ := expand_shape heap2.length _ _ _ _ _ _ _ hpend hfuel t3 hE
      have hgetN : heap2[t.heap.length]? = some high := by
        rw [hget, if_neg (Ne.symm (Nat.ne_of_lt hLlt)), if_pos rfl]
      have hfront : front high.keys = .ok l1.keys[t.degree / 2] := by
        rw [hhigh]
        exact front_of_get _ _ _ hup
      refine ⟨true, t3, ?_, ?_⟩
      · unfold Set
        simp only [hfind, deref_of_get _ _ _ hL, bind, Except.bind, hex, Bool.false_eq_true,
          if_false, pure, Except.pure]
        rw [← hl1, if_pos hfull]
        simp only [hsplit, deref_of_get _ _ _ hgetN, hfront, hE]
      · intro x n hx hl
        have hxlt : x < t.heap.length := (List.getElem?_eq_some.1 hx).1
        have hxne := hxL x n hx hl
        have hx2 : heap2[x]? = some n := by
          rw [hget, if_neg hxne, if_neg (Nat.ne_of_lt hxlt)]
          exact hx
        have hx0 : g.ht x ≠ 0 := by
          intro h0
          have := ((hg.node x n hx).1.leaf h0).1
          rw [hl] at this
          cases this
        obtain ⟨n2, h1, h2, h3⟩ := S3 x n hx2 (by
          simp only [Ghost.split, if_neg (Nat.ne_of_lt hxlt), if_neg (Nat.ne_of_lt hLlt)]
          omega)
        refine ⟨n2, h1, h2.trans hl, nodeStep_mono _ heap2.length _ _ _ _ _ _ _ _ (by omega) ?_⟩
        refine nodeStep_heap _ _ _ heap2 _ _ _ _ _ _ ?_ ?_ h3
        · intro xn hxn
          rw [hx2] at hxn
          cases hxn
          exact ⟨_, hx, rfl⟩
        · intro xn q qn _ _ hq hmem
          have hqL : q ≠ L := by
            intro e
            rw [e, hget, if_pos rfl] at hq
            cases hq
            have hlowc : low.children = [] := by
              rw [hlow]
              exact hl1c
            rw [hlowc] at hmem
            cases hmem
          have hqN : q ≠ t.heap.length := by
            intro e
            rw [e, hgetN] at hq
            cases hq
            rw [hhigh] at hmem
            cases hmem
          rw [hget, if_neg hqL, if_neg hqN] at hq
          exact hq
    · refine ⟨true, { t with heap := store t.heap L l1 }, ?_, ?_⟩
      · unfold Set
        simp only [hfind, deref_of_get _ _ _ hL, bind, Except.bind, hex, Bool.false_eq_true,
          if_false, pure, Except.pure]
        rw [← hl1, if_neg hfull]
      · intro x n hx hl
        refine ⟨n, ?_, hl, Or.inl ⟨rfl, rfl⟩⟩
        show (store t.heap L l1)[x]? = some n
        rw [store_get_ne _ _ _ _ (Ne.symm (hxL x n hx hl))]
        exact hx

end InternalSplit

theorem setAll_quad : setAll 3 [1, 2, 3, 4] = .ok treeQuad := by rfl

theorem treeQuad_built : BuiltBySet 3 treeQuad := setAll_built 3 [1, 2, 3, 4] _ setAll_quad

/-- C33: in a tree of degree at least 3 built by `Set` operations, a further
`Set` returns, and every internal node `x` of the tree, `n` before, is
afterwards a node `n2` of one of three kinds (`NodeStep`).  Its keys and
children are as before; or one key and the child behind it have been
inserted and it holds fewer than `degree` keys; or, with that key inserted,
it reached `degree` keys `k` (children `cs`) and has been split
(`SplitStep`): `n2` keeps the keys of `k` in front of position
`m = degree / 2` and the children of `cs` up to position `m`; a node `N`
that did not exist before holds the keys behind position `m` and the
children behind position `m`, each of which names `N` as its parent; the key
`k[m]` is in neither of the two; and `k[m]` moved up (`MovedUp`): when `x`
was the root, the root is now a new node with the one key `k[m]` and the
children `x`, `N`; else the parent of `x`, which had `x` as child `j`, took
`k[m]` as key `j` and `N` as child `j + 1` (`Took`), and either holds just
that or, having reached `degree` keys with it, was split in the same way. -/
theorem bpt_internal_split [LinearOrder K] (degree : Nat) (hd : 3 ≤ degree)
    (t : BPlusTree K V) (hb : BuiltBySet degree t) (key : K) (value : V) :
    ∃ b t2, Set t key value = .ok (b, t2) ∧
      ∀ (x : Nat) (n : BPlusNode K V), t.heap[x]? = some n → n.isLeaf = false →
        ∃ n2, t2.heap[x]? = some n2 ∧ n2.isLeaf = false ∧
          NodeStep degree t.heap.length t.root t.heap t2.root t2.heap x n n2 := by
  obtain ⟨⟨g, hg⟩, hdeg⟩ := built_good degree hd t hb
  have h := set_shape t g hg key value
  rw [hdeg] at h
  exact h

theorem bpt_internal_split_witness :
    3 ≤ 3 ∧ BuiltBySet 3 treeQuad ∧
      treeQuad.heap[2]? = some ⟨false, [2, 3], [], [0, 1, 3], none, none⟩ ∧
      (∃ t2, Set treeQuad 5 50 = .ok (true, t2) ∧ t2.root = 6 ∧
        t2.heap[2]? = some ⟨false, [2], [], [0, 1], some 6, none⟩ ∧
        t2.heap[5]? = some ⟨false, [4], [], [3, 4], some 6, none⟩ ∧
        t2.heap[6]? = some ⟨false, [3], [], [2, 5], none, none⟩) ∧
      ∃ b t2, Set treeQuad 5 50 = .ok (b, t2) ∧
        ∀ (x : Nat) (n : BPlusNode Nat Nat), treeQuad.heap[x]? = some n → n.isLeaf = false →
          ∃ n2, t2.heap[x]? = some n2 ∧ n2.isLeaf = false ∧
            NodeStep 3 treeQuad.heap.length treeQuad.root treeQuad.heap t2.root t2.heap x n n2 :=
  ⟨by decide, treeQuad_built, by rfl, ⟨_, by rfl, by rfl, by rfl, by rfl, by rfl⟩,
    bpt_internal_split 3 (by decide) treeQuad treeQuad_built 5 50⟩

end BPT
namespace BPT
variable {K V : Type}

/-! ### Levels of the nodes under `Set` and `Del` -/

section LevelsSet
variable [LinearOrder K]

end LevelsSet

section LevelsExpand
variable [LinearOrder K]

end LevelsExpand

section LevelsDel
variable [LinearOrder K]

end LevelsDel

section LevelsReduce
variable [LinearOrder K]

end LevelsReduce

section LevelsTree
variable [LinearOrder K] [Inhabited K] [Inhabited V]

end LevelsTree

end BPT

namespace BPT
variable {K V : Type}

/-! ### The leaf chain of the trees built by `Set` -/

section LinksSet
variable [LinearOrder K]

end LinksSet

section ChainSet
variable [LinearOrder K]

end ChainSet

section KeysBuilt
variable [LinearOrder K]

end KeysBuilt

section ExportBpt
variable [LinearOrder (List Char)]

end ExportBpt

end BPT

/-! ### `Export` and `Upload` of the three engines -/

